import Mathlib

/-! # Scheduler core: MPMC pool queue, Executor, BatchExecutor, EventScheduler

A shallow embedding of `09-EvSchedBatchEx/include/mpmc_queue.hpp`,
`10-EvSchedAsyncIOEx/include/executor.hpp`,
`10-EvSchedAsyncIOEx/include/batch_executor.hpp`,
`5-EvSchedBenchmark/include/event_scheduler.hpp`, the batched calls of
`10-EvSchedAsyncIOEx/include/async_fs_executor.hpp` and
`07-EvSchedWorkStealing/include/mpmc_queue.hpp`, executed sequentially
(every operation runs to completion before the next one starts).  Runs of several
threads are sequences of such operations; for the queue, `push` is also cut into
the pieces between which another thread can come in.

Conventions of the embedding.

* A `Node*` is the index of the cell in `node_pool` (the cells are owned through
  `unique_ptr`, so growing the vector never moves a cell); `nullptr` is `none`.
* An operation returns `Option`: `none` stands for undefined behaviour of the C++
  code (null dereference, index out of range, `x % 0`) or for a loop that never
  ends.
* `size_t` counters of the executor wrap modulo `2 ^ 64`.  Sizes of vectors are
  plain naturals: a vector of `2 ^ 63` cells does not fit the address space, so
  `size() << 1` and the allocation counter of a queue never wrap.
* Memory allocation and the creation of the threads of `start()` are assumed to
  succeed.  A `compare_exchange_weak` that fails spuriously only repeats the
  iteration it is in, so in a sequential run every exchange is taken to succeed.
-/

set_option autoImplicit false

/-! ## The queue of iteration 09 -/

/-- The cell `MPMCQueue::Node`: a forward link and an optional payload. -/
structure Node (T : Type) where
  next : Option Nat
  data : Option T
deriving DecidableEq, Repr

/-- The cell built by `Node() = default`. -/
def Node.fresh {T : Type} : Node T := ⟨none, none⟩

/-- The data members of `MPMCQueue<T>` (the mutex has no sequential content). -/
structure MPMCQueue (T : Type) where
  _poolSize : Nat
  head : Option Nat
  tail : Option Nat
  node_pool : List (Node T)
  pool_idx : Nat
deriving DecidableEq, Repr

namespace MPMCQueue

variable {T : Type}

/-- The default argument of the constructor, `initPoolSize = 1024`. -/
def DEFAULT_POOL_SIZE : Nat := 1024

/-- `MPMCQueue::resizePool`. -/
def resizePool (q : MPMCQueue T) (newSize : Nat) : MPMCQueue T :=
  if newSize ≤ q._poolSize then q
  else
    let additionalNodes := newSize - q._poolSize
    { q with
      node_pool := q.node_pool ++ List.replicate additionalNodes Node.fresh
      _poolSize := newSize }

/-- `MPMCQueue::allocateNode`: returns the cell handed out and the new state. -/
def allocateNode (q : MPMCQueue T) : Option (Nat × MPMCQueue T) :=
  let idx := q.pool_idx
  let q1 := { q with pool_idx := idx + 1 }
  let q2 := if q1.node_pool.length ≤ idx then q1.resizePool (q1.node_pool.length * 2) else q1
  if q2.node_pool.length = 0 then none
  else
    let node := idx % q2.node_pool.length
    some (node, { q2 with node_pool := q2.node_pool.set node ⟨none, none⟩ })

/-- The constructor `MPMCQueue(initPoolSize)`. -/
def new (initPoolSize : Nat) : Option (MPMCQueue T) :=
  let q0 : MPMCQueue T :=
    { _poolSize := initPoolSize, head := none, tail := none,
      node_pool := List.replicate initPoolSize Node.fresh, pool_idx := 0 }
  match q0.allocateNode with
  | none => none
  | some (dummy, q1) => some { q1 with head := some dummy, tail := some dummy }

/-- `MPMCQueue::empty`. -/
def empty (q : MPMCQueue T) : Option Bool :=
  match q.head with
  | none => none
  | some h =>
    match q.node_pool[h]? with
    | none => none
    | some hn => some hn.next.isNone

/-- The `while (true)` loop of `MPMCQueue::push`, one iteration per unit of fuel. -/
def pushLoop : Nat → MPMCQueue T → Nat → Option (MPMCQueue T)
  | 0, _, _ => none
  | fuel + 1, q, node =>
    match q.tail with
    | none => none
    | some old_tail =>
      match q.node_pool[old_tail]? with
      | none => none
      | some tn =>
        match tn.next with
        | none =>
          some { q with
            node_pool := q.node_pool.set old_tail { tn with next := some node }
            tail := some node }
        | some next => pushLoop fuel { q with tail := some next } node

/-- `MPMCQueue::push`.  The loop gets one unit of fuel per cell of the pool and one
more: a `tail` that is still lagging after that many steps runs in a cycle. -/
def push (q : MPMCQueue T) (value : T) : Option (MPMCQueue T) :=
  match q.allocateNode with
  | none => none
  | some (node, q1) =>
    match q1.node_pool[node]? with
    | none => none
    | some n =>
      let q2 := { q1 with node_pool := q1.node_pool.set node { n with data := some value } }
      pushLoop (q2.node_pool.length + 1) q2 node

/-- `MPMCQueue::try_pop`; `value` is the out-parameter, returned with the flag.
Sequentially `old_head == head.load()` holds and the exchange on `head`
succeeds, so the loop body runs once. -/
def try_pop (q : MPMCQueue T) (value : T) : Option (Bool × T × MPMCQueue T) :=
  match q.head with
  | none => some (false, value, q)
  | some old_head =>
    match q.node_pool[old_head]? with
    | none => none
    | some hn =>
      match hn.next with
      | none => some (false, value, q)
      | some next =>
        let q1 := { q with head := some next }
        match q1.node_pool[next]? with
        | none => none
        | some nn =>
          match nn.data with
          | none => some (false, value, q1)
          | some v =>
            some (true, v, { q1 with node_pool := q1.node_pool.set next { nn with data := none } })

/-- The values stored in the cells after `i`, following at most `fuel` links. -/
def valuesFrom (pool : List (Node T)) : Nat → Nat → List T
  | 0, _ => []
  | fuel + 1, i =>
    match pool[i]? with
    | none => []
    | some n =>
      match n.next with
      | none => []
      | some j =>
        match pool[j]? with
        | none => []
        | some m =>
          match m.data with
          | none => valuesFrom pool fuel j
          | some v => v :: valuesFrom pool fuel j

/-- The contents of the queue: the values reachable from `head`, oldest first. -/
def toList (q : MPMCQueue T) : List T :=
  match q.head with
  | none => []
  | some h => valuesFrom q.node_pool q.node_pool.length h

end MPMCQueue

/-! ## Sequential runs of a queue against a reference list -/

/-- A call on a queue: `push v`, or `try_pop` with the out-parameter holding `out`. -/
inductive QueueOp (T : Type) where
  | push (v : T)
  | try_pop (out : T)
deriving DecidableEq, Repr

/-- What a call reports: nothing for `push`, flag and out-parameter for `try_pop`. -/
inductive QueueObs (T : Type) where
  | pushed
  | popped (ok : Bool) (out : T)
deriving DecidableEq, Repr

/-- Runs the calls on the queue and collects what they report. -/
def runQueue {T : Type} : MPMCQueue T → List (QueueOp T) → Option (List (QueueObs T))
  | _, [] => some []
  | q, QueueOp.push v :: ops =>
    match q.push v with
    | none => none
    | some q1 => (runQueue q1 ops).map (fun r => QueueObs.pushed :: r)
  | q, QueueOp.try_pop out :: ops =>
    match q.try_pop out with
    | none => none
    | some (ok, out1, q1) => (runQueue q1 ops).map (fun r => QueueObs.popped ok out1 :: r)

/-- The reference FIFO list of the specification: `push` appends at the back,
`try_pop` fails on the empty list and otherwise takes the front. -/
def runFifo {T : Type} : List T → List (QueueOp T) → List (QueueObs T)
  | _, [] => []
  | l, QueueOp.push v :: ops => QueueObs.pushed :: runFifo (l ++ [v]) ops
  | [], QueueOp.try_pop out :: ops => QueueObs.popped false out :: runFifo [] ops
  | v :: l, QueueOp.try_pop _ :: ops => QueueObs.popped true v :: runFifo l ops
/-! ## Representation of a queue by a list -/

namespace MPMCQueue

variable {T : Type}

/-- The `next` link of cell `i`, when the pool has a cell `i`. -/
def nextOf (pool : List (Node T)) (i : Nat) : Option (Option Nat) := (pool[i]?).map Node.next

/-- The payload of cell `i`, when the pool has a cell `i`. -/
def dataOf (pool : List (Node T)) (i : Nat) : Option (Option T) := (pool[i]?).map Node.data

/-- The links lead from cell `i` to cell `t` through cells of increasing index below
`bound`, the cells after `i` hold the values `vs` in this order, and `t` has no
successor. -/
def Chain (pool : List (Node T)) (bound : Nat) : Nat → List T → Nat → Prop
  | i, [], t => i = t ∧ i < bound ∧ nextOf pool i = some none
  | i, v :: vs, t => ∃ j, nextOf pool i = some (some j) ∧ i < j ∧
      dataOf pool j = some (some v) ∧ Chain pool bound j vs t

/-- The queue `q` holds the values `vs`, oldest first: the recorded size is the size
of the pool, the allocation counter has not passed it, `head` is a cell without
payload (the sentinel) and the chain from `head` to `tail` carries `vs`. -/
structure Abs (q : MPMCQueue T) (vs : List T) : Prop where
  size_eq : q._poolSize = q.node_pool.length
  idx_le : q.pool_idx ≤ q.node_pool.length
  chain : ∃ h t, q.head = some h ∧ q.tail = some t ∧ dataOf q.node_pool h = some none ∧
    Chain q.node_pool q.pool_idx h vs t

end MPMCQueue
/-! ## Machine integers -/

/-- The number of values of `size_t` (64 bits). -/
def SIZE_MOD : Nat := 2 ^ 64

/-- The value `std::numeric_limits<size_t>::max()`. -/
def SIZE_MAX : Nat := 2 ^ 64 - 1

/-- The operator `++` on a `size_t`. -/
def incr (n : Nat) : Nat := (n + 1) % SIZE_MOD

/-- The operator `--` on a `size_t`: `0` wraps to `SIZE_MAX`. -/
def decr (n : Nat) : Nat := if n = 0 then SIZE_MAX else n - 1

/-! ## The executor of iteration 10 -/

/-- The enumeration `Executor::Priority`, its counting enumerator included. -/
inductive Executor.Priority where
  | High
  | Normal
  | Low
  | kNumPriorities
deriving DecidableEq, Repr

/-- The conversion `static_cast<size_t>(priority)`. -/
def Executor.Priority.toNat : Executor.Priority → Nat
  | High => 0
  | Normal => 1
  | Low => 2
  | kNumPriorities => 3

/-- The record `Executor::Task`; `α` is the type of the stored actions. -/
structure Executor.Task (α : Type) where
  func : α
  priority : Executor.Priority
deriving DecidableEq, Repr

/-- The record `Executor::Config`. -/
structure Executor.Config where
  threadCount : Nat
  minThreads : Nat
  tasksPerThreadThreshold : Nat
  keepAliveTime : Nat
  enableWorkStealing : Bool
  initialTaskPoolSize : Nat
  batchExecutorTaskBatchSize : Nat
deriving DecidableEq, Repr

/-- The default constructor `Config()`, for a given `hardware_concurrency()`. -/
def Executor.Config.default (hardware_concurrency : Nat) : Executor.Config :=
  { threadCount := hardware_concurrency
    minThreads := hardware_concurrency / 2
    tasksPerThreadThreshold := 3
    keepAliveTime := 60
    enableWorkStealing := true
    initialTaskPoolSize := 256
    batchExecutorTaskBatchSize := 512 }

/-- The data members of `Executor`.  `_threadsVec` keeps, for every thread created,
the `currentThreadId` it runs with; an entry of `_taskQArray` is `none` while the
`unique_ptr` is null. -/
structure Executor (α : Type) where
  _threadsVec : List Nat
  stopped : Bool
  _keepAliveTime : Nat
  _minThreads : Nat
  _maxThreads : Nat
  _tasksPerThreadThreshold : Nat
  _activeThreads : Nat
  _localQVec : List (MPMCQueue (Executor.Task α))
  _pendingTasks : Nat
  _taskQArray : List (Option (MPMCQueue (Executor.Task α)))
  _taskPoolSize : Nat
  _config : Executor.Config

/-- What the environment decides during one call of `schedule`: the outcome of the
floating-point test `_pendingTasks <= _taskPoolSize * 0.8` as a function of the two
integers, and whether the creation of a thread succeeds. -/
structure Executor.Env where
  belowResizeMark : Nat → Nat → Bool
  threadStarts : Bool

/-- What a task's action can throw. -/
inductive Executor.Thrown where
  | stdException (what : String)
  | other
deriving DecidableEq, Repr

namespace Executor

variable {α : Type}

/-- The constructor `Executor(config)`.  Its initialiser list has no entry for
`_tasksPerThreadThreshold`: the member keeps an indeterminate value, `uninit`.  The
three `unique_ptr` of `_taskQArray` start null. -/
def new (config : Config) (uninit : Nat) : Executor α :=
  { _threadsVec := []
    stopped := false
    _keepAliveTime := config.keepAliveTime
    _minThreads := config.minThreads
    _maxThreads := config.threadCount
    _tasksPerThreadThreshold := uninit
    _activeThreads := 0
    _localQVec := []
    _pendingTasks := 0
    _taskQArray := [none, none, none]
    _taskPoolSize := config.initialTaskPoolSize
    _config := config }

/-- The call `_taskQArray[p]->resizePool(newSize)` for `p = 0, 1, 2`. -/
def resizeGlobals (newSize : Nat) :
    List Nat → List (Option (MPMCQueue (Task α))) → Option (List (Option (MPMCQueue (Task α))))
  | [], qs => some qs
  | p :: ps, qs =>
    match qs[p]? with
    | some (some q) => resizeGlobals newSize ps (qs.set p (some (q.resizePool newSize)))
    | _ => none

/-- `Executor::checkTaskQueueResize`. -/
def checkTaskQueueResize (env : Env) (e : Executor α) : Option (Executor α) :=
  if env.belowResizeMark e._pendingTasks e._taskPoolSize then some e
  else
    let newSize := (e._taskPoolSize * 2) % SIZE_MOD
    match resizeGlobals newSize (List.range Priority.kNumPriorities.toNat) e._taskQArray with
    | none => none
    | some globals =>
      let locals :=
        if e._config.enableWorkStealing then
          e._localQVec.map (fun localQ => localQ.resizePool (newSize / e._localQVec.length))
        else e._localQVec
      some { e with _taskQArray := globals, _localQVec := locals, _taskPoolSize := newSize }

/-- The call `_localQVec[i]->push(task)`. -/
def pushLocal (e : Executor α) (i : Nat) (task : Task α) : Option (Executor α) :=
  match e._localQVec[i]? with
  | none => none
  | some q =>
    match q.push task with
    | none => none
    | some q1 => some { e with _localQVec := e._localQVec.set i q1 }

/-- The call `_taskQArray[p]->push(task)`. -/
def pushGlobal (e : Executor α) (p : Nat) (task : Task α) : Option (Executor α) :=
  match e._taskQArray[p]? with
  | some (some q) =>
    match q.push task with
    | none => none
    | some q1 => some { e with _taskQArray := e._taskQArray.set p (some q1) }
  | _ => none

/-- The call `_localQVec[i]->try_pop(task)`. -/
def popLocal (e : Executor α) (i : Nat) (task : Task α) : Option (Bool × Task α × Executor α) :=
  match e._localQVec[i]? with
  | none => none
  | some q =>
    match q.try_pop task with
    | none => none
    | some (ok, task1, q1) => some (ok, task1, { e with _localQVec := e._localQVec.set i q1 })

/-- The call `_taskQArray[p]->try_pop(task)`. -/
def popGlobal (e : Executor α) (p : Nat) (task : Task α) : Option (Bool × Task α × Executor α) :=
  match e._taskQArray[p]? with
  | some (some q) =>
    match q.try_pop task with
    | none => none
    | some (ok, task1, q1) =>
      some (ok, task1, { e with _taskQArray := e._taskQArray.set p (some q1) })
  | _ => none

/-- `Executor::decrementActiveThreads`. -/
def decrementActiveThreads (e : Executor α) : Executor α :=
  { e with _activeThreads := decr e._activeThreads }

/-- `Executor::shouldScaleUp`; `none` when `_activeThreads + 1` wraps to `0` and the
division is undefined. -/
def shouldScaleUp (e : Executor α) : Option Bool :=
  let divisor := (e._activeThreads + 1) % SIZE_MOD
  if divisor = 0 then none
  else
    let tasksPerThread := e._pendingTasks / divisor
    some (decide (tasksPerThread > e._tasksPerThreadThreshold) &&
      decide (e._activeThreads < e._maxThreads) && decide (e._pendingTasks > 0))

/-- `Executor::addThread`.  When the creation of the thread throws, the local queue
appended just before stays in `_localQVec`. -/
def addThread (env : Env) (e : Executor α) : Option (Executor α) :=
  if e._activeThreads ≥ e._maxThreads then some e
  else
    let threadId := e._localQVec.length
    match MPMCQueue.new MPMCQueue.DEFAULT_POOL_SIZE with
    | none => none
    | some q =>
      let e1 := { e with _localQVec := e._localQVec ++ [q] }
      if env.threadStarts then
        some { e1 with
          _threadsVec := e1._threadsVec ++ [threadId]
          _activeThreads := incr e1._activeThreads }
      else some e1

/-- The default argument `priority = Priority::Normal` of `schedule` and of the
constructor of `Task`. -/
def defaultPriority : Priority := Priority.Normal

/-- `Executor::schedule`, called by a thread whose `currentThreadId` is given. -/
def schedule (env : Env) (e : Executor α) (currentThreadId : Nat) (task : α)
    (priority : Priority) : Option (Executor α) :=
  if e.stopped then some e
  else
    match checkTaskQueueResize env e with
    | none => none
    | some e1 =>
      let pushed :=
        if e1._config.enableWorkStealing && decide (currentThreadId < e1._localQVec.length) then
          pushLocal e1 currentThreadId ⟨task, priority⟩
        else pushGlobal e1 priority.toNat ⟨task, priority⟩
      match pushed with
      | none => none
      | some e2 =>
        let e3 := { e2 with _pendingTasks := incr e2._pendingTasks }
        match shouldScaleUp e3 with
        | none => none
        | some true => addThread env e3
        | some false => some e3

/-- The three loops of `Executor::createThreadPool`, the global queues first. -/
def createThreadPool (e : Executor α) (thread_count : Nat) : Option (Executor α) :=
  let queueSize :=
    max ((e._config.threadCount * e._config.tasksPerThreadThreshold) % SIZE_MOD) 1024
  match MPMCQueue.new queueSize with
  | none => none
  | some g =>
    let locals : Option (List (MPMCQueue (Task α))) :=
      if e._config.enableWorkStealing && decide (0 < thread_count) then
        match MPMCQueue.new (queueSize / thread_count) with
        | none => none
        | some l => some (e._localQVec ++ List.replicate thread_count l)
      else some e._localQVec
    match locals with
    | none => none
    | some ls =>
      some { e with
        _taskQArray := e._taskQArray.map (fun _ => some g)
        _localQVec := ls
        _threadsVec := e._threadsVec ++ List.range thread_count
        _activeThreads := Nat.iterate incr thread_count e._activeThreads }

/-- `Executor::start`. -/
def start (e : Executor α) : Option (Executor α) :=
  createThreadPool e e._minThreads

/-- The critical section of `Executor::stop`: it raises the flag.  The joins that
follow are the last steps of the workers (`waitForTask` with the flag raised). -/
def stop (e : Executor α) : Executor α :=
  { e with stopped := true }

/-- The loop of `Executor::tryStealTask` over `i`, for the remaining values of `i`. -/
def stealLoop (startIdx : Nat) :
    List Nat → Executor α → Task α → Option (Bool × Task α × Executor α)
  | [], e, task => some (false, task, e)
  | i :: is, e, task =>
    let victimId := (startIdx + i) % e._localQVec.length
    match popLocal e victimId task with
    | none => none
    | some (true, task1, e1) => some (true, task1, { e1 with _pendingTasks := decr e1._pendingTasks })
    | some (false, task1, e1) => stealLoop startIdx is e1 task1

/-- `Executor::tryStealTask`; `none` when the vector of local queues is empty and the
remainder is undefined. -/
def tryStealTask (e : Executor α) (currentThreadId : Nat) (task : Task α) :
    Option (Bool × Task α × Executor α) :=
  if !e._config.enableWorkStealing then some (false, task, e)
  else if e._localQVec.length = 0 then none
  else
    let startIdx := ((currentThreadId + 1) % SIZE_MOD) % e._localQVec.length
    stealLoop startIdx (List.range e._localQVec.length) e task

/-- The loop of `Executor::getNextTask` over the global queues, followed by the steal. -/
def globalLoop (currentThreadId : Nat) :
    List Nat → Executor α → Task α → Option (Bool × Task α × Executor α)
  | [], e, task => tryStealTask e currentThreadId task
  | p :: ps, e, task =>
    match popGlobal e p task with
    | none => none
    | some (true, task1, e1) => some (true, task1, { e1 with _pendingTasks := decr e1._pendingTasks })
    | some (false, task1, e1) => globalLoop currentThreadId ps e1 task1

/-- `Executor::getNextTask`; `task` is the out-parameter. -/
def getNextTask (e : Executor α) (currentThreadId : Nat) (task : Task α) :
    Option (Bool × Task α × Executor α) :=
  let globals := List.range Priority.kNumPriorities.toNat
  if e._config.enableWorkStealing && decide (currentThreadId < e._localQVec.length) then
    match popLocal e currentThreadId task with
    | none => none
    | some (true, task1, e1) => some (true, task1, { e1 with _pendingTasks := decr e1._pendingTasks })
    | some (false, task1, e1) => globalLoop currentThreadId globals e1 task1
  else globalLoop currentThreadId globals e task

/-- The code of `Executor::waitForTask` after the wait, under "Handle timeout". -/
def handleTimeout (e : Executor α) (task : Task α) : Bool × Task α × Executor α :=
  if e.stopped || decide (e._activeThreads > e._minThreads) then
    (false, task, decrementActiveThreads e)
  else (false, task, e)

/-- `Executor::waitForTask`, from the state in which the predicate of `wait_for` is
evaluated for the last time: `wait_for` returns the value the predicate has then, and
it is `false` only after the timeout. -/
def waitForTask (e : Executor α) (currentThreadId : Nat) (task : Task α) :
    Option (Bool × Task α × Executor α) :=
  match getNextTask e currentThreadId task with
  | none => none
  | some (hasTask, task1, e1) =>
    if e1.stopped || hasTask then
      if e1.stopped then some (false, task1, decrementActiveThreads e1)
      else if hasTask then some (true, task1, e1)
      else some (handleTimeout e1 task1)
    else some (handleTimeout e1 task1)

/-- `Executor::handleTaskError`: the line written to the error stream. -/
def handleTaskError (what : String) : List String :=
  ["Task exception: " ++ what]

/-- `Executor::handleUnknownError`: the line written to the error stream. -/
def handleUnknownError : List String :=
  ["Unknown task exception occurred"]

/-- The call operator of `Task`: runs the stored action, which returns or throws. -/
def Task.call (invoke : α → Except Thrown Unit) (task : Task α) : Except Thrown Unit :=
  invoke task.func

/-- `Executor::executeTask`: the result is the text written to the error stream when
the call returns, and the exception when one leaves the function. -/
def executeTask (invoke : α → Except Thrown Unit) (task : Task α) : Except Thrown (List String) :=
  match task.call invoke with
  | Except.ok _ => Except.ok []
  | Except.error (Thrown.stdException what) => Except.ok (handleTaskError what)
  | Except.error Thrown.other => Except.ok handleUnknownError

/-- How one turn of the loop of `Executor::run` ends. -/
inductive RunTurn (α : Type) where
  | returned (e : Executor α)
  | nextWait (e : Executor α) (cerr : List String)
  | unwound (e : Executor α) (thrown : Thrown)

/-- One turn of the loop of `Executor::run`; `noop` is the action `[] {}`. -/
def runTurn (invoke : α → Except Thrown Unit) (noop : α) (e : Executor α)
    (currentThreadId : Nat) : Option (RunTurn α) :=
  match waitForTask e currentThreadId ⟨noop, Priority.Normal⟩ with
  | none => none
  | some (false, _, e1) => some (RunTurn.returned e1)
  | some (true, task, e1) =>
    match executeTask invoke task with
    | Except.ok cerr => some (RunTurn.nextWait e1 cerr)
    | Except.error thrown => some (RunTurn.unwound e1 thrown)

/-- A step of a running executor: a call of `schedule`, or the end of a worker's
wait in `waitForTask` (a task acquired, or the idle timeout). -/
inductive Event (α : Type) where
  | schedule (env : Env) (currentThreadId : Nat) (task : α) (priority : Priority)
  | waitForTask (currentThreadId : Nat) (task : Task α)

/-- Applies one step. -/
def step (e : Executor α) : Event α → Option (Executor α)
  | Event.schedule env currentThreadId task priority => schedule env e currentThreadId task priority
  | Event.waitForTask currentThreadId task =>
    (waitForTask e currentThreadId task).map (fun r => r.2.2)

/-- Applies the steps in order. -/
def steps : Executor α → List (Event α) → Option (Executor α)
  | e, [] => some e
  | e, ev :: evs =>
    match step e ev with
    | none => none
    | some e1 => steps e1 evs

/-- Calls `getNextTask` up to `n` times, stopping at the first call that finds no
task; returns the tasks obtained, in order. -/
def getNextTasks (currentThreadId : Nat) (task : Task α) :
    Nat → Executor α → Option (List (Task α) × Executor α)
  | 0, e => some ([], e)
  | n + 1, e =>
    match getNextTask e currentThreadId task with
    | none => none
    | some (false, _, e1) => some ([], e1)
    | some (true, task1, e1) =>
      match getNextTasks currentThreadId task n e1 with
      | none => none
      | some (ts, e2) => some (task1 :: ts, e2)

end Executor
/-! ## The batch executor of iteration 10 -/

/-- The record `BatchExecutor::TaskBatch`. -/
structure BatchExecutor.TaskBatch (α : Type) where
  taskbatchQ : List (Executor.Task α)
  maxSize : Nat

namespace BatchExecutor

open Executor hiding Task

variable {α : Type}

/-- The constant `DEFAULT_BATCH_SIZE`. -/
def DEFAULT_BATCH_SIZE : Nat := 64

/-- The constructor `TaskBatch(size)`. -/
def TaskBatch.new (size : Nat) : TaskBatch α := ⟨[], size⟩

/-- `TaskBatch::empty`. -/
def TaskBatch.empty (b : TaskBatch α) : Bool := b.taskbatchQ.isEmpty

/-- `TaskBatch::full`. -/
def TaskBatch.full (b : TaskBatch α) : Bool := decide (b.taskbatchQ.length ≥ b.maxSize)

/-- `TaskBatch::size`. -/
def TaskBatch.size (b : TaskBatch α) : Nat := b.taskbatchQ.length

/-- `TaskBatch::add`: `emplace_back`. -/
def TaskBatch.add (b : TaskBatch α) (task : Executor.Task α) : TaskBatch α :=
  { b with taskbatchQ := b.taskbatchQ ++ [task] }

/-- `TaskBatch::take`: `back()` then `pop_back()`; `none` on an empty vector. -/
def TaskBatch.take (b : TaskBatch α) : Option (Executor.Task α × TaskBatch α) :=
  match b.taskbatchQ.getLast? with
  | none => none
  | some task => some (task, { b with taskbatchQ := b.taskbatchQ.dropLast })

/-- The call `_taskQArray[p]->empty()`. -/
def globalEmpty (e : Executor α) (p : Nat) : Option Bool :=
  match e._taskQArray[p]? with
  | some (some q) => q.empty
  | _ => none

/-- The inner `while` loop of `BatchExecutor::getNextTask` for the priority `p`, one
iteration per unit of fuel.  After `batch.add(std::move(task))` the variable `task`
is only written again before it is read, so it is carried along as it is. -/
def drainLoop (p : Nat) :
    Nat → Executor α → TaskBatch α → Executor.Task α → Option (Executor α × TaskBatch α × Executor.Task α)
  | 0, _, _, _ => none
  | fuel + 1, e, batch, task =>
    if batch.full then some (e, batch, task)
    else
      match globalEmpty e p with
      | none => none
      | some true => some (e, batch, task)
      | some false =>
        match popGlobal e p task with
        | none => none
        | some (true, task1, e1) =>
          drainLoop p fuel { e1 with _pendingTasks := decr e1._pendingTasks } (batch.add task1) task1
        | some (false, task1, e1) => drainLoop p fuel e1 batch task1

/-- The `for` loop of `BatchExecutor::getNextTask` over the priorities, with its
`break` once the batch is not empty. -/
def batchLoop (fuel : Nat) :
    List Nat → Executor α → TaskBatch α → Executor.Task α → Option (Executor α × TaskBatch α × Executor.Task α)
  | [], e, batch, task => some (e, batch, task)
  | p :: ps, e, batch, task =>
    match drainLoop p fuel e batch task with
    | none => none
    | some (e1, batch1, task1) =>
      if !batch1.empty then some (e1, batch1, task1)
      else batchLoop fuel ps e1 batch1 task1

/-- The loop `while (!batch.empty()) _localQ->push(batch.take())`; the first argument
bounds the number of iterations and is the size of the batch. -/
def pushRest :
    Nat → TaskBatch α → MPMCQueue (Executor.Task α) → Option (MPMCQueue (Executor.Task α))
  | 0, batch, q => if batch.empty then some q else none
  | n + 1, batch, q =>
    if batch.empty then some q
    else
      match batch.take with
      | none => none
      | some (task, batch1) =>
        match q.push task with
        | none => none
        | some q1 => pushRest n batch1 q1

/-- `BatchExecutor::getNextTask`, called by the worker whose thread-local `_localQ` is
given (`none` for a null pointer); the new value of `_localQ` is returned last.
`fuel` bounds the iterations of each inner `while` loop. -/
def getNextTask (fuel : Nat) (e : Executor α) (_localQ : Option (MPMCQueue (Executor.Task α)))
    (currentThreadId : Nat) (task : Executor.Task α) :
    Option (Bool × Executor.Task α × Executor α × Option (MPMCQueue (Executor.Task α))) :=
  let first : Option (Bool × Executor.Task α × Option (MPMCQueue (Executor.Task α))) :=
    match _localQ with
    | none => some (false, task, none)
    | some q =>
      match q.try_pop task with
      | none => none
      | some (ok, task1, q1) => some (ok, task1, some q1)
  match first with
  | none => none
  | some (true, task1, lq1) => some (true, task1, e, lq1)
  | some (false, task1, lq1) =>
    let batch : TaskBatch α := TaskBatch.new e._config.batchExecutorTaskBatchSize
    match batchLoop fuel (List.range Priority.kNumPriorities.toNat) e batch task1 with
    | none => none
    | some (e1, batch1, task2) =>
      if !batch1.empty then
        match batch1.take with
        | none => none
        | some (task3, batch2) =>
          match lq1 with
          | none => if batch2.empty then some (true, task3, e1, none) else none
          | some q =>
            match pushRest batch2.size batch2 q with
            | none => none
            | some q1 => some (true, task3, e1, some q1)
      else
        match Executor.tryStealTask e1 currentThreadId task2 with
        | none => none
        | some (ok, task3, e2) => some (ok, task3, e2, lq1)

/-- Calls `getNextTask` up to `n` times, stopping at the first call that finds no
task; returns the tasks obtained, in order. -/
def getNextTasks (fuel : Nat) (currentThreadId : Nat) (task : Executor.Task α) :
    Nat → Executor α → Option (MPMCQueue (Executor.Task α)) →
      Option (List (Executor.Task α) × Executor α × Option (MPMCQueue (Executor.Task α)))
  | 0, e, lq => some ([], e, lq)
  | n + 1, e, lq =>
    match getNextTask fuel e lq currentThreadId task with
    | none => none
    | some (false, _, e1, lq1) => some ([], e1, lq1)
    | some (true, task1, e1, lq1) =>
      match getNextTasks fuel currentThreadId task n e1 lq1 with
      | none => none
      | some (ts, e2, lq2) => some (task1 :: ts, e2, lq2)

end BatchExecutor

/-! ## Representation of an executor by lists of tasks -/

namespace Executor

variable {α : Type}

/-- The executor `e` holds the lists `g` in its three global queues (by priority)
and the lists `l` in its local queues. -/
structure Rep (e : Executor α) (g l : List (List (Task α))) : Prop where
  globals : List.Forall₂ (fun oq vs => ∃ q, oq = some q ∧ MPMCQueue.Abs q vs) e._taskQArray g
  three : g.length = 3
  locals : List.Forall₂ MPMCQueue.Abs e._localQVec l

/-- A place where `getNextTask` looks for a task. -/
inductive Source where
  | localQ (i : Nat)
  | globalQ (p : Nat)
deriving DecidableEq, Repr

/-- The list held at a place. -/
def Source.tasks (g l : List (List (Task α))) : Source → List (Task α)
  | Source.localQ i => (l[i]?).getD []
  | Source.globalQ p => (g[p]?).getD []

/-- Replaces the list held at a place. -/
def Source.update (g l : List (List (Task α))) (ts : List (Task α)) :
    Source → List (List (Task α)) × List (List (Task α))
  | Source.localQ i => (g, l.set i ts)
  | Source.globalQ p => (g.set p ts, l)

/-- The steal scan of the specification: the victims `(self + 1) mod n`,
`(self + 2) mod n`, ... once around the `n` local queues. -/
def stealOrder (self n : Nat) : List Source :=
  (List.range n).map (fun i => Source.localQ ((self + 1 + i) % n))

/-- The dispatch order of the specification for the worker `self` among `n` local
queues: own local queue when work stealing is enabled, then the global queues High,
Normal, Low, then the steal scan. -/
def dispatchOrder (workStealing : Bool) (self n : Nat) : List Source :=
  (if workStealing then [Source.localQ self] else []) ++
    [Source.globalQ 0, Source.globalQ 1, Source.globalQ 2] ++
    (if workStealing then stealOrder self n else [])

end Executor

/-- The blocks of `batchOrder`, at most `n` of them. -/
def batchOrderAux {β : Type} (b : Nat) : Nat → List β → List β
  | 0, _ => []
  | n + 1, ts => if ts.isEmpty then [] else (ts.take b).reverse ++ batchOrderAux b n (ts.drop b)

/-- The order in which the batch variant hands out `ts` with batch size `b`: each
block of `b` consecutive tasks (the last block may be shorter) comes out reversed. -/
def batchOrder {β : Type} (b : Nat) (ts : List β) : List β :=
  batchOrderAux b ts.length ts

namespace Executor

variable {α : Type}

/-- The members of an executor other than its queues, their recorded pool size and
its pending counter. -/
def control (e : Executor α) :
    List Nat × Bool × Nat × Nat × Nat × Nat × Nat × Config :=
  (e._threadsVec, e.stopped, e._keepAliveTime, e._minThreads, e._maxThreads,
    e._tasksPerThreadThreshold, e._activeThreads, e._config)

/-- A queue of initial pool size 1 into which `ts` have been pushed in order. -/
def sampleQueue {T : Type} (ts : List T) : MPMCQueue T :=
  ts.foldl (fun q t => (q.push t).getD q) ((MPMCQueue.new 1).getD ⟨0, none, none, [], 0⟩)

/-- A running executor built for `config` (indeterminate threshold member `uninit`)
whose global queues hold `g` and whose local queues hold `l`, with `active` workers
and every queued task counted as pending. -/
def sampleExecutor (config : Config) (uninit active : Nat) (g l : List (List (Task α))) :
    Executor α :=
  { (new config uninit : Executor α) with
    _activeThreads := active
    _threadsVec := List.range active
    _taskQArray := g.map (fun ts => some (sampleQueue ts))
    _localQVec := l.map sampleQueue
    _pendingTasks := (g.map List.length).sum + (l.map List.length).sum }

/-- The result `r` of a search through the places `srcs` of an executor holding
`g` and `l`: it fails, leaving out-parameter and executor as they are, when all the
places are empty; otherwise it takes the front of the first place that is not empty,
and decrements the pending counter. -/
def TakesFirst (e : Executor α) (g l : List (List (Task α))) (task : Task α)
    (srcs : List Source) (r : Option (Bool × Task α × Executor α)) : Prop :=
  match srcs.find? (fun s => !(s.tasks g l).isEmpty) with
  | none => r = some (false, task, e)
  | some s => ∃ t rest e1, s.tasks g l = t :: rest ∧ r = some (true, t, e1) ∧
      Rep e1 (s.update g l rest).1 (s.update g l rest).2 ∧
      e1._pendingTasks = decr e._pendingTasks ∧ control e1 = control e

/-- The invariant of a running executor whose configuration has `min ≤ max`. -/
structure Bounded (cfg : Config) (e : Executor α) : Prop where
  running : e.stopped = false
  min_eq : e._minThreads = cfg.minThreads
  max_eq : e._maxThreads = cfg.threadCount
  lower : cfg.minThreads ≤ e._activeThreads
  upper : e._activeThreads ≤ cfg.threadCount

end Executor

/-! ## The pending counter and the queued tasks -/

namespace Executor

variable {α : Type}

/-- Whether a place names one of the queues holding `g` and `l`. -/
def Source.inRange (g l : List (List (Task α))) : Source → Prop
  | Source.localQ i => i < l.length
  | Source.globalQ p => p < g.length

/-- The number of tasks held in the global queues and in the local queues. -/
def queuedTasks (e : Executor α) : Nat :=
  (e._taskQArray.map (fun oq => oq.elim 0 (fun q => q.toList.length))).sum +
    (e._localQVec.map (fun q => q.toList.length)).sum

/-- Whether every global and every local queue reports `empty()`. -/
def allQueuesEmpty (e : Executor α) : Bool :=
  e._taskQArray.all (fun oq => oq.elim false (fun q => q.empty == some true)) &&
    e._localQVec.all (fun q => q.empty == some true)

/-- The steps taken on an executor in use: `schedule` with one of the three
priorities, from any thread; `waitForTask` from a worker, whose `currentThreadId`
indexes a local queue when work stealing is enabled. -/
def Event.admissible (e : Executor α) : Event α → Bool
  | Event.schedule _ _ _ priority => decide (priority ≠ Priority.kNumPriorities)
  | Event.waitForTask currentThreadId _ =>
    decide (currentThreadId < SIZE_MAX) &&
      (!e._config.enableWorkStealing || decide (currentThreadId < e._localQVec.length))

/-- Whether each step of a run is admissible in the state it is taken in. -/
def admissibleTrace : Executor α → List (Event α) → Bool
  | _, [] => true
  | e, ev :: evs =>
    Event.admissible e ev &&
      match step e ev with
      | none => true
      | some e1 => admissibleTrace e1 evs

/-- The invariant of a running executor built for `cfg`: its queues are well formed,
the pending counter is the number of tasks they hold, and the active counter stays
below the larger of the two thread limits. -/
structure Counted (cfg : Config) (e : Executor α) : Prop where
  rep : ∃ g l, Rep e g l ∧
    e._pendingTasks = (g.map List.length).sum + (l.map List.length).sum
  running : e.stopped = false
  min_eq : e._minThreads = cfg.minThreads
  max_eq : e._maxThreads = cfg.threadCount
  upper : e._activeThreads ≤ max cfg.minThreads cfg.threadCount

end Executor

/-! ## The event scheduler of iteration 5, on the executor of iteration 10 -/

/-- A `std::unordered_map<std::string, V>`: the entry of each key, if it has one. -/
abbrev UnorderedMap (V : Type) := String → Option V

namespace UnorderedMap

variable {V : Type}

/-- The member `count`. -/
def count (m : UnorderedMap V) (k : String) : Nat := if (m k).isSome then 1 else 0

/-- The assignment `m[k] = v`. -/
def assign (m : UnorderedMap V) (k : String) (v : V) : UnorderedMap V :=
  fun k1 => if k1 = k then some v else m k1

/-- The member `erase`. -/
def erase (m : UnorderedMap V) (k : String) : UnorderedMap V :=
  fun k1 => if k1 = k then none else m k1

/-- The read `m[k]`: the entry, created with the default value `dflt` when absent. -/
def index (m : UnorderedMap V) (k : String) (dflt : V) : V × UnorderedMap V :=
  match m k with
  | some v => (v, m)
  | none => (dflt, assign m k dflt)

end UnorderedMap

/-- A value held by a `std::any`: `val`, of the type named `ty`. -/
structure EventScheduler.Payload (U : Type) where
  ty : String
  val : U
deriving DecidableEq, Repr

/-- A `std::any`: empty, or holding a value. -/
abbrev EventScheduler.Any (U : Type) := Option (EventScheduler.Payload U)

deriving instance DecidableEq for Except

/-- What `getEventData` throws. -/
inductive EventScheduler.Failure where
  | runtime_error (what : String)
  | bad_any_cast
deriving DecidableEq, Repr

/-- The closures handed to the executor; a coroutine handle is the address of its
frame, `completedCount` the address of the shared counter.  `noop` is the `[] {}` a
worker starts from. -/
inductive EventScheduler.Lambda where
  | noop
  | resume (handle : Nat)
  | resumeAndCount (handle : Nat) (eventName : String) (handlerCount : Nat)
      (completedCount : Nat)
deriving DecidableEq, Repr

/-- The record `EventScheduler::TypedEvent<T>`. -/
structure EventScheduler.Event (U : Type) where
  eventName : String
  data : EventScheduler.Payload U
deriving DecidableEq, Repr

/-- The data members of `EventScheduler`; `counters` holds the `size_t` objects made
by `std::make_shared`, by address. -/
structure EventScheduler (U : Type) where
  _executor : Executor EventScheduler.Lambda
  _handlersMap : UnorderedMap (List Nat)
  _eventsQ : List (EventScheduler.Event U)
  _eventDataMap : UnorderedMap (EventScheduler.Any U)
  counters : List Nat

namespace EventScheduler

variable {U : Type}

/-- The default-constructed scheduler: an executor built from `Config()`, not started. -/
def new (hardware_concurrency uninit : Nat) : EventScheduler U :=
  { _executor := Executor.new (Executor.Config.default hardware_concurrency) uninit
    _handlersMap := fun _ => none
    _eventsQ := []
    _eventDataMap := fun _ => none
    counters := [] }

/-- `EventScheduler::registerHandler` (the line written to `std::cout` left out). -/
def registerHandler (s : EventScheduler U) (eventName : String) (handle : Nat) :
    EventScheduler U :=
  let (handlersVec, m1) := UnorderedMap.index s._handlersMap eventName []
  if handle ∈ handlersVec then { s with _handlersMap := m1 }
  else { s with _handlersMap := UnorderedMap.assign m1 eventName (handlersVec ++ [handle]) }

/-- The conversion `std::any_cast<T>`. -/
def any_cast (T : String) : Any U → Except Failure U
  | none => Except.error Failure.bad_any_cast
  | some data => if data.ty = T then Except.ok data.val else Except.error Failure.bad_any_cast

/-- `EventScheduler::getEventData<T>`: what it returns or throws, and the state after. -/
def getEventData (s : EventScheduler U) (T : String) (eventName : String) :
    Except Failure U × EventScheduler U :=
  if UnorderedMap.count s._eventDataMap eventName = 0 then
    (Except.error (Failure.runtime_error "Event data not found"), s)
  else
    let (data, m1) := UnorderedMap.index s._eventDataMap eventName none
    (any_cast T data, { s with _eventDataMap := m1 })

/-- `EventAwaiter<T>::await_suspend`. -/
def EventAwaiter.await_suspend (s : EventScheduler U) (_eventName : String) (handle : Nat) :
    EventScheduler U :=
  registerHandler s _eventName handle

/-- `EventAwaiter<T>::await_resume`. -/
def EventAwaiter.await_resume (s : EventScheduler U) (T : String) (_eventName : String) :
    Except Failure U × EventScheduler U :=
  getEventData s T _eventName

/-- `TypedEvent<T>::storeData`. -/
def Event.storeData (ev : Event U) (eventData : UnorderedMap (Any U)) : UnorderedMap (Any U) :=
  UnorderedMap.assign eventData ev.eventName (some ev.data)

/-- The `for` loop of `processEvents`: one call of `schedule` per closure, in order;
`env i` is what the environment decides during the `i`-th call. -/
def scheduleAll (env : Nat → Executor.Env) (currentThreadId : Nat) :
    Nat → List Lambda → Executor Lambda → Option (Executor Lambda)
  | _, [], e => some e
  | i, f :: fs, e =>
    match Executor.schedule (env i) e currentThreadId f Executor.defaultPriority with
    | none => none
    | some e1 => scheduleAll env currentThreadId (i + 1) fs e1

/-- The loop of `EventScheduler::processEvents`, one event per unit of fuel. -/
def processEvents (env : Nat → Executor.Env) (currentThreadId : Nat) :
    Nat → EventScheduler U → Option (EventScheduler U)
  | 0, s => if s._eventsQ.isEmpty then some s else none
  | fuel + 1, s =>
    match s._eventsQ with
    | [] => some s
    | eventPtr :: rest =>
      let s1 := { s with _eventsQ := rest }
      let s2 := { s1 with _eventDataMap := eventPtr.storeData s1._eventDataMap }
      let eventName := eventPtr.eventName
      if UnorderedMap.count s2._handlersMap eventName = 0 then
        processEvents env currentThreadId fuel s2
      else
        let (handlers, m1) := UnorderedMap.index s2._handlersMap eventName []
        let handlerCount := handlers.length
        if handlerCount = 0 then
          processEvents env currentThreadId fuel
            { s2 with
              _handlersMap := m1
              _eventDataMap := UnorderedMap.erase s2._eventDataMap eventName }
        else
          let completedCount := s2.counters.length
          let handlersVec := handlers
          let s3 := { s2 with
            counters := s2.counters ++ [0]
            _handlersMap := UnorderedMap.erase m1 eventName }
          match scheduleAll env currentThreadId 0
              (handlersVec.map (fun handle =>
                Lambda.resumeAndCount handle eventName handlerCount completedCount))
              s3._executor with
          | none => none
          | some e1 => processEvents env currentThreadId fuel { s3 with _executor := e1 }

/-- `EventScheduler::emit<T>`, called by a thread whose `currentThreadId` is given:
the loop runs once per queued event, so the length of the queue is fuel enough. -/
def emit (env : Nat → Executor.Env) (s : EventScheduler U) (currentThreadId : Nat)
    (eventName : String) (data : Payload U) : Option (EventScheduler U) :=
  let s1 := { s with _eventsQ := s._eventsQ ++ [⟨eventName, data⟩] }
  processEvents env currentThreadId s1._eventsQ.length s1

/-- `ExecutorAwaiter::await_suspend`. -/
def ExecutorAwaiter.await_suspend (env : Executor.Env) (s : EventScheduler U)
    (currentThreadId : Nat) (handle : Nat) : Option (EventScheduler U) :=
  match Executor.schedule env s._executor currentThreadId (Lambda.resume handle)
      Executor.defaultPriority with
  | none => none
  | some e1 => some { s with _executor := e1 }

end EventScheduler

/-! ## Runs of a program that uses the event scheduler -/

namespace EventScheduler

variable {U : Type}

/-- What a resumed coroutine asks of the scheduler before it suspends again:
`co_await awaitEvent<T>(eventName)` (its `await_suspend`), `emit`, or
`co_await switchToExecutor()`. -/
inductive Call (U : Type) where
  | awaitEvent (eventName : String) (handle : Nat)
  | emit (env : Nat → Executor.Env) (eventName : String) (data : Payload U)
  | switchToExecutor (env : Executor.Env) (handle : Nat)

/-- A run of the program so far: the state of the scheduler, the emissions made
(oldest first), what each resumed handler got from `await_resume` (with the name it
waited on), and whether `std::terminate` has been called. -/
structure Run (U : Type) where
  state : EventScheduler U
  emitted : List (Event U)
  reads : List (String × Except Failure U)
  terminated : Bool

/-- The start of a run: the default-constructed scheduler. -/
def Run.init (hardware_concurrency uninit : Nat) : Run U :=
  { state := EventScheduler.new hardware_concurrency uninit
    emitted := []
    reads := []
    terminated := false }

/-- A call of `emit` during a run. -/
def Run.emit (env : Nat → Executor.Env) (currentThreadId : Nat) (r : Run U)
    (eventName : String) (data : Payload U) : Option (Run U) :=
  match EventScheduler.emit env r.state currentThreadId eventName data with
  | none => none
  | some s => some { r with state := s, emitted := r.emitted ++ [⟨eventName, data⟩] }

/-- One request of a resumed coroutine, made on the thread that resumed it. -/
def Run.call (currentThreadId : Nat) (r : Run U) : Call U → Option (Run U)
  | Call.awaitEvent eventName handle =>
    some { r with state := EventAwaiter.await_suspend r.state eventName handle }
  | Call.emit env eventName data => Run.emit env currentThreadId r eventName data
  | Call.switchToExecutor env handle =>
    match ExecutorAwaiter.await_suspend env r.state currentThreadId handle with
    | none => none
    | some s => some { r with state := s }

/-- The requests of a resumed coroutine, in order. -/
def Run.calls (currentThreadId : Nat) : Run U → List (Call U) → Option (Run U)
  | r, [] => some r
  | r, c :: cs =>
    match Run.call currentThreadId r c with
    | none => none
    | some r1 => Run.calls currentThreadId r1 cs

/-- A worker runs a closure.  `handle.resume()` is given by the coroutine: `T` is the
type its `EventAwaiter` was declared with and `body` what it asks of the scheduler
before it suspends again.  An exception thrown by `await_resume` reaches
`unhandled_exception`, which calls `std::terminate`. -/
def Run.invoke (currentThreadId : Nat) (r : Run U) (T : String) (body : List (Call U)) :
    Lambda → Option (Run U)
  | Lambda.noop => some r
  | Lambda.resume _ => Run.calls currentThreadId r body
  | Lambda.resumeAndCount _ eventName handlerCount completedCount =>
    match EventAwaiter.await_resume r.state T eventName with
    | (Except.error failure, s1) =>
      some { r with
        state := s1
        reads := r.reads ++ [(eventName, Except.error failure)]
        terminated := true }
    | (Except.ok value, s1) =>
      match Run.calls currentThreadId
          { r with state := s1, reads := r.reads ++ [(eventName, Except.ok value)] } body with
      | none => none
      | some r1 =>
        match r1.state.counters[completedCount]? with
        | none => none
        | some count =>
          let s2 := { r1.state with counters := r1.state.counters.set completedCount (incr count) }
          if incr count = handlerCount then
            some { r1 with
              state := { s2 with
                _eventDataMap := UnorderedMap.erase s2._eventDataMap eventName } }
          else some { r1 with state := s2 }

/-- A step of a run: a call of the scheduler or of its executor from outside the
handlers, or a turn of a worker (the end of its wait, then the closure it got). -/
inductive Step (U : Type) where
  | start
  | stop
  | registerHandler (eventName : String) (handle : Nat)
  | emit (env : Nat → Executor.Env) (currentThreadId : Nat) (eventName : String)
      (data : Payload U)
  | work (currentThreadId : Nat) (T : String) (body : List (Call U))

/-- Applies one step; nothing happens after `std::terminate`. -/
def Run.step (r : Run U) : Step U → Option (Run U)
  | Step.start =>
    if r.terminated then some r
    else
      match Executor.start r.state._executor with
      | none => none
      | some e1 => some { r with state := { r.state with _executor := e1 } }
  | Step.stop =>
    if r.terminated then some r
    else some { r with state := { r.state with _executor := Executor.stop r.state._executor } }
  | Step.registerHandler eventName handle =>
    if r.terminated then some r
    else some { r with state := registerHandler r.state eventName handle }
  | Step.emit env currentThreadId eventName data =>
    if r.terminated then some r
    else Run.emit env currentThreadId r eventName data
  | Step.work currentThreadId T body =>
    if r.terminated then some r
    else
      match Executor.waitForTask r.state._executor currentThreadId
          ⟨Lambda.noop, Executor.Priority.Normal⟩ with
      | none => none
      | some (false, _, e1) => some { r with state := { r.state with _executor := e1 } }
      | some (true, task, e1) =>
        Run.invoke currentThreadId { r with state := { r.state with _executor := e1 } } T body
          task.func

/-- Applies the steps in order. -/
def Run.steps : Run U → List (Step U) → Option (Run U)
  | r, [] => some r
  | r, st :: sts =>
    match Run.step r st with
    | none => none
    | some r1 => Run.steps r1 sts

/-- The payload of the latest emission under `eventName` among `evs` (oldest first). -/
def lastEmitted (evs : List (Event U)) (eventName : String) : Option (Payload U) :=
  (evs.reverse.find? (fun ev => decide (ev.eventName = eventName))).map Event.data

/-- The invariant of a run: no event is left in the queue between two steps, every
payload kept is the one of the latest emission under its name, and a handler vector
kept in the map is not empty and has no handle twice. -/
structure Run.Inv (r : Run U) : Prop where
  queue : r.state._eventsQ = []
  data : ∀ n, r.state._eventDataMap n = none ∨
    ∃ d, lastEmitted r.emitted n = some d ∧ r.state._eventDataMap n = some (some d)
  handlers : ∀ n vec, r.state._handlersMap n = some vec → vec.Nodup ∧ vec ≠ []

end EventScheduler

namespace Executor

variable {α : Type}

/-- The closure `f` is held, as the action of a queued task, in one of the global or
local queues. -/
def holds (e : Executor α) (f : α) : Prop :=
  (∃ q t, some q ∈ e._taskQArray ∧ t ∈ q.toList ∧ t.func = f) ∨
    (∃ q t, q ∈ e._localQVec ∧ t ∈ q.toList ∧ t.func = f)

/-- The closure `f` is the action of a task in one of the lists `g` and `l`. -/
def Queued (g l : List (List (Task α))) (f : α) : Prop :=
  ∃ ts t, (ts ∈ g ∨ ts ∈ l) ∧ t ∈ ts ∧ t.func = f

end Executor

/-! ## Interleaved runs of the queue

A call of `push` is cut at the places where another thread can come in between: after
`pool_idx.fetch_add(1)`, and after `allocateNode` has returned.  Each piece, and each
call of `try_pop`, runs without interference, as in the sequential model. -/

namespace MPMCQueue

variable {T : Type}

/-- The first statement of `allocateNode`, `pool_idx.fetch_add(1)`: the index fetched
and the state after. -/
def allocFetch (q : MPMCQueue T) : Nat × MPMCQueue T :=
  (q.pool_idx, { q with pool_idx := q.pool_idx + 1 })

/-- The statements of `allocateNode` after the `fetch_add`, for the index fetched. -/
def allocFinish (q : MPMCQueue T) (idx : Nat) : Option (Nat × MPMCQueue T) :=
  let q2 := if q.node_pool.length ≤ idx then q.resizePool (q.node_pool.length * 2) else q
  if q2.node_pool.length = 0 then none
  else
    let node := idx % q2.node_pool.length
    some (node, { q2 with node_pool := q2.node_pool.set node ⟨none, none⟩ })

/-- The statements of `push` after `allocateNode`: the payload is put into the cell
and the cell is linked behind `tail`. -/
def pushLink (q : MPMCQueue T) (node : Nat) (value : T) : Option (MPMCQueue T) :=
  match q.node_pool[node]? with
  | none => none
  | some n =>
    let q2 := { q with node_pool := q.node_pool.set node { n with data := some value } }
    pushLoop (q2.node_pool.length + 1) q2 node

/-- Where a producer stands in its call `push(value)`. -/
inductive Producer (T : Type) where
  | start (value : T)
  | fetched (value : T) (idx : Nat)
  | allocated (value : T) (node : Nat)
  | returned
deriving DecidableEq, Repr

/-- A queue shared by producers, and the values the consumers have popped so far. -/
structure Interleaved (T : Type) where
  queue : MPMCQueue T
  producers : List (Producer T)
  popped : List T
deriving DecidableEq, Repr

/-- The next piece of a thread: of producer `i`, or a call of `try_pop` by a consumer
whose out-parameter holds `out`. -/
inductive Turn (T : Type) where
  | producer (i : Nat)
  | consumer (out : T)
deriving DecidableEq, Repr

/-- The queue built with `initPoolSize`, and one producer per value, each about to
call `push`. -/
def Interleaved.init (initPoolSize : Nat) (values : List T) : Option (Interleaved T) :=
  (MPMCQueue.new initPoolSize).map (fun q => ⟨q, values.map Producer.start, []⟩)

/-- One turn. A producer that has returned, or that does not exist, takes none. -/
def Interleaved.turn (s : Interleaved T) : Turn T → Option (Interleaved T)
  | Turn.producer i =>
    match s.producers[i]? with
    | none => none
    | some (Producer.start value) =>
      let (idx, q1) := s.queue.allocFetch
      some { s with queue := q1, producers := s.producers.set i (Producer.fetched value idx) }
    | some (Producer.fetched value idx) =>
      match s.queue.allocFinish idx with
      | none => none
      | some (node, q1) =>
        some { s with queue := q1, producers := s.producers.set i (Producer.allocated value node) }
    | some (Producer.allocated value node) =>
      match s.queue.pushLink node value with
      | none => none
      | some q1 => some { s with queue := q1, producers := s.producers.set i Producer.returned }
    | some Producer.returned => none
  | Turn.consumer out =>
    match s.queue.try_pop out with
    | none => none
    | some (true, v, q1) => some { s with queue := q1, popped := s.popped ++ [v] }
    | some (false, _, q1) => some { s with queue := q1 }

/-- The turns of an interleaving, in order. -/
def Interleaved.run : Interleaved T → List (Turn T) → Option (Interleaved T)
  | s, [] => some s
  | s, t :: ts =>
    match s.turn t with
    | none => none
    | some s1 => Interleaved.run s1 ts

end MPMCQueue

/-! ## The workers and their local queues -/

namespace Executor

variable {α : Type}

/-- The ids of the workers created so far and the number of local queues. -/
def workers (e : Executor α) : List Nat × Nat := (e._threadsVec, e._localQVec.length)

/-- Every worker created so far has a local queue of its own: the ids, in the order
of creation, increase, and each of them indexes `_localQVec`. -/
def WorkerIds (e : Executor α) : Prop :=
  e._threadsVec.Pairwise (fun a b => a < b) ∧ ∀ id ∈ e._threadsVec, id < e._localQVec.length

end Executor

/-! ## Sequential runs of a queue with explicit pool growth -/

/-- A call of a public member of the queue: `push`, `try_pop`, `resizePool`. -/
inductive QueueCall (T : Type) where
  | push (v : T)
  | try_pop (out : T)
  | resizePool (newSize : Nat)
deriving DecidableEq, Repr

/-- Whether the call is a `push`. -/
def QueueCall.isPush {T : Type} : QueueCall T → Bool
  | QueueCall.push _ => true
  | _ => false

namespace MPMCQueue

variable {T : Type}

/-- The state of the queue after the call. -/
def call (q : MPMCQueue T) : QueueCall T → Option (MPMCQueue T)
  | QueueCall.push v => q.push v
  | QueueCall.try_pop out => (q.try_pop out).map (fun r => r.2.2)
  | QueueCall.resizePool newSize => some (q.resizePool newSize)

/-- The state of the queue after the calls, made one after the other. -/
def calls : MPMCQueue T → List (QueueCall T) → Option (MPMCQueue T)
  | q, [] => some q
  | q, c :: cs => (q.call c).bind (fun q1 => calls q1 cs)

/-- Follows the `next` links from cell `i` for at most `fuel` cells: every cell entered
holds a value, and the cell without successor is `tail`. -/
def linkedFrom (pool : List (Node T)) (tail : Nat) : Nat → Nat → Bool
  | 0, _ => false
  | fuel + 1, i =>
    match pool[i]? with
    | none => false
    | some n =>
      match n.next with
      | none => i == tail
      | some j =>
        match pool[j]? with
        | none => false
        | some m => m.data.isSome && linkedFrom pool tail fuel j

/-- The shape of the list of cells: `head` and `tail` are not null, the cell at `head`
holds no value, and the links lead from `head` through cells holding a value to
`tail`, whose link is null. -/
def wellLinked (q : MPMCQueue T) : Bool :=
  match q.head, q.tail with
  | some h, some t =>
    match q.node_pool[h]? with
    | none => false
    | some hn => hn.data.isNone && linkedFrom q.node_pool t q.node_pool.length h
  | _, _ => false

end MPMCQueue

/-! ## The threads of a batch executor -/

/-- A batch executor as its threads see it: the members shared by all threads, and
for each thread the value of the `thread_local` pointer `_localQ` (`none` is the null
pointer it starts with; `run()` sets it to a queue of the thread's own). -/
structure BatchExecutor.Threads (α : Type) where
  shared : Executor α
  _localQ : List (Option (MPMCQueue (Executor.Task α)))

namespace BatchExecutor

variable {α : Type}

/-- A call of `BatchExecutor::getNextTask` made in the thread `thread`, whose
`currentThreadId` is given: the call works on the shared members and on the value of
`_localQ` in this thread. -/
def Threads.getNextTask (fuel : Nat) (w : Threads α) (thread currentThreadId : Nat)
    (task : Executor.Task α) : Option (Bool × Executor.Task α × Threads α) :=
  match w._localQ[thread]? with
  | none => none
  | some lq =>
    match BatchExecutor.getNextTask fuel w.shared lq currentThreadId task with
    | none => none
    | some (ok, task1, e1, lq1) => some (ok, task1, ⟨e1, w._localQ.set thread lq1⟩)

/-- A call of `Executor::tryStealTask` made in a thread whose `currentThreadId` is
given: the call works on the shared members only. -/
def Threads.tryStealTask (w : Threads α) (currentThreadId : Nat) (task : Executor.Task α) :
    Option (Bool × Executor.Task α × Threads α) :=
  match Executor.tryStealTask w.shared currentThreadId task with
  | none => none
  | some (ok, task1, e1) => some (ok, task1, ⟨e1, w._localQ⟩)

/-- The shared queues hold `g` and `l`, and the private queue of each thread holds the
list of `privs` at the thread's position (the empty list for a null pointer). -/
def Threads.Rep (w : Threads α) (g l privs : List (List (Executor.Task α))) : Prop :=
  Executor.Rep w.shared g l ∧
  List.Forall₂ (fun lq priv => (lq = none ∧ priv = []) ∨ ∃ q, lq = some q ∧ MPMCQueue.Abs q priv)
    w._localQ privs

/-- The threads of a sample executor, the private queue of each holding the list of
`privs` at its position. -/
def sampleThreads (config : Executor.Config) (uninit active : Nat)
    (g l privs : List (List (Executor.Task α))) : Threads α :=
  ⟨Executor.sampleExecutor config uninit active g l,
    privs.map (fun ts => some (Executor.sampleQueue ts))⟩

end BatchExecutor

/-! ## The batched file calls of `AsyncFSExecutor`

A shallow embedding of `writeFileAsyncBatch` and `readFileAsyncBatch` of
`10-EvSchedAsyncIOEx/include/async_fs_executor.hpp`.  A `shared_ptr<FileOp>` is the
position of the record in the list of all records made by `make_shared`; the future
returned by a call is named by the record whose promise it belongs to.  The
`static thread_local` batch of each of the two functions is a value per thread,
default-constructed (empty) until the thread's first call. -/

/-- The record `AsyncFSExecutor::FileOp` without its promise. -/
structure AsyncFSExecutor.FileOp where
  path : String
  buffer : List Nat
deriving DecidableEq, Repr

/-- The record `AsyncFSExecutor::WriteBatch`. -/
structure AsyncFSExecutor.WriteBatch where
  ops : List Nat
deriving DecidableEq, Repr

/-- The record `AsyncFSExecutor::ReadBatch`. -/
structure AsyncFSExecutor.ReadBatch where
  ops : List Nat
deriving DecidableEq, Repr

/-- The closures that the two batched calls hand to `schedule`, each with the batch it
has captured by move. -/
inductive AsyncFSExecutor.Func where
  | writeBatchTask (b : AsyncFSExecutor.WriteBatch)
  | readBatchTask (b : AsyncFSExecutor.ReadBatch)
deriving DecidableEq, Repr

/-- The executor with the file records made so far and the two thread-local batches
of every thread. -/
structure AsyncFSExecutor where
  executor : Executor AsyncFSExecutor.Func
  heap : List AsyncFSExecutor.FileOp
  writeBatch : Nat → AsyncFSExecutor.WriteBatch
  readBatch : Nat → AsyncFSExecutor.ReadBatch

namespace AsyncFSExecutor

/-- The constant `WRITE_BUFFER_SIZE`. -/
def WRITE_BUFFER_SIZE : Nat := 1024 * 64

/-- The constant `READ_BUFFER_SIZE`. -/
def READ_BUFFER_SIZE : Nat := 1024 * 1024

/-- The constructor `FileOp(p, bufferSize)`: a buffer of `bufferSize` zero bytes. -/
def FileOp.new (p : String) (bufferSize : Nat) : FileOp := ⟨p, List.replicate bufferSize 0⟩

/-- The constant `WriteBatch::BATCH_SIZE`. -/
def WriteBatch.BATCH_SIZE : Nat := 8

/-- `WriteBatch::add`. -/
def WriteBatch.add (b : WriteBatch) (op : Nat) : WriteBatch := ⟨b.ops ++ [op]⟩

/-- `WriteBatch::full`. -/
def WriteBatch.full (b : WriteBatch) : Bool := decide (b.ops.length ≥ WriteBatch.BATCH_SIZE)

/-- The constant `ReadBatch::BATCH_SIZE`. -/
def ReadBatch.BATCH_SIZE : Nat := 32

/-- `ReadBatch::add`. -/
def ReadBatch.add (b : ReadBatch) (op : Nat) : ReadBatch := ⟨b.ops ++ [op]⟩

/-- `ReadBatch::full`. -/
def ReadBatch.full (b : ReadBatch) : Bool := decide (b.ops.length ≥ ReadBatch.BATCH_SIZE)

/-- The constructor `AsyncFSExecutor(config)`, in a process whose threads have not
called the batched functions yet. -/
def new (config : Executor.Config) (uninit : Nat) : AsyncFSExecutor :=
  ⟨Executor.new config uninit, [], fun _ => ⟨[]⟩, fun _ => ⟨[]⟩⟩

/-- `AsyncFSExecutor::writeFileAsyncBatch`, called in the thread `thread` whose
`currentThreadId` is given; returns the record behind the future.  The `Task` built
around the closure converts back to a `Func` that runs the closure, and is passed to
`schedule` with the default priority. -/
def writeFileAsyncBatch (env : Executor.Env) (s : AsyncFSExecutor) (thread currentThreadId : Nat)
    (path : String) (data : List Nat) : Option (Nat × AsyncFSExecutor) :=
  let op := s.heap.length
  let heap := s.heap ++ [{ FileOp.new path WRITE_BUFFER_SIZE with buffer := data }]
  let batch := (s.writeBatch thread).add op
  let flush : Option Bool :=
    if batch.full then some true else (batch.ops.getLast?).map (fun back => decide (op = back))
  match flush with
  | none => none
  | some true =>
    let currentBatch := batch
    match Executor.schedule env s.executor currentThreadId (Func.writeBatchTask currentBatch)
        Executor.Priority.Normal with
    | none => none
    | some e1 => some (op, ⟨e1, heap, Function.update s.writeBatch thread ⟨[]⟩, s.readBatch⟩)
  | some false =>
    some (op, ⟨s.executor, heap, Function.update s.writeBatch thread batch, s.readBatch⟩)

/-- `AsyncFSExecutor::readFileAsyncBatch`, called in the thread `thread` whose
`currentThreadId` is given; returns the record behind the future. -/
def readFileAsyncBatch (env : Executor.Env) (s : AsyncFSExecutor) (thread currentThreadId : Nat)
    (path : String) : Option (Nat × AsyncFSExecutor) :=
  let op := s.heap.length
  let heap := s.heap ++ [FileOp.new path READ_BUFFER_SIZE]
  let batch := (s.readBatch thread).add op
  let flush : Option Bool :=
    if batch.full then some true else (batch.ops.getLast?).map (fun back => decide (op = back))
  match flush with
  | none => none
  | some true =>
    let currentBatch := batch
    match Executor.schedule env s.executor currentThreadId (Func.readBatchTask currentBatch)
        Executor.Priority.Normal with
    | none => none
    | some e1 => some (op, ⟨e1, heap, s.writeBatch, Function.update s.readBatch thread ⟨[]⟩⟩)
  | some false =>
    some (op, ⟨s.executor, heap, s.writeBatch, Function.update s.readBatch thread batch⟩)

/-- A call of one of the two batched functions. -/
inductive Call where
  | writeFileAsyncBatch (env : Executor.Env) (thread currentThreadId : Nat) (path : String)
      (data : List Nat)
  | readFileAsyncBatch (env : Executor.Env) (thread currentThreadId : Nat) (path : String)

/-- The record returned and the state after the call. -/
def call (s : AsyncFSExecutor) : Call → Option (Nat × AsyncFSExecutor)
  | Call.writeFileAsyncBatch env thread currentThreadId path data =>
    s.writeFileAsyncBatch env thread currentThreadId path data
  | Call.readFileAsyncBatch env thread currentThreadId path =>
    s.readFileAsyncBatch env thread currentThreadId path

/-- The state after the calls, made one after the other. -/
def calls : AsyncFSExecutor → List Call → Option AsyncFSExecutor
  | s, [] => some s
  | s, c :: cs => (s.call c).bind (fun r => calls r.2 cs)

/-- The closure that holds exactly the one record `op`, of the kind of the call. -/
def Call.single (op : Nat) : Call → Func
  | Call.writeFileAsyncBatch _ _ _ _ _ => Func.writeBatchTask ⟨[op]⟩
  | Call.readFileAsyncBatch _ _ _ _ => Func.readBatchTask ⟨[op]⟩

end AsyncFSExecutor

/-! ## The life of a payload -/

namespace EventScheduler

variable {U : Type}

/-- Whether the closure leaves alone the emission under `n` with `k` handlers and the
counter at `a`: a resumption that names `n` or the counter `a` is one of this
emission. -/
def Lambda.respects (n : String) (k a : Nat) : Lambda → Bool
  | Lambda.resumeAndCount _ eventName handlerCount completedCount =>
    if eventName = n ∨ completedCount = a then
      decide (eventName = n ∧ handlerCount = k ∧ completedCount = a)
    else true
  | _ => true

/-- Whether the request is an emission under `n`. -/
def Call.emits (n : String) : Call U → Bool
  | Call.emit _ eventName _ => decide (eventName = n)
  | _ => false

/-- Whether the step, taken in the run `r`, is neither an emission under `n` (by the
step or by the coroutine it resumes) nor a worker's turn that runs a resumption of
another emission under `n`. -/
def Step.quiet (n : String) (k a : Nat) (r : Run U) : Step U → Bool
  | Step.emit _ _ eventName _ => !decide (eventName = n)
  | Step.work currentThreadId _ body =>
    body.all (fun c => !c.emits n) &&
      (r.terminated ||
        match Executor.waitForTask r.state._executor currentThreadId
            ⟨Lambda.noop, Executor.Priority.Normal⟩ with
        | some (true, task, _) => task.func.respects n k a
        | _ => true)
  | _ => true

/-- Whether every step of the trace, taken from the run `r` on, is quiet. -/
def Run.quiet (n : String) (k a : Nat) : Run U → List (Step U) → Bool
  | _, [] => true
  | r, st :: sts =>
    st.quiet n k a r &&
      match Run.step r st with
      | none => true
      | some r1 => Run.quiet n k a r1 sts

/-- The number of reads under `n` that returned a value. -/
def okReads (n : String) (reads : List (String × Except Failure U)) : Nat :=
  reads.countP (fun x => decide (x.1 = n) && x.2.isOk)

/-- The state of the emission under `n` with payload `d`, `k` handlers and the counter
at `a`, made when `base` reads had been recorded: the counter is the number of reads
under `n` that returned a value since, it has not passed `k`, and the payload is in
the map exactly as long as the counter is below `k`. -/
structure Run.Live (n : String) (k a : Nat) (d : Payload U) (base : Nat) (r : Run U) : Prop where
  queue : r.state._eventsQ = []
  base_le : base ≤ r.reads.length
  counter : r.state.counters[a]? = some (okReads n (r.reads.drop base))
  le : okReads n (r.reads.drop base) ≤ k
  kept : okReads n (r.reads.drop base) < k → r.state._eventDataMap n = some (some d)
  erased : okReads n (r.reads.drop base) = k → r.state._eventDataMap n = none

end EventScheduler

/-! ## The queue of iteration 07, with its fixed pool

A shallow embedding of `07-EvSchedWorkStealing/include/mpmc_queue.hpp`.  The pool is
a `std::array` of `POOL_SIZE` cells and the allocation counter a `size_t` that wraps
modulo `2 ^ 64`; a `Node*` is the index of the cell. -/

namespace Iteration07

/-- The constant `MPMCQueue::POOL_SIZE`. -/
def POOL_SIZE : Nat := 1024

/-- The data members of `MPMCQueue<T>` (the mutex has no sequential content). -/
structure MPMCQueue (T : Type) where
  head : Option Nat
  tail : Option Nat
  node_pool : List (Node T)
  pool_idx : Nat
deriving DecidableEq, Repr

namespace MPMCQueue

variable {T : Type}

/-- `MPMCQueue::allocateNode`: returns the cell handed out and the new state. -/
def allocateNode (q : MPMCQueue T) : Option (Nat × MPMCQueue T) :=
  let idx := q.pool_idx % POOL_SIZE
  let q1 := { q with pool_idx := incr q.pool_idx }
  match q1.node_pool[idx]? with
  | none => none
  | some _ => some (idx, { q1 with node_pool := q1.node_pool.set idx ⟨none, none⟩ })

/-- The constructor `MPMCQueue()`. -/
def new : Option (MPMCQueue T) :=
  let q0 : MPMCQueue T :=
    { head := none, tail := none, node_pool := List.replicate POOL_SIZE Node.fresh,
      pool_idx := 0 }
  match q0.allocateNode with
  | none => none
  | some (dummy, q1) => some { q1 with head := some dummy, tail := some dummy }

/-- The `while (true)` loop of `MPMCQueue::push`, one iteration per unit of fuel. -/
def pushLoop : Nat → MPMCQueue T → Nat → Option (MPMCQueue T)
  | 0, _, _ => none
  | fuel + 1, q, node =>
    match q.tail with
    | none => none
    | some old_tail =>
      match q.node_pool[old_tail]? with
      | none => none
      | some tn =>
        match tn.next with
        | none =>
          some { q with
            node_pool := q.node_pool.set old_tail { tn with next := some node }
            tail := some node }
        | some next => pushLoop fuel { q with tail := some next } node

/-- `MPMCQueue::push`.  The loop gets one unit of fuel per cell of the pool and one
more: a `tail` that is still lagging after that many steps runs in a cycle. -/
def push (q : MPMCQueue T) (value : T) : Option (MPMCQueue T) :=
  match q.allocateNode with
  | none => none
  | some (node, q1) =>
    match q1.node_pool[node]? with
    | none => none
    | some n =>
      let q2 := { q1 with node_pool := q1.node_pool.set node { n with data := some value } }
      pushLoop (q2.node_pool.length + 1) q2 node

/-- `MPMCQueue::try_pop`; `value` is the out-parameter, returned with the flag.
Sequentially `old_head == head.load()` holds and the exchange on `head`
succeeds, so the loop body runs once. -/
def try_pop (q : MPMCQueue T) (value : T) : Option (Bool × T × MPMCQueue T) :=
  match q.head with
  | none => some (false, value, q)
  | some old_head =>
    match q.node_pool[old_head]? with
    | none => none
    | some hn =>
      match hn.next with
      | none => some (false, value, q)
      | some next =>
        let q1 := { q with head := some next }
        match q1.node_pool[next]? with
        | none => none
        | some nn =>
          match nn.data with
          | none => some (false, value, q1)
          | some v =>
            some (true, v, { q1 with node_pool := q1.node_pool.set next { nn with data := none } })

/-- The cells met from cell `i` on by following the `next` links, at most `fuel` of
them. -/
def cellsFrom (pool : List (Node T)) : Nat → Nat → List Nat
  | 0, _ => []
  | fuel + 1, i =>
    i :: (match (pool[i]?).bind Node.next with
      | none => []
      | some j => cellsFrom pool fuel j)

/-- The cells reachable from `head`. -/
def reachable (q : MPMCQueue T) : List Nat :=
  match q.head with
  | none => []
  | some h => cellsFrom q.node_pool POOL_SIZE h

/-- The queue `q` holds the values `vs`, oldest first, in consecutive cells of the
ring: `head` is the cell `h`, the value `vs[i]` is in the cell `h + i + 1`, `tail` is
the cell of the last value and the next cell handed out is the one after it (all
modulo `POOL_SIZE`); the values leave one cell for `head`. -/
structure Ring (q : MPMCQueue T) (vs : List T) : Prop where
  size_eq : q.node_pool.length = POOL_SIZE
  bound : vs.length < POOL_SIZE
  chain : ∃ h, h < POOL_SIZE ∧ q.head = some h ∧
    q.tail = some ((h + vs.length) % POOL_SIZE) ∧
    q.pool_idx % POOL_SIZE = (h + vs.length + 1) % POOL_SIZE ∧
    (∀ i, i < vs.length →
      MPMCQueue.nextOf q.node_pool ((h + i) % POOL_SIZE) =
        some (some ((h + i + 1) % POOL_SIZE))) ∧
    MPMCQueue.nextOf q.node_pool ((h + vs.length) % POOL_SIZE) = some none ∧
    (∀ i v, vs[i]? = some v →
      MPMCQueue.dataOf q.node_pool ((h + i + 1) % POOL_SIZE) = some (some v))

end MPMCQueue

/-- Runs the calls on the queue and collects what they report. -/
def runQueue {T : Type} : MPMCQueue T → List (QueueOp T) → Option (List (QueueObs T))
  | _, [] => some []
  | q, QueueOp.push v :: ops =>
    match q.push v with
    | none => none
    | some q1 => (runQueue q1 ops).map (fun r => QueueObs.pushed :: r)
  | q, QueueOp.try_pop out :: ops =>
    match q.try_pop out with
    | none => none
    | some (ok, out1, q1) => (runQueue q1 ops).map (fun r => QueueObs.popped ok out1 :: r)

/-- The state of the queue after the calls. -/
def runState {T : Type} : MPMCQueue T → List (QueueOp T) → Option (MPMCQueue T)
  | q, [] => some q
  | q, QueueOp.push v :: ops =>
    match q.push v with
    | none => none
    | some q1 => runState q1 ops
  | q, QueueOp.try_pop out :: ops =>
    match q.try_pop out with
    | none => none
    | some (_, _, q1) => runState q1 ops

/-- The contents of the reference FIFO list after the calls. -/
def fifoState {T : Type} : List T → List (QueueOp T) → List T
  | l, [] => l
  | l, QueueOp.push v :: ops => fifoState (l ++ [v]) ops
  | [], QueueOp.try_pop _ :: ops => fifoState [] ops
  | _ :: l, QueueOp.try_pop _ :: ops => fifoState l ops

/-- Whether a queue holding `n` values never holds more than `POOL_SIZE - 1` values
during the calls. -/
def withinCapacity {T : Type} : Nat → List (QueueOp T) → Bool
  | _, [] => true
  | n, QueueOp.push _ :: ops => decide (n + 1 ≤ POOL_SIZE - 1) && withinCapacity (n + 1) ops
  | n, QueueOp.try_pop _ :: ops => withinCapacity (n - 1) ops

end Iteration07

/-! ## An emission cut at its calls of `schedule` -/

namespace EventScheduler

variable {U : Type}

/-- One iteration of the `while` loop of `processEvents` up to its `for` loop: the
event is popped and its payload stored, the handler vector is moved out and its entry
erased, the counter is made.  Returns the state in which the `for` loop starts and the
closures the loop hands to `schedule`, in order (none when the iteration ends at a
`continue`). -/
def takeEvent (s : EventScheduler U) : Option (EventScheduler U × List Lambda) :=
  match s._eventsQ with
  | [] => none
  | eventPtr :: rest =>
    let s1 := { s with _eventsQ := rest }
    let s2 := { s1 with _eventDataMap := eventPtr.storeData s1._eventDataMap }
    let eventName := eventPtr.eventName
    if UnorderedMap.count s2._handlersMap eventName = 0 then some (s2, [])
    else
      let (handlers, m1) := UnorderedMap.index s2._handlersMap eventName []
      let handlerCount := handlers.length
      if handlerCount = 0 then
        some ({ s2 with
          _handlersMap := m1
          _eventDataMap := UnorderedMap.erase s2._eventDataMap eventName }, [])
      else
        let completedCount := s2.counters.length
        let handlersVec := handlers
        let s3 := { s2 with
          counters := s2.counters ++ [0]
          _handlersMap := UnorderedMap.erase m1 eventName }
        some (s3, handlersVec.map (fun handle =>
          Lambda.resumeAndCount handle eventName handlerCount completedCount))

/-- A thread inside the `for` loop of `processEvents`: what the environment decides
during its calls of `schedule`, its `currentThreadId`, the number of calls made and the
closures not handed over yet. -/
structure ForLoop where
  env : Nat → Executor.Env
  currentThreadId : Nat
  index : Nat
  pending : List Lambda

/-- A call of `emit` up to the first call of `schedule`. -/
def Run.emitBegin (env : Nat → Executor.Env) (currentThreadId : Nat) (r : Run U)
    (eventName : String) (data : Payload U) : Option (Run U × ForLoop) :=
  match takeEvent { r.state with _eventsQ := r.state._eventsQ ++ [⟨eventName, data⟩] } with
  | none => none
  | some (s1, fs) =>
    some ({ r with state := s1, emitted := r.emitted ++ [⟨eventName, data⟩] },
      ⟨env, currentThreadId, 0, fs⟩)

/-- The next iteration of the `for` loop, one call of `schedule`; nothing is left to
do once every closure has been handed over. -/
def Run.emitNext (r : Run U) (loop : ForLoop) : Option (Run U × ForLoop) :=
  match loop.pending with
  | [] => some (r, loop)
  | f :: fs =>
    match Executor.schedule (loop.env loop.index) r.state._executor loop.currentThreadId f
        Executor.defaultPriority with
    | none => none
    | some e1 =>
      some ({ r with state := { r.state with _executor := e1 } },
        { loop with index := loop.index + 1, pending := fs })

/-- A turn while a thread is inside the `for` loop: the next iteration of the loop,
or a step of another thread. -/
inductive EmitTurn (U : Type) where
  | loop
  | other (st : Step U)

/-- Applies one turn. -/
def Run.emitTurn (r : Run U) (loop : ForLoop) : EmitTurn U → Option (Run U × ForLoop)
  | EmitTurn.loop => Run.emitNext r loop
  | EmitTurn.other st => (Run.step r st).map (fun r1 => (r1, loop))

/-- Applies the turns in order. -/
def Run.emitTurns : Run U → ForLoop → List (EmitTurn U) → Option (Run U × ForLoop)
  | r, loop, [] => some (r, loop)
  | r, loop, t :: ts =>
    match Run.emitTurn r loop t with
    | none => none
    | some (r1, loop1) => Run.emitTurns r1 loop1 ts

/-- Whether the step makes an emission under `n`, itself or by the coroutine it
resumes. -/
def Step.emits (n : String) : Step U → Bool
  | Step.emit _ _ eventName _ => decide (eventName = n)
  | Step.work _ _ body => body.any (fun c => c.emits n)
  | _ => false

/-- Whether the turn is a step that makes an emission under `n`. -/
def EmitTurn.emits (n : String) : EmitTurn U → Bool
  | EmitTurn.loop => false
  | EmitTurn.other st => st.emits n

/-- The number of iterations of the `for` loop among the turns. -/
def EmitTurn.loops : List (EmitTurn U) → Nat
  | [] => 0
  | EmitTurn.loop :: ts => EmitTurn.loops ts + 1
  | EmitTurn.other _ :: ts => EmitTurn.loops ts

/-- From `r` to `r1` no event is left in the queue, and every handle registered under
`n` in `r` is registered under `n` in `r1`. -/
def Run.Keeps (n : String) (r r1 : Run U) : Prop :=
  r1.state._eventsQ = [] ∧
    ∀ x ∈ (r.state._handlersMap n).getD [], x ∈ (r1.state._handlersMap n).getD []

end EventScheduler

/-! # Theorems -/

namespace MPMCQueue
variable {T : Type}

theorem nextOf_set (pool : List (Node T)) (i k : Nat) (n : Node T) :
    nextOf (pool.set i n) k = if i = k then (if i < pool.length then some n.next else none) else nextOf pool k := by
  unfold nextOf
  rw [List.getElem?_set]
  split <;> [split <;> rfl; rfl]

theorem dataOf_set (pool : List (Node T)) (i k : Nat) (n : Node T) :
    dataOf (pool.set i n) k = if i = k then (if i < pool.length then some n.data else none) else dataOf pool k := by
  unfold dataOf
  rw [List.getElem?_set]
  split <;> [split <;> rfl; rfl]

theorem chain_bounds {pool : List (Node T)} {bound : Nat} :
    ∀ {vs : List T} {i t : Nat}, Chain pool bound i vs t → i + vs.length ≤ t ∧ t < bound
  | [], i, t, h => by
    obtain ⟨h1, h2, _⟩ := h
    subst h1; simp [h2]
  | v :: vs, i, t, h => by
    obtain ⟨j, _, hij, _, hc⟩ := h
    have := chain_bounds hc
    simp only [List.length_cons]
    omega

theorem chain_frame {pool pool' : List (Node T)} {bound bound' : Nat} (hb : bound ≤ bound') :
    ∀ {vs : List T} {i t : Nat},
      (∀ k, i ≤ k → k < bound → nextOf pool' k = nextOf pool k) →
      (∀ k, i < k → k < bound → dataOf pool' k = dataOf pool k) →
      Chain pool bound i vs t → Chain pool' bound' i vs t
  | [], i, t, hn, _, h => by
    obtain ⟨h1, h2, h3⟩ := h
    exact ⟨h1, by omega, by rw [hn i (le_refl _) h2]; exact h3⟩
  | v :: vs, i, t, hn, hd, h => by
    obtain ⟨j, h1, hij, h2, hc⟩ := h
    have hjb : j < bound := by have := chain_bounds hc; omega
    have hib : i < bound := by omega
    refine ⟨j, by rw [hn i (le_refl _) hib]; exact h1, hij, by rw [hd j hij hjb]; exact h2, ?_⟩
    exact chain_frame hb (fun k hk hkb => hn k (by omega) hkb) (fun k hk hkb => hd k (by omega) hkb) hc

theorem chain_snoc {pool pool' : List (Node T)} {bound k : Nat} {v : T} (hk : bound ≤ k) :
    ∀ {vs : List T} {i t : Nat},
      (∀ a, a < bound → a ≠ t → nextOf pool' a = nextOf pool a) →
      (∀ a, a < bound → dataOf pool' a = dataOf pool a) →
      nextOf pool' t = some (some k) → nextOf pool' k = some none →
      dataOf pool' k = some (some v) →
      Chain pool bound i vs t → Chain pool' (k + 1) i (vs ++ [v]) k
  | [], i, t, _, _, ht, hkn, hkd, h => by
    obtain ⟨h1, h2, _⟩ := h
    subst h1
    exact ⟨k, ht, by omega, hkd, rfl, by omega, hkn⟩
  | w :: vs, i, t, hn, hd, ht, hkn, hkd, h => by
    obtain ⟨j, h1, hij, h2, hc⟩ := h
    have hb := chain_bounds hc
    refine ⟨j, ?_, hij, ?_, chain_snoc hk hn hd ht hkn hkd hc⟩
    · rw [hn i (by omega) (by omega)]; exact h1
    · rw [hd j (by omega)]; exact h2

theorem nextOf_append_left (pool ext : List (Node T)) {k : Nat} (hk : k < pool.length) :
    nextOf (pool ++ ext) k = nextOf pool k := by
  unfold nextOf
  rw [List.getElem?_append_left hk]

theorem dataOf_append_left (pool ext : List (Node T)) {k : Nat} (hk : k < pool.length) :
    dataOf (pool ++ ext) k = dataOf pool k := by
  unfold dataOf
  rw [List.getElem?_append_left hk]

/-- What `allocateNode` does on a pool whose counter has not passed its size. -/
theorem allocateNode_spec (q : MPMCQueue T) (hs : q._poolSize = q.node_pool.length)
    (hpos : 0 < q.node_pool.length) (hi : q.pool_idx ≤ q.node_pool.length) :
    ∃ pool', q.allocateNode =
        some (q.pool_idx, { q with pool_idx := q.pool_idx + 1, node_pool := pool',
                                    _poolSize := pool'.length }) ∧
      q.pool_idx < pool'.length ∧ q.node_pool.length ≤ pool'.length ∧
      pool'[q.pool_idx]? = some ⟨none, none⟩ ∧
      (∀ k, k < q.pool_idx → pool'[k]? = q.node_pool[k]?) := by
  by_cases hfull : q.node_pool.length ≤ q.pool_idx
  · have heq : q.pool_idx = q.node_pool.length := le_antisymm hi hfull
    refine ⟨(q.node_pool ++ List.replicate q.node_pool.length Node.fresh).set q.pool_idx ⟨none, none⟩,
      ?_, ?_, ?_, ?_, ?_⟩
    · have h1 : ¬ (q.node_pool.length * 2 ≤ q._poolSize) := by omega
      have h2 : q.node_pool.length * 2 - q._poolSize = q.node_pool.length := by omega
      have h3 : q.pool_idx % (q.node_pool.length + q.node_pool.length) = q.pool_idx :=
        Nat.mod_eq_of_lt (by omega)
      simp [allocateNode, resizePool, hfull, h1, h2, h3, hpos.ne']
      omega
    · simp; omega
    · simp
    · rw [List.getElem?_set]; simp; omega
    · intro k hk
      rw [List.getElem?_set, if_neg (by omega), List.getElem?_append_left (by omega)]
  · have hlt : q.pool_idx < q.node_pool.length := by omega
    refine ⟨q.node_pool.set q.pool_idx ⟨none, none⟩, ?_, ?_, ?_, ?_, ?_⟩
    · simp [allocateNode, hfull, hpos.ne', Nat.mod_eq_of_lt hlt, hs]
    · simpa using hlt
    · simp
    · rw [List.getElem?_set]; simp [hlt]
    · intro k hk
      rw [List.getElem?_set, if_neg (by omega)]

theorem Abs.size_pos {q : MPMCQueue T} {vs : List T} (h : Abs q vs) : 0 < q.node_pool.length := by
  obtain ⟨hd, t, _, _, _, hc⟩ := h.chain
  have := chain_bounds hc
  have := h.idx_le
  omega

theorem chain_tail_next {pool : List (Node T)} {bound : Nat} :
    ∀ {vs : List T} {i t : Nat}, Chain pool bound i vs t → nextOf pool t = some none
  | [], _, _, h => by
    obtain ⟨h1, _, h3⟩ := h
    subst h1; exact h3
  | _ :: _, _, _, h => by
    obtain ⟨_, _, _, _, hc⟩ := h
    exact chain_tail_next hc

/-- The constructor yields the empty queue for every positive pool size. -/
theorem new_abs (n : Nat) (hn : 0 < n) : ∃ q : MPMCQueue T, MPMCQueue.new n = some q ∧ Abs q [] := by
  have hspec := allocateNode_spec
    (⟨n, none, none, List.replicate n Node.fresh, 0⟩ : MPMCQueue T) (by simp) (by simpa using hn)
    (Nat.zero_le _)
  obtain ⟨pool', halloc, hlt, _, hget, _⟩ := hspec
  refine ⟨_, by simp only [MPMCQueue.new, halloc]; rfl, ?_⟩
  refine ⟨rfl, by simpa using hlt, 0, 0, rfl, rfl, ?_, rfl, by simp, ?_⟩
  · simp only [dataOf]; simp at hget; simp [hget]
  · simp only [nextOf]; simp at hget; simp [hget]

/-- `push` appends at the back. -/
theorem push_abs {q : MPMCQueue T} {vs : List T} (h : Abs q vs) (v : T) :
    ∃ q', q.push v = some q' ∧ Abs q' (vs ++ [v]) := by
  obtain ⟨hd, t, hhead, htail, hsent, hc⟩ := h.chain
  obtain ⟨pool', halloc, hlt, hle, hget, hold⟩ := allocateNode_spec q h.size_eq h.size_pos h.idx_le
  have hb := chain_bounds hc
  have htk : t < q.pool_idx := hb.2
  have htn : nextOf q.node_pool t = some none := chain_tail_next hc
  have ht' : ∃ tn, pool'[t]? = some tn ∧ tn.next = none := by
    rw [hold t htk]
    unfold nextOf at htn
    cases hq : q.node_pool[t]? with
    | none => simp [hq] at htn
    | some tn => exact ⟨tn, rfl, by simpa [hq] using htn⟩
  obtain ⟨tn, htn1, htn2⟩ := ht'
  have hne : q.pool_idx ≠ t := by omega
  have hset : (pool'.set q.pool_idx ⟨none, some v⟩)[t]? = some tn := by
    rw [List.getElem?_set, if_neg hne]; exact htn1
  refine ⟨_, by simp only [push, halloc, hget, pushLoop, htail, hset, htn2]; rfl, ?_⟩
  · have hdata_old : ∀ a, a < q.pool_idx →
        dataOf ((pool'.set q.pool_idx ⟨none, some v⟩).set t ⟨some q.pool_idx, tn.data⟩) a
          = dataOf q.node_pool a := by
      intro a ha
      simp only [dataOf_set, List.length_set]
      by_cases hta : t = a
      · subst hta
        rw [if_pos rfl, if_pos (by omega)]
        unfold dataOf; rw [← hold t ha, htn1]; rfl
      · rw [if_neg hta, if_neg (by omega)]
        unfold dataOf; rw [hold a ha]
    refine ⟨by simp, by simp; omega, hd, q.pool_idx, hhead, rfl, ?_, ?_⟩
    · rw [← hsent]; exact hdata_old hd (by omega)
    · refine chain_snoc (le_refl _) ?_ hdata_old ?_ ?_ ?_ hc
      · intro a ha hat
        simp only [nextOf_set, List.length_set]
        rw [if_neg (fun e => hat e.symm), if_neg (by omega)]
        unfold nextOf; rw [hold a ha]
      · have : t < pool'.length := by omega
        simp [nextOf_set, this]
      · simp [nextOf_set, hne.symm, hlt]
      · simp [dataOf_set, hne.symm, hlt]

/-- `try_pop` on the empty queue fails and touches neither the out-parameter nor the queue. -/
theorem try_pop_nil {q : MPMCQueue T} (h : Abs q []) (out : T) :
    q.try_pop out = some (false, out, q) := by
  obtain ⟨hd, t, hhead, _, _, hc⟩ := h.chain
  obtain ⟨_, _, h3⟩ := hc
  unfold nextOf at h3
  cases hq : q.node_pool[hd]? with
  | none => simp [hq] at h3
  | some hn =>
    have : hn.next = none := by simpa [hq] using h3
    simp only [try_pop, hhead, hq, this]

/-- `try_pop` on a non-empty queue takes the front. -/
theorem try_pop_cons {q : MPMCQueue T} {v : T} {vs : List T} (h : Abs q (v :: vs)) (out : T) :
    ∃ q', q.try_pop out = some (true, v, q') ∧ Abs q' vs := by
  obtain ⟨hd, t, hhead, htail, _, hc⟩ := h.chain
  obtain ⟨j, h1, hij, h2, hcj⟩ := hc
  have hb := chain_bounds hcj
  have hidx := h.idx_le
  unfold nextOf at h1
  unfold dataOf at h2
  cases hq : q.node_pool[hd]? with
  | none => simp [hq] at h1
  | some hn =>
    have hnext : hn.next = some j := by simpa [hq] using h1
    cases hqj : q.node_pool[j]? with
    | none => simp [hqj] at h2
    | some nn =>
      have hdata : nn.data = some v := by simpa [hqj] using h2
      refine ⟨_, by simp only [try_pop, hhead, hq, hnext, hqj, hdata]; rfl, ?_⟩
      refine ⟨by simpa using h.size_eq, by simpa using hidx, j, t, rfl, htail, ?_, ?_⟩
      · have : j < q.node_pool.length := by omega
        simp [dataOf_set, this]
      · refine chain_frame (le_refl _) ?_ ?_ hcj
        · intro k _ _
          simp only [nextOf_set]
          by_cases hjk : j = k
          · subst hjk
            rw [if_pos rfl, if_pos (by omega)]
            unfold nextOf; rw [hqj]; rfl
          · rw [if_neg hjk]
        · intro k hk _
          simp only [dataOf_set]
          rw [if_neg (by omega)]

/-- `resizePool` keeps the contents. -/
theorem resizePool_abs {q : MPMCQueue T} {vs : List T} (h : Abs q vs) (n : Nat) :
    Abs (q.resizePool n) vs := by
  unfold resizePool
  split
  · exact h
  · rename_i hn
    obtain ⟨hd, t, hhead, htail, hsent, hc⟩ := h.chain
    have hb := chain_bounds hc
    have hidx := h.idx_le
    have hs := h.size_eq
    refine ⟨by simp; omega, by simp; omega, hd, t, hhead, htail, ?_, ?_⟩
    · show dataOf (q.node_pool ++ _) hd = _
      rw [dataOf_append_left _ _ (by omega)]; exact hsent
    · show Chain (q.node_pool ++ _) q.pool_idx hd vs t
      refine chain_frame (le_refl _) ?_ ?_ hc
      · intro k _ hk
        exact nextOf_append_left _ _ (by omega)
      · intro k _ hk
        exact dataOf_append_left _ _ (by omega)

/-- `empty` reports whether the contents are empty. -/
theorem empty_abs {q : MPMCQueue T} {vs : List T} (h : Abs q vs) :
    q.empty = some vs.isEmpty := by
  obtain ⟨hd, t, hhead, _, _, hc⟩ := h.chain
  cases vs with
  | nil =>
    obtain ⟨_, _, h3⟩ := hc
    unfold nextOf at h3
    cases hq : q.node_pool[hd]? with
    | none => simp [hq] at h3
    | some hn =>
      have : hn.next = none := by simpa [hq] using h3
      simp [empty, hhead, hq, this]
  | cons v vs =>
    obtain ⟨j, h1, _⟩ := hc
    unfold nextOf at h1
    cases hq : q.node_pool[hd]? with
    | none => simp [hq] at h1
    | some hn =>
      have : hn.next = some j := by simpa [hq] using h1
      simp [empty, hhead, hq, this]

theorem valuesFrom_chain {pool : List (Node T)} {bound : Nat} :
    ∀ {vs : List T} {i t fuel : Nat}, Chain pool bound i vs t → vs.length < fuel →
      valuesFrom pool fuel i = vs
  | [], i, t, fuel, h, hf => by
    obtain ⟨_, _, h3⟩ := h
    obtain ⟨f, rfl⟩ : ∃ f, fuel = f + 1 := ⟨fuel - 1, by simp at hf; omega⟩
    unfold nextOf at h3
    cases hq : pool[i]? with
    | none => simp [hq] at h3
    | some hn =>
      have : hn.next = none := by simpa [hq] using h3
      simp [valuesFrom, hq, this]
  | v :: vs, i, t, fuel, h, hf => by
    obtain ⟨j, h1, _, h2, hc⟩ := h
    obtain ⟨f, rfl⟩ : ∃ f, fuel = f + 1 := ⟨fuel - 1, by simp at hf; omega⟩
    unfold nextOf at h1
    unfold dataOf at h2
    cases hq : pool[i]? with
    | none => simp [hq] at h1
    | some hn =>
      have hnext : hn.next = some j := by simpa [hq] using h1
      cases hqj : pool[j]? with
      | none => simp [hqj] at h2
      | some nn =>
        have hdata : nn.data = some v := by simpa [hqj] using h2
        simp only [valuesFrom, hq, hnext, hqj, hdata]
        rw [valuesFrom_chain hc (by simp at hf; omega)]

/-- The contents computed by `toList` are the represented list. -/
theorem toList_abs {q : MPMCQueue T} {vs : List T} (h : Abs q vs) : q.toList = vs := by
  obtain ⟨hd, t, hhead, _, _, hc⟩ := h.chain
  have hb := chain_bounds hc
  have := h.idx_le
  simp only [toList, hhead]
  exact valuesFrom_chain hc (by omega)

theorem runQueue_refines : ∀ (ops : List (QueueOp T)) (q : MPMCQueue T) (l : List T),
    Abs q l → runQueue q ops = some (runFifo l ops)
  | [], _, _, _ => by simp [runQueue, runFifo]
  | QueueOp.push v :: ops, q, l, h => by
    obtain ⟨q', hp, hq'⟩ := push_abs h v
    simp [runQueue, runFifo, hp, runQueue_refines ops q' _ hq']
  | QueueOp.try_pop out :: ops, q, [], h => by
    simp [runQueue, runFifo, try_pop_nil h out, runQueue_refines ops q _ h]
  | QueueOp.try_pop out :: ops, q, v :: l, h => by
    obtain ⟨q', hp, hq'⟩ := try_pop_cons h out
    simp [runQueue, runFifo, hp, runQueue_refines ops q' _ hq']

end MPMCQueue
/-! ## Executors and their representation -/

theorem forall₂_getElem? {β γ : Type} {R : β → γ → Prop} :
    ∀ {xs : List β} {ys : List γ} {i : Nat} {y : γ}, List.Forall₂ R xs ys → ys[i]? = some y →
      ∃ x, xs[i]? = some x ∧ R x y
  | _, _, _, _, List.Forall₂.nil, h => by simp at h
  | _, _, 0, _, List.Forall₂.cons hr _, h => by
    simp at h; subst h; exact ⟨_, by simp, hr⟩
  | _, _, i + 1, _, List.Forall₂.cons _ hrest, h => by
    simp at h
    obtain ⟨x, hx, hr⟩ := forall₂_getElem? hrest h
    exact ⟨x, by simpa using hx, hr⟩

theorem forall₂_set {β γ : Type} {R : β → γ → Prop} {x : β} {y : γ} (hxy : R x y) :
    ∀ {xs : List β} {ys : List γ} (i : Nat), List.Forall₂ R xs ys →
      List.Forall₂ R (xs.set i x) (ys.set i y)
  | _, _, _, List.Forall₂.nil => by simp
  | _, _, 0, List.Forall₂.cons _ hrest => by
    simpa using List.Forall₂.cons hxy hrest
  | _, _, i + 1, List.Forall₂.cons hr hrest => by
    simpa using List.Forall₂.cons hr (forall₂_set hxy i hrest)

theorem set_of_getElem? {β : Type} : ∀ {xs : List β} {i : Nat} {x : β}, xs[i]? = some x →
    xs.set i x = xs
  | [], _, _, h => by simp at h
  | _ :: _, 0, _, h => by simp at h; simp [h]
  | _ :: xs, i + 1, _, h => by
    simp at h
    simp [set_of_getElem? h]

namespace Executor

variable {α : Type}

theorem Rep.local_length {e : Executor α} {g l : List (List (Task α))} (h : Rep e g l) :
    e._localQVec.length = l.length := h.locals.length_eq

theorem Rep.global_length {e : Executor α} {g l : List (List (Task α))} (h : Rep e g l) :
    e._taskQArray.length = 3 := by rw [h.globals.length_eq, h.three]

theorem popLocal_nil {e : Executor α} {g l : List (List (Task α))} (h : Rep e g l)
    {i : Nat} (hi : l[i]? = some []) (task : Task α) :
    popLocal e i task = some (false, task, e) := by
  obtain ⟨q, hq, habs⟩ := forall₂_getElem? h.locals hi
  simp only [popLocal, hq, MPMCQueue.try_pop_nil habs, set_of_getElem? hq]

theorem popLocal_cons {e : Executor α} {g l : List (List (Task α))} (h : Rep e g l)
    {i : Nat} {t : Task α} {rest : List (Task α)} (hi : l[i]? = some (t :: rest)) (task : Task α) :
    ∃ e1, popLocal e i task = some (true, t, e1) ∧ Rep e1 g (l.set i rest) ∧
      e1._pendingTasks = e._pendingTasks ∧ control e1 = control e := by
  obtain ⟨q, hq, habs⟩ := forall₂_getElem? h.locals hi
  obtain ⟨q1, hpop, habs1⟩ := MPMCQueue.try_pop_cons habs task
  refine ⟨{ e with _localQVec := e._localQVec.set i q1 }, by simp only [popLocal, hq, hpop], ?_, rfl, rfl⟩
  exact ⟨h.globals, h.three, forall₂_set habs1 i h.locals⟩

theorem popGlobal_nil {e : Executor α} {g l : List (List (Task α))} (h : Rep e g l)
    {p : Nat} (hp : g[p]? = some []) (task : Task α) :
    popGlobal e p task = some (false, task, e) := by
  obtain ⟨oq, hoq, q, rfl, habs⟩ := forall₂_getElem? h.globals hp
  simp only [popGlobal, hoq, MPMCQueue.try_pop_nil habs, set_of_getElem? hoq]

theorem popGlobal_cons {e : Executor α} {g l : List (List (Task α))} (h : Rep e g l)
    {p : Nat} {t : Task α} {rest : List (Task α)} (hp : g[p]? = some (t :: rest)) (task : Task α) :
    ∃ e1, popGlobal e p task = some (true, t, e1) ∧ Rep e1 (g.set p rest) l ∧
      e1._pendingTasks = e._pendingTasks ∧ control e1 = control e := by
  obtain ⟨oq, hoq, q, rfl, habs⟩ := forall₂_getElem? h.globals hp
  obtain ⟨q1, hpop, habs1⟩ := MPMCQueue.try_pop_cons habs task
  refine ⟨{ e with _taskQArray := e._taskQArray.set p (some q1) },
    by simp only [popGlobal, hoq, hpop], ?_, rfl, rfl⟩
  exact ⟨forall₂_set ⟨q1, rfl, habs1⟩ p h.globals, by simp [h.three], h.locals⟩

theorem pushLocal_rep {e : Executor α} {g l : List (List (Task α))} (h : Rep e g l)
    {i : Nat} {ts : List (Task α)} (hi : l[i]? = some ts) (task : Task α) :
    ∃ e1, pushLocal e i task = some e1 ∧ Rep e1 g (l.set i (ts ++ [task])) ∧
      e1._pendingTasks = e._pendingTasks ∧ control e1 = control e := by
  obtain ⟨q, hq, habs⟩ := forall₂_getElem? h.locals hi
  obtain ⟨q1, hpush, habs1⟩ := MPMCQueue.push_abs habs task
  refine ⟨{ e with _localQVec := e._localQVec.set i q1 }, by simp only [pushLocal, hq, hpush], ?_, rfl, rfl⟩
  exact ⟨h.globals, h.three, forall₂_set habs1 i h.locals⟩

theorem pushGlobal_rep {e : Executor α} {g l : List (List (Task α))} (h : Rep e g l)
    {p : Nat} {ts : List (Task α)} (hp : g[p]? = some ts) (task : Task α) :
    ∃ e1, pushGlobal e p task = some e1 ∧ Rep e1 (g.set p (ts ++ [task])) l ∧
      e1._pendingTasks = e._pendingTasks ∧ control e1 = control e := by
  obtain ⟨oq, hoq, q, rfl, habs⟩ := forall₂_getElem? h.globals hp
  obtain ⟨q1, hpush, habs1⟩ := MPMCQueue.push_abs habs task
  refine ⟨{ e with _taskQArray := e._taskQArray.set p (some q1) },
    by simp only [pushGlobal, hoq, hpush], ?_, rfl, rfl⟩
  exact ⟨forall₂_set ⟨q1, rfl, habs1⟩ p h.globals, by simp [h.three], h.locals⟩

theorem Rep.of_queues {e e1 : Executor α} {g l : List (List (Task α))} (h : Rep e g l)
    (hg : e1._taskQArray = e._taskQArray) (hl : e1._localQVec = e._localQVec) : Rep e1 g l :=
  ⟨hg ▸ h.globals, h.three, hl ▸ h.locals⟩

theorem takesFirst_skip {e : Executor α} {g l : List (List (Task α))} {task : Task α}
    {s : Source} {srcs : List Source} {r : Option (Bool × Task α × Executor α)}
    (hs : s.tasks g l = []) (h : TakesFirst e g l task srcs r) :
    TakesFirst e g l task (s :: srcs) r := by
  unfold TakesFirst at h ⊢
  simpa [List.find?_cons, hs] using h

theorem takesFirst_hit {e e1 : Executor α} {g l : List (List (Task α))} {task t : Task α}
    {rest : List (Task α)} {s : Source} {srcs : List Source}
    (hs : s.tasks g l = t :: rest)
    (hrep : Rep e1 (s.update g l rest).1 (s.update g l rest).2)
    (hp : e1._pendingTasks = decr e._pendingTasks) (hc : control e1 = control e) :
    TakesFirst e g l task (s :: srcs) (some (true, t, e1)) := by
  unfold TakesFirst
  simp only [List.find?_cons, hs, List.isEmpty_cons, Bool.not_false]
  exact ⟨t, rest, e1, rfl, rfl, hrep, hp, hc⟩

theorem local_tasks_of_lt {g l : List (List (Task α))} {i : Nat} (hi : i < l.length) :
    l[i]? = some ((Source.localQ i).tasks g l) := by
  simp [Source.tasks, List.getElem?_eq_getElem hi]

theorem global_tasks_of_lt {g l : List (List (Task α))} {p : Nat} (hp : p < g.length) :
    g[p]? = some ((Source.globalQ p).tasks g l) := by
  simp [Source.tasks, List.getElem?_eq_getElem hp]

/-- One probe of a local queue inside a scan. -/
theorem probe_local {e : Executor α} {g l : List (List (Task α))} (h : Rep e g l)
    {i : Nat} (hi : i < l.length) (task : Task α) (srcs : List Source)
    (k : Executor α → Task α → Option (Bool × Task α × Executor α))
    (hk : TakesFirst e g l task srcs (k e task)) :
    TakesFirst e g l task (Source.localQ i :: srcs)
      (match popLocal e i task with
        | none => none
        | some (true, task1, e1) =>
          some (true, task1, { e1 with _pendingTasks := decr e1._pendingTasks })
        | some (false, task1, e1) => k e1 task1) := by
  have hget := local_tasks_of_lt (g := g) hi
  cases hts : (Source.localQ i).tasks g l with
  | nil =>
    rw [hts] at hget
    rw [popLocal_nil h hget]
    exact takesFirst_skip hts hk
  | cons t rest =>
    rw [hts] at hget
    obtain ⟨e1, hpop, hrep, hpend, hctl⟩ := popLocal_cons h hget task
    rw [hpop]
    exact takesFirst_hit hts (hrep.of_queues rfl rfl) (congrArg decr hpend) hctl

/-- One probe of a global queue inside a scan. -/
theorem probe_global {e : Executor α} {g l : List (List (Task α))} (h : Rep e g l)
    {p : Nat} (hp : p < 3) (task : Task α) (srcs : List Source)
    (k : Executor α → Task α → Option (Bool × Task α × Executor α))
    (hk : TakesFirst e g l task srcs (k e task)) :
    TakesFirst e g l task (Source.globalQ p :: srcs)
      (match popGlobal e p task with
        | none => none
        | some (true, task1, e1) =>
          some (true, task1, { e1 with _pendingTasks := decr e1._pendingTasks })
        | some (false, task1, e1) => k e1 task1) := by
  have hget := global_tasks_of_lt (g := g) (l := l) (p := p) (by rw [h.three]; exact hp)
  cases hts : (Source.globalQ p).tasks g l with
  | nil =>
    rw [hts] at hget
    rw [popGlobal_nil h hget]
    exact takesFirst_skip hts hk
  | cons t rest =>
    rw [hts] at hget
    obtain ⟨e1, hpop, hrep, hpend, hctl⟩ := popGlobal_cons h hget task
    rw [hpop]
    exact takesFirst_hit hts (hrep.of_queues rfl rfl) (congrArg decr hpend) hctl

theorem stealLoop_takesFirst {e : Executor α} {g l : List (List (Task α))} (h : Rep e g l)
    (hn : 0 < l.length) (startIdx : Nat) (task : Task α) :
    ∀ is : List Nat, TakesFirst e g l task
      (is.map (fun i => Source.localQ ((startIdx + i) % l.length)))
      (stealLoop startIdx is e task)
  | [] => by simp [TakesFirst, stealLoop]
  | i :: is => by
    have hlt : (startIdx + i) % l.length < l.length := Nat.mod_lt _ hn
    have := probe_local h hlt task (is.map (fun i => Source.localQ ((startIdx + i) % l.length)))
      (stealLoop startIdx is) (stealLoop_takesFirst h hn startIdx task is)
    simpa only [stealLoop, List.map_cons, h.local_length] using this

theorem tryStealTask_takesFirst {e : Executor α} {g l : List (List (Task α))} (h : Rep e g l)
    {self : Nat} (hself : e._config.enableWorkStealing = true → self < l.length)
    (hmax : self < SIZE_MAX) (task : Task α) :
    TakesFirst e g l task
      (if e._config.enableWorkStealing then stealOrder self l.length else [])
      (tryStealTask e self task) := by
  cases hws : e._config.enableWorkStealing with
  | false => simp [TakesFirst, tryStealTask, hws]
  | true =>
    have hlt := hself hws
    have hn : 0 < l.length := by omega
    have hmod : (self + 1) % SIZE_MOD = self + 1 := by
      apply Nat.mod_eq_of_lt
      simp only [SIZE_MAX, SIZE_MOD] at hmax ⊢
      omega
    have hsteal := stealLoop_takesFirst h hn ((self + 1) % l.length) task (List.range l.length)
    have hord : (List.range l.length).map
        (fun i => Source.localQ (((self + 1) % l.length + i) % l.length)) = stealOrder self l.length := by
      unfold stealOrder
      apply List.map_congr_left
      intro i _
      simp [Nat.add_mod]
    rw [hord] at hsteal
    simpa [tryStealTask, hws, h.local_length, hn.ne', hmod] using hsteal

theorem globalLoop_takesFirst {e : Executor α} {g l : List (List (Task α))} (h : Rep e g l)
    {self : Nat} (hself : e._config.enableWorkStealing = true → self < l.length)
    (hmax : self < SIZE_MAX) (task : Task α) :
    ∀ ps : List Nat, (∀ p ∈ ps, p < 3) → TakesFirst e g l task
      (ps.map Source.globalQ ++
        (if e._config.enableWorkStealing then stealOrder self l.length else []))
      (globalLoop self ps e task)
  | [], _ => by simpa [globalLoop] using tryStealTask_takesFirst h hself hmax task
  | p :: ps, hps => by
    have := probe_global h (hps p (List.mem_cons_self _ _)) task _ (globalLoop self ps)
      (globalLoop_takesFirst h hself hmax task ps (fun q hq => hps q (List.mem_cons_of_mem _ hq)))
    simpa only [globalLoop, List.map_cons, List.cons_append] using this

/-- The dispatch of `getNextTask` on a well-formed executor, for a worker. -/
theorem getNextTask_takesFirst {e : Executor α} {g l : List (List (Task α))} (h : Rep e g l)
    {self : Nat} (hself : e._config.enableWorkStealing = true → self < l.length)
    (hmax : self < SIZE_MAX) (task : Task α) :
    TakesFirst e g l task (dispatchOrder e._config.enableWorkStealing self l.length)
      (getNextTask e self task) := by
  have hglob := globalLoop_takesFirst h hself hmax task [0, 1, 2] (by simp)
  cases hws : e._config.enableWorkStealing with
  | false =>
    rw [hws] at hglob
    simpa [getNextTask, dispatchOrder, hws, Priority.toNat, List.range, List.range.loop] using hglob
  | true =>
    have hlt := hself hws
    have := probe_local h hlt task _ (globalLoop self [0, 1, 2]) hglob
    rw [hws] at this
    simpa [getNextTask, dispatchOrder, hws, Priority.toNat, List.range, List.range.loop,
      h.local_length, hlt] using this

end Executor
/-! ## The queue against the reference list -/

theorem runFifo_pushes {T : Type} (rest : List (QueueOp T)) :
    ∀ (vs l : List T), runFifo l (vs.map QueueOp.push ++ rest) =
      vs.map (fun _ => QueueObs.pushed) ++ runFifo (l ++ vs) rest
  | [], l => by simp
  | v :: vs, l => by
    simp [runFifo, runFifo_pushes rest vs (l ++ [v])]

theorem runFifo_pops {T : Type} (out : T) :
    ∀ vs : List T, runFifo vs (vs.map (fun _ => QueueOp.try_pop out)) =
      vs.map (QueueObs.popped true)
  | [] => by simp [runFifo]
  | v :: vs => by simp only [List.map_cons, runFifo, runFifo_pops out vs]

/-- C1: under sequential use the resizable queue, built with an initial pool size of
at least 1, behaves exactly like the reference FIFO list on every finite sequence of
`push` and `try_pop` calls (a `try_pop` on the empty list reports `false` with the
out-parameter as it was, any other `try_pop` reports `true` with the oldest value);
in particular the values `v₁ … vₖ` pushed in this order are popped in this order, none
lost and none twice, whatever `k` is. -/
theorem mpmc_queue_refines_fifo {T : Type} (n : Nat) (hn : 1 ≤ n) :
    ∃ q : MPMCQueue T, MPMCQueue.new n = some q ∧
      (∀ ops : List (QueueOp T), runQueue q ops = some (runFifo [] ops)) ∧
      (∀ (vs : List T) (out : T),
        runQueue q (vs.map QueueOp.push ++ vs.map (fun _ => QueueOp.try_pop out)) =
          some (vs.map (fun _ => QueueObs.pushed) ++ vs.map (QueueObs.popped true))) := by
  obtain ⟨q, hq, habs⟩ := MPMCQueue.new_abs (T := T) n hn
  refine ⟨q, hq, fun ops => MPMCQueue.runQueue_refines ops q [] habs, fun vs out => ?_⟩
  rw [MPMCQueue.runQueue_refines _ q [] habs, runFifo_pushes, List.nil_append, runFifo_pops]

/-- C1 at pool size 1 with three values: the pool has to grow twice. -/
theorem mpmc_queue_refines_fifo_witness :
    1 ≤ 1 ∧ ∃ q : MPMCQueue Nat, MPMCQueue.new 1 = some q ∧
      (∀ ops : List (QueueOp Nat), runQueue q ops = some (runFifo [] ops)) ∧
      (∀ (vs : List Nat) (out : Nat),
        runQueue q (vs.map QueueOp.push ++ vs.map (fun _ => QueueOp.try_pop out)) =
          some (vs.map (fun _ => QueueObs.pushed) ++ vs.map (QueueObs.popped true))) :=
  ⟨le_refl 1, mpmc_queue_refines_fifo 1 (le_refl 1)⟩

/-! ## Dispatch order of `Executor::getNextTask` -/

namespace Executor

variable {α : Type}

theorem control_config {e e1 : Executor α} (h : control e1 = control e) :
    e1._config = e._config := by
  simp only [control, Prod.mk.injEq] at h
  exact h.2.2.2.2.2.2.2

theorem local_tasks_nil {g l : List (List (Task α))} (hl : ∀ ts ∈ l, ts = []) (i : Nat) :
    (Source.localQ i).tasks g l = [] := by
  simp only [Source.tasks]
  cases h : l[i]? with
  | none => rfl
  | some ts => exact hl ts (List.getElem?_mem h)

theorem find_stealOrder_nil {g l : List (List (Task α))} (hl : ∀ ts ∈ l, ts = []) (self n : Nat) :
    (stealOrder self n).find? (fun s => !(s.tasks g l).isEmpty) = none := by
  simp only [List.find?_eq_none, stealOrder, List.mem_map]
  rintro s ⟨i, _, rfl⟩
  simp [local_tasks_nil (g := g) hl]

/-- With no local work the search reaches the global queues in the order High,
Normal, Low. -/
theorem find_dispatchOrder_globals {hi no lo : List (Task α)} {l : List (List (Task α))}
    (hl : ∀ ts ∈ l, ts = []) (ws : Bool) (self n : Nat) :
    (dispatchOrder ws self n).find? (fun s => !(s.tasks [hi, no, lo] l).isEmpty) =
      if !hi.isEmpty then some (Source.globalQ 0)
      else if !no.isEmpty then some (Source.globalQ 1)
      else if !lo.isEmpty then some (Source.globalQ 2) else none := by
  have hsteal := find_stealOrder_nil (g := [hi, no, lo]) hl self n
  have hloc := local_tasks_nil (g := [hi, no, lo]) hl self
  have h0 : (Source.globalQ 0).tasks [hi, no, lo] l = hi := rfl
  have h1 : (Source.globalQ 1).tasks [hi, no, lo] l = no := rfl
  have h2 : (Source.globalQ 2).tasks [hi, no, lo] l = lo := rfl
  cases ws <;> cases hi <;> cases no <;> cases lo <;>
    simp [dispatchOrder, List.find?_cons, List.find?_append, hsteal, hloc, h0, h1, h2]

theorem getNextTasks_low {l : List (List (Task α))} {self : Nat}
    (hl : ∀ ts ∈ l, ts = []) (hmax : self < SIZE_MAX) (task : Task α) :
    ∀ (lo : List (Task α)) (e : Executor α), Rep e [[], [], lo] l →
      (e._config.enableWorkStealing = true → self < l.length) →
      ∃ e1, getNextTasks self task lo.length e = some (lo, e1) ∧ Rep e1 [[], [], []] l
  | [], e, h, _ => ⟨e, by simp [getNextTasks], h⟩
  | t :: lo, e, h, hself => by
    have hd := getNextTask_takesFirst h hself hmax task
    unfold TakesFirst at hd
    rw [find_dispatchOrder_globals hl] at hd
    obtain ⟨t1, rest, e1, hts, hget, hrep, _, hctl⟩ := hd
    have hts2 : t :: lo = t1 :: rest := hts
    obtain ⟨rfl, rfl⟩ := List.cons.inj hts2
    obtain ⟨e2, hrec, hrep2⟩ := getNextTasks_low hl hmax task lo e1 hrep
      (by rw [control_config hctl]; exact hself)
    exact ⟨e2, by simp [getNextTasks, hget, hrec], hrep2⟩

theorem getNextTasks_high_low {l : List (List (Task α))} {self : Nat}
    (hl : ∀ ts ∈ l, ts = []) (hmax : self < SIZE_MAX) (task : Task α) (lo : List (Task α)) :
    ∀ (hi : List (Task α)) (e : Executor α), Rep e [hi, [], lo] l →
      (e._config.enableWorkStealing = true → self < l.length) →
      ∃ e1, getNextTasks self task (hi.length + lo.length) e = some (hi ++ lo, e1) ∧
        Rep e1 [[], [], []] l
  | [], e, h, hself => by
    simpa using getNextTasks_low hl hmax task lo e h hself
  | t :: hi, e, h, hself => by
    have hd := getNextTask_takesFirst h hself hmax task
    unfold TakesFirst at hd
    rw [find_dispatchOrder_globals hl] at hd
    obtain ⟨t1, rest, e1, hts, hget, hrep, _, hctl⟩ := hd
    have hts2 : t :: hi = t1 :: rest := hts
    obtain ⟨rfl, rfl⟩ := List.cons.inj hts2
    obtain ⟨e2, hrec, hrep2⟩ := getNextTasks_high_low hl hmax task lo hi e1 hrep
      (by rw [control_config hctl]; exact hself)
    refine ⟨e2, ?_, hrep2⟩
    have hlen : (t :: hi).length + lo.length = (hi.length + lo.length) + 1 := by
      simp only [List.length_cons]; omega
    rw [hlen]
    simp [getNextTasks, hget, hrec]

theorem foldl_push_abs {T : Type} : ∀ (ts : List T) (q : MPMCQueue T) (vs : List T),
    MPMCQueue.Abs q vs → MPMCQueue.Abs (ts.foldl (fun q t => (q.push t).getD q) q) (vs ++ ts)
  | [], _, _, h => by simpa using h
  | t :: ts, q, vs, h => by
    obtain ⟨q1, hp, h1⟩ := MPMCQueue.push_abs h t
    have := foldl_push_abs ts q1 (vs ++ [t]) h1
    simpa [List.foldl, hp] using this

theorem sampleQueue_abs {T : Type} (ts : List T) : MPMCQueue.Abs (sampleQueue ts) ts := by
  obtain ⟨q, hq, habs⟩ := MPMCQueue.new_abs (T := T) 1 Nat.zero_lt_one
  have := foldl_push_abs ts q [] habs
  simpa [sampleQueue, hq] using this

theorem sampleExecutor_rep (config : Config) (uninit active : Nat) (g l : List (List (Task α)))
    (hg : g.length = 3) : Rep (sampleExecutor config uninit active g l) g l := by
  refine ⟨?_, hg, ?_⟩
  · show List.Forall₂ _ (g.map _) g
    rw [List.forall₂_map_left_iff]
    exact List.forall₂_same.mpr (fun ts _ => ⟨_, rfl, sampleQueue_abs ts⟩)
  · show List.Forall₂ _ (l.map _) l
    rw [List.forall₂_map_left_iff]
    exact List.forall₂_same.mpr (fun ts _ => sampleQueue_abs ts)

end Executor

/-- C2: for a worker `self` of a well-formed executor (with work stealing enabled its
id indexes a local queue), `getNextTask` takes the front of the first non-empty place
in the order own local queue (work stealing only), global High, Normal, Low, steal
scan, and decrements `pending`; it reports `false`, changing nothing, exactly when all
these places are empty.  With no local work and the global queues holding only the
High tasks `hi` and the Low tasks `lo`, successive calls return `hi` and then `lo`. -/
theorem getNextTask_dispatch_order {α : Type} {e : Executor α}
    {g l : List (List (Executor.Task α))} (h : Executor.Rep e g l) (self : Nat)
    (hself : e._config.enableWorkStealing = true → self < l.length) (hmax : self < SIZE_MAX)
    (task : Executor.Task α) :
    (match (Executor.dispatchOrder e._config.enableWorkStealing self l.length).find?
        (fun s => !(s.tasks g l).isEmpty) with
      | none => Executor.getNextTask e self task = some (false, task, e)
      | some s => ∃ t rest e1, s.tasks g l = t :: rest ∧
          Executor.getNextTask e self task = some (true, t, e1) ∧
          Executor.Rep e1 (s.update g l rest).1 (s.update g l rest).2 ∧
          e1._pendingTasks = decr e._pendingTasks) ∧
    (∀ hi lo : List (Executor.Task α), g = [hi, [], lo] → (∀ ts ∈ l, ts = []) →
      ∃ e1, Executor.getNextTasks self task (hi.length + lo.length) e = some (hi ++ lo, e1)) := by
  constructor
  · have hd := Executor.getNextTask_takesFirst h hself hmax task
    unfold Executor.TakesFirst at hd
    split at hd
    · exact hd
    · obtain ⟨t, rest, e1, h1, h2, h3, h4, _⟩ := hd
      exact ⟨t, rest, e1, h1, h2, h3, h4⟩
  · rintro hi lo rfl hl
    obtain ⟨e1, h1, _⟩ := Executor.getNextTasks_high_low hl hmax task lo hi e h hself
    exact ⟨e1, h1⟩

/-- The sample executor of the witness of C2: work stealing on, one worker, one High
and one Low task queued. -/
theorem getNextTask_dispatch_order_witness :
    Executor.Rep
      (Executor.sampleExecutor ⟨1, 1, 3, 60, true, 256, 512⟩ 3 1
        [[⟨7, Executor.Priority.High⟩], [], [⟨8, Executor.Priority.Low⟩]] [[]] : Executor Nat)
      [[⟨7, Executor.Priority.High⟩], [], [⟨8, Executor.Priority.Low⟩]] [[]] ∧
    (Executor.getNextTasks 0 ⟨0, Executor.Priority.Normal⟩ 2
      (Executor.sampleExecutor ⟨1, 1, 3, 60, true, 256, 512⟩ 3 1
        [[⟨7, Executor.Priority.High⟩], [], [⟨8, Executor.Priority.Low⟩]] [[]] : Executor Nat)).map
      Prod.fst = some [⟨7, Executor.Priority.High⟩, ⟨8, Executor.Priority.Low⟩] := by
  have hrep := Executor.sampleExecutor_rep (α := Nat) ⟨1, 1, 3, 60, true, 256, 512⟩ 3 1
    [[⟨7, Executor.Priority.High⟩], [], [⟨8, Executor.Priority.Low⟩]] [[]] rfl
  refine ⟨hrep, ?_⟩
  obtain ⟨e1, h1⟩ := (getNextTask_dispatch_order hrep 0 (fun _ => Nat.zero_lt_one)
    (by decide) ⟨0, Executor.Priority.Normal⟩).2 _ _ rfl (by simp)
  simpa using congrArg (Option.map Prod.fst) h1
/-! ## `Executor::schedule` -/

namespace Executor

variable {α : Type}

theorem resizeGlobals_rep {g : List (List (Task α))} (newSize : Nat) :
    ∀ (ps : List Nat) (qs : List (Option (MPMCQueue (Task α)))), (∀ p ∈ ps, p < g.length) →
      List.Forall₂ (fun oq vs => ∃ q, oq = some q ∧ MPMCQueue.Abs q vs) qs g →
      ∃ qs1, resizeGlobals newSize ps qs = some qs1 ∧
        List.Forall₂ (fun oq vs => ∃ q, oq = some q ∧ MPMCQueue.Abs q vs) qs1 g
  | [], qs, _, h => ⟨qs, rfl, h⟩
  | p :: ps, qs, hps, h => by
    have hp : p < g.length := hps p (List.mem_cons_self _ _)
    obtain ⟨oq, hoq, q, rfl, habs⟩ := forall₂_getElem? h (List.getElem?_eq_getElem hp)
    have hset := forall₂_set (R := fun oq vs => ∃ q, oq = some q ∧ MPMCQueue.Abs q vs)
      ⟨q.resizePool newSize, rfl, MPMCQueue.resizePool_abs habs newSize⟩ p h
    rw [set_of_getElem? (List.getElem?_eq_getElem hp)] at hset
    obtain ⟨qs1, h1, h2⟩ := resizeGlobals_rep newSize ps _
      (fun r hr => hps r (List.mem_cons_of_mem _ hr)) hset
    exact ⟨qs1, by simp only [resizeGlobals, hoq, h1], h2⟩

theorem checkTaskQueueResize_rep (env : Env) {e : Executor α} {g l : List (List (Task α))}
    (h : Rep e g l) :
    ∃ e1, checkTaskQueueResize env e = some e1 ∧ Rep e1 g l ∧
      e1._pendingTasks = e._pendingTasks ∧ e1.stopped = e.stopped ∧
      e1._config = e._config ∧ e1._activeThreads = e._activeThreads ∧
      e1._maxThreads = e._maxThreads ∧ e1._minThreads = e._minThreads ∧
      e1._tasksPerThreadThreshold = e._tasksPerThreadThreshold ∧
      e1._threadsVec = e._threadsVec := by
  unfold checkTaskQueueResize
  split
  · exact ⟨e, rfl, h, rfl, rfl, rfl, rfl, rfl, rfl, rfl, rfl⟩
  · obtain ⟨qs1, h1, h2⟩ := resizeGlobals_rep (g := g) ((e._taskPoolSize * 2) % SIZE_MOD)
      (List.range Priority.kNumPriorities.toNat) e._taskQArray
      (by intro p hp; rw [h.three]; simpa [Priority.toNat] using hp) h.globals
    simp only [h1]
    refine ⟨_, rfl, ⟨h2, h.three, ?_⟩, rfl, rfl, rfl, rfl, rfl, rfl, rfl, rfl⟩
    show List.Forall₂ _ (if _ then _ else _) l
    split
    · rw [List.forall₂_map_left_iff]
      exact h.locals.imp (fun _ _ habs => MPMCQueue.resizePool_abs habs _)
    · exact h.locals

theorem incr_of_lt {n : Nat} (h : n < SIZE_MAX) : incr n = n + 1 := by
  unfold incr
  apply Nat.mod_eq_of_lt
  simp only [SIZE_MAX, SIZE_MOD] at h ⊢
  omega

theorem shouldScaleUp_some {e : Executor α} (h : e._activeThreads < SIZE_MAX) :
    shouldScaleUp e = some (decide (e._pendingTasks / (e._activeThreads + 1) >
        e._tasksPerThreadThreshold) &&
      decide (e._activeThreads < e._maxThreads) && decide (e._pendingTasks > 0)) := by
  have hmod : (e._activeThreads + 1) % SIZE_MOD = e._activeThreads + 1 := incr_of_lt h
  simp only [shouldScaleUp, hmod]
  rw [if_neg (Nat.succ_ne_zero _)]

theorem forall₂_append_one {β γ : Type} {R : β → γ → Prop} {x : β} {y : γ} (hxy : R x y) :
    ∀ {xs : List β} {ys : List γ}, List.Forall₂ R xs ys → List.Forall₂ R (xs ++ [x]) (ys ++ [y])
  | _, _, List.Forall₂.nil => List.Forall₂.cons hxy List.Forall₂.nil
  | _, _, List.Forall₂.cons hr hrest => List.Forall₂.cons hr (forall₂_append_one hxy hrest)

/-- `addThread` leaves the queued tasks alone and appends at most one empty local
queue; the active counter moves only below the maximum, by one. -/
theorem addThread_rep (env : Env) {e : Executor α} {g l : List (List (Task α))}
    (h : Rep e g l) :
    ∃ e1 extra, addThread env e = some e1 ∧ (extra = [] ∨ extra = [[]]) ∧
      Rep e1 g (l ++ extra) ∧ e1._pendingTasks = e._pendingTasks ∧
      e1.stopped = e.stopped ∧ e1._config = e._config := by
  obtain ⟨q, hq, habs⟩ := MPMCQueue.new_abs (T := Task α) MPMCQueue.DEFAULT_POOL_SIZE
    (by decide)
  unfold addThread
  split
  · exact ⟨e, [], rfl, Or.inl rfl, by simpa using h, rfl, rfl, rfl⟩
  · simp only [hq]
    have hrep : ∀ e1 : Executor α, e1._taskQArray = e._taskQArray →
        e1._localQVec = e._localQVec ++ [q] → Rep e1 g (l ++ [[]]) := fun e1 hg hl =>
      ⟨hg ▸ h.globals, h.three, hl ▸ forall₂_append_one habs h.locals⟩
    split
    · exact ⟨_, [[]], rfl, Or.inr rfl, hrep _ rfl rfl, rfl, rfl, rfl⟩
    · exact ⟨_, [[]], rfl, Or.inr rfl, hrep _ rfl rfl, rfl, rfl, rfl⟩

/-- The place where `schedule` puts a task. -/
theorem schedule_spec (env : Env) {e : Executor α} {g l : List (List (Task α))}
    (h : Rep e g l) (hrun : e.stopped = false) (self : Nat) (task : α) (p : Priority)
    (hp : p ≠ Priority.kNumPriorities) (hpend : e._pendingTasks < SIZE_MAX)
    (hact : e._activeThreads < SIZE_MAX) (target : Source)
    (htarget : target = if e._config.enableWorkStealing && decide (self < l.length)
      then Source.localQ self else Source.globalQ p.toNat) :
    ∃ e1 extra, schedule env e self task p = some e1 ∧ (extra = [] ∨ extra = [[]]) ∧
      Rep e1 (target.update g l (target.tasks g l ++ [⟨task, p⟩])).1
        ((target.update g l (target.tasks g l ++ [⟨task, p⟩])).2 ++ extra) ∧
      e1._pendingTasks = e._pendingTasks + 1 ∧ e1.stopped = false ∧
      e1._config = e._config := by
  obtain ⟨e1, hres, hrep1, hpend1, hstop1, hcfg1, hact1, _⟩ := checkTaskQueueResize_rep env h
  have hpush : ∃ e2, (if e1._config.enableWorkStealing && decide (self < e1._localQVec.length)
        then pushLocal e1 self ⟨task, p⟩ else pushGlobal e1 p.toNat ⟨task, p⟩) = some e2 ∧
      Rep e2 (target.update g l (target.tasks g l ++ [⟨task, p⟩])).1
        (target.update g l (target.tasks g l ++ [⟨task, p⟩])).2 ∧
      e2._pendingTasks = e1._pendingTasks ∧ control e2 = control e1 := by
    rw [hcfg1, hrep1.local_length]
    by_cases hc : (e._config.enableWorkStealing && decide (self < l.length)) = true
    · rw [if_pos hc] at htarget ⊢
      subst htarget
      have hlt : self < l.length := by simp at hc; exact hc.2
      exact pushLocal_rep hrep1 (local_tasks_of_lt hlt) _
    · rw [if_neg hc] at htarget ⊢
      subst htarget
      have hlt : p.toNat < g.length := by
        rw [h.three]; cases p <;> simp [Priority.toNat] at hp ⊢
      exact pushGlobal_rep hrep1 (global_tasks_of_lt hlt) _
  obtain ⟨e2, hpush2, hrep2, hpend2, hctl2⟩ := hpush
  have hctl2' := hctl2
  simp only [control, Prod.mk.injEq] at hctl2'
  obtain ⟨_, hstop2, _, _, _, _, hact2, hcfg2⟩ := hctl2'
  have hpend3 : incr e2._pendingTasks = e._pendingTasks + 1 := by
    rw [hpend2, hpend1]; exact incr_of_lt hpend
  have hrep3 : Rep { e2 with _pendingTasks := incr e2._pendingTasks } _ _ := hrep2.of_queues rfl rfl
  obtain ⟨b, hscale⟩ : ∃ b, shouldScaleUp { e2 with _pendingTasks := incr e2._pendingTasks } =
      some b :=
    ⟨_, shouldScaleUp_some (by show e2._activeThreads < SIZE_MAX; rw [hact2, hact1]; exact hact)⟩
  have hstop3 : e2.stopped = false := by rw [hstop2, hstop1, hrun]
  have hcfg3 : e2._config = e._config := by rw [hcfg2, hcfg1]
  simp only [schedule, hrun, Bool.false_eq_true, if_false, hres, hpush2, hscale]
  cases b with
  | true =>
    obtain ⟨e4, extra, hadd, hextra, hrep4, hpend4, hstop4, hcfg4⟩ := addThread_rep env hrep3
    exact ⟨e4, extra, hadd, hextra, hrep4, by rw [hpend4]; exact hpend3,
      by rw [hstop4]; exact hstop3, by rw [hcfg4]; exact hcfg3⟩
  | false =>
    exact ⟨_, [], rfl, Or.inl rfl, by simpa using hrep3, hpend3, hstop3, hcfg3⟩

end Executor
/-- C3: on a started (all queues built), non-stopped executor, `schedule` enqueues
exactly one task carrying the action and the priority: at the back of the caller's
own local queue when work stealing is enabled and the caller's thread id indexes a
local queue, otherwise at the back of the global queue whose index is the priority
(High 0, Normal 1, Low 2; the default priority is Normal).  Every other queue keeps
its contents (an upscale only appends a new, empty local queue) and `pending` grows
by exactly 1. -/
theorem schedule_enqueues_one_task {α : Type} (env : Executor.Env) {e : Executor α}
    {g l : List (List (Executor.Task α))} (h : Executor.Rep e g l)
    (hrun : e.stopped = false) (self : Nat) (task : α) (p : Executor.Priority)
    (hp : p ≠ Executor.Priority.kNumPriorities) (hpend : e._pendingTasks < SIZE_MAX)
    (hact : e._activeThreads < SIZE_MAX) :
    (∃ e1 extra, Executor.schedule env e self task p = some e1 ∧
      (extra = [] ∨ extra = [[]]) ∧
      (if e._config.enableWorkStealing && decide (self < l.length) then
        Executor.Rep e1 g (l.set self ((l[self]?).getD [] ++ [⟨task, p⟩]) ++ extra)
      else
        Executor.Rep e1 (g.set p.toNat ((g[p.toNat]?).getD [] ++ [⟨task, p⟩])) (l ++ extra)) ∧
      e1._pendingTasks = e._pendingTasks + 1) ∧
    Executor.Priority.High.toNat = 0 ∧ Executor.Priority.Normal.toNat = 1 ∧
    Executor.Priority.Low.toNat = 2 ∧ Executor.defaultPriority = Executor.Priority.Normal := by
  refine ⟨?_, rfl, rfl, rfl, rfl⟩
  obtain ⟨e1, extra, h1, h2, h3, h4, _⟩ :=
    Executor.schedule_spec env h hrun self task p hp hpend hact _ rfl
  refine ⟨e1, extra, h1, h2, ?_, h4⟩
  by_cases hc : (e._config.enableWorkStealing && decide (self < l.length)) = true
  · rw [if_pos hc] at h3 ⊢; exact h3
  · rw [if_neg hc] at h3 ⊢; exact h3

/-- C3 on a sample executor with one empty local queue: an outside thread (thread id
`SIZE_MAX`) schedules a High task. -/
theorem schedule_enqueues_one_task_witness :
    (Executor.sampleExecutor ⟨4, 1, 3, 60, true, 256, 512⟩ 3 1 [[], [], []] [[]] :
      Executor Nat).stopped = false ∧
    ∃ e1 extra, Executor.schedule ⟨fun _ _ => true, true⟩
        (Executor.sampleExecutor ⟨4, 1, 3, 60, true, 256, 512⟩ 3 1 [[], [], []] [[]] :
          Executor Nat) SIZE_MAX 5 Executor.Priority.High = some e1 ∧
      (extra = [] ∨ extra = [[]]) ∧
      Executor.Rep e1 [[⟨5, Executor.Priority.High⟩], [], []] ([[]] ++ extra) ∧
      e1._pendingTasks = 1 := by
  refine ⟨rfl, ?_⟩
  obtain ⟨e1, extra, h1, h2, h3, h4⟩ := (schedule_enqueues_one_task ⟨fun _ _ => true, true⟩
    (Executor.sampleExecutor_rep ⟨4, 1, 3, 60, true, 256, 512⟩ 3 1 [[], [], []] [[]] rfl)
    rfl SIZE_MAX (5 : Nat) Executor.Priority.High (by decide) (by decide) (by decide)).1
  exact ⟨e1, extra, h1, h2, by simpa [SIZE_MAX, Executor.Priority.toNat] using h3, h4⟩

/-- C4: once `stop` has raised the flag, every call of `schedule` returns normally
and leaves the whole executor as it is: global queues, local queues, pending counter,
active counter and worker set; so does any sequence of such calls. -/
theorem schedule_after_stop_is_dropped {α : Type} (e : Executor α)
    (calls : List (Executor.Env × Nat × α × Executor.Priority)) :
    (Executor.stop e).stopped = true ∧
    (∀ (env : Executor.Env) (self : Nat) (task : α) (p : Executor.Priority),
      Executor.schedule env (Executor.stop e) self task p = some (Executor.stop e)) ∧
    Executor.steps (Executor.stop e)
      (calls.map (fun c => Executor.Event.schedule c.1 c.2.1 c.2.2.1 c.2.2.2)) =
        some (Executor.stop e) := by
  have hone : ∀ (env : Executor.Env) (self : Nat) (task : α) (p : Executor.Priority),
      Executor.schedule env (Executor.stop e) self task p = some (Executor.stop e) := by
    intro env self task p
    simp [Executor.schedule, Executor.stop]
  refine ⟨rfl, hone, ?_⟩
  induction calls with
  | nil => rfl
  | cons c cs ih =>
    simp only [List.map_cons, Executor.steps, Executor.step, hone]
    exact ih
/-! ## Frame properties on arbitrary executor states -/

namespace Executor

variable {α : Type}

theorem popLocal_control {e e1 : Executor α} {i : Nat} {task t : Task α} {ok : Bool}
    (h : popLocal e i task = some (ok, t, e1)) : control e1 = control e := by
  unfold popLocal at h
  split at h
  · simp at h
  · split at h
    · simp at h
    · simp only [Option.some.injEq, Prod.mk.injEq] at h
      obtain ⟨_, _, rfl⟩ := h
      rfl

theorem popGlobal_control {e e1 : Executor α} {p : Nat} {task t : Task α} {ok : Bool}
    (h : popGlobal e p task = some (ok, t, e1)) : control e1 = control e := by
  unfold popGlobal at h
  split at h
  · split at h
    · simp at h
    · simp only [Option.some.injEq, Prod.mk.injEq] at h
      obtain ⟨_, _, rfl⟩ := h
      rfl
  · simp at h

theorem stealLoop_control (startIdx : Nat) :
    ∀ (is : List Nat) (e : Executor α) (task : Task α) {r : Bool × Task α × Executor α},
      stealLoop startIdx is e task = some r → control r.2.2 = control e
  | [], e, task, r, h => by
    simp only [stealLoop, Option.some.injEq] at h
    subst h; rfl
  | i :: is, e, task, r, h => by
    simp only [stealLoop] at h
    cases hpop : popLocal e ((startIdx + i) % e._localQVec.length) task with
    | none => simp [hpop] at h
    | some x =>
      obtain ⟨ok, t, e1⟩ := x
      have hc := popLocal_control hpop
      cases ok with
      | true =>
        simp only [hpop, Option.some.injEq] at h
        subst h; exact hc
      | false =>
        simp only [hpop] at h
        rw [stealLoop_control startIdx is e1 t h, hc]

theorem tryStealTask_control {e : Executor α} {self : Nat} {task : Task α}
    {r : Bool × Task α × Executor α} (h : tryStealTask e self task = some r) :
    control r.2.2 = control e := by
  unfold tryStealTask at h
  split at h
  · simp only [Option.some.injEq] at h; subst h; rfl
  · split at h
    · simp at h
    · exact stealLoop_control _ _ _ _ h

theorem globalLoop_control (self : Nat) :
    ∀ (ps : List Nat) (e : Executor α) (task : Task α) {r : Bool × Task α × Executor α},
      globalLoop self ps e task = some r → control r.2.2 = control e
  | [], e, task, r, h => by
    simp only [globalLoop] at h
    exact tryStealTask_control h
  | p :: ps, e, task, r, h => by
    simp only [globalLoop] at h
    cases hpop : popGlobal e p task with
    | none => simp [hpop] at h
    | some x =>
      obtain ⟨ok, t, e1⟩ := x
      have hc := popGlobal_control hpop
      cases ok with
      | true =>
        simp only [hpop, Option.some.injEq] at h
        subst h; exact hc
      | false =>
        simp only [hpop] at h
        rw [globalLoop_control self ps e1 t h, hc]

theorem getNextTask_control {e : Executor α} {self : Nat} {task : Task α}
    {r : Bool × Task α × Executor α} (h : getNextTask e self task = some r) :
    control r.2.2 = control e := by
  unfold getNextTask at h
  simp only at h
  split at h
  · cases hpop : popLocal e self task with
    | none => simp [hpop] at h
    | some x =>
      obtain ⟨ok, t, e1⟩ := x
      have hc := popLocal_control hpop
      cases ok with
      | true =>
        simp only [hpop, Option.some.injEq] at h
        subst h; exact hc
      | false =>
        simp only [hpop] at h
        rw [globalLoop_control self _ e1 t h, hc]
  · exact globalLoop_control self _ e task h

/-- The members that bound the worker count. -/
theorem control_bounds {e e1 : Executor α} (h : control e1 = control e) :
    e1.stopped = e.stopped ∧ e1._minThreads = e._minThreads ∧
      e1._maxThreads = e._maxThreads ∧ e1._activeThreads = e._activeThreads := by
  simp only [control, Prod.mk.injEq] at h
  exact ⟨h.2.1, h.2.2.2.1, h.2.2.2.2.1, h.2.2.2.2.2.2.1⟩

/-- What the end of a wait does to the active counter of a running executor. -/
theorem waitForTask_active {e e1 : Executor α} {self : Nat} {task t : Task α} {b : Bool}
    (h : waitForTask e self task = some (b, t, e1)) (hrun : e.stopped = false) :
    e1.stopped = false ∧ e1._minThreads = e._minThreads ∧ e1._maxThreads = e._maxThreads ∧
      (e1._activeThreads = e._activeThreads ∨
        (e._minThreads < e._activeThreads ∧ e1._activeThreads = decr e._activeThreads)) := by
  unfold waitForTask at h
  cases hget : getNextTask e self task with
  | none => simp [hget] at h
  | some x =>
    obtain ⟨hasTask, t1, e2⟩ := x
    obtain ⟨hs, hmin, hmax, hact⟩ := control_bounds (getNextTask_control hget)
    simp only at hs hmin hmax hact
    have hs2 : e2.stopped = false := by rw [hs, hrun]
    simp only [hget, hs2, Bool.false_or, Bool.false_eq_true, if_false] at h
    have htimeout : handleTimeout e2 t1 = (b, t, e1) →
        e1.stopped = false ∧ e1._minThreads = e._minThreads ∧ e1._maxThreads = e._maxThreads ∧
          (e1._activeThreads = e._activeThreads ∨
            (e._minThreads < e._activeThreads ∧ e1._activeThreads = decr e._activeThreads)) := by
      intro ht
      unfold handleTimeout at ht
      simp only [hs2, Bool.false_or, decide_eq_true_eq] at ht
      split at ht
      · rename_i hgt
        simp only [Prod.mk.injEq] at ht
        obtain ⟨_, _, rfl⟩ := ht
        refine ⟨hs2, hmin, hmax, Or.inr ⟨by rw [← hmin, ← hact]; exact hgt, ?_⟩⟩
        show decr e2._activeThreads = _
        rw [hact]
      · simp only [Prod.mk.injEq] at ht
        obtain ⟨_, _, rfl⟩ := ht
        exact ⟨hs2, hmin, hmax, Or.inl hact⟩
    cases hasTask with
    | true =>
      simp only [if_true, Option.some.injEq, Prod.mk.injEq] at h
      obtain ⟨_, _, rfl⟩ := h
      exact ⟨hs2, hmin, hmax, Or.inl hact⟩
    | false =>
      simp only [Bool.false_eq_true, if_false, Option.some.injEq] at h
      exact htimeout h

theorem pushLocal_control {e e1 : Executor α} {i : Nat} {task : Task α}
    (h : pushLocal e i task = some e1) : control e1 = control e := by
  unfold pushLocal at h
  split at h
  · simp at h
  · split at h
    · simp at h
    · simp only [Option.some.injEq] at h
      subst h; rfl

theorem pushGlobal_control {e e1 : Executor α} {p : Nat} {task : Task α}
    (h : pushGlobal e p task = some e1) : control e1 = control e := by
  unfold pushGlobal at h
  split at h
  · split at h
    · simp at h
    · simp only [Option.some.injEq] at h
      subst h; rfl
  · simp at h

theorem checkTaskQueueResize_control {env : Env} {e e1 : Executor α}
    (h : checkTaskQueueResize env e = some e1) : control e1 = control e := by
  unfold checkTaskQueueResize at h
  split at h
  · simp only [Option.some.injEq] at h; subst h; rfl
  · simp only at h
    split at h
    · simp at h
    · simp only [Option.some.injEq] at h
      subst h; rfl

theorem addThread_active {env : Env} {e e1 : Executor α} (h : addThread env e = some e1) :
    e1.stopped = e.stopped ∧ e1._minThreads = e._minThreads ∧ e1._maxThreads = e._maxThreads ∧
      (e1._activeThreads = e._activeThreads ∨
        (e._activeThreads < e._maxThreads ∧ e1._activeThreads = incr e._activeThreads)) := by
  unfold addThread at h
  split at h
  · simp only [Option.some.injEq] at h; subst h
    exact ⟨rfl, rfl, rfl, Or.inl rfl⟩
  · rename_i hlt
    simp only at h
    split at h
    · simp at h
    · split at h
      · simp only [Option.some.injEq] at h; subst h
        exact ⟨rfl, rfl, rfl, Or.inr ⟨by omega, rfl⟩⟩
      · simp only [Option.some.injEq] at h; subst h
        exact ⟨rfl, rfl, rfl, Or.inl rfl⟩

/-- What a call of `schedule` does to the active counter of a running executor. -/
theorem schedule_active {env : Env} {e e1 : Executor α} {self : Nat} {task : α} {p : Priority}
    (h : schedule env e self task p = some e1) :
    e1.stopped = e.stopped ∧ e1._minThreads = e._minThreads ∧ e1._maxThreads = e._maxThreads ∧
      (e1._activeThreads = e._activeThreads ∨
        (e._activeThreads < e._maxThreads ∧ e1._activeThreads = incr e._activeThreads)) := by
  unfold schedule at h
  split at h
  · simp only [Option.some.injEq] at h; subst h
    exact ⟨rfl, rfl, rfl, Or.inl rfl⟩
  · cases hres : checkTaskQueueResize env e with
    | none => simp [hres] at h
    | some e2 =>
      obtain ⟨hs2, hmin2, hmax2, hact2⟩ := control_bounds (checkTaskQueueResize_control hres)
      simp only [hres] at h
      split at h
      · simp at h
      · rename_i e3 hp
        have hc3 : control e3 = control e2 := by
          split at hp
          · exact pushLocal_control hp
          · exact pushGlobal_control hp
        obtain ⟨hs3, hmin3, hmax3, hact3⟩ := control_bounds hc3
        split at h
        · simp at h
        · obtain ⟨hs4, hmin4, hmax4, hact4⟩ := addThread_active h
          simp only at hs4 hmin4 hmax4 hact4
          refine ⟨by rw [hs4, hs3, hs2], by rw [hmin4, hmin3, hmin2], by rw [hmax4, hmax3, hmax2], ?_⟩
          rw [← hact2, ← hact3, ← hmax2, ← hmax3]
          exact hact4
        · simp only [Option.some.injEq] at h; subst h
          exact ⟨by rw [← hs2, ← hs3], by rw [← hmin2, ← hmin3], by rw [← hmax2, ← hmax3],
            Or.inl (by rw [← hact2, ← hact3])⟩

end Executor
/-! ## Bounds of the active-worker counter -/

namespace Executor

variable {α : Type}

theorem iterate_incr : ∀ (n a : Nat), a + n ≤ SIZE_MAX → Nat.iterate incr n a = a + n
  | 0, _, _ => rfl
  | n + 1, a, h => by
    have ha : a < SIZE_MAX := by omega
    rw [Function.iterate_succ_apply, incr_of_lt ha, iterate_incr n (a + 1) (by omega)]
    omega

theorem createThreadPool_active {e e1 : Executor α} {n : Nat}
    (h : createThreadPool e n = some e1) :
    e1.stopped = e.stopped ∧ e1._minThreads = e._minThreads ∧ e1._maxThreads = e._maxThreads ∧
      e1._activeThreads = Nat.iterate incr n e._activeThreads := by
  unfold createThreadPool at h
  simp only at h
  split at h
  · simp at h
  · split at h
    · simp at h
    · simp only [Option.some.injEq] at h
      subst h
      exact ⟨rfl, rfl, rfl, rfl⟩

theorem start_bounded {cfg : Config} {uninit : Nat} {e : Executor α}
    (hle : cfg.minThreads ≤ cfg.threadCount) (hsz : cfg.threadCount ≤ SIZE_MAX)
    (h : start (new cfg uninit) = some e) : Bounded cfg e := by
  obtain ⟨hs, hmin, hmax, hact⟩ := createThreadPool_active h
  have hit : Nat.iterate incr cfg.minThreads 0 = 0 + cfg.minThreads :=
    iterate_incr cfg.minThreads 0 (by omega)
  simp only [new] at hs hmin hmax hact
  rw [hit] at hact
  exact ⟨hs, hmin, hmax, by omega, by omega⟩

theorem step_bounded {cfg : Config} {e e1 : Executor α} {ev : Event α}
    (hsz : cfg.threadCount ≤ SIZE_MAX) (hb : Bounded cfg e) (h : step e ev = some e1) :
    Bounded cfg e1 := by
  obtain ⟨hrun, hmin, hmax, hlo, hup⟩ := hb
  cases ev with
  | schedule env self task p =>
    obtain ⟨hs, hmin1, hmax1, hact⟩ := schedule_active (show schedule env e self task p = some e1 from h)
    refine ⟨by rw [hs, hrun], by rw [hmin1, hmin], by rw [hmax1, hmax], ?_, ?_⟩
    · rcases hact with hact | ⟨hlt, hact⟩
      · omega
      · rw [hact, incr_of_lt (by omega)]; omega
    · rcases hact with hact | ⟨hlt, hact⟩
      · omega
      · rw [hact, incr_of_lt (by omega)]; omega
  | waitForTask self task =>
    simp only [step, Option.map_eq_some'] at h
    obtain ⟨⟨b, t, e2⟩, hw, rfl⟩ := h
    obtain ⟨hs, hmin1, hmax1, hact⟩ := waitForTask_active hw hrun
    refine ⟨hs, by rw [hmin1, hmin], by rw [hmax1, hmax], ?_, ?_⟩
    · rcases hact with hact | ⟨hlt, hact⟩
      · show cfg.minThreads ≤ e2._activeThreads; omega
      · show cfg.minThreads ≤ e2._activeThreads
        rw [hact]; unfold decr; rw [if_neg (by omega)]; omega
    · rcases hact with hact | ⟨hlt, hact⟩
      · show e2._activeThreads ≤ cfg.threadCount; omega
      · show e2._activeThreads ≤ cfg.threadCount
        rw [hact]; unfold decr; rw [if_neg (by omega)]; omega

theorem steps_bounded {cfg : Config} (hsz : cfg.threadCount ≤ SIZE_MAX) :
    ∀ (evs : List (Event α)) (e e1 : Executor α), Bounded cfg e → steps e evs = some e1 →
      Bounded cfg e1
  | [], e, e1, hb, h => by
    simp only [steps, Option.some.injEq] at h
    subst h; exact hb
  | ev :: evs, e, e1, hb, h => by
    simp only [steps] at h
    cases hst : step e ev with
    | none => simp [hst] at h
    | some e2 =>
      simp only [hst] at h
      exact steps_bounded hsz evs e2 e1 (step_bounded hsz hb hst) h

end Executor

/-- C7, as stated for every `Config`, fails: with `minThreads = 2` and
`threadCount = 1`, `start()` alone leaves `active = 2` above `max_workers = 1`. -/
theorem active_workers_exceed_max_after_start :
    (Executor.start (Executor.new ⟨1, 2, 3, 60, false, 256, 512⟩ 0 : Executor Nat)).map
      (fun e => (e._minThreads, e._activeThreads, e._maxThreads,
        decide (e._minThreads ≤ e._activeThreads ∧ e._activeThreads ≤ e._maxThreads))) =
      some (2, 2, 1, false) := by
  set_option maxRecDepth 100000 in
  decide

/-- C7 amended: for every `Config` with `minThreads ≤ threadCount` (both `size_t`
values), in every state reached from `start()` through calls of `schedule`, task
acquisitions and idle timeouts, `min_workers ≤ active ≤ max_workers`. -/
theorem active_workers_within_bounds {α : Type} (cfg : Executor.Config) (uninit : Nat)
    (hle : cfg.minThreads ≤ cfg.threadCount) (hsz : cfg.threadCount ≤ SIZE_MAX)
    (evs : List (Executor.Event α)) :
    ((Executor.start (Executor.new cfg uninit : Executor α)).bind
        (fun e0 => Executor.steps e0 evs)).elim True
      (fun e => e.stopped = false ∧ e._minThreads = cfg.minThreads ∧
        e._maxThreads = cfg.threadCount ∧
        e._minThreads ≤ e._activeThreads ∧ e._activeThreads ≤ e._maxThreads) := by
  cases h : (Executor.start (Executor.new cfg uninit : Executor α)).bind
      (fun e0 => Executor.steps e0 evs) with
  | none => trivial
  | some e =>
    simp only [Option.bind_eq_some] at h
    obtain ⟨e0, h0, h1⟩ := h
    obtain ⟨hrun, hmin, hmax, hlo, hup⟩ :=
      Executor.steps_bounded hsz evs e0 e (Executor.start_bounded hle hsz h0) h1
    exact ⟨hrun, hmin, hmax, by omega, by omega⟩
/-! ## The upscale test and the idle timeout, in general -/

namespace Executor

variable {α : Type}

theorem addThread_spawn (env : Env) (e : Executor α) (hlt : e._activeThreads < e._maxThreads)
    (hstart : env.threadStarts = true) :
    ∃ e1, addThread env e = some e1 ∧ e1._activeThreads = incr e._activeThreads ∧
      e1._threadsVec = e._threadsVec ++ [e._localQVec.length] := by
  obtain ⟨q, hq, _⟩ := MPMCQueue.new_abs (T := Task α) MPMCQueue.DEFAULT_POOL_SIZE (by decide)
  have hnot : ¬ e._activeThreads ≥ e._maxThreads := by omega
  exact ⟨{ e with
      _localQVec := e._localQVec ++ [q]
      _threadsVec := e._threadsVec ++ [e._localQVec.length]
      _activeThreads := incr e._activeThreads },
    by simp only [addThread, hnot, if_false, hq, hstart, if_true], rfl, rfl⟩

/-- The upscale decision of `schedule` on a started executor when threads can be
created: a worker is spawned exactly when, after the increment of `pending`,
`pending / (active + 1)` exceeds the member `_tasksPerThreadThreshold` and
`active < max`.  The member is the one the constructor leaves uninitialised; the
configured `tasksPerThreadThreshold` plays no part. -/
theorem schedule_spawn_condition (env : Env) {e : Executor α} {g l : List (List (Task α))}
    (h : Rep e g l) (hrun : e.stopped = false) (self : Nat) (task : α) (p : Priority)
    (hp : p ≠ Priority.kNumPriorities) (hpend : e._pendingTasks < SIZE_MAX)
    (hact : e._activeThreads < SIZE_MAX) (hstart : env.threadStarts = true) :
    ∃ e1, schedule env e self task p = some e1 ∧
      e1._activeThreads = (if (e._pendingTasks + 1) / (e._activeThreads + 1) >
          e._tasksPerThreadThreshold ∧ e._activeThreads < e._maxThreads
        then e._activeThreads + 1 else e._activeThreads) ∧
      e1._threadsVec.length = (if (e._pendingTasks + 1) / (e._activeThreads + 1) >
          e._tasksPerThreadThreshold ∧ e._activeThreads < e._maxThreads
        then e._threadsVec.length + 1 else e._threadsVec.length) := by
  obtain ⟨e1, hres, hrep1, hpend1, hstop1, hcfg1, hact1, hmax1, _, hthr1, hvec1⟩ :=
    checkTaskQueueResize_rep env h
  have hpush : ∃ e2, (if e1._config.enableWorkStealing && decide (self < e1._localQVec.length)
        then pushLocal e1 self ⟨task, p⟩ else pushGlobal e1 p.toNat ⟨task, p⟩) = some e2 ∧
      e2._pendingTasks = e1._pendingTasks ∧ control e2 = control e1 := by
    by_cases hc : (e1._config.enableWorkStealing && decide (self < e1._localQVec.length)) = true
    · rw [if_pos hc]
      have hlt : self < l.length := by
        rw [← hrep1.local_length]; simp at hc; exact hc.2
      obtain ⟨e2, h2, _, h3, h4⟩ := pushLocal_rep hrep1 (local_tasks_of_lt (g := g) hlt) ⟨task, p⟩
      exact ⟨e2, h2, h3, h4⟩
    · rw [if_neg hc]
      have hlt : p.toNat < g.length := by
        rw [h.three]; cases p <;> simp [Priority.toNat] at hp ⊢
      obtain ⟨e2, h2, _, h3, h4⟩ := pushGlobal_rep hrep1 (global_tasks_of_lt (l := l) hlt) ⟨task, p⟩
      exact ⟨e2, h2, h3, h4⟩
  obtain ⟨e2, hpush2, hpend2, hctl2⟩ := hpush
  simp only [control, Prod.mk.injEq] at hctl2
  obtain ⟨hvec2, _, _, _, hmax2, hthr2, hact2, _⟩ := hctl2
  have hact3 : e2._activeThreads = e._activeThreads := by rw [hact2, hact1]
  have hpend3 : incr e2._pendingTasks = e._pendingTasks + 1 := by
    rw [hpend2, hpend1]; exact incr_of_lt hpend
  have hscale := shouldScaleUp_some (e := { e2 with _pendingTasks := incr e2._pendingTasks })
    (by show e2._activeThreads < SIZE_MAX; rw [hact3]; exact hact)
  dsimp only at hscale
  have hval : (decide (incr e2._pendingTasks / (e2._activeThreads + 1) >
        e2._tasksPerThreadThreshold) && decide (e2._activeThreads < e2._maxThreads) &&
      decide (incr e2._pendingTasks > 0)) =
      decide ((e._pendingTasks + 1) / (e._activeThreads + 1) > e._tasksPerThreadThreshold ∧
        e._activeThreads < e._maxThreads) := by
    rw [hpend3, hact3, hthr2, hthr1, hmax2, hmax1]
    simp [Bool.decide_and]
  rw [hval] at hscale
  simp only [schedule, hrun, Bool.false_eq_true, if_false, hres, hpush2, hscale]
  by_cases hcond : (e._pendingTasks + 1) / (e._activeThreads + 1) > e._tasksPerThreadThreshold ∧
      e._activeThreads < e._maxThreads
  · obtain ⟨e4, hadd, hact4, hvec4⟩ := addThread_spawn env
      { e2 with _pendingTasks := incr e2._pendingTasks }
      (by show e2._activeThreads < e2._maxThreads; rw [hact3, hmax2, hmax1]; exact hcond.2) hstart
    rw [decide_eq_true hcond, if_pos hcond, if_pos hcond]
    refine ⟨e4, hadd, ?_, ?_⟩
    · rw [hact4]; show incr e2._activeThreads = _; rw [hact3, incr_of_lt hact]
    · rw [hvec4]; simp [hvec2, hvec1]
  · rw [decide_eq_false hcond, if_neg hcond, if_neg hcond]
    exact ⟨_, rfl, hact3, by show e2._threadsVec.length = _; rw [hvec2, hvec1]⟩

/-- The member compared by the upscale test after `start()`: the indeterminate
value, whatever the configuration says. -/
theorem start_threshold {cfg : Config} {uninit : Nat} {e : Executor α}
    (h : start (new cfg uninit) = some e) :
    e._tasksPerThreadThreshold = uninit ∧ e._config = cfg := by
  unfold start createThreadPool at h
  simp only at h
  split at h
  · simp at h
  · split at h
    · simp at h
    · simp only [Option.some.injEq] at h
      subst h
      exact ⟨rfl, rfl⟩

/-- The end of a wait that times out on an idle, running executor: `waitForTask`
returns `false` in both cases; `active` drops by one above the floor and stays as it
is at the floor. -/
theorem waitForTask_timeout_spec {e : Executor α} {l : List (List (Task α))}
    (h : Rep e [[], [], []] l) (hl : ∀ ts ∈ l, ts = []) (hrun : e.stopped = false)
    {self : Nat} (hself : e._config.enableWorkStealing = true → self < l.length)
    (hmax : self < SIZE_MAX) (task : Task α) :
    waitForTask e self task = some (false, task,
      if e._minThreads < e._activeThreads then decrementActiveThreads e else e) := by
  have hd := getNextTask_takesFirst h hself hmax task
  unfold TakesFirst at hd
  rw [find_dispatchOrder_globals hl] at hd
  simp only [List.isEmpty_nil, Bool.not_true, Bool.false_eq_true, if_false] at hd
  simp only [waitForTask, hd, hrun, Bool.or_false, Bool.false_eq_true, if_false, handleTimeout,
    Bool.false_or, decide_eq_true_eq, gt_iff_lt]
  split <;> rfl

end Executor
set_option maxRecDepth 100000 in
/-- The witness of C7: `min = 1`, `max = 4`; two submissions (the second one spawns
a worker), two task acquisitions and an idle timeout (which retires a worker). -/
theorem active_workers_within_bounds_witness :
    ((Executor.start (Executor.new ⟨4, 1, 3, 60, false, 256, 512⟩ 0 : Executor Nat)).bind
      (fun e0 => Executor.steps e0
        [Executor.Event.schedule ⟨fun _ _ => true, true⟩ SIZE_MAX 7 Executor.Priority.Normal,
         Executor.Event.schedule ⟨fun _ _ => true, true⟩ SIZE_MAX 8 Executor.Priority.Normal,
         Executor.Event.waitForTask 0 ⟨0, Executor.Priority.Normal⟩,
         Executor.Event.waitForTask 0 ⟨0, Executor.Priority.Normal⟩,
         Executor.Event.waitForTask 0 ⟨0, Executor.Priority.Normal⟩])).isSome = true ∧
    ((Executor.start (Executor.new ⟨4, 1, 3, 60, false, 256, 512⟩ 0 : Executor Nat)).bind
      (fun e0 => Executor.steps e0
        [Executor.Event.schedule ⟨fun _ _ => true, true⟩ SIZE_MAX 7 Executor.Priority.Normal,
         Executor.Event.schedule ⟨fun _ _ => true, true⟩ SIZE_MAX 8 Executor.Priority.Normal,
         Executor.Event.waitForTask 0 ⟨0, Executor.Priority.Normal⟩,
         Executor.Event.waitForTask 0 ⟨0, Executor.Priority.Normal⟩,
         Executor.Event.waitForTask 0 ⟨0, Executor.Priority.Normal⟩])).elim True
      (fun e => e.stopped = false ∧ e._minThreads = 1 ∧ e._maxThreads = 4 ∧
        e._minThreads ≤ e._activeThreads ∧ e._activeThreads ≤ e._maxThreads) :=
  ⟨by decide,
    active_workers_within_bounds ⟨4, 1, 3, 60, false, 256, 512⟩ 0 (by decide) (by decide) _⟩

/-! ## The threshold of the upscale test -/

/-- C8 at its failing input: `Config` with `tasksPerThreadThreshold = 3`, `min = 1`,
`max = 4`, the uninitialised member `_tasksPerThreadThreshold` holding `0`.  After
`start()` and one `schedule` the counters are `pending = 1`, `active = 1`; the second
`schedule` makes `pending = 2`, and although `2 / (1 + 1) = 1` is not above the
configured `3`, a worker is spawned: `active = 2`, two threads. -/
theorem schedule_ignores_configured_threshold :
    ((Executor.start (Executor.new ⟨4, 1, 3, 60, false, 256, 512⟩ 0 : Executor Nat)).bind
      (fun e0 => Executor.steps e0
        [Executor.Event.schedule ⟨fun _ _ => true, true⟩ SIZE_MAX 7
          Executor.Priority.Normal])).map
      (fun e => (e._pendingTasks, e._activeThreads, e._threadsVec.length,
        e._config.tasksPerThreadThreshold, e._tasksPerThreadThreshold)) = some (1, 1, 1, 3, 0) ∧
    ((Executor.start (Executor.new ⟨4, 1, 3, 60, false, 256, 512⟩ 0 : Executor Nat)).bind
      (fun e0 => Executor.steps e0
        [Executor.Event.schedule ⟨fun _ _ => true, true⟩ SIZE_MAX 7 Executor.Priority.Normal,
         Executor.Event.schedule ⟨fun _ _ => true, true⟩ SIZE_MAX 8
          Executor.Priority.Normal])).map
      (fun e => (e._pendingTasks, e._activeThreads, e._threadsVec.length,
        e._config.tasksPerThreadThreshold, e._tasksPerThreadThreshold)) = some (2, 2, 2, 3, 0) ∧
    decide (2 / (1 + 1) > 3) = false := by
  set_option maxRecDepth 100000 in
  decide

/-! ## The idle timeout -/

/-- C9 at its failing input: one worker, `min_workers = 1`, `active = 1`, every queue
empty, no shutdown.  The wait of worker 0 times out: `waitForTask` returns `false`
with `active` still `1`, and the turn of `run` ends with `return`: the worker exits. -/
theorem waitForTask_timeout_at_min_returns_false :
    (Executor.waitForTask
      (Executor.sampleExecutor ⟨1, 1, 3, 60, true, 256, 512⟩ 3 1 [[], [], []] [[]] : Executor Nat)
      0 ⟨0, Executor.Priority.Normal⟩).map
      (fun r => (r.1, r.2.2._activeThreads, r.2.2._minThreads, r.2.2.stopped)) =
      some (false, 1, 1, false) ∧
    (Executor.runTurn (fun _ => Except.ok ()) 0
      (Executor.sampleExecutor ⟨1, 1, 3, 60, true, 256, 512⟩ 3 1 [[], [], []] [[]] : Executor Nat)
      0).map
      (fun t => match t with
        | Executor.RunTurn.returned e => some e._activeThreads
        | _ => none) = some (some 1) := by
  decide

/-! ## Faults of a task's action -/

/-- C10: `executeTask` returns normally whatever the action does: nothing is written
when it returns, the `what()` line when it throws a `std::exception`, the fixed line
when it throws anything else; no exception leaves `executeTask`, so a turn of `run`
that obtained a task always goes on to the next `waitForTask`. -/
theorem executeTask_never_propagates {α : Type} (invoke : α → Except Executor.Thrown Unit)
    (task : Executor.Task α) (noop : α) (e : Executor α) (self : Nat) :
    (∃ cerr, Executor.executeTask invoke task = Except.ok cerr) ∧
    (invoke task.func = Except.ok () → Executor.executeTask invoke task = Except.ok []) ∧
    (∀ what, invoke task.func = Except.error (Executor.Thrown.stdException what) →
      Executor.executeTask invoke task = Except.ok ["Task exception: " ++ what]) ∧
    (invoke task.func = Except.error Executor.Thrown.other →
      Executor.executeTask invoke task = Except.ok ["Unknown task exception occurred"]) ∧
    (∀ e1 thrown, Executor.runTurn invoke noop e self ≠
      some (Executor.RunTurn.unwound e1 thrown)) ∧
    (∀ t e1, Executor.waitForTask e self ⟨noop, Executor.Priority.Normal⟩ = some (true, t, e1) →
      ∃ cerr, Executor.runTurn invoke noop e self = some (Executor.RunTurn.nextWait e1 cerr)) := by
  have hok : ∀ t : Executor.Task α, ∃ cerr, Executor.executeTask invoke t = Except.ok cerr := by
    intro t
    unfold Executor.executeTask Executor.Task.call
    split
    · exact ⟨_, rfl⟩
    · exact ⟨_, rfl⟩
    · exact ⟨_, rfl⟩
  refine ⟨hok task, ?_, ?_, ?_, ?_, ?_⟩
  · intro h
    simp [Executor.executeTask, Executor.Task.call, h]
  · intro what h
    simp [Executor.executeTask, Executor.Task.call, h, Executor.handleTaskError]
  · intro h
    simp [Executor.executeTask, Executor.Task.call, h, Executor.handleUnknownError]
  · intro e1 thrown h
    unfold Executor.runTurn at h
    split at h
    · simp at h
    · simp at h
    · rename_i t e2 _
      obtain ⟨cerr, hc⟩ := hok t
      simp [hc] at h
  · intro t e1 h
    obtain ⟨cerr, hc⟩ := hok t
    exact ⟨cerr, by simp [Executor.runTurn, h, hc]⟩

/-- C10 on a sample executor holding one task whose action throws a
`std::exception`: the turn of `run` logs the message and reaches the next wait. -/
theorem executeTask_never_propagates_witness :
    Executor.waitForTask
        (Executor.sampleExecutor ⟨1, 1, 3, 60, false, 256, 512⟩ 3 1
          [[], [⟨1, Executor.Priority.Normal⟩], []] [] : Executor Nat)
        0 ⟨0, Executor.Priority.Normal⟩ =
      some (true, ⟨1, Executor.Priority.Normal⟩,
        (Executor.waitForTask
          (Executor.sampleExecutor ⟨1, 1, 3, 60, false, 256, 512⟩ 3 1
            [[], [⟨1, Executor.Priority.Normal⟩], []] [] : Executor Nat)
          0 ⟨0, Executor.Priority.Normal⟩).elim
          (Executor.new ⟨1, 1, 3, 60, false, 256, 512⟩ 0) (fun r => r.2.2)) ∧
    ∃ cerr, Executor.runTurn
        (fun n => if n = 0 then Except.ok ()
          else Except.error (Executor.Thrown.stdException "boom")) 0
        (Executor.sampleExecutor ⟨1, 1, 3, 60, false, 256, 512⟩ 3 1
          [[], [⟨1, Executor.Priority.Normal⟩], []] [] : Executor Nat) 0 =
      some (Executor.RunTurn.nextWait
        ((Executor.waitForTask
          (Executor.sampleExecutor ⟨1, 1, 3, 60, false, 256, 512⟩ 3 1
            [[], [⟨1, Executor.Priority.Normal⟩], []] [] : Executor Nat)
          0 ⟨0, Executor.Priority.Normal⟩).elim
          (Executor.new ⟨1, 1, 3, 60, false, 256, 512⟩ 0) (fun r => r.2.2)) cerr) :=
  ⟨by rfl,
    (executeTask_never_propagates
      (fun n => if n = 0 then Except.ok () else Except.error (Executor.Thrown.stdException "boom"))
      ⟨1, Executor.Priority.Normal⟩ 0
      (Executor.sampleExecutor ⟨1, 1, 3, 60, false, 256, 512⟩ 3 1
        [[], [⟨1, Executor.Priority.Normal⟩], []] [] : Executor Nat) 0).2.2.2.2.2 _ _ (by rfl)⟩
/-! ## The batch executor -/

namespace BatchExecutor

open Executor hiding Task getNextTask getNextTasks

variable {α : Type}

theorem globalEmpty_rep {e : Executor α} {g l : List (List (Executor.Task α))} (h : Rep e g l)
    {p : Nat} {ts : List (Executor.Task α)} (hp : g[p]? = some ts) :
    globalEmpty e p = some ts.isEmpty := by
  obtain ⟨oq, hoq, q, rfl, habs⟩ := forall₂_getElem? h.globals hp
  simp only [globalEmpty, hoq, MPMCQueue.empty_abs habs]

theorem iterate_decr_succ (n a : Nat) :
    Nat.iterate decr (n + 1) a = Nat.iterate decr n (decr a) :=
  Function.iterate_succ_apply decr n a

/-- The inner loop moves the first `b - |acc|` tasks of the queue into the batch. -/
theorem drainLoop_spec {l : List (List (Executor.Task α))} (p b : Nat) :
    ∀ (fuel : Nat) (e : Executor α) (g : List (List (Executor.Task α)))
      (ts acc : List (Executor.Task α)) (task : Executor.Task α),
      Rep e g l → g[p]? = some ts → min (b - acc.length) ts.length < fuel →
      ∃ e1 task1, drainLoop p fuel e ⟨acc, b⟩ task =
          some (e1, ⟨acc ++ ts.take (b - acc.length), b⟩, task1) ∧
        Rep e1 (g.set p (ts.drop (b - acc.length))) l ∧
        e1._pendingTasks = Nat.iterate decr (min (b - acc.length) ts.length) e._pendingTasks ∧
        control e1 = control e
  | 0, _, _, _, _, _, _, _, hf => by omega
  | fuel + 1, e, g, ts, acc, task, h, hp, hf => by
    by_cases hfull : b ≤ acc.length
    · have hz : b - acc.length = 0 := by omega
      refine ⟨e, task, ?_, ?_, ?_, rfl⟩
      · simp [drainLoop, TaskBatch.full, hfull, hz]
      · rw [hz, List.drop_zero, set_of_getElem? hp]; exact h
      · rw [hz, Nat.zero_min]; rfl
    · have hnf : (TaskBatch.full (⟨acc, b⟩ : TaskBatch α)) = false := by
        simp [TaskBatch.full]; omega
      cases ts with
      | nil =>
        refine ⟨e, task, ?_, ?_, ?_, rfl⟩
        · simp [drainLoop, hnf, globalEmpty_rep h hp]
        · rw [List.drop_nil, set_of_getElem? hp]; exact h
        · simp
      | cons t rest =>
        obtain ⟨e1, hpop, hrep1, hpend1, hctl1⟩ := popGlobal_cons h hp task
        obtain ⟨k, hk⟩ : ∃ k, b - acc.length = k + 1 := ⟨b - acc.length - 1, by omega⟩
        have hplt : p < g.length := by
          rcases Nat.lt_or_ge p g.length with hlt | hge
          · exact hlt
          · rw [List.getElem?_eq_none hge] at hp; simp at hp
        have hp1 : (g.set p rest)[p]? = some rest := by
          simp [List.getElem?_set, hplt]
        have hacc : b - (acc ++ [t]).length = k := by
          simp only [List.length_append, List.length_singleton]; omega
        have hf1 : min (b - (acc ++ [t]).length) rest.length < fuel := by
          rw [hacc]; rw [hk] at hf
          simp only [List.length_cons, Nat.succ_min_succ] at hf
          omega
        obtain ⟨e2, task2, hrec, hrep2, hpend2, hctl2⟩ :=
          drainLoop_spec p b fuel { e1 with _pendingTasks := decr e1._pendingTasks }
            (g.set p rest) rest (acc ++ [t]) t (hrep1.of_queues rfl rfl) hp1 hf1
        refine ⟨e2, task2, ?_, ?_, ?_, ?_⟩
        · simp only [drainLoop, hnf, globalEmpty_rep h hp, List.isEmpty_cons, hpop]
          rw [hacc] at hrec
          simpa [TaskBatch.add, hk] using hrec
        · rw [hacc, List.set_set] at hrep2
          rw [hk]; simpa using hrep2
        · rw [hpend2, hacc, hk]
          simp only [List.length_cons, Nat.succ_min_succ, iterate_decr_succ]
          show Nat.iterate decr _ (decr e1._pendingTasks) = _
          rw [hpend1]
        · rw [hctl2]; exact hctl1

theorem drainLoop_skip {e : Executor α} {g l : List (List (Executor.Task α))} (h : Rep e g l)
    {p : Nat} (hp : g[p]? = some []) {b : Nat} (hb : 1 ≤ b) (fuel : Nat) (hf : 0 < fuel)
    (task : Executor.Task α) :
    drainLoop p fuel e ⟨[], b⟩ task = some (e, ⟨[], b⟩, task) := by
  obtain ⟨f, rfl⟩ : ∃ f, fuel = f + 1 := ⟨fuel - 1, by omega⟩
  have hnf : (TaskBatch.full (⟨[], b⟩ : TaskBatch α)) = false := by
    simp [TaskBatch.full]; omega
  simp [drainLoop, hnf, globalEmpty_rep h hp]

/-- The loop over the priorities stops at the first queue that is not empty. -/
theorem batchLoop_spec {e : Executor α} {g l : List (List (Executor.Task α))} (h : Rep e g l)
    {p b : Nat} {ts : List (Executor.Task α)} (hp : g[p]? = some ts) (hne : ts ≠ [])
    (hb : 1 ≤ b) (fuel : Nat) (hf : min b ts.length < fuel) (task : Executor.Task α)
    (post : List Nat) :
    ∀ pre : List Nat, (∀ k ∈ pre, g[k]? = some []) →
      ∃ e1 task1, batchLoop fuel (pre ++ p :: post) e ⟨[], b⟩ task =
          some (e1, ⟨ts.take b, b⟩, task1) ∧
        Rep e1 (g.set p (ts.drop b)) l ∧
        e1._pendingTasks = Nat.iterate decr (min b ts.length) e._pendingTasks ∧
        control e1 = control e
  | [], _ => by
    obtain ⟨e1, task1, hd, hrep, hpend, hctl⟩ :=
      drainLoop_spec (l := l) p b fuel e g ts [] task h hp (by simpa using hf)
    simp only [List.length_nil, Nat.sub_zero, List.nil_append] at hd hrep hpend
    refine ⟨e1, task1, ?_, hrep, hpend, hctl⟩
    have hnonempty : (TaskBatch.empty (⟨ts.take b, b⟩ : TaskBatch α)) = false := by
      cases ts with
      | nil => exact absurd rfl hne
      | cons t rest =>
        obtain ⟨k, rfl⟩ : ∃ k, b = k + 1 := ⟨b - 1, by omega⟩
        simp [TaskBatch.empty]
    simp [batchLoop, hd, hnonempty]
  | k :: pre, hpre => by
    have hk := hpre k (List.mem_cons_self _ _)
    obtain ⟨e1, task1, hrec, hrest⟩ :=
      batchLoop_spec h hp hne hb fuel hf task post pre
        (fun j hj => hpre j (List.mem_cons_of_mem _ hj))
    refine ⟨e1, task1, ?_, hrest⟩
    have hskip := drainLoop_skip h hk hb fuel (by omega) task
    simp [batchLoop, hskip, TaskBatch.empty, hrec]

theorem pushRest_spec (b : Nat) :
    ∀ (ys : List (Executor.Task α)) (q : MPMCQueue (Executor.Task α))
      (vs : List (Executor.Task α)), MPMCQueue.Abs q vs →
      ∃ q1, pushRest ys.length ⟨ys.reverse, b⟩ q = some q1 ∧ MPMCQueue.Abs q1 (vs ++ ys)
  | [], q, vs, h => ⟨q, by simp [pushRest, TaskBatch.empty], by simpa using h⟩
  | y :: ys, q, vs, h => by
    obtain ⟨q1, hpush, h1⟩ := MPMCQueue.push_abs h y
    obtain ⟨q2, hrec, h2⟩ := pushRest_spec b ys q1 (vs ++ [y]) h1
    refine ⟨q2, ?_, by simpa using h2⟩
    simp [pushRest, TaskBatch.empty, TaskBatch.take, hpush, hrec]

theorem range_three_split : ∀ p : Nat, p < 3 →
    ∃ post, List.range Priority.kNumPriorities.toNat = List.range p ++ p :: post
  | 0, _ => ⟨[1, 2], rfl⟩
  | 1, _ => ⟨[2], rfl⟩
  | 2, _ => ⟨[], rfl⟩
  | n + 3, h => by omega

theorem take_min_length {β : Type} (b : Nat) (ts : List β) :
    ts.take (min b ts.length) = ts.take b := by
  rcases Nat.le_total b ts.length with h | h
  · rw [Nat.min_eq_left h]
  · rw [Nat.min_eq_right h, List.take_of_length_le (le_refl _), List.take_of_length_le h]

theorem drop_min_length {β : Type} (b : Nat) (ts : List β) :
    ts.drop (min b ts.length) = ts.drop b := by
  rcases Nat.le_total b ts.length with h | h
  · rw [Nat.min_eq_left h]
  · rw [Nat.min_eq_right h, List.drop_eq_nil_of_le (le_refl _), List.drop_eq_nil_of_le h]

/-- A call that finds the private queue empty and a global queue non-empty. -/
theorem getNextTask_drain {e : Executor α} {g l : List (List (Executor.Task α))}
    (h : Rep e g l) {q : MPMCQueue (Executor.Task α)} (hq : MPMCQueue.Abs q [])
    {p : Nat} (hp3 : p < 3) (hbefore : ∀ k, k < p → g[k]? = some [])
    {ts : List (Executor.Task α)} (hp : g[p]? = some ts) (hne : ts ≠ [])
    (hb : 1 ≤ e._config.batchExecutorTaskBatchSize) (fuel : Nat)
    (hf : min e._config.batchExecutorTaskBatchSize ts.length < fuel)
    (self : Nat) (task : Executor.Task α) :
    ∃ t e1 q1 priv, getNextTask fuel e (some q) self task = some (true, t, e1, some q1) ∧
      Rep e1 (g.set p (ts.drop e._config.batchExecutorTaskBatchSize)) l ∧
      MPMCQueue.Abs q1 priv ∧
      t :: priv = (ts.take e._config.batchExecutorTaskBatchSize).reverse ∧
      e1._pendingTasks = Nat.iterate decr
        (min e._config.batchExecutorTaskBatchSize ts.length) e._pendingTasks ∧
      control e1 = control e := by
  obtain ⟨post, hsplit⟩ := range_three_split p hp3
  obtain ⟨e1, task1, hloop, hrep, hpend, hctl⟩ :=
    batchLoop_spec h hp hne hb fuel hf task post (List.range p)
      (fun k hk => hbefore k (List.mem_range.mp hk))
  rw [← hsplit] at hloop
  have hxs : (ts.take e._config.batchExecutorTaskBatchSize).reverse ≠ [] := by
    cases ts with
    | nil => exact absurd rfl hne
    | cons t rest =>
      obtain ⟨k, hk⟩ : ∃ k, e._config.batchExecutorTaskBatchSize = k + 1 :=
        ⟨e._config.batchExecutorTaskBatchSize - 1, by omega⟩
      rw [hk]; simp
  obtain ⟨t, priv, htp⟩ := List.exists_cons_of_ne_nil hxs
  have hxs2 : ts.take e._config.batchExecutorTaskBatchSize = priv.reverse ++ [t] := by
    have := congrArg List.reverse htp
    simpa using this
  obtain ⟨q1, hrest, hq1⟩ := pushRest_spec e._config.batchExecutorTaskBatchSize priv q [] hq
  refine ⟨t, e1, q1, priv, ?_, hrep, by simpa using hq1, htp.symm, hpend, hctl⟩
  simp [getNextTask, MPMCQueue.try_pop_nil hq, TaskBatch.new, hloop, hxs2, TaskBatch.empty,
    TaskBatch.take, TaskBatch.size, hrest]

/-- A call that finds a task in the private queue returns it and touches nothing else. -/
theorem getNextTask_private (fuel : Nat) (e : Executor α) {q : MPMCQueue (Executor.Task α)}
    {t : Executor.Task α} {rest : List (Executor.Task α)} (hq : MPMCQueue.Abs q (t :: rest))
    (self : Nat) (task : Executor.Task α) :
    ∃ q1, getNextTask fuel e (some q) self task = some (true, t, e, some q1) ∧
      MPMCQueue.Abs q1 rest := by
  obtain ⟨q1, hpop, hq1⟩ := MPMCQueue.try_pop_cons hq task
  exact ⟨q1, by simp [getNextTask, hpop], hq1⟩

theorem getNextTasks_private (fuel : Nat) (e : Executor α) (self : Nat)
    (task : Executor.Task α) :
    ∀ (priv : List (Executor.Task α)) (q : MPMCQueue (Executor.Task α)),
      MPMCQueue.Abs q priv →
      ∃ q1, MPMCQueue.Abs q1 [] ∧ ∀ n, getNextTasks fuel self task (priv.length + n) e (some q) =
        (getNextTasks fuel self task n e (some q1)).map (fun r => (priv ++ r.1, r.2))
  | [], q, hq => ⟨q, hq, fun n => by simp⟩
  | t :: rest, q, hq => by
    obtain ⟨q1, hget, hq1⟩ := getNextTask_private fuel e hq self task
    obtain ⟨q2, hq2, hrec⟩ := getNextTasks_private fuel e self task rest q1 hq1
    refine ⟨q2, hq2, fun n => ?_⟩
    have hlen : (t :: rest).length + n = (rest.length + n) + 1 := by
      simp only [List.length_cons]; omega
    rw [hlen]
    simp only [getNextTasks, hget, hrec n]
    cases getNextTasks fuel self task n e (some q2) with
    | none => rfl
    | some r => rfl

end BatchExecutor

theorem batchOrderAux_fuel {β : Type} {b : Nat} (hb : 1 ≤ b) :
    ∀ (n m : Nat) (ts : List β), ts.length ≤ n → ts.length ≤ m →
      batchOrderAux b n ts = batchOrderAux b m ts
  | 0, m, ts, hn, _ => by
    have : ts = [] := List.eq_nil_of_length_eq_zero (by omega)
    subst this
    cases m <;> simp [batchOrderAux]
  | n + 1, m, [], _, _ => by cases m <;> simp [batchOrderAux]
  | n + 1, 0, t :: ts, _, hm => by simp at hm
  | n + 1, m + 1, t :: ts, hn, hm => by
    have hd : ((t :: ts).drop b).length ≤ ts.length := by
      simp only [List.length_drop, List.length_cons]; omega
    simp only [batchOrderAux, List.isEmpty_cons, Bool.false_eq_true, if_false]
    rw [batchOrderAux_fuel hb n m _ (by simp only [List.length_cons] at hn; omega)
      (by simp only [List.length_cons] at hm; omega)]

theorem batchOrder_cons {β : Type} {b : Nat} (hb : 1 ≤ b) {ts : List β} (hne : ts ≠ []) :
    batchOrder b ts = (ts.take b).reverse ++ batchOrder b (ts.drop b) := by
  cases ts with
  | nil => exact absurd rfl hne
  | cons t rest =>
    have hd : ((t :: rest).drop b).length ≤ rest.length := by
      simp only [List.length_drop, List.length_cons]; omega
    unfold batchOrder
    simp only [List.length_cons, batchOrderAux, List.isEmpty_cons, Bool.false_eq_true, if_false]
    rw [batchOrderAux_fuel hb rest.length _ _ hd (le_refl _)]

theorem batchOrder_one {β : Type} : ∀ ts : List β, batchOrder 1 ts = ts
  | [] => rfl
  | t :: ts => by
    rw [batchOrder_cons (le_refl 1) (List.cons_ne_nil t ts)]
    simp [batchOrder_one ts]

namespace BatchExecutor

open Executor hiding Task getNextTask getNextTasks

variable {α : Type}

/-- Successive calls hand out the queued tasks block by block, each block reversed. -/
theorem getNextTasks_batchOrder {l : List (List (Executor.Task α))} {p b : Nat} (hp3 : p < 3)
    (hb : 1 ≤ b) (fuel : Nat) (self : Nat) (task : Executor.Task α) :
    ∀ (n : Nat) (ts : List (Executor.Task α)), ts.length ≤ n →
      ∀ (e : Executor α) (g : List (List (Executor.Task α))) (q : MPMCQueue (Executor.Task α)),
        Rep e g l → MPMCQueue.Abs q [] → e._config.batchExecutorTaskBatchSize = b →
        (∀ k, k < p → g[k]? = some []) → g[p]? = some ts → min b ts.length < fuel →
        ∃ e1 q1, getNextTasks fuel self task ts.length e (some q) =
            some (batchOrder b ts, e1, some q1) ∧
          Rep e1 (g.set p []) l ∧ MPMCQueue.Abs q1 []
  | _, [], _, e, g, q, h, hq, _, _, hp, _ =>
    ⟨e, q, rfl, by rw [set_of_getElem? hp]; exact h, hq⟩
  | 0, t :: ts, hn, _, _, _, _, _, _, _, _, _ => by simp at hn
  | n + 1, t :: ts, hn, e, g, q, h, hq, hbe, hbefore, hp, hf => by
    subst hbe
    obtain ⟨t1, e1, q1, priv, hget, hrep1, hq1, htp, _, hctl⟩ :=
      getNextTask_drain h hq hp3 hbefore hp (List.cons_ne_nil t ts) hb fuel hf self task
    obtain ⟨q2, hq2, hpriv⟩ := getNextTasks_private fuel e1 self task priv q1 hq1
    have hplt : p < g.length := by rw [h.three]; exact hp3
    have hlen_drop : ((t :: ts).drop e._config.batchExecutorTaskBatchSize).length ≤ n := by
      simp only [List.length_drop, List.length_cons] at hn ⊢; omega
    have hcfg := control_config hctl
    obtain ⟨e2, q3, hrec, hrep2, hq3⟩ := getNextTasks_batchOrder hp3 hb fuel self task n
      ((t :: ts).drop e._config.batchExecutorTaskBatchSize) hlen_drop e1 _ q2 hrep1 hq2
      (by rw [hcfg])
      (fun k hk => by rw [List.getElem?_set_ne (by omega)]; exact hbefore k hk)
      (by simp [List.getElem?_set, hplt])
      (by
        have : ((t :: ts).drop e._config.batchExecutorTaskBatchSize).length ≤ (t :: ts).length := by
          simp only [List.length_drop]; omega
        omega)
    refine ⟨e2, q3, ?_, by simpa [List.set_set] using hrep2, hq3⟩
    have hcount : (t :: ts).length =
        (priv.length + ((t :: ts).drop e._config.batchExecutorTaskBatchSize).length) + 1 := by
      have h1 := congrArg List.length htp
      simp only [List.length_cons, List.length_reverse, List.length_take] at h1
      simp only [List.length_drop, List.length_cons]
      omega
    rw [hcount]
    simp only [getNextTasks, hget, hpriv, hrec, Option.map_some']
    rw [batchOrder_cons hb (List.cons_ne_nil t ts), ← htp]
    simp

end BatchExecutor
theorem iterate_decr_of_le : ∀ (m a : Nat), m ≤ a → Nat.iterate decr m a = a - m
  | 0, _, _ => rfl
  | m + 1, a, h => by
    have ha : decr a = a - 1 := by unfold decr; rw [if_neg (by omega)]
    rw [Function.iterate_succ_apply, ha, iterate_decr_of_le m (a - 1) (by omega)]
    omega

theorem last_taken_of_reverse {β : Type} {b : Nat} (hb : 1 ≤ b) {ts priv : List β} {t : β}
    (h : t :: priv = (ts.take b).reverse) : ts[min b ts.length - 1]? = some t := by
  have h1 : (ts.take b).reverse.head? = some t := by rw [← h]; rfl
  rw [List.head?_reverse, List.getLast?_eq_getElem?, List.length_take,
    List.getElem?_take_of_lt (by omega)] at h1
  exact h1

/-- The batch variant does not keep FIFO order within a priority class: with batch
size 2 and the tasks 1, 2 pushed in this order to the global Normal queue, the first
task returned by `getNextTask` is task 2, and two calls return 2, 1. -/
theorem batch_returns_last_drained_first :
    (BatchExecutor.getNextTask 3
      (Executor.sampleExecutor ⟨1, 1, 3, 60, false, 256, 2⟩ 3 1
        [[], [⟨1, Executor.Priority.Normal⟩, ⟨2, Executor.Priority.Normal⟩], []] [] :
        Executor Nat)
      (some (Executor.sampleQueue [])) 0 ⟨0, Executor.Priority.Normal⟩).map
      (fun r => (r.1, r.2.1)) = some (true, ⟨2, Executor.Priority.Normal⟩) ∧
    (BatchExecutor.getNextTasks 3 0 ⟨0, Executor.Priority.Normal⟩ 2
      (Executor.sampleExecutor ⟨1, 1, 3, 60, false, 256, 2⟩ 3 1
        [[], [⟨1, Executor.Priority.Normal⟩, ⟨2, Executor.Priority.Normal⟩], []] [] :
        Executor Nat)
      (some (Executor.sampleQueue []))).map (fun r => r.1) =
      some [⟨2, Executor.Priority.Normal⟩, ⟨1, Executor.Priority.Normal⟩] := by
  decide

/-- C5 amended: for a single `BatchExecutor` worker with an empty private queue,
batch size `b ≥ 1`, and the tasks `ts` of one priority class in their global queue
(the queues of higher priority empty), the first task returned by `getNextTask` is
the last one drained, `ts[min b k - 1]`, and successive calls return `ts` block by
block, each block of `b` tasks reversed (the batch is taken from the back).  The
order is the order of pushing when `b = 1`, and the reverse order when `k ≤ b`. -/
theorem batch_order_within_priority_class {α : Type} {e : Executor α}
    {g l : List (List (Executor.Task α))} (h : Executor.Rep e g l)
    {q : MPMCQueue (Executor.Task α)} (hq : MPMCQueue.Abs q [])
    (p : Nat) (hp3 : p < 3) (hbefore : ∀ k, k < p → g[k]? = some [])
    (ts : List (Executor.Task α)) (hp : g[p]? = some ts)
    (hb : 1 ≤ e._config.batchExecutorTaskBatchSize) (fuel : Nat)
    (hf : min e._config.batchExecutorTaskBatchSize ts.length < fuel)
    (self : Nat) (task : Executor.Task α) :
    (∃ e1 q1, BatchExecutor.getNextTasks fuel self task ts.length e (some q) =
      some (batchOrder e._config.batchExecutorTaskBatchSize ts, e1, some q1)) ∧
    (ts ≠ [] → ∃ t e1 q1,
      BatchExecutor.getNextTask fuel e (some q) self task = some (true, t, e1, some q1) ∧
      ts[min e._config.batchExecutorTaskBatchSize ts.length - 1]? = some t) ∧
    (e._config.batchExecutorTaskBatchSize = 1 →
      batchOrder e._config.batchExecutorTaskBatchSize ts = ts) ∧
    (ts.length ≤ e._config.batchExecutorTaskBatchSize →
      batchOrder e._config.batchExecutorTaskBatchSize ts = ts.reverse) := by
  refine ⟨?_, ?_, ?_, ?_⟩
  · obtain ⟨e1, q1, h1, _⟩ := BatchExecutor.getNextTasks_batchOrder hp3 hb fuel self task
      ts.length ts (le_refl _) e g q h hq rfl hbefore hp hf
    exact ⟨e1, q1, h1⟩
  · intro hne
    obtain ⟨t, e1, q1, priv, hget, _, _, htp, _⟩ :=
      BatchExecutor.getNextTask_drain h hq hp3 hbefore hp hne hb fuel hf self task
    exact ⟨t, e1, q1, hget, last_taken_of_reverse hb htp⟩
  · intro h1
    rw [h1]; exact batchOrder_one ts
  · intro hle
    cases ts with
    | nil => rfl
    | cons t rest =>
      rw [batchOrder_cons hb (List.cons_ne_nil t rest), List.take_of_length_le hle,
        List.drop_eq_nil_of_le hle]
      simp [batchOrder, batchOrderAux]

/-- The witness of C5: batch size 2, three Normal tasks 1, 2, 3: they come out as
2, 1, 3. -/
theorem batch_order_within_priority_class_witness :
    Executor.Rep
      (Executor.sampleExecutor ⟨1, 1, 3, 60, false, 256, 2⟩ 3 1
        [[], [⟨1, Executor.Priority.Normal⟩, ⟨2, Executor.Priority.Normal⟩,
          ⟨3, Executor.Priority.Normal⟩], []] [] : Executor Nat)
      [[], [⟨1, Executor.Priority.Normal⟩, ⟨2, Executor.Priority.Normal⟩,
          ⟨3, Executor.Priority.Normal⟩], []] [] ∧
    ∃ e1 q1, BatchExecutor.getNextTasks 3 0 ⟨0, Executor.Priority.Normal⟩ 3
      (Executor.sampleExecutor ⟨1, 1, 3, 60, false, 256, 2⟩ 3 1
        [[], [⟨1, Executor.Priority.Normal⟩, ⟨2, Executor.Priority.Normal⟩,
          ⟨3, Executor.Priority.Normal⟩], []] [] : Executor Nat)
      (some (Executor.sampleQueue [])) =
      some ([⟨2, Executor.Priority.Normal⟩, ⟨1, Executor.Priority.Normal⟩,
        ⟨3, Executor.Priority.Normal⟩], e1, some q1) :=
  ⟨Executor.sampleExecutor_rep _ 3 1 _ [] rfl,
    (batch_order_within_priority_class
      (Executor.sampleExecutor_rep ⟨1, 1, 3, 60, false, 256, 2⟩ 3 1
        [[], [⟨1, Executor.Priority.Normal⟩, ⟨2, Executor.Priority.Normal⟩,
          ⟨3, Executor.Priority.Normal⟩], []] [] rfl)
      (Executor.sampleQueue_abs []) 1 (by decide) (by decide)
      [⟨1, Executor.Priority.Normal⟩, ⟨2, Executor.Priority.Normal⟩,
        ⟨3, Executor.Priority.Normal⟩] rfl (by decide) 3 (by decide) 0
      ⟨0, Executor.Priority.Normal⟩).1⟩

/-- C6: a `BatchExecutor` worker with an empty private queue calls `getNextTask`
with batch size `b ≥ 1` while the highest-priority non-empty global queue `p` holds
`ts` (depth `d`): the call removes exactly the first `min b d` tasks of that queue,
nothing from the other global queues nor from the local queues, decrements `pending`
by `min b d`, returns one of the removed tasks (the last one) and leaves the other
`min b d - 1` in the private queue. -/
theorem batch_getNextTask_takes_one_batch {α : Type} {e : Executor α}
    {g l : List (List (Executor.Task α))} (h : Executor.Rep e g l)
    {q : MPMCQueue (Executor.Task α)} (hq : MPMCQueue.Abs q [])
    (p : Nat) (hp3 : p < 3) (hbefore : ∀ k, k < p → g[k]? = some [])
    (ts : List (Executor.Task α)) (hp : g[p]? = some ts) (hne : ts ≠ [])
    (hb : 1 ≤ e._config.batchExecutorTaskBatchSize) (fuel : Nat)
    (hf : min e._config.batchExecutorTaskBatchSize ts.length < fuel)
    (hpend : min e._config.batchExecutorTaskBatchSize ts.length ≤ e._pendingTasks)
    (self : Nat) (task : Executor.Task α) :
    ∃ t e1 q1 priv,
      BatchExecutor.getNextTask fuel e (some q) self task = some (true, t, e1, some q1) ∧
      Executor.Rep e1
        (g.set p (ts.drop (min e._config.batchExecutorTaskBatchSize ts.length))) l ∧
      MPMCQueue.Abs q1 priv ∧
      t :: priv = (ts.take (min e._config.batchExecutorTaskBatchSize ts.length)).reverse ∧
      priv.length = min e._config.batchExecutorTaskBatchSize ts.length - 1 ∧
      e1._pendingTasks + min e._config.batchExecutorTaskBatchSize ts.length =
        e._pendingTasks := by
  obtain ⟨t, e1, q1, priv, hget, hrep, hq1, htp, hpend1, _⟩ :=
    BatchExecutor.getNextTask_drain h hq hp3 hbefore hp hne hb fuel hf self task
  refine ⟨t, e1, q1, priv, hget, ?_, hq1, ?_, ?_, ?_⟩
  · rw [BatchExecutor.drop_min_length]; exact hrep
  · rw [BatchExecutor.take_min_length]; exact htp
  · have := congrArg List.length htp
    simp only [List.length_cons, List.length_reverse, List.length_take] at this
    omega
  · rw [hpend1, iterate_decr_of_le _ _ hpend]; omega

/-- The witness of C6: batch size 2 and three Normal tasks queued: tasks 1 and 2
leave the global queue, task 2 is returned, task 1 goes to the private queue. -/
theorem batch_getNextTask_takes_one_batch_witness :
    ∃ t e1 q1 priv,
      BatchExecutor.getNextTask 3
        (Executor.sampleExecutor ⟨1, 1, 3, 60, false, 256, 2⟩ 3 1
          [[], [⟨1, Executor.Priority.Normal⟩, ⟨2, Executor.Priority.Normal⟩,
            ⟨3, Executor.Priority.Normal⟩], []] [] : Executor Nat)
        (some (Executor.sampleQueue [])) 0 ⟨0, Executor.Priority.Normal⟩ =
          some (true, t, e1, some q1) ∧
      Executor.Rep e1 [[], [⟨3, Executor.Priority.Normal⟩], []] [] ∧
      MPMCQueue.Abs q1 priv ∧
      t :: priv = [⟨2, Executor.Priority.Normal⟩, ⟨1, Executor.Priority.Normal⟩] ∧
      priv.length = 1 ∧ e1._pendingTasks + 2 = 3 :=
  batch_getNextTask_takes_one_batch
    (Executor.sampleExecutor_rep ⟨1, 1, 3, 60, false, 256, 2⟩ 3 1
      [[], [⟨1, Executor.Priority.Normal⟩, ⟨2, Executor.Priority.Normal⟩,
        ⟨3, Executor.Priority.Normal⟩], []] [] rfl)
    (Executor.sampleQueue_abs []) 1 (by decide) (by decide)
    [⟨1, Executor.Priority.Normal⟩, ⟨2, Executor.Priority.Normal⟩,
      ⟨3, Executor.Priority.Normal⟩] rfl (by decide) (by decide) 3 (by decide) (by decide) 0
    ⟨0, Executor.Priority.Normal⟩
/-! ## `MPMCQueue::resizePool` -/

namespace MPMCQueue

variable {T : Type}

theorem resizePool_of_le (q : MPMCQueue T) {n : Nat} (h : n ≤ q._poolSize) :
    q.resizePool n = q := by
  simp [resizePool, h]

theorem resizePool_poolSize (q : MPMCQueue T) (n : Nat) :
    (q.resizePool n)._poolSize = max q._poolSize n := by
  unfold resizePool
  split
  · rename_i h; simp [Nat.max_eq_left h]
  · rename_i h; simp [Nat.max_eq_right (Nat.le_of_lt (Nat.lt_of_not_le h))]

theorem resizePool_length (q : MPMCQueue T) (n : Nat) :
    (q.resizePool n).node_pool.length = q.node_pool.length + (n - q._poolSize) := by
  unfold resizePool
  split
  · rename_i h; simp [Nat.sub_eq_zero_of_le h]
  · simp

/-- The constructor records the size it is given and owns that many cells. -/
theorem new_poolSize (n : Nat) (hn : 0 < n) :
    ∃ q : MPMCQueue T, MPMCQueue.new n = some q ∧ q._poolSize = n ∧ q.node_pool.length = n ∧
      Abs q [] := by
  obtain ⟨q, hq, habs⟩ := new_abs (T := T) n hn
  have h0 : ¬ n ≤ 0 := by omega
  have h1 : n ≠ 0 := by omega
  have hq2 := hq
  simp only [MPMCQueue.new, allocateNode, List.length_replicate, if_neg h0, if_neg h1] at hq2
  simp only [Option.some.injEq] at hq2
  refine ⟨q, hq, ?_, ?_, habs⟩
  · rw [← hq2]
  · rw [← hq2]; simp

end MPMCQueue

/-- C17: `resizePool(n)` sets the recorded pool size to `max(current, n)`: the pool
never shrinks, the call changes nothing when `n ≤ current` (so a second call with the
same `n` changes nothing more), the number of owned cells stays equal to the recorded
size, `head`, `tail` and the old cells are untouched, and the contents of the queue
(the values reachable from `head`, in order) are the same. -/
theorem resizePool_grows_only {T : Type} (q : MPMCQueue T) (n : Nat) :
    (q.resizePool n)._poolSize = max q._poolSize n ∧
    q._poolSize ≤ (q.resizePool n)._poolSize ∧
    q.node_pool.length ≤ (q.resizePool n).node_pool.length ∧
    (n ≤ q._poolSize → q.resizePool n = q) ∧
    (q.resizePool n).resizePool n = q.resizePool n ∧
    (q._poolSize = q.node_pool.length →
      (q.resizePool n)._poolSize = (q.resizePool n).node_pool.length) ∧
    (q.resizePool n).head = q.head ∧ (q.resizePool n).tail = q.tail ∧
    (∀ i, i < q.node_pool.length → (q.resizePool n).node_pool[i]? = q.node_pool[i]?) ∧
    (∀ vs, MPMCQueue.Abs q vs →
      MPMCQueue.Abs (q.resizePool n) vs ∧ (q.resizePool n).toList = q.toList) := by
  have hsize := MPMCQueue.resizePool_poolSize q n
  have hlen := MPMCQueue.resizePool_length q n
  refine ⟨hsize, by rw [hsize]; exact Nat.le_max_left _ _, by omega,
    fun h => MPMCQueue.resizePool_of_le q h, ?_, ?_, ?_, ?_, ?_, ?_⟩
  · exact MPMCQueue.resizePool_of_le _ (by rw [hsize]; exact Nat.le_max_right _ _)
  · intro h
    rw [hsize, hlen, Nat.max_def]
    split <;> omega
  · unfold MPMCQueue.resizePool; split <;> rfl
  · unfold MPMCQueue.resizePool; split <;> rfl
  · intro i hi
    unfold MPMCQueue.resizePool
    split
    · rfl
    · exact List.getElem?_append_left hi
  · intro vs h
    have h1 := MPMCQueue.resizePool_abs h n
    exact ⟨h1, by rw [MPMCQueue.toList_abs h1, MPMCQueue.toList_abs h]⟩

/-- The witness of C17: a queue of pool size 1 holding 5 and 6 (its pool has grown to
4 cells) is resized to 3, a no-op, and to 9. -/
theorem resizePool_grows_only_witness :
    ((Executor.sampleQueue [5, 6] : MPMCQueue Nat).resizePool 3 =
        Executor.sampleQueue [5, 6]) ∧
    ((Executor.sampleQueue [5, 6] : MPMCQueue Nat).resizePool 9)._poolSize = 9 ∧
    ((Executor.sampleQueue [5, 6] : MPMCQueue Nat).resizePool 9).node_pool.length = 9 ∧
    ((Executor.sampleQueue [5, 6] : MPMCQueue Nat).resizePool 9).toList = [5, 6] := by
  have h := resizePool_grows_only (Executor.sampleQueue [5, 6] : MPMCQueue Nat) 9
  have h3 := resizePool_grows_only (Executor.sampleQueue [5, 6] : MPMCQueue Nat) 3
  refine ⟨h3.2.2.2.1 (by decide), by decide, ?_, ?_⟩
  · rw [← h.2.2.2.2.2.1 (by decide)]; decide
  · rw [(h.2.2.2.2.2.2.2.2.2 _ (Executor.sampleQueue_abs [5, 6])).2]; decide
/-! ## The capacities of the queues an executor creates -/

namespace Executor

variable {α : Type}

/-- What `start()` builds from a fresh executor: three empty global queues of
capacity `max(threadCount * tasksPerThreadThreshold, 1024)` and, with work stealing,
`minThreads` empty local queues that share this capacity among them. -/
theorem start_spec (cfg : Config) (uninit : Nat)
    (hmin : cfg.enableWorkStealing = true → cfg.minThreads ≤
      max ((cfg.threadCount * cfg.tasksPerThreadThreshold) % SIZE_MOD) 1024) :
    ∃ e : Executor α, start (new cfg uninit) = some e ∧
      e._taskQArray.length = 3 ∧
      (∀ oq ∈ e._taskQArray, ∃ q, oq = some q ∧
        q._poolSize = max ((cfg.threadCount * cfg.tasksPerThreadThreshold) % SIZE_MOD) 1024 ∧
        q.node_pool.length =
          max ((cfg.threadCount * cfg.tasksPerThreadThreshold) % SIZE_MOD) 1024 ∧
        MPMCQueue.Abs q []) ∧
      e._localQVec.length = (if cfg.enableWorkStealing then cfg.minThreads else 0) ∧
      (∀ q ∈ e._localQVec,
        q._poolSize =
          max ((cfg.threadCount * cfg.tasksPerThreadThreshold) % SIZE_MOD) 1024 /
            cfg.minThreads ∧
        q.node_pool.length =
          max ((cfg.threadCount * cfg.tasksPerThreadThreshold) % SIZE_MOD) 1024 /
            cfg.minThreads ∧
        MPMCQueue.Abs q []) ∧
      e._pendingTasks = 0 ∧ e.stopped = false ∧ e._config = cfg ∧
      e._taskPoolSize = cfg.initialTaskPoolSize := by
  have hQ : 0 < max ((cfg.threadCount * cfg.tasksPerThreadThreshold) % SIZE_MOD) 1024 :=
    Nat.lt_of_lt_of_le (by decide) (Nat.le_max_right _ _)
  obtain ⟨g, hg, hg1, hg2, hg3⟩ := MPMCQueue.new_poolSize (T := Task α) _ hQ
  have hglob : ∀ oq ∈ ([none, none, none] : List (Option (MPMCQueue (Task α)))).map
      (fun _ => some g), ∃ q, oq = some q ∧
        q._poolSize = max ((cfg.threadCount * cfg.tasksPerThreadThreshold) % SIZE_MOD) 1024 ∧
        q.node_pool.length =
          max ((cfg.threadCount * cfg.tasksPerThreadThreshold) % SIZE_MOD) 1024 ∧
        MPMCQueue.Abs q [] := by
    intro oq hoq
    simp only [List.map_cons, List.map_nil, List.mem_cons, List.mem_singleton,
      List.not_mem_nil, or_false, or_self] at hoq
    exact ⟨g, hoq, hg1, hg2, hg3⟩
  by_cases hc : (cfg.enableWorkStealing && decide (0 < cfg.minThreads)) = true
  · have hws : cfg.enableWorkStealing = true := by simp at hc; exact hc.1
    have hpos : 0 < cfg.minThreads := by simp at hc; exact hc.2
    have hdiv : 0 < max ((cfg.threadCount * cfg.tasksPerThreadThreshold) % SIZE_MOD) 1024 /
        cfg.minThreads := Nat.div_pos (hmin hws) hpos
    obtain ⟨l, hl, hl1, hl2, hl3⟩ := MPMCQueue.new_poolSize (T := Task α) _ hdiv
    refine ⟨_, by simp only [start, createThreadPool, new, hg, hl, hc, if_true]; rfl,
      ?_, hglob, ?_, ?_, ?_, ?_, ?_, ?_⟩
    iterate 1 rfl
    rotate_left 2
    iterate 4 rfl
    · simp [hws]
    · intro q hq
      simp only [List.nil_append] at hq
      rw [List.eq_of_mem_replicate hq]
      exact ⟨hl1, hl2, hl3⟩
  · refine ⟨_, by simp only [start, createThreadPool, new, hg, hc, if_false]; rfl,
      ?_, hglob, ?_, ?_, ?_, ?_, ?_, ?_⟩
    iterate 1 rfl
    rotate_left 2
    iterate 4 rfl
    · cases hws : cfg.enableWorkStealing with
      | false => simp
      | true => simp [hws] at hc; simp [hc]
    · intro q hq
      simp at hq

/-- The local queue `addThread` appends below the maximum: a default-constructed
queue, of `DEFAULT_POOL_SIZE` cells. -/
theorem addThread_queue (env : Env) (e : Executor α) (hlt : e._activeThreads < e._maxThreads) :
    ∃ e1 q, addThread env e = some e1 ∧ e1._localQVec = e._localQVec ++ [q] ∧
      e1._taskQArray = e._taskQArray ∧
      q._poolSize = MPMCQueue.DEFAULT_POOL_SIZE ∧
      q.node_pool.length = MPMCQueue.DEFAULT_POOL_SIZE ∧ MPMCQueue.Abs q [] := by
  obtain ⟨q, hq, hq1, hq2, hq3⟩ :=
    MPMCQueue.new_poolSize (T := Task α) MPMCQueue.DEFAULT_POOL_SIZE (by decide)
  have hge : ¬ e._activeThreads ≥ e._maxThreads := by omega
  unfold addThread
  rw [if_neg hge]
  simp only [hq]
  split
  · exact ⟨_, q, rfl, rfl, rfl, hq1, hq2, hq3⟩
  · exact ⟨_, q, rfl, rfl, rfl, hq1, hq2, hq3⟩

end Executor

set_option maxRecDepth 100000 in
/-- C18 at the default configuration on a machine with 4 hardware threads
(`initialTaskPoolSize = 256`, `threadCount = 4`, `minThreads = 2`,
`tasksPerThreadThreshold = 3`): after `start()` the three global queues have 1024
cells and the two local queues 512 each, and the local queue appended by an upscale has
1024; none has 256. -/
theorem default_queues_do_not_start_at_initial_size :
    (Executor.Config.default 4).initialTaskPoolSize = 256 ∧
    (Executor.start (Executor.new (Executor.Config.default 4) 0 : Executor Nat)).map
      (fun e => (e._taskQArray.map (Option.map MPMCQueue._poolSize),
        e._taskQArray.map (Option.map (fun q => q.node_pool.length)),
        e._localQVec.map MPMCQueue._poolSize,
        e._localQVec.map (fun q => q.node_pool.length))) =
      some ([some 1024, some 1024, some 1024], [some 1024, some 1024, some 1024],
        [512, 512], [512, 512]) ∧
    ((Executor.start (Executor.new (Executor.Config.default 4) 0 : Executor Nat)).bind
      (fun e => Executor.addThread ⟨fun _ _ => true, true⟩ e)).map
      (fun e => (e._localQVec.map MPMCQueue._poolSize,
        e._localQVec.map (fun q => q.node_pool.length))) =
      some ([512, 512, 1024], [512, 512, 1024]) := by
  refine ⟨rfl, ?_, ?_⟩
  · decide
  · decide

/-- C18 amended: the capacities do not come from `initialTaskPoolSize`.  With
`Q = max(threadCount * tasksPerThreadThreshold mod 2^64, 1024)`, `start()` on a fresh
executor returns (when work stealing is off or `minThreads ≤ Q`) with exactly three
global queues, empty and of `Q` cells each, and with exactly `minThreads` local queues
when work stealing is on (none when it is off), empty and of `Q / minThreads` cells
each; an upscale appends exactly one local queue, of 1024 cells, and leaves the other
queues as they are.  `initialTaskPoolSize` only seeds the member `_taskPoolSize`. -/
theorem queue_capacities_follow_thread_config {α : Type} (cfg : Executor.Config)
    (uninit : Nat)
    (hmin : cfg.enableWorkStealing = true → cfg.minThreads ≤
      max ((cfg.threadCount * cfg.tasksPerThreadThreshold) % SIZE_MOD) 1024) :
    ∃ e : Executor α, Executor.start (Executor.new cfg uninit) = some e ∧
      e._taskQArray.length = 3 ∧
      (∀ oq ∈ e._taskQArray, ∃ q, oq = some q ∧
        q._poolSize = max ((cfg.threadCount * cfg.tasksPerThreadThreshold) % SIZE_MOD) 1024 ∧
        q.node_pool.length =
          max ((cfg.threadCount * cfg.tasksPerThreadThreshold) % SIZE_MOD) 1024 ∧
        q.toList = []) ∧
      e._localQVec.length = (if cfg.enableWorkStealing then cfg.minThreads else 0) ∧
      (∀ q ∈ e._localQVec,
        q._poolSize =
          max ((cfg.threadCount * cfg.tasksPerThreadThreshold) % SIZE_MOD) 1024 /
            cfg.minThreads ∧
        q.node_pool.length =
          max ((cfg.threadCount * cfg.tasksPerThreadThreshold) % SIZE_MOD) 1024 /
            cfg.minThreads ∧
        q.toList = []) ∧
      e._taskPoolSize = cfg.initialTaskPoolSize ∧
      (∀ (env : Executor.Env) (e1 : Executor α), e1._activeThreads < e1._maxThreads →
        ∃ e2 q, Executor.addThread env e1 = some e2 ∧ e2._localQVec = e1._localQVec ++ [q] ∧
          e2._taskQArray = e1._taskQArray ∧
          q._poolSize = 1024 ∧ q.node_pool.length = 1024 ∧ q.toList = []) := by
  obtain ⟨e, he, h3, hg, hcount, hl, _, _, _, hsize⟩ :=
    Executor.start_spec (α := α) cfg uninit hmin
  refine ⟨e, he, h3, ?_, hcount, ?_, hsize, ?_⟩
  · intro oq hoq
    obtain ⟨q, hq, h1, h2, habs⟩ := hg oq hoq
    exact ⟨q, hq, h1, h2, MPMCQueue.toList_abs habs⟩
  · intro q hq
    obtain ⟨h1, h2, habs⟩ := hl q hq
    exact ⟨h1, h2, MPMCQueue.toList_abs habs⟩
  · intro env e1 hlt
    obtain ⟨e2, q, h1, h2, h3, h4, h5, habs⟩ := Executor.addThread_queue env e1 hlt
    exact ⟨e2, q, h1, h2, h3, h4, h5, MPMCQueue.toList_abs habs⟩

/-- The witness of C18 amended: `threadCount = 400`, `tasksPerThreadThreshold = 3`,
`minThreads = 2`, `initialTaskPoolSize = 256`: the three global queues get 1200 cells,
the two local queues 600. -/
theorem queue_capacities_follow_thread_config_witness :
    ∃ e : Executor Nat,
      Executor.start (Executor.new ⟨400, 2, 3, 60, true, 256, 512⟩ 0) = some e ∧
      e._taskQArray.length = 3 ∧
      (∀ oq ∈ e._taskQArray, ∃ q, oq = some q ∧ q._poolSize = 1200 ∧
        q.node_pool.length = 1200 ∧ q.toList = []) ∧
      e._localQVec.length = 2 ∧
      (∀ q ∈ e._localQVec, q._poolSize = 600 ∧ q.node_pool.length = 600 ∧ q.toList = []) ∧
      e._taskPoolSize = 256 := by
  obtain ⟨e, he, h3, hg, hcount, hl, hsize, _⟩ :=
    queue_capacities_follow_thread_config (α := Nat) ⟨400, 2, 3, 60, true, 256, 512⟩ 0
      (fun _ => by decide)
  have hQ : max ((400 * 3) % SIZE_MOD) 1024 = 1200 := by decide
  simp only [hQ] at hg hl
  exact ⟨e, he, h3, hg, hcount, hl, hsize⟩
/-! ## The pending counter -/

namespace Executor

variable {α : Type}

theorem sum_length_set {β : Type} : ∀ (l : List (List β)) (i : Nat) (ts : List β),
    i < l.length →
    ((l.set i ts).map List.length).sum + ((l[i]?).getD []).length =
      (l.map List.length).sum + ts.length
  | [], _, _, h => by simp at h
  | x :: xs, 0, ts, _ => by simp; omega
  | x :: xs, i + 1, ts, h => by
    have := sum_length_set xs i ts (by simpa using h)
    simp only [List.set_cons_succ, List.map_cons, List.sum_cons, List.getElem?_cons_succ] at this ⊢
    omega

theorem sum_length_update {g l : List (List (Task α))} (s : Source) (ts : List (Task α))
    (hs : s.inRange g l) :
    (((s.update g l ts).1).map List.length).sum + (((s.update g l ts).2).map List.length).sum +
        (s.tasks g l).length =
      (g.map List.length).sum + (l.map List.length).sum + ts.length := by
  cases s with
  | localQ i =>
    have := sum_length_set l i ts hs
    simp only [Source.update, Source.tasks] at this ⊢
    omega
  | globalQ p =>
    have := sum_length_set g p ts hs
    simp only [Source.update, Source.tasks] at this ⊢
    omega

theorem source_index_of_tasks {g l : List (List (Task α))} {s : Source} {t : Task α}
    {rest : List (Task α)} (h : s.tasks g l = t :: rest) : s.inRange g l := by
  cases s with
  | localQ i =>
    simp only [Source.tasks, Source.inRange] at h ⊢
    by_contra hge
    rw [List.getElem?_eq_none (by omega)] at h
    simp at h
  | globalQ p =>
    simp only [Source.tasks, Source.inRange] at h ⊢
    by_contra hge
    rw [List.getElem?_eq_none (by omega)] at h
    simp at h

theorem Rep.queuedTasks {e : Executor α} {g l : List (List (Task α))} (h : Rep e g l) :
    queuedTasks e = (g.map List.length).sum + (l.map List.length).sum := by
  have hg : ∀ (qs : List (Option (MPMCQueue (Task α)))) (g : List (List (Task α))),
      List.Forall₂ (fun oq vs => ∃ q, oq = some q ∧ MPMCQueue.Abs q vs) qs g →
      (qs.map (fun oq => oq.elim 0 (fun q => q.toList.length))).sum =
        (g.map List.length).sum := by
    intro qs g hf
    induction hf with
    | nil => rfl
    | cons hr _ ih =>
      obtain ⟨q, rfl, habs⟩ := hr
      simp only [List.map_cons, List.sum_cons, Option.elim_some, MPMCQueue.toList_abs habs, ih]
  have hl : ∀ (qs : List (MPMCQueue (Task α))) (l : List (List (Task α))),
      List.Forall₂ MPMCQueue.Abs qs l →
      (qs.map (fun q => q.toList.length)).sum = (l.map List.length).sum := by
    intro qs l hf
    induction hf with
    | nil => rfl
    | cons hr _ ih =>
      simp only [List.map_cons, List.sum_cons, MPMCQueue.toList_abs hr, ih]
  unfold Executor.queuedTasks
  rw [hg _ _ h.globals, hl _ _ h.locals]

theorem Rep.allQueuesEmpty {e : Executor α} {g l : List (List (Task α))} (h : Rep e g l)
    (hempty : allQueuesEmpty e = true) :
    (g.map List.length).sum + (l.map List.length).sum = 0 := by
  have hg : ∀ (qs : List (Option (MPMCQueue (Task α)))) (g : List (List (Task α))),
      List.Forall₂ (fun oq vs => ∃ q, oq = some q ∧ MPMCQueue.Abs q vs) qs g →
      qs.all (fun oq => oq.elim false (fun q => q.empty == some true)) = true →
      (g.map List.length).sum = 0 := by
    intro qs g hf
    induction hf with
    | nil => intro _; rfl
    | cons hr _ ih =>
      obtain ⟨q, rfl, habs⟩ := hr
      intro hall
      simp only [List.all_cons, Option.elim_some, MPMCQueue.empty_abs habs, Bool.and_eq_true,
        beq_iff_eq, Option.some.injEq, List.isEmpty_iff] at hall
      simp only [List.map_cons, List.sum_cons, ih hall.2, hall.1, List.length_nil]
  have hl : ∀ (qs : List (MPMCQueue (Task α))) (l : List (List (Task α))),
      List.Forall₂ MPMCQueue.Abs qs l →
      qs.all (fun q => q.empty == some true) = true → (l.map List.length).sum = 0 := by
    intro qs l hf
    induction hf with
    | nil => intro _; rfl
    | cons hr _ ih =>
      intro hall
      simp only [List.all_cons, MPMCQueue.empty_abs hr, Bool.and_eq_true,
        beq_iff_eq, Option.some.injEq, List.isEmpty_iff] at hall
      simp only [List.map_cons, List.sum_cons, ih hall.2, hall.1, List.length_nil]
  unfold Executor.allQueuesEmpty at hempty
  simp only [Bool.and_eq_true] at hempty
  rw [hg _ _ h.globals hempty.1, hl _ _ h.locals hempty.2]

theorem forall₂_replicate {β γ : Type} {R : β → γ → Prop} {y : γ} :
    ∀ (xs : List β), (∀ x ∈ xs, R x y) → List.Forall₂ R xs (List.replicate xs.length y)
  | [], _ => List.Forall₂.nil
  | x :: xs, h =>
    List.Forall₂.cons (h x (List.mem_cons_self _ _))
      (forall₂_replicate xs (fun z hz => h z (List.mem_cons_of_mem _ hz)))

theorem sum_length_replicate_nil {β : Type} (n : Nat) :
    ((List.replicate n ([] : List β)).map List.length).sum = 0 := by
  induction n with
  | zero => rfl
  | succ n ih => simp [List.replicate_succ]

/-- The state `start()` leaves: empty queues, nothing pending. -/
theorem start_counted (cfg : Config) (uninit : Nat)
    (hcap : cfg.enableWorkStealing = true → cfg.minThreads ≤
      max ((cfg.threadCount * cfg.tasksPerThreadThreshold) % SIZE_MOD) 1024)
    (hmin : cfg.minThreads < SIZE_MAX) :
    ∃ e : Executor α, start (new cfg uninit) = some e ∧ Counted cfg e ∧
      e._pendingTasks = 0 := by
  obtain ⟨e, he, h3, hg, _, hl, hpend, hrun, _, _⟩ := start_spec (α := α) cfg uninit hcap
  obtain ⟨_, hmin1, hmax1, hact⟩ := createThreadPool_active he
  have hit : Nat.iterate incr cfg.minThreads 0 = 0 + cfg.minThreads :=
    iterate_incr cfg.minThreads 0 (by omega)
  simp only [new] at hmin1 hmax1 hact
  rw [hit] at hact
  have hrep : Rep e (List.replicate e._taskQArray.length [])
      (List.replicate e._localQVec.length []) :=
    ⟨forall₂_replicate _ (fun oq hoq => by
        obtain ⟨q, hq, _, _, habs⟩ := hg oq hoq
        exact ⟨q, hq, habs⟩),
      by rw [List.length_replicate]; exact h3,
      forall₂_replicate _ (fun q hq => (hl q hq).2.2)⟩
  refine ⟨e, he, ⟨⟨_, _, hrep, ?_⟩, hrun, hmin1, hmax1, ?_⟩, hpend⟩
  · rw [hpend, sum_length_replicate_nil, sum_length_replicate_nil]
  · rw [hact]; simp

/-- A call of `schedule` on a running executor counts the task it queues. -/
theorem schedule_counted (env : Env) {cfg : Config} {e : Executor α} (hc : Counted cfg e)
    (hmin : cfg.minThreads < SIZE_MAX) (hmax : cfg.threadCount < SIZE_MAX)
    (self : Nat) (task : α) (p : Priority) (hp : p ≠ Priority.kNumPriorities)
    (hpend : e._pendingTasks < SIZE_MAX) :
    ∃ e1, schedule env e self task p = some e1 ∧ Counted cfg e1 ∧
      e1._pendingTasks = e._pendingTasks + 1 := by
  obtain ⟨g, l, hrep, hsum⟩ := hc.rep
  have hup := hc.upper
  have hact : e._activeThreads < SIZE_MAX := by
    rcases Nat.le_total cfg.minThreads cfg.threadCount with h | h
    · rw [Nat.max_eq_right h] at hup; omega
    · rw [Nat.max_eq_left h] at hup; omega
  obtain ⟨e1, extra, hsched, hextra, hrep1, hpend1, hstop1, _⟩ :=
    schedule_spec env hrep hc.running self task p hp hpend hact _ rfl
  obtain ⟨_, hmin1, hmax1, hact1⟩ := schedule_active hsched
  have hidx : Source.inRange g l (if e._config.enableWorkStealing && decide (self < l.length)
        then Source.localQ self else Source.globalQ p.toNat) := by
    split
    · rename_i hcnd
      simp at hcnd; exact hcnd.2
    · show p.toNat < g.length
      rw [hrep.three]; cases p <;> simp [Priority.toNat] at hp ⊢
  have hs := sum_length_update (g := g) (l := l) _ (Source.tasks g l
    (if e._config.enableWorkStealing && decide (self < l.length)
        then Source.localQ self else Source.globalQ p.toNat) ++ [⟨task, p⟩]) hidx
  have hex : (extra.map List.length).sum = 0 := by
    rcases hextra with rfl | rfl <;> rfl
  refine ⟨e1, hsched, ⟨⟨_, _, hrep1, ?_⟩, hstop1, hmin1.trans hc.min_eq,
    hmax1.trans hc.max_eq, ?_⟩, hpend1⟩
  · rw [hpend1, List.map_append, List.sum_append, hex, hsum]
    simp only [List.length_append, List.length_singleton] at hs
    omega
  · rcases hact1 with h | ⟨hlt, h⟩
    · rw [h]; exact hup
    · rw [h, incr_of_lt hact]
      rw [hc.max_eq] at hlt
      exact Nat.le_trans hlt (Nat.le_max_right _ _)

/-- A call of `getNextTask` by a worker of a running executor: it returns, and a
successful call lowers the pending counter by one. -/
theorem getNextTask_counted {cfg : Config} {e : Executor α} (hc : Counted cfg e) (self : Nat)
    (hself : e._config.enableWorkStealing = true → self < e._localQVec.length)
    (hmax : self < SIZE_MAX) (task : Task α) :
    ∃ ok t e1, getNextTask e self task = some (ok, t, e1) ∧ Counted cfg e1 ∧
      (ok = true → e1._pendingTasks + 1 = e._pendingTasks) ∧
      (ok = false → e1 = e ∧ t = task) := by
  obtain ⟨g, l, hrep, hsum⟩ := hc.rep
  have hself1 : e._config.enableWorkStealing = true → self < l.length :=
    fun h => by rw [← hrep.local_length]; exact hself h
  have htf := getNextTask_takesFirst hrep hself1 hmax task
  unfold TakesFirst at htf
  split at htf
  · exact ⟨false, task, e, htf, hc, fun h => (by cases h), fun _ => ⟨rfl, rfl⟩⟩
  · rename_i s _
    obtain ⟨t, rest, e1, htasks, hres, hrep1, hpend1, hctl⟩ := htf
    obtain ⟨hstop1, hmin1, hmax1, hact1⟩ := control_bounds hctl
    have hs := sum_length_update (g := g) (l := l) s rest (source_index_of_tasks htasks)
    rw [htasks, List.length_cons] at hs
    have hpos : e._pendingTasks ≠ 0 := by omega
    have hdec : e1._pendingTasks = e._pendingTasks - 1 := by
      rw [hpend1]; unfold decr; rw [if_neg hpos]
    refine ⟨true, t, e1, hres, ⟨⟨_, _, hrep1, by omega⟩, hstop1.trans hc.running,
      hmin1.trans hc.min_eq, hmax1.trans hc.max_eq, by rw [hact1]; exact hc.upper⟩,
      fun _ => by omega, fun h => by cases h⟩

theorem Counted.decrement {cfg : Config} {e : Executor α} (hc : Counted cfg e)
    (hgt : e._minThreads < e._activeThreads) : Counted cfg (decrementActiveThreads e) := by
  obtain ⟨g, l, hrep, hsum⟩ := hc.rep
  refine ⟨⟨g, l, hrep.of_queues rfl rfl, hsum⟩, hc.running, hc.min_eq, hc.max_eq, ?_⟩
  show decr e._activeThreads ≤ _
  have hup := hc.upper
  unfold decr
  rw [if_neg (by omega)]
  omega

/-- The end of a worker's wait on a running executor: it returns, the invariant
holds afterwards, and the pending counter has not grown. -/
theorem waitForTask_counted {cfg : Config} {e : Executor α} (hc : Counted cfg e) (self : Nat)
    (hself : e._config.enableWorkStealing = true → self < e._localQVec.length)
    (hmax : self < SIZE_MAX) (task : Task α) :
    ∃ b t e1, waitForTask e self task = some (b, t, e1) ∧ Counted cfg e1 ∧
      e1._pendingTasks ≤ e._pendingTasks := by
  obtain ⟨ok, t, e2, hget, hc2, hok, _⟩ := getNextTask_counted hc self hself hmax task
  have hrun := hc2.running
  have hle : e2._pendingTasks ≤ e._pendingTasks := by
    cases ok with
    | true => have := hok rfl; omega
    | false =>
      rename_i hno
      rw [(hno rfl).1]
  have htimeout : ∃ b1 t1 e1, handleTimeout e2 t = (b1, t1, e1) ∧ Counted cfg e1 ∧
      e1._pendingTasks ≤ e._pendingTasks := by
    unfold handleTimeout
    simp only [hrun, Bool.false_or, decide_eq_true_eq]
    split
    · rename_i hgt
      exact ⟨_, _, _, rfl, hc2.decrement hgt, hle⟩
    · exact ⟨_, _, _, rfl, hc2, hle⟩
  unfold waitForTask
  simp only [hget, hrun, Bool.false_or, Bool.false_eq_true, if_false]
  cases ok with
  | true => exact ⟨true, t, e2, by simp, hc2, hle⟩
  | false =>
    obtain ⟨b1, t1, e1, h1, h2, h3⟩ := htimeout
    exact ⟨b1, t1, e1, by simp [h1], h2, h3⟩

/-- Every admissible run of a running executor returns and keeps the invariant. -/
theorem steps_counted {cfg : Config} (hmin : cfg.minThreads < SIZE_MAX)
    (hmax : cfg.threadCount < SIZE_MAX) :
    ∀ (evs : List (Event α)) (e : Executor α), Counted cfg e →
      e._pendingTasks + evs.length ≤ SIZE_MAX → admissibleTrace e evs = true →
      ∃ e1, steps e evs = some e1 ∧ Counted cfg e1
  | [], e, hc, _, _ => ⟨e, rfl, hc⟩
  | ev :: evs, e, hc, hlen, hadm => by
    simp only [admissibleTrace, Bool.and_eq_true] at hadm
    simp only [List.length_cons] at hlen
    obtain ⟨hev, hrest⟩ := hadm
    have hstep : ∃ e1, step e ev = some e1 ∧ Counted cfg e1 ∧
        e1._pendingTasks ≤ e._pendingTasks + 1 := by
      cases ev with
      | schedule env self task p =>
        simp only [Event.admissible, decide_eq_true_eq] at hev
        obtain ⟨e1, h1, h2, h3⟩ := schedule_counted env hc hmin hmax self task p hev (by omega)
        exact ⟨e1, h1, h2, by omega⟩
      | waitForTask self task =>
        simp only [Event.admissible, Bool.and_eq_true, decide_eq_true_eq, Bool.or_eq_true,
          Bool.not_eq_true'] at hev
        obtain ⟨b, t, e1, h1, h2, h3⟩ := waitForTask_counted hc self
          (fun hws => by
            rcases hev.2 with h | h
            · rw [hws] at h; cases h
            · exact h) hev.1 task
        exact ⟨e1, by simp only [step, h1, Option.map_some'], h2, by omega⟩
    obtain ⟨e1, h1, h2, h3⟩ := hstep
    simp only [h1] at hrest
    obtain ⟨e2, h4, h5⟩ := steps_counted hmin hmax evs e1 h2 (by omega) hrest
    exact ⟨e2, by simp only [steps, h1, h4], h5⟩

end Executor
/-- C19: for a fresh executor with thread limits below `SIZE_MAX` whose `start()` can
build its queues, `start()` returns, and every run of fewer than `2^64` admissible
steps from there (calls of `schedule` with one of the three priorities, ends of a
worker's wait in `waitForTask`, each taken as one atomic step) returns a state in which
the pending counter equals the number of tasks held in the global and local queues; so
it is 0 when every queue reports empty.  In such a state `getNextTask` called by a
worker returns, keeps the equality, lowers pending by exactly 1 when it succeeds and
leaves it as it is when it fails. -/
theorem pending_equals_queued_tasks {α : Type} (cfg : Executor.Config) (uninit : Nat)
    (hmin : cfg.minThreads < SIZE_MAX) (hmax : cfg.threadCount < SIZE_MAX)
    (hcap : cfg.enableWorkStealing = true → cfg.minThreads ≤
      max ((cfg.threadCount * cfg.tasksPerThreadThreshold) % SIZE_MOD) 1024)
    (evs : List (Executor.Event α)) (hlen : evs.length ≤ SIZE_MAX) :
    ∃ e0 : Executor α, Executor.start (Executor.new cfg uninit) = some e0 ∧
      (Executor.admissibleTrace e0 evs = true →
        ∃ e, Executor.steps e0 evs = some e ∧
          e._pendingTasks = Executor.queuedTasks e ∧
          (Executor.allQueuesEmpty e = true → e._pendingTasks = 0) ∧
          ∀ (self : Nat) (task : Executor.Task α),
            Executor.Event.admissible e (Executor.Event.waitForTask self task) = true →
            ∃ ok t e1, Executor.getNextTask e self task = some (ok, t, e1) ∧
              e1._pendingTasks = Executor.queuedTasks e1 ∧
              (ok = true → e1._pendingTasks + 1 = e._pendingTasks) ∧
              (ok = false → e1._pendingTasks = e._pendingTasks)) := by
  obtain ⟨e0, h0, hc0, hp0⟩ := Executor.start_counted (α := α) cfg uninit hcap hmin
  refine ⟨e0, h0, fun hadm => ?_⟩
  obtain ⟨e, he, hc⟩ := Executor.steps_counted hmin hmax evs e0 hc0 (by omega) hadm
  obtain ⟨g, l, hrep, hsum⟩ := hc.rep
  refine ⟨e, he, by rw [hsum, hrep.queuedTasks], fun hempty => ?_, ?_⟩
  · rw [hsum]; exact hrep.allQueuesEmpty hempty
  · intro self task hev
    simp only [Executor.Event.admissible, Bool.and_eq_true, decide_eq_true_eq, Bool.or_eq_true,
      Bool.not_eq_true'] at hev
    obtain ⟨ok, t, e1, h1, hc1, h2, h3⟩ := Executor.getNextTask_counted hc self
      (fun hws => by
        rcases hev.2 with h | h
        · rw [hws] at h; cases h
        · exact h) hev.1 task
    obtain ⟨g1, l1, hrep1, hsum1⟩ := hc1.rep
    exact ⟨ok, t, e1, h1, by rw [hsum1, hrep1.queuedTasks], h2, fun h => by rw [(h3 h).1]⟩

set_option maxRecDepth 100000 in
/-- The witness of C19: the default configuration on 4 hardware threads; a task
submitted from outside the pool, one submitted by worker 1, and worker 0 taking one:
one task is left, and the counter says so. -/
theorem pending_equals_queued_tasks_witness :
    ∃ e0 : Executor Nat,
      Executor.start (Executor.new (Executor.Config.default 4) 0) = some e0 ∧
      Executor.admissibleTrace e0
        [Executor.Event.schedule ⟨fun _ _ => true, true⟩ SIZE_MAX 7 Executor.Priority.Normal,
         Executor.Event.schedule ⟨fun _ _ => true, true⟩ 1 8 Executor.Priority.High,
         Executor.Event.waitForTask 0 ⟨0, Executor.Priority.Normal⟩] = true ∧
      ∃ e, Executor.steps e0
        [Executor.Event.schedule ⟨fun _ _ => true, true⟩ SIZE_MAX 7 Executor.Priority.Normal,
         Executor.Event.schedule ⟨fun _ _ => true, true⟩ 1 8 Executor.Priority.High,
         Executor.Event.waitForTask 0 ⟨0, Executor.Priority.Normal⟩] = some e ∧
        e._pendingTasks = Executor.queuedTasks e ∧ e._pendingTasks = 1 := by
  obtain ⟨e0, h0, h⟩ := pending_equals_queued_tasks (Executor.Config.default 4) 0
    (by decide) (by decide) (fun _ => by decide)
    [Executor.Event.schedule ⟨fun _ _ => true, true⟩ SIZE_MAX 7 Executor.Priority.Normal,
     Executor.Event.schedule ⟨fun _ _ => true, true⟩ 1 8 Executor.Priority.High,
     Executor.Event.waitForTask 0 ⟨0, Executor.Priority.Normal⟩] (by decide)
  have hadm : (Executor.start (Executor.new (Executor.Config.default 4) 0 : Executor Nat)).elim
      true (fun e0 => Executor.admissibleTrace e0
        [Executor.Event.schedule ⟨fun _ _ => true, true⟩ SIZE_MAX 7 Executor.Priority.Normal,
         Executor.Event.schedule ⟨fun _ _ => true, true⟩ 1 8 Executor.Priority.High,
         Executor.Event.waitForTask 0 ⟨0, Executor.Priority.Normal⟩]) = true := by
    decide
  have hone : (Executor.start (Executor.new (Executor.Config.default 4) 0 : Executor Nat)).elim
      true (fun e0 => (Executor.steps e0
        [Executor.Event.schedule ⟨fun _ _ => true, true⟩ SIZE_MAX 7 Executor.Priority.Normal,
         Executor.Event.schedule ⟨fun _ _ => true, true⟩ 1 8 Executor.Priority.High,
         Executor.Event.waitForTask 0 ⟨0, Executor.Priority.Normal⟩]).elim true
        (fun e => decide (e._pendingTasks = 1))) = true := by
    decide
  rw [h0] at hadm hone
  simp only [Option.elim_some] at hadm hone
  obtain ⟨e, h1, h2, _⟩ := h hadm
  rw [h1] at hone
  simp only [Option.elim_some, decide_eq_true_eq] at hone
  exact ⟨e0, h0, hadm, e, h1, h2, hone⟩
/-! ## The event scheduler -/

namespace UnorderedMap

variable {V : Type}

theorem assign_same (m : UnorderedMap V) (k : String) (v : V) : assign m k v k = some v := by
  simp [assign]

theorem assign_other (m : UnorderedMap V) {k k1 : String} (v : V) (h : k1 ≠ k) :
    assign m k v k1 = m k1 := by
  simp [assign, h]

theorem erase_same (m : UnorderedMap V) (k : String) : erase m k k = none := by
  simp [erase]

theorem erase_other (m : UnorderedMap V) {k k1 : String} (h : k1 ≠ k) :
    erase m k k1 = m k1 := by
  simp [erase, h]

theorem assign_of_eq {m : UnorderedMap V} {k : String} {v : V} (h : m k = some v) :
    assign m k v = m := by
  funext k1
  by_cases hk : k1 = k
  · subst hk; rw [assign_same, h]
  · rw [assign_other m v hk]

theorem erase_of_none {m : UnorderedMap V} {k : String} (h : m k = none) : erase m k = m := by
  funext k1
  by_cases hk : k1 = k
  · subst hk; rw [erase_same, h]
  · rw [erase_other m hk]

theorem count_eq_zero {m : UnorderedMap V} {k : String} : count m k = 0 ↔ m k = none := by
  unfold count
  cases m k <;> simp

theorem index_of_some {m : UnorderedMap V} {k : String} {v : V} (h : m k = some v) (dflt : V) :
    index m k dflt = (v, m) := by
  simp [index, h]

theorem index_of_none {m : UnorderedMap V} {k : String} (h : m k = none) (dflt : V) :
    index m k dflt = (dflt, assign m k dflt) := by
  simp [index, h]

end UnorderedMap

namespace EventScheduler

variable {U : Type}

/-- Registering a handle that the vector of the name already holds changes nothing. -/
theorem registerHandler_present {s : EventScheduler U} {eventName : String} {handle : Nat}
    {vec : List Nat} (hvec : s._handlersMap eventName = some vec) (hmem : handle ∈ vec) :
    registerHandler s eventName handle = s := by
  simp only [registerHandler, UnorderedMap.index_of_some hvec, if_pos hmem]

/-- Registering a handle that the vector of the name does not hold appends it. -/
theorem registerHandler_absent {s : EventScheduler U} {eventName : String} {handle : Nat}
    (hmem : handle ∉ (s._handlersMap eventName).getD []) :
    registerHandler s eventName handle =
      { s with _handlersMap := (UnorderedMap.assign s._handlersMap eventName
          ((s._handlersMap eventName).getD [] ++ [handle])) } := by
  cases hvec : s._handlersMap eventName with
  | none =>
    simp only [registerHandler, UnorderedMap.index_of_none hvec, List.not_mem_nil, if_false,
      Option.getD_none]
    congr 1
    funext k
    simp only [UnorderedMap.assign, List.nil_append]
    split <;> rfl
  | some vec =>
    rw [hvec] at hmem
    simp only [Option.getD_some] at hmem
    simp only [registerHandler, UnorderedMap.index_of_some hvec, if_neg hmem, Option.getD_some]

/-- The vector `registerHandler` leaves under the name, and what it leaves alone. -/
theorem registerHandler_spec (s : EventScheduler U) (eventName : String) (handle : Nat) :
    (registerHandler s eventName handle)._handlersMap eventName =
        some (if handle ∈ (s._handlersMap eventName).getD [] then (s._handlersMap eventName).getD []
          else (s._handlersMap eventName).getD [] ++ [handle]) ∧
      (∀ n, n ≠ eventName →
        (registerHandler s eventName handle)._handlersMap n = s._handlersMap n) ∧
      (registerHandler s eventName handle)._executor = s._executor ∧
      (registerHandler s eventName handle)._eventsQ = s._eventsQ ∧
      (registerHandler s eventName handle)._eventDataMap = s._eventDataMap ∧
      (registerHandler s eventName handle).counters = s.counters := by
  by_cases hmem : handle ∈ (s._handlersMap eventName).getD []
  · cases hvec : s._handlersMap eventName with
    | none => rw [hvec] at hmem; simp at hmem
    | some vec =>
      rw [hvec] at hmem
      simp only [Option.getD_some] at hmem
      rw [registerHandler_present hvec hmem, hvec]
      simp [hmem]
  · rw [registerHandler_absent hmem, if_neg hmem]
    exact ⟨UnorderedMap.assign_same _ _ _, fun n hn => UnorderedMap.assign_other _ _ hn,
      rfl, rfl, rfl, rfl⟩

/-- What `getEventData` returns or throws; it leaves the state as it is. -/
theorem getEventData_spec (s : EventScheduler U) (T : String) (eventName : String) :
    getEventData s T eventName =
      (match s._eventDataMap eventName with
        | none => Except.error (Failure.runtime_error "Event data not found")
        | some data => any_cast T data, s) := by
  cases hd : s._eventDataMap eventName with
  | none =>
    have hc : UnorderedMap.count s._eventDataMap eventName = 0 :=
      UnorderedMap.count_eq_zero.mpr hd
    simp only [getEventData, hc, if_true]
  | some data =>
    have hc : ¬ UnorderedMap.count s._eventDataMap eventName = 0 := by
      rw [UnorderedMap.count_eq_zero, hd]; simp
    simp only [getEventData, if_neg hc, UnorderedMap.index_of_some hd]

/-- An emission under a name without an entry in the handler map: the payload is
stored, and nothing else happens. -/
theorem emit_no_entry (env : Nat → Executor.Env) {s : EventScheduler U} (self : Nat)
    {eventName : String} (data : Payload U) (hq : s._eventsQ = [])
    (hnone : s._handlersMap eventName = none) :
    emit env s self eventName data =
      some { s with
        _eventsQ := []
        _eventDataMap := UnorderedMap.assign s._eventDataMap eventName (some data) } := by
  have hc : UnorderedMap.count s._handlersMap eventName = 0 :=
    UnorderedMap.count_eq_zero.mpr hnone
  simp only [emit, hq, List.nil_append, List.length_singleton, processEvents, Event.storeData,
    hc, if_true, List.isEmpty_nil]

/-- An emission under a name whose vector of handlers is empty. -/
theorem emit_empty_entry (env : Nat → Executor.Env) {s : EventScheduler U} (self : Nat)
    {eventName : String} (data : Payload U) (hq : s._eventsQ = [])
    (hvec : s._handlersMap eventName = some []) :
    emit env s self eventName data =
      some { s with
        _eventsQ := []
        _eventDataMap := UnorderedMap.erase
          (UnorderedMap.assign s._eventDataMap eventName (some data)) eventName } := by
  have hc : ¬ UnorderedMap.count s._handlersMap eventName = 0 := by
    rw [UnorderedMap.count_eq_zero, hvec]; simp
  simp only [emit, hq, List.nil_append, List.length_singleton, processEvents, Event.storeData,
    if_neg hc, UnorderedMap.index_of_some hvec, List.length_nil, if_true, List.isEmpty_nil]

/-- An emission under a name with handlers: the payload is stored, a counter is
made, the entry of the name is erased, and one closure per handle is scheduled. -/
theorem emit_handlers (env : Nat → Executor.Env) {s : EventScheduler U} (self : Nat)
    {eventName : String} (data : Payload U) (hq : s._eventsQ = []) {vec : List Nat}
    (hvec : s._handlersMap eventName = some vec) (hne : vec ≠ []) :
    emit env s self eventName data =
      (scheduleAll env self 0
        (vec.map (fun handle =>
          Lambda.resumeAndCount handle eventName vec.length s.counters.length))
        s._executor).map (fun e1 =>
          { s with
            _executor := e1
            _eventsQ := []
            _eventDataMap := UnorderedMap.assign s._eventDataMap eventName (some data)
            counters := s.counters ++ [0]
            _handlersMap := UnorderedMap.erase s._handlersMap eventName }) := by
  have hc : ¬ UnorderedMap.count s._handlersMap eventName = 0 := by
    rw [UnorderedMap.count_eq_zero, hvec]; simp
  have hlen : ¬ vec.length = 0 := by
    intro h; exact hne (List.length_eq_zero.mp h)
  simp only [emit, hq, List.nil_append, List.length_singleton, processEvents, Event.storeData,
    if_neg hc, UnorderedMap.index_of_some hvec, if_neg hlen]
  cases scheduleAll env self 0
      (vec.map (fun handle =>
        Lambda.resumeAndCount handle eventName vec.length s.counters.length))
      s._executor with
  | none => rfl
  | some e1 => simp only [List.isEmpty_nil, if_true, Option.map_some']

end EventScheduler
/-! ## The invariant of a run -/

namespace EventScheduler

variable {U : Type}

theorem lastEmitted_append_same (evs : List (Event U)) (n : String) (d : Payload U) :
    lastEmitted (evs ++ [⟨n, d⟩]) n = some d := by
  simp [lastEmitted]

theorem lastEmitted_append_other (evs : List (Event U)) {n m : String} (d : Payload U)
    (h : n ≠ m) : lastEmitted (evs ++ [⟨m, d⟩]) n = lastEmitted evs n := by
  simp [lastEmitted, List.find?_cons, Ne.symm h]

theorem lastEmitted_of_split {evs pre post : List (Event U)} {n : String} {d : Payload U}
    (h : evs = pre ++ ⟨n, d⟩ :: post) (hpost : ∀ ev ∈ post, ev.eventName ≠ n) :
    lastEmitted evs n = some d := by
  subst h
  induction post using List.reverseRecOn with
  | nil => exact lastEmitted_append_same pre n d
  | append_singleton post ev ih =>
    have hev : ev.eventName ≠ n := hpost ev (by simp)
    have := lastEmitted_append_other (pre ++ ⟨n, d⟩ :: post) (n := n) (m := ev.eventName)
      ev.data (Ne.symm hev)
    rw [← ih (fun x hx => hpost x (by simp [hx]))]
    rw [← this]
    simp

theorem lastEmitted_split : ∀ (evs : List (Event U)) (n : String) (d : Payload U),
    lastEmitted evs n = some d →
    ∃ pre post, evs = pre ++ ⟨n, d⟩ :: post ∧ ∀ ev ∈ post, ev.eventName ≠ n := by
  intro evs
  induction evs using List.reverseRecOn with
  | nil => intro n d h; simp [lastEmitted] at h
  | append_singleton evs ev ih =>
    intro n d h
    by_cases hev : ev.eventName = n
    · obtain ⟨m, d1⟩ := ev
      simp only at hev
      subst hev
      rw [lastEmitted_append_same] at h
      simp only [Option.some.injEq] at h
      subst h
      exact ⟨evs, [], rfl, by simp⟩
    · obtain ⟨m, d1⟩ := ev
      simp only at hev
      rw [lastEmitted_append_other evs d1 (Ne.symm hev)] at h
      obtain ⟨pre, post, h1, h2⟩ := ih n d h
      refine ⟨pre, post ++ [⟨m, d1⟩], by rw [h1]; simp, ?_⟩
      intro x hx
      simp only [List.mem_append, List.mem_singleton] at hx
      rcases hx with hx | rfl
      · exact h2 x hx
      · exact hev

/-- A change of state that keeps the queue empty, the emissions and the handler map,
and at most erases payloads, keeps the invariant. -/
theorem Run.Inv.of_maps {r r1 : Run U} (h : r.Inv) (hq : r1.state._eventsQ = [])
    (hem : r1.emitted = r.emitted)
    (hdata : ∀ n, r1.state._eventDataMap n = r.state._eventDataMap n ∨
      r1.state._eventDataMap n = none)
    (hmap : r1.state._handlersMap = r.state._handlersMap) : r1.Inv := by
  refine ⟨hq, fun n => ?_, fun n vec hv => h.handlers n vec (hmap ▸ hv)⟩
  rcases hdata n with hd | hd
  · rw [hd, hem]; exact h.data n
  · exact Or.inl hd

theorem Run.Inv.init (hardware_concurrency uninit : Nat) :
    (Run.init hardware_concurrency uninit : Run U).Inv :=
  ⟨rfl, fun _ => Or.inl rfl, fun n vec h => by simp [Run.init, EventScheduler.new] at h⟩

/-- What `emit` does to the queue and the two maps, whatever the executor does. -/
theorem emit_maps {env : Nat → Executor.Env} {s s1 : EventScheduler U} {self : Nat}
    {eventName : String} {data : Payload U} (hq : s._eventsQ = [])
    (h : emit env s self eventName data = some s1) :
    s1._eventsQ = [] ∧
      (s1._eventDataMap = UnorderedMap.assign s._eventDataMap eventName (some data) ∨
        s1._eventDataMap = UnorderedMap.erase
          (UnorderedMap.assign s._eventDataMap eventName (some data)) eventName) ∧
      (s1._handlersMap = s._handlersMap ∨
        s1._handlersMap = UnorderedMap.erase s._handlersMap eventName) := by
  cases hvec : s._handlersMap eventName with
  | none =>
    rw [emit_no_entry env self data hq hvec] at h
    simp only [Option.some.injEq] at h
    subst h
    exact ⟨rfl, Or.inl rfl, Or.inl rfl⟩
  | some vec =>
    cases vec with
    | nil =>
      rw [emit_empty_entry env self data hq hvec] at h
      simp only [Option.some.injEq] at h
      subst h
      exact ⟨rfl, Or.inr rfl, Or.inl rfl⟩
    | cons x xs =>
      rw [emit_handlers env self data hq hvec (by simp)] at h
      simp only [Option.map_eq_some'] at h
      obtain ⟨e1, _, h⟩ := h
      subst h
      exact ⟨rfl, Or.inl rfl, Or.inr rfl⟩

theorem Run.emit_inv {env : Nat → Executor.Env} {self : Nat} {r r1 : Run U} {eventName : String}
    {data : Payload U} (hinv : r.Inv) (h : Run.emit env self r eventName data = some r1) :
    r1.Inv ∧ r1.reads = r.reads ∧ r1.terminated = r.terminated := by
  unfold Run.emit at h
  split at h
  · simp at h
  · rename_i s1 hem
    simp only [Option.some.injEq] at h
    subst h
    obtain ⟨hq, hdata, hmap⟩ := emit_maps hinv.queue hem
    refine ⟨⟨hq, fun n => ?_, fun n vec hv => ?_⟩, rfl, rfl⟩
    · show s1._eventDataMap n = none ∨ ∃ d, lastEmitted (r.emitted ++ [⟨eventName, data⟩]) n =
        some d ∧ s1._eventDataMap n = some (some d)
      by_cases hn : n = eventName
      · subst hn
        rcases hdata with hd | hd
        · exact Or.inr ⟨data, lastEmitted_append_same _ _ _, by
            rw [hd, UnorderedMap.assign_same]⟩
        · exact Or.inl (by rw [hd, UnorderedMap.erase_same])
      · have hsame : s1._eventDataMap n = r.state._eventDataMap n := by
          rcases hdata with hd | hd
          · rw [hd, UnorderedMap.assign_other _ _ hn]
          · rw [hd, UnorderedMap.erase_other _ hn, UnorderedMap.assign_other _ _ hn]
        rw [hsame, lastEmitted_append_other _ _ hn]
        exact hinv.data n
    · have hv1 : s1._handlersMap n = some vec := hv
      rcases hmap with hm | hm
      · rw [hm] at hv1; exact hinv.handlers n vec hv1
      · rw [hm] at hv1
        by_cases hn : n = eventName
        · subst hn; rw [UnorderedMap.erase_same] at hv1; cases hv1
        · rw [UnorderedMap.erase_other _ hn] at hv1; exact hinv.handlers n vec hv1

theorem registerHandler_inv {r : Run U} (hinv : r.Inv) (eventName : String) (handle : Nat) :
    ({ r with state := registerHandler r.state eventName handle } : Run U).Inv := by
  obtain ⟨hat, hother, _, hq, hdata, _⟩ := registerHandler_spec r.state eventName handle
  refine ⟨hq.trans hinv.queue, fun n => ?_, fun n vec hv => ?_⟩
  · show (registerHandler r.state eventName handle)._eventDataMap n = none ∨ _
    rw [hdata]; exact hinv.data n
  · have hv1 : (registerHandler r.state eventName handle)._handlersMap n = some vec := hv
    by_cases hn : n = eventName
    · subst hn
      rw [hat] at hv1
      simp only [Option.some.injEq] at hv1
      cases hold : r.state._handlersMap n with
      | none =>
        rw [hold] at hv1
        simp at hv1
        subst hv1
        simp
      | some old =>
        obtain ⟨hnd, hne⟩ := hinv.handlers n old hold
        rw [hold] at hv1
        simp only [Option.getD_some] at hv1
        split at hv1
        · subst hv1; exact ⟨hnd, hne⟩
        · rename_i hmem
          subst hv1
          exact ⟨List.Nodup.append hnd (List.nodup_singleton _)
            (by simpa [List.disjoint_singleton] using hmem), by simp⟩
    · rw [hother n hn] at hv1; exact hinv.handlers n vec hv1

theorem Run.call_inv {self : Nat} {r r1 : Run U} {c : Call U} (hinv : r.Inv)
    (h : Run.call self r c = some r1) :
    r1.Inv ∧ r1.reads = r.reads ∧ r1.terminated = r.terminated := by
  cases c with
  | awaitEvent eventName handle =>
    simp only [Run.call, EventAwaiter.await_suspend, Option.some.injEq] at h
    subst h
    exact ⟨registerHandler_inv hinv eventName handle, rfl, rfl⟩
  | emit env eventName data =>
    exact Run.emit_inv hinv h
  | switchToExecutor env handle =>
    simp only [Run.call, ExecutorAwaiter.await_suspend] at h
    split at h
    · simp at h
    · rename_i s1 hs
      split at hs
      · simp at hs
      · simp only [Option.some.injEq] at hs h
        subst hs; subst h
        exact ⟨hinv.of_maps hinv.queue rfl (fun _ => Or.inl rfl) rfl, rfl, rfl⟩

theorem Run.calls_inv {self : Nat} : ∀ (cs : List (Call U)) {r r1 : Run U}, r.Inv →
    Run.calls self r cs = some r1 →
    r1.Inv ∧ r1.reads = r.reads ∧ r1.terminated = r.terminated
  | [], r, r1, hinv, h => by
    simp only [Run.calls, Option.some.injEq] at h
    subst h; exact ⟨hinv, rfl, rfl⟩
  | c :: cs, r, r1, hinv, h => by
    simp only [Run.calls] at h
    split at h
    · simp at h
    · rename_i r2 hc
      obtain ⟨h1, h2, h3⟩ := Run.call_inv hinv hc
      obtain ⟨h4, h5, h6⟩ := Run.calls_inv cs h1 h
      exact ⟨h4, h5.trans h2, h6.trans h3⟩

/-- A closure run by a worker keeps the invariant; the only value it reads is what
`getEventData` returns in the state it starts from. -/
theorem Run.invoke_inv {self : Nat} {r r1 : Run U} {T : String} {body : List (Call U)}
    {f : Lambda} (hinv : r.Inv) (h : Run.invoke self r T body f = some r1) :
    r1.Inv ∧
      (r1.reads = r.reads ∨
        ∃ n, r1.reads = r.reads ++ [(n, (getEventData r.state T n).1)]) := by
  cases f with
  | noop =>
    simp only [Run.invoke, Option.some.injEq] at h
    subst h; exact ⟨hinv, Or.inl rfl⟩
  | resume handle =>
    simp only [Run.invoke] at h
    obtain ⟨h1, h2, _⟩ := Run.calls_inv body hinv h
    exact ⟨h1, Or.inl h2⟩
  | resumeAndCount handle eventName handlerCount completedCount =>
    have hg := getEventData_spec r.state T eventName
    generalize hres : (match r.state._eventDataMap eventName with
        | none => Except.error (Failure.runtime_error "Event data not found")
        | some data => any_cast T data) = res at hg
    have hfst : (getEventData r.state T eventName).1 = res := by rw [hg]
    simp only [Run.invoke, EventAwaiter.await_resume, hg] at h
    cases res with
    | error failure =>
      simp only [Option.some.injEq] at h
      subst h
      exact ⟨hinv.of_maps hinv.queue rfl (fun _ => Or.inl rfl) rfl,
        Or.inr ⟨eventName, by rw [hfst]⟩⟩
    | ok value =>
      simp only at h
      split at h
      · simp at h
      · rename_i r2 hcalls
        have hinv0 : Run.Inv (U := U)
            ⟨r.state, r.emitted, r.reads ++ [(eventName, Except.ok value)], r.terminated⟩ :=
          hinv.of_maps hinv.queue rfl (fun _ => Or.inl rfl) rfl
        obtain ⟨h1, h2, _⟩ := Run.calls_inv body hinv0 hcalls
        have hreads : r2.reads = r.reads ++ [(eventName, (getEventData r.state T eventName).1)] := by
          rw [h2, hfst]
        split at h
        · simp at h
        · split at h
          · simp only [Option.some.injEq] at h
            subst h
            refine ⟨h1.of_maps h1.queue rfl (fun n => ?_) rfl, Or.inr ⟨eventName, hreads⟩⟩
            by_cases hn : n = eventName
            · subst hn; exact Or.inr (UnorderedMap.erase_same _ _)
            · exact Or.inl (UnorderedMap.erase_other _ hn)
          · simp only [Option.some.injEq] at h
            subst h
            exact ⟨h1.of_maps h1.queue rfl (fun _ => Or.inl rfl) rfl,
              Or.inr ⟨eventName, hreads⟩⟩

theorem getEventData_executor (s : EventScheduler U) (e1 : Executor Lambda) (T n : String) :
    (getEventData { s with _executor := e1 } T n).1 = (getEventData s T n).1 := by
  rw [getEventData_spec, getEventData_spec]

/-- A step of a run keeps the invariant. -/
theorem Run.step_inv {r r1 : Run U} {st : Step U} (hinv : r.Inv)
    (h : Run.step r st = some r1) : r1.Inv := by
  cases st with
  | start =>
    simp only [Run.step] at h
    split at h
    · simp only [Option.some.injEq] at h; subst h; exact hinv
    · split at h
      · simp at h
      · simp only [Option.some.injEq] at h; subst h
        exact hinv.of_maps hinv.queue rfl (fun _ => Or.inl rfl) rfl
  | stop =>
    simp only [Run.step] at h
    split at h
    · simp only [Option.some.injEq] at h; subst h; exact hinv
    · simp only [Option.some.injEq] at h; subst h
      exact hinv.of_maps hinv.queue rfl (fun _ => Or.inl rfl) rfl
  | registerHandler eventName handle =>
    simp only [Run.step] at h
    split at h
    · simp only [Option.some.injEq] at h; subst h; exact hinv
    · simp only [Option.some.injEq] at h; subst h
      exact registerHandler_inv hinv eventName handle
  | emit env self eventName data =>
    simp only [Run.step] at h
    split at h
    · simp only [Option.some.injEq] at h; subst h; exact hinv
    · exact (Run.emit_inv hinv h).1
  | work self T body =>
    simp only [Run.step] at h
    split at h
    · simp only [Option.some.injEq] at h; subst h; exact hinv
    · split at h
      · simp at h
      · simp only [Option.some.injEq] at h; subst h
        exact hinv.of_maps hinv.queue rfl (fun _ => Or.inl rfl) rfl
      · rename_i task e1 _
        have hinv1 : Run.Inv (U := U)
            ⟨{ r.state with _executor := e1 }, r.emitted, r.reads, r.terminated⟩ :=
          hinv.of_maps hinv.queue rfl (fun _ => Or.inl rfl) rfl
        exact (Run.invoke_inv hinv1 h).1

/-- Every state of a run from the default-constructed scheduler has the invariant. -/
theorem Run.steps_inv : ∀ (tr : List (Step U)) {r r1 : Run U}, r.Inv →
    Run.steps r tr = some r1 → r1.Inv
  | [], r, r1, hinv, h => by
    simp only [Run.steps, Option.some.injEq] at h
    subst h; exact hinv
  | st :: tr, r, r1, hinv, h => by
    simp only [Run.steps] at h
    split at h
    · simp at h
    · rename_i r2 hst
      exact Run.steps_inv tr (Run.step_inv hinv hst) h

/-- The value a worker's turn adds to the reads is what `getEventData` returns in the
state the turn starts from. -/
theorem Run.work_reads {r r1 : Run U} {self : Nat} {T : String} {body : List (Call U)}
    (hinv : r.Inv) (h : Run.step r (Step.work self T body) = some r1) :
    r1.reads = r.reads ∨ ∃ n, r1.reads = r.reads ++ [(n, (getEventData r.state T n).1)] := by
  simp only [Run.step] at h
  split at h
  · simp only [Option.some.injEq] at h; subst h; exact Or.inl rfl
  · split at h
    · simp at h
    · simp only [Option.some.injEq] at h; subst h; exact Or.inl rfl
    · rename_i task e1 _
      have hinv1 : Run.Inv (U := U)
          ⟨{ r.state with _executor := e1 }, r.emitted, r.reads, r.terminated⟩ :=
        hinv.of_maps hinv.queue rfl (fun _ => Or.inl rfl) rfl
      rcases (Run.invoke_inv hinv1 h).2 with h1 | ⟨n, h1⟩
      · exact Or.inl h1
      · exact Or.inr ⟨n, by rw [h1, getEventData_executor]⟩

/-- A value obtained from `getEventData` in a state with the invariant is the payload
of the latest emission under the name. -/
theorem getEventData_latest {r : Run U} (hinv : r.Inv) {T n : String} {v : U}
    (h : (getEventData r.state T n).1 = Except.ok v) :
    lastEmitted r.emitted n = some ⟨T, v⟩ := by
  rw [getEventData_spec] at h
  simp only at h
  rcases hinv.data n with hd | ⟨d, hlast, hd⟩
  · rw [hd] at h; cases h
  · rw [hd] at h
    simp only [any_cast] at h
    split at h
    · rename_i hty
      simp only [Except.ok.injEq] at h
      rw [hlast]
      obtain ⟨ty, val⟩ := d
      simp only at hty h
      subst hty; subst h; rfl
    · cases h

end EventScheduler
/-! ## Registration and payload access -/

/-- C11: `registerHandler` is idempotent per (event name, handle).  In every state,
registering a handle that the vector of the name already holds returns the same state;
registering twice a handle under a name without handlers leaves the vector `[handle]`;
registering keeps every vector free of duplicates; and in every state of a run from
the default-constructed scheduler no vector holds a handle twice. -/
theorem registerHandler_idempotent {U : Type} :
    (∀ (s : EventScheduler U) (eventName : String) (handle : Nat),
      handle ∈ (s._handlersMap eventName).getD [] →
        EventScheduler.registerHandler s eventName handle = s) ∧
    (∀ (s : EventScheduler U) (eventName : String) (handle : Nat),
      EventScheduler.registerHandler (EventScheduler.registerHandler s eventName handle)
        eventName handle = EventScheduler.registerHandler s eventName handle) ∧
    (∀ (s : EventScheduler U) (eventName : String) (handle : Nat),
      (s._handlersMap eventName).getD [] = [] →
        (EventScheduler.registerHandler (EventScheduler.registerHandler s eventName handle)
          eventName handle)._handlersMap eventName = some [handle]) ∧
    (∀ (s : EventScheduler U) (eventName : String) (handle : Nat),
      (∀ n vec, s._handlersMap n = some vec → vec.Nodup) →
        ∀ n vec, (EventScheduler.registerHandler s eventName handle)._handlersMap n = some vec →
          vec.Nodup) ∧
    (∀ (hardware_concurrency uninit : Nat) (tr : List (EventScheduler.Step U))
      (r : EventScheduler.Run U),
      EventScheduler.Run.steps (EventScheduler.Run.init hardware_concurrency uninit) tr =
        some r →
      ∀ n vec, r.state._handlersMap n = some vec → vec.Nodup) := by
  have hpresent : ∀ (s : EventScheduler U) (eventName : String) (handle : Nat),
      handle ∈ (s._handlersMap eventName).getD [] →
        EventScheduler.registerHandler s eventName handle = s := by
    intro s eventName handle hmem
    cases hvec : s._handlersMap eventName with
    | none => rw [hvec] at hmem; simp at hmem
    | some vec =>
      rw [hvec] at hmem
      exact EventScheduler.registerHandler_present hvec hmem
  have hin : ∀ (s : EventScheduler U) (eventName : String) (handle : Nat),
      handle ∈ ((EventScheduler.registerHandler s eventName handle)._handlersMap
        eventName).getD [] := by
    intro s eventName handle
    rw [(EventScheduler.registerHandler_spec s eventName handle).1]
    simp only [Option.getD_some]
    split
    · assumption
    · simp
  refine ⟨hpresent, fun s eventName handle => hpresent _ _ _ (hin s eventName handle), ?_, ?_, ?_⟩
  · intro s eventName handle hempty
    rw [hpresent _ _ _ (hin s eventName handle),
      (EventScheduler.registerHandler_spec s eventName handle).1, hempty]
    simp
  · intro s eventName handle hnd n vec hv
    obtain ⟨hat, hother, _⟩ := EventScheduler.registerHandler_spec s eventName handle
    by_cases hn : n = eventName
    · subst hn
      rw [hat] at hv
      simp only [Option.some.injEq] at hv
      have hold : ((s._handlersMap n).getD []).Nodup := by
        cases hvec : s._handlersMap n with
        | none => simp
        | some old => simpa using hnd n old hvec
      split at hv
      · subst hv; exact hold
      · rename_i hmem
        subst hv
        exact List.Nodup.append hold (List.nodup_singleton _)
          (by simpa [List.disjoint_singleton] using hmem)
    · rw [hother n hn] at hv; exact hnd n vec hv
  · intro hc uninit tr r hr n vec hv
    exact ((EventScheduler.Run.steps_inv tr (EventScheduler.Run.Inv.init hc uninit) hr).handlers
      n vec hv).1

/-- The witness of C11: the handle 7 registered twice under "user_login" on the
default-constructed scheduler. -/
theorem registerHandler_idempotent_witness :
    EventScheduler.registerHandler
        (EventScheduler.registerHandler (EventScheduler.new 4 0 : EventScheduler Nat)
          "user_login" 7) "user_login" 7 =
      EventScheduler.registerHandler (EventScheduler.new 4 0) "user_login" 7 ∧
    (EventScheduler.registerHandler
        (EventScheduler.registerHandler (EventScheduler.new 4 0 : EventScheduler Nat)
          "user_login" 7) "user_login" 7)._handlersMap "user_login" = some [7] :=
  ⟨registerHandler_idempotent.1
      (EventScheduler.registerHandler (EventScheduler.new 4 0 : EventScheduler Nat)
        "user_login" 7) "user_login" 7 (by decide),
    registerHandler_idempotent.2.2.1 (EventScheduler.new 4 0 : EventScheduler Nat)
      "user_login" 7 (by decide)⟩

/-- C12: `getEventData<T>(name)`, which `await_resume` returns, gives the payload
stored under `name` when its type is `T`; it throws `runtime_error("Event data not
found")` exactly when nothing is stored under `name`, and `bad_any_cast` exactly when
what is stored is not a value of type `T`.  It never changes the state. -/
theorem getEventData_contract {U : Type} (s : EventScheduler U) (T eventName : String) :
    (EventScheduler.getEventData s T eventName).2 = s ∧
    EventScheduler.EventAwaiter.await_resume s T eventName =
      EventScheduler.getEventData s T eventName ∧
    (∀ data : EventScheduler.Payload U, s._eventDataMap eventName = some (some data) →
      data.ty = T →
      (EventScheduler.getEventData s T eventName).1 = Except.ok data.val) ∧
    ((EventScheduler.getEventData s T eventName).1 =
        Except.error (EventScheduler.Failure.runtime_error "Event data not found") ↔
      s._eventDataMap eventName = none) ∧
    ((EventScheduler.getEventData s T eventName).1 =
        Except.error EventScheduler.Failure.bad_any_cast ↔
      ∃ stored, s._eventDataMap eventName = some stored ∧
        ∀ data, stored = some data → data.ty ≠ T) ∧
    (∀ v, (EventScheduler.getEventData s T eventName).1 = Except.ok v →
      s._eventDataMap eventName = some (some ⟨T, v⟩)) := by
  rw [EventScheduler.getEventData_spec]
  refine ⟨rfl, by rw [EventScheduler.EventAwaiter.await_resume,
    EventScheduler.getEventData_spec], ?_, ?_, ?_, ?_⟩
  · intro data hd hty
    simp only [hd, EventScheduler.any_cast, if_pos hty]
  · cases hd : s._eventDataMap eventName with
    | none => simp
    | some stored =>
      cases stored with
      | none => simp [EventScheduler.any_cast]
      | some data =>
        simp only [EventScheduler.any_cast]
        split <;> simp
  · cases hd : s._eventDataMap eventName with
    | none => simp
    | some stored =>
      cases stored with
      | none => simp [EventScheduler.any_cast]
      | some data =>
        simp only [EventScheduler.any_cast]
        split
        · rename_i hty; simp [hty]
        · rename_i hty; simp [hty]
  · intro v hv
    cases hd : s._eventDataMap eventName with
    | none => rw [hd] at hv; cases hv
    | some stored =>
      rw [hd] at hv
      cases stored with
      | none => cases hv
      | some data =>
        simp only [EventScheduler.any_cast] at hv
        split at hv
        · rename_i hty
          simp only [Except.ok.injEq] at hv
          obtain ⟨ty, val⟩ := data
          simp only at hty hv
          subst hty; subst hv; rfl
        · cases hv

/-- The witness of C12: a scheduler keeping the `int` 5 under "system_status": read
as `int`, read as `std::string`, and a read under another name. -/
theorem getEventData_contract_witness :
    (EventScheduler.getEventData
        ({ (EventScheduler.new 4 0 : EventScheduler Nat) with
          _eventDataMap := fun k => if k = "system_status" then some (some ⟨"int", 5⟩) else none })
        "int" "system_status").1 = Except.ok 5 ∧
    (EventScheduler.getEventData
        ({ (EventScheduler.new 4 0 : EventScheduler Nat) with
          _eventDataMap := fun k => if k = "system_status" then some (some ⟨"int", 5⟩) else none })
        "std::string" "system_status").1 = Except.error EventScheduler.Failure.bad_any_cast ∧
    (EventScheduler.getEventData
        ({ (EventScheduler.new 4 0 : EventScheduler Nat) with
          _eventDataMap := fun k => if k = "system_status" then some (some ⟨"int", 5⟩) else none })
        "int" "user_login").1 =
      Except.error (EventScheduler.Failure.runtime_error "Event data not found") :=
  ⟨(getEventData_contract _ "int" "system_status").2.2.1 ⟨"int", 5⟩ (by decide) (by decide),
    (getEventData_contract
      ({ (EventScheduler.new 4 0 : EventScheduler Nat) with
        _eventDataMap := fun k => if k = "system_status" then some (some ⟨"int", 5⟩) else none })
      "std::string" "system_status").2.2.2.2.1.mpr
      ⟨some ⟨"int", 5⟩, by decide, fun data hd => by
        simp only [Option.some.injEq] at hd; subst hd; decide⟩,
    by decide⟩
/-! ## Payloads and emissions -/

set_option maxRecDepth 100000 in
/-- C13, as stated, fails.  On the default scheduler with a started executor, handler
1 (awaiting an `int`) is registered under "x" and `emit("x", 1)` schedules its
resumption; handler 2 is registered under "x" and `emit("x", 2)` schedules its
resumption and stores 2 (two tasks queued).  Worker 0 then takes the first task, the
one of the first emission for handler 1, and the handler reads 2, the payload of the
other emission. -/
theorem handler_reads_later_emission :
    ((EventScheduler.Run.init 4 0 : EventScheduler.Run Nat).steps
      [EventScheduler.Step.start,
       EventScheduler.Step.registerHandler "x" 1,
       EventScheduler.Step.emit (fun _ => ⟨fun _ _ => true, true⟩) SIZE_MAX "x" ⟨"int", 1⟩]).map
        (fun r => (r.state._handlersMap "x", Executor.queuedTasks r.state._executor,
          r.state._eventDataMap "x")) =
      some (none, 1, some (some ⟨"int", 1⟩)) ∧
    ((EventScheduler.Run.init 4 0 : EventScheduler.Run Nat).steps
      [EventScheduler.Step.start,
       EventScheduler.Step.registerHandler "x" 1,
       EventScheduler.Step.emit (fun _ => ⟨fun _ _ => true, true⟩) SIZE_MAX "x" ⟨"int", 1⟩,
       EventScheduler.Step.registerHandler "x" 2,
       EventScheduler.Step.emit (fun _ => ⟨fun _ _ => true, true⟩) SIZE_MAX "x" ⟨"int", 2⟩]).map
        (fun r => (r.state._handlersMap "x", Executor.queuedTasks r.state._executor,
          r.state._eventDataMap "x", r.reads.length)) =
      some (none, 2, some (some ⟨"int", 2⟩), 0) ∧
    ((EventScheduler.Run.init 4 0 : EventScheduler.Run Nat).steps
      [EventScheduler.Step.start,
       EventScheduler.Step.registerHandler "x" 1,
       EventScheduler.Step.emit (fun _ => ⟨fun _ _ => true, true⟩) SIZE_MAX "x" ⟨"int", 1⟩,
       EventScheduler.Step.registerHandler "x" 2,
       EventScheduler.Step.emit (fun _ => ⟨fun _ _ => true, true⟩) SIZE_MAX "x" ⟨"int", 2⟩]).bind
        (fun r => (Executor.getNextTask r.state._executor 0
          ⟨EventScheduler.Lambda.noop, Executor.Priority.Normal⟩).map
            (fun x => (x.1, x.2.1.func))) =
      some (true, EventScheduler.Lambda.resumeAndCount 1 "x" 1 0) ∧
    ((EventScheduler.Run.init 4 0 : EventScheduler.Run Nat).steps
      [EventScheduler.Step.start,
       EventScheduler.Step.registerHandler "x" 1,
       EventScheduler.Step.emit (fun _ => ⟨fun _ _ => true, true⟩) SIZE_MAX "x" ⟨"int", 1⟩,
       EventScheduler.Step.registerHandler "x" 2,
       EventScheduler.Step.emit (fun _ => ⟨fun _ _ => true, true⟩) SIZE_MAX "x" ⟨"int", 2⟩,
       EventScheduler.Step.work 0 "int" []]).map
        (fun r => (Executor.queuedTasks r.state._executor, r.reads)) =
      some (1, [("x", Except.ok 2)]) := by
  refine ⟨?_, ?_, ?_, ?_⟩
  · decide
  · decide
  · decide
  · decide

/-- C13 amended: in every run from the default-constructed scheduler (emissions,
registrations, turns of workers in any order, each one atomic step), when a worker's
turn resumes a handler that waited on `n` with type `T` and the handler reads `v`, then
`v` is the payload of the latest emission under `n` made so far: the emissions split
as `pre ++ (n, ⟨T, v⟩) :: post` with no emission under `n` in `post`.  So the handler
reads the payload of emission `e` whenever no emission under `n` followed `e`, and
never the payload of an emission that a later one under `n` has replaced. -/
theorem handler_reads_latest_emission {U : Type} (hardware_concurrency uninit : Nat)
    (tr : List (EventScheduler.Step U)) (r : EventScheduler.Run U)
    (hr : EventScheduler.Run.steps (EventScheduler.Run.init hardware_concurrency uninit) tr =
      some r)
    (self : Nat) (T : String) (body : List (EventScheduler.Call U)) (r1 : EventScheduler.Run U)
    (hstep : EventScheduler.Run.step r (EventScheduler.Step.work self T body) = some r1)
    (n : String) (v : U) (hread : r1.reads = r.reads ++ [(n, Except.ok v)]) :
    EventScheduler.lastEmitted r.emitted n = some ⟨T, v⟩ ∧
    (∃ pre post, r.emitted = pre ++ ⟨n, ⟨T, v⟩⟩ :: post ∧ ∀ ev ∈ post, ev.eventName ≠ n) ∧
    (∀ pre data post, r.emitted = pre ++ ⟨n, data⟩ :: post →
      (∀ ev ∈ post, ev.eventName ≠ n) → data = ⟨T, v⟩) := by
  have hinv := EventScheduler.Run.steps_inv tr
    (EventScheduler.Run.Inv.init hardware_concurrency uninit) hr
  have hget : (EventScheduler.getEventData r.state T n).1 = Except.ok v := by
    rcases EventScheduler.Run.work_reads hinv hstep with h | ⟨m, h⟩
    · rw [h] at hread
      have := congrArg List.length hread
      simp at this
    · rw [h] at hread
      have h2 := List.append_cancel_left hread
      simp only [List.cons.injEq, Prod.mk.injEq, and_true] at h2
      obtain ⟨hm, hv⟩ := h2
      subst hm
      exact hv
  have hlast := EventScheduler.getEventData_latest hinv hget
  refine ⟨hlast, EventScheduler.lastEmitted_split _ _ _ hlast, ?_⟩
  intro pre data post hsplit hpost
  have h2 := EventScheduler.lastEmitted_of_split hsplit hpost
  rw [hlast] at h2
  simp only [Option.some.injEq] at h2
  exact h2.symm

set_option maxRecDepth 100000 in
/-- The witness of C13 amended: the run of the counterexample; the handler reads 2,
the payload of the latest emission under "x". -/
theorem handler_reads_latest_emission_witness :
    ∃ r r1 : EventScheduler.Run Nat,
      (EventScheduler.Run.init 4 0 : EventScheduler.Run Nat).steps
        [EventScheduler.Step.start,
         EventScheduler.Step.registerHandler "x" 1,
         EventScheduler.Step.emit (fun _ => ⟨fun _ _ => true, true⟩) SIZE_MAX "x" ⟨"int", 1⟩,
         EventScheduler.Step.registerHandler "x" 2,
         EventScheduler.Step.emit (fun _ => ⟨fun _ _ => true, true⟩) SIZE_MAX "x" ⟨"int", 2⟩] =
        some r ∧
      EventScheduler.Run.step r (EventScheduler.Step.work 0 "int" []) = some r1 ∧
      r1.reads = r.reads ++ [("x", Except.ok 2)] ∧
      EventScheduler.lastEmitted r.emitted "x" = some ⟨"int", 2⟩ := by
  obtain ⟨r, hr⟩ : ∃ r, (EventScheduler.Run.init 4 0 : EventScheduler.Run Nat).steps
      [EventScheduler.Step.start,
       EventScheduler.Step.registerHandler "x" 1,
       EventScheduler.Step.emit (fun _ => ⟨fun _ _ => true, true⟩) SIZE_MAX "x" ⟨"int", 1⟩,
       EventScheduler.Step.registerHandler "x" 2,
       EventScheduler.Step.emit (fun _ => ⟨fun _ _ => true, true⟩) SIZE_MAX "x" ⟨"int", 2⟩] =
      some r := Option.isSome_iff_exists.mp (by decide)
  have h2 : ((EventScheduler.Run.init 4 0 : EventScheduler.Run Nat).steps
      [EventScheduler.Step.start,
       EventScheduler.Step.registerHandler "x" 1,
       EventScheduler.Step.emit (fun _ => ⟨fun _ _ => true, true⟩) SIZE_MAX "x" ⟨"int", 1⟩,
       EventScheduler.Step.registerHandler "x" 2,
       EventScheduler.Step.emit (fun _ => ⟨fun _ _ => true, true⟩) SIZE_MAX "x" ⟨"int", 2⟩]).elim
      false (fun r => (EventScheduler.Run.step r (EventScheduler.Step.work 0 "int" [])).elim
        false (fun r1 => decide (r1.reads = r.reads ++ [("x", Except.ok 2)]))) = true := by
    decide
  rw [hr] at h2
  simp only [Option.elim_some] at h2
  cases hstep : EventScheduler.Run.step r (EventScheduler.Step.work 0 "int" []) with
  | none => rw [hstep] at h2; cases h2
  | some r1 =>
    rw [hstep] at h2
    simp only [Option.elim_some, decide_eq_true_eq] at h2
    exact ⟨r, r1, hr, hstep, h2,
      (handler_reads_latest_emission 4 0 _ r hr 0 "int" [] r1 hstep "x" 2 h2).1⟩

/-- C16 at its failing input: on the default-constructed scheduler, which keeps no
payload and has no handler, `emit("y", 7)` returns and leaves the payload 7 stored under
"y".  The branch of `processEvents` for a name without an entry in the handler map
continues without the `erase` that the branch for an empty handler vector performs:
with an empty vector under "y" the same emission leaves nothing stored. -/
theorem emit_without_handler_keeps_payload :
    (EventScheduler.new 4 0 : EventScheduler Nat)._eventDataMap "y" = none ∧
    (EventScheduler.new 4 0 : EventScheduler Nat)._handlersMap "y" = none ∧
    (EventScheduler.emit (fun _ => ⟨fun _ _ => true, true⟩)
        (EventScheduler.new 4 0 : EventScheduler Nat) SIZE_MAX "y" ⟨"int", 7⟩).map
      (fun s => (s._eventDataMap "y", UnorderedMap.count s._eventDataMap "y",
        s._handlersMap "y", s._eventsQ)) =
      some (some (some ⟨"int", 7⟩), 1, none, []) ∧
    (EventScheduler.emit (fun _ => ⟨fun _ _ => true, true⟩)
        ({ (EventScheduler.new 4 0 : EventScheduler Nat) with
          _handlersMap := fun k => if k = "y" then some [] else none })
        SIZE_MAX "y" ⟨"int", 7⟩).map
      (fun s => (s._eventDataMap "y", UnorderedMap.count s._eventDataMap "y", s._eventsQ)) =
      some (none, 0, []) := by
  refine ⟨rfl, rfl, ?_, ?_⟩
  · decide
  · decide
/-! ## The tasks held by an executor -/

namespace Executor

variable {α : Type}

theorem forall₂_mem_left {β γ : Type} {R : β → γ → Prop} {x : β} :
    ∀ {xs : List β} {ys : List γ}, List.Forall₂ R xs ys → x ∈ xs → ∃ y, y ∈ ys ∧ R x y
  | _, _, List.Forall₂.nil, h => by simp at h
  | _, _, List.Forall₂.cons hr hrest, h => by
    rcases List.mem_cons.mp h with rfl | h1
    · exact ⟨_, List.mem_cons_self _ _, hr⟩
    · obtain ⟨y, hy, hxy⟩ := forall₂_mem_left hrest h1
      exact ⟨y, List.mem_cons_of_mem _ hy, hxy⟩

theorem forall₂_mem_right {β γ : Type} {R : β → γ → Prop} {y : γ} :
    ∀ {xs : List β} {ys : List γ}, List.Forall₂ R xs ys → y ∈ ys → ∃ x, x ∈ xs ∧ R x y
  | _, _, List.Forall₂.nil, h => by simp at h
  | _, _, List.Forall₂.cons hr hrest, h => by
    rcases List.mem_cons.mp h with rfl | h1
    · exact ⟨_, List.mem_cons_self _ _, hr⟩
    · obtain ⟨x, hx, hxy⟩ := forall₂_mem_right hrest h1
      exact ⟨x, List.mem_cons_of_mem _ hx, hxy⟩

/-- On a well-formed executor, the closures held are those of the represented lists. -/
theorem Rep.holds_iff {e : Executor α} {g l : List (List (Task α))} (h : Rep e g l) (f : α) :
    holds e f ↔ Queued g l f := by
  constructor
  · rintro (⟨q, t, hq, ht, hf⟩ | ⟨q, t, hq, ht, hf⟩)
    · obtain ⟨ts, hts, q1, hq1, habs⟩ := forall₂_mem_left h.globals hq
      simp only [Option.some.injEq] at hq1
      subst hq1
      rw [MPMCQueue.toList_abs habs] at ht
      exact ⟨ts, t, Or.inl hts, ht, hf⟩
    · obtain ⟨ts, hts, habs⟩ := forall₂_mem_left h.locals hq
      rw [MPMCQueue.toList_abs habs] at ht
      exact ⟨ts, t, Or.inr hts, ht, hf⟩
  · rintro ⟨ts, t, hts | hts, ht, hf⟩
    · obtain ⟨oq, hoq, q, rfl, habs⟩ := forall₂_mem_right h.globals hts
      exact Or.inl ⟨q, t, hoq, by rw [MPMCQueue.toList_abs habs]; exact ht, hf⟩
    · obtain ⟨q, hq, habs⟩ := forall₂_mem_right h.locals hts
      exact Or.inr ⟨q, t, hq, by rw [MPMCQueue.toList_abs habs]; exact ht, hf⟩

theorem mem_set_append_old {β : Type} {ls : List (List β)} (i : Nat) (x : β) {ts : List β}
    {t : β} (hts : ts ∈ ls) (ht : t ∈ ts) :
    ∃ ts1, ts1 ∈ ls.set i ((ls[i]?).getD [] ++ [x]) ∧ t ∈ ts1 := by
  obtain ⟨j, hj⟩ := List.mem_iff_getElem?.mp hts
  by_cases hij : i = j
  · subst hij
    have hlt : i < ls.length := (List.getElem?_eq_some.mp hj).1
    refine ⟨ts ++ [x], ?_, List.mem_append_left _ ht⟩
    rw [hj, Option.getD_some]
    exact List.mem_set _ _ hlt _
  · exact ⟨ts, List.getElem?_mem (by rw [List.getElem?_set_ne hij]; exact hj), ht⟩

theorem mem_set_append_new {β : Type} (ls : List (List β)) {i : Nat} (x : β)
    (hi : i < ls.length) :
    ∃ ts1, ts1 ∈ ls.set i ((ls[i]?).getD [] ++ [x]) ∧ x ∈ ts1 :=
  ⟨_, List.mem_set _ _ hi _, by simp⟩

theorem queued_update_old {g l : List (List (Task α))} (s : Source) (x : Task α)
    (extra : List (List (Task α))) {f : α} (h : Queued g l f) :
    Queued (s.update g l (s.tasks g l ++ [x])).1
      ((s.update g l (s.tasks g l ++ [x])).2 ++ extra) f := by
  obtain ⟨ts, t, hts, ht, hf⟩ := h
  cases s with
  | localQ i =>
    simp only [Source.update, Source.tasks]
    rcases hts with hts | hts
    · exact ⟨ts, t, Or.inl hts, ht, hf⟩
    · obtain ⟨ts1, h1, h2⟩ := mem_set_append_old i x hts ht
      exact ⟨ts1, t, Or.inr (List.mem_append_left _ h1), h2, hf⟩
  | globalQ p =>
    simp only [Source.update, Source.tasks]
    rcases hts with hts | hts
    · obtain ⟨ts1, h1, h2⟩ := mem_set_append_old p x hts ht
      exact ⟨ts1, t, Or.inl h1, h2, hf⟩
    · exact ⟨ts, t, Or.inr (List.mem_append_left _ hts), ht, hf⟩

theorem queued_update_new {g l : List (List (Task α))} {s : Source} (x : Task α)
    (extra : List (List (Task α))) (hs : s.inRange g l) :
    Queued (s.update g l (s.tasks g l ++ [x])).1
      ((s.update g l (s.tasks g l ++ [x])).2 ++ extra) x.func := by
  cases s with
  | localQ i =>
    obtain ⟨ts1, h1, h2⟩ := mem_set_append_new l x hs
    exact ⟨ts1, x, Or.inr (List.mem_append_left _ h1), h2, rfl⟩
  | globalQ p =>
    obtain ⟨ts1, h1, h2⟩ := mem_set_append_new g x hs
    exact ⟨ts1, x, Or.inl h1, h2, rfl⟩

/-- A call of `schedule` on a running executor leaves the closure in a queue, next to
those already held. -/
theorem schedule_holds (env : Env) {cfg : Config} {e : Executor α} (hc : Counted cfg e)
    (hmin : cfg.minThreads < SIZE_MAX) (hmax : cfg.threadCount < SIZE_MAX)
    (self : Nat) (task : α) (p : Priority) (hp : p ≠ Priority.kNumPriorities)
    (hpend : e._pendingTasks < SIZE_MAX) :
    ∃ e1, schedule env e self task p = some e1 ∧ Counted cfg e1 ∧
      e1._pendingTasks = e._pendingTasks + 1 ∧ holds e1 task ∧
      ∀ f, holds e f → holds e1 f := by
  obtain ⟨e1, h1, hc1, hp1⟩ := schedule_counted env hc hmin hmax self task p hp hpend
  obtain ⟨g, l, hrep, _⟩ := hc.rep
  have hup := hc.upper
  have hact : e._activeThreads < SIZE_MAX := by
    rcases Nat.le_total cfg.minThreads cfg.threadCount with h | h
    · rw [Nat.max_eq_right h] at hup; omega
    · rw [Nat.max_eq_left h] at hup; omega
  obtain ⟨e2, extra, hsched, _, hrep1, _⟩ :=
    schedule_spec env hrep hc.running self task p hp hpend hact _ rfl
  rw [h1] at hsched
  simp only [Option.some.injEq] at hsched
  subst hsched
  have hidx : Source.inRange g l (if e._config.enableWorkStealing && decide (self < l.length)
        then Source.localQ self else Source.globalQ p.toNat) := by
    split
    · rename_i hcnd
      simp at hcnd; exact hcnd.2
    · show p.toNat < g.length
      rw [hrep.three]; cases p <;> simp [Priority.toNat] at hp ⊢
  refine ⟨e1, h1, hc1, hp1, ?_, fun f hf => ?_⟩
  · exact (hrep1.holds_iff task).mpr (queued_update_new ⟨task, p⟩ extra hidx)
  · exact (hrep1.holds_iff f).mpr (queued_update_old _ _ extra ((hrep.holds_iff f).mp hf))

end Executor
namespace EventScheduler

variable {U : Type}

/-- The loop over the handlers on a running executor: every closure ends up in a
queue, and the pending counter grows by their number. -/
theorem scheduleAll_holds (env : Nat → Executor.Env) {cfg : Executor.Config}
    (hmin : cfg.minThreads < SIZE_MAX) (hmax : cfg.threadCount < SIZE_MAX) (self : Nat) :
    ∀ (fs : List Lambda) (i : Nat) (e : Executor Lambda), Executor.Counted cfg e →
      e._pendingTasks + fs.length ≤ SIZE_MAX →
      ∃ e1, scheduleAll env self i fs e = some e1 ∧ Executor.Counted cfg e1 ∧
        e1._pendingTasks = e._pendingTasks + fs.length ∧
        (∀ f ∈ fs, Executor.holds e1 f) ∧ ∀ f, Executor.holds e f → Executor.holds e1 f
  | [], _, e, hc, _ => ⟨e, rfl, hc, rfl, fun f hf => by simp at hf, fun _ hf => hf⟩
  | f :: fs, i, e, hc, hlen => by
    simp only [List.length_cons] at hlen
    obtain ⟨e1, h1, hc1, hp1, hnew, hold⟩ := Executor.schedule_holds (env i) hc hmin hmax self f
      Executor.defaultPriority (by decide) (by omega)
    obtain ⟨e2, h2, hc2, hp2, hnew2, hold2⟩ :=
      scheduleAll_holds env hmin hmax self fs (i + 1) e1 hc1 (by omega)
    refine ⟨e2, by simp only [scheduleAll, h1, h2], hc2, by rw [hp2, hp1, List.length_cons]; omega,
      fun f1 hf1 => ?_, fun f1 hf1 => hold2 f1 (hold f1 hf1)⟩
    rcases List.mem_cons.mp hf1 with rfl | h3
    · exact hold2 _ hnew
    · exact hnew2 f1 h3

/-- An emission on a scheduler whose executor is running: `emit` returns; the
handlers of the name are gone from the map and each of them is the subject of a
closure held in a queue of the executor; nothing else changes in the handler map. -/
theorem emit_running (env : Nat → Executor.Env) {cfg : Executor.Config} {s : EventScheduler U}
    (self : Nat) (eventName : String) (data : Payload U) (hq : s._eventsQ = [])
    (hc : Executor.Counted cfg s._executor)
    (hmin : cfg.minThreads < SIZE_MAX) (hmax : cfg.threadCount < SIZE_MAX)
    (hpend : s._executor._pendingTasks + ((s._handlersMap eventName).getD []).length ≤
      SIZE_MAX) :
    ∃ s1, emit env s self eventName data = some s1 ∧
      Executor.Counted cfg s1._executor ∧ s1._eventsQ = [] ∧
      (s1._handlersMap eventName).getD [] = [] ∧
      (∀ n, n ≠ eventName → s1._handlersMap n = s._handlersMap n) ∧
      scheduleAll env self 0
        (((s._handlersMap eventName).getD []).map (fun handle =>
          Lambda.resumeAndCount handle eventName ((s._handlersMap eventName).getD []).length
            s.counters.length)) s._executor = some s1._executor ∧
      s1._executor._pendingTasks =
        s._executor._pendingTasks + ((s._handlersMap eventName).getD []).length ∧
      (∀ handle ∈ (s._handlersMap eventName).getD [],
        Executor.holds s1._executor
          (Lambda.resumeAndCount handle eventName ((s._handlersMap eventName).getD []).length
            s.counters.length)) ∧
      (∀ f, Executor.holds s._executor f → Executor.holds s1._executor f) := by
  cases hvec : s._handlersMap eventName with
  | none =>
    rw [emit_no_entry env self data hq hvec]
    refine ⟨_, rfl, hc, rfl, ?_, fun n _ => rfl, rfl, rfl, ?_, fun _ hf => hf⟩
    · show (s._handlersMap eventName).getD [] = []
      rw [hvec]; rfl
    · intro handle hmem; simp at hmem
  | some vec =>
    cases vec with
    | nil =>
      rw [emit_empty_entry env self data hq hvec]
      refine ⟨_, rfl, hc, rfl, ?_, fun n _ => rfl, rfl, rfl, ?_, fun _ hf => hf⟩
      · show (s._handlersMap eventName).getD [] = []
        rw [hvec]; rfl
      · intro handle hmem; simp at hmem
    | cons x xs =>
      rw [hvec] at hpend
      simp only [Option.getD_some] at hpend ⊢
      obtain ⟨e1, h1, hc1, hp1, hnew, hold⟩ := scheduleAll_holds env hmin hmax self
        ((x :: xs).map (fun handle =>
          Lambda.resumeAndCount handle eventName (x :: xs).length s.counters.length))
        0 s._executor hc (by rw [List.length_map]; exact hpend)
      rw [emit_handlers env self data hq hvec (by simp), h1]
      refine ⟨_, rfl, hc1, rfl, ?_, fun n hn => UnorderedMap.erase_other _ hn, rfl,
        by rw [hp1, List.length_map], ?_, hold⟩
      · show (UnorderedMap.erase s._handlersMap eventName eventName).getD [] = []
        rw [UnorderedMap.erase_same]; rfl
      · intro handle hmem
        exact hnew _ (List.mem_map.mpr ⟨handle, hmem, rfl⟩)

end EventScheduler
/-! ## Emissions and the handler map -/

set_option maxRecDepth 100000 in
/-- C15, as stated for every executor state, fails.  The executor is started, the
handle 1 is registered under "x" and the executor is stopped; `emit("x", 1)` then
returns with no handler left under "x" and every queue of the executor empty: the
continuation is in neither place. -/
theorem emit_after_stop_drops_handlers :
    ((EventScheduler.Run.init 4 0 : EventScheduler.Run Nat).steps
      [EventScheduler.Step.start,
       EventScheduler.Step.registerHandler "x" 1,
       EventScheduler.Step.stop]).map
        (fun r => (r.state._handlersMap "x", Executor.queuedTasks r.state._executor)) =
      some (some [1], 0) ∧
    ((EventScheduler.Run.init 4 0 : EventScheduler.Run Nat).steps
      [EventScheduler.Step.start,
       EventScheduler.Step.registerHandler "x" 1,
       EventScheduler.Step.stop,
       EventScheduler.Step.emit (fun _ => ⟨fun _ _ => true, true⟩) SIZE_MAX "x" ⟨"int", 1⟩]).map
        (fun r => (r.state._handlersMap "x", Executor.queuedTasks r.state._executor,
          Executor.allQueuesEmpty r.state._executor, r.state._executor._pendingTasks)) =
      some (none, 0, true, 0) := by
  refine ⟨?_, ?_⟩
  · decide
  · decide

/-- C15 amended: on a scheduler with an empty event queue whose executor is running
(started, not stopped, counters in range), `emit(name, payload)` returns, and every
handle registered under `name` when it is called is then the subject of a resumption
closure held in one of the executor's queues; handles registered under other names are
still in the handler map, and closures held before are still held. -/
theorem registered_continuation_is_scheduled {U : Type} (env : Nat → Executor.Env)
    (cfg : Executor.Config) (s : EventScheduler U) (self : Nat) (eventName : String)
    (data : EventScheduler.Payload U) (hq : s._eventsQ = [])
    (hc : Executor.Counted cfg s._executor)
    (hmin : cfg.minThreads < SIZE_MAX) (hmax : cfg.threadCount < SIZE_MAX)
    (hpend : s._executor._pendingTasks + ((s._handlersMap eventName).getD []).length ≤
      SIZE_MAX) :
    ∃ s1, EventScheduler.emit env s self eventName data = some s1 ∧
      (∀ handle ∈ (s._handlersMap eventName).getD [],
        Executor.holds s1._executor
          (EventScheduler.Lambda.resumeAndCount handle eventName
            ((s._handlersMap eventName).getD []).length s.counters.length)) ∧
      (∀ n handle, n ≠ eventName → handle ∈ (s._handlersMap n).getD [] →
        handle ∈ (s1._handlersMap n).getD []) ∧
      (∀ f, Executor.holds s._executor f → Executor.holds s1._executor f) := by
  obtain ⟨s1, h1, _, _, _, hother, _, _, hnew, hold⟩ :=
    EventScheduler.emit_running env self eventName data hq hc hmin hmax hpend
  exact ⟨s1, h1, hnew, fun n handle hn hmem => by rw [hother n hn]; exact hmem, hold⟩

/-- The witness of C15 amended: the default executor after `start()`, the handle 1
registered under "x", and `emit("x", 5)` from the main thread. -/
theorem registered_continuation_is_scheduled_witness :
    ∃ (e : Executor EventScheduler.Lambda) (s1 : EventScheduler Nat),
      Executor.start (Executor.new (Executor.Config.default 4) 0) = some e ∧
      EventScheduler.emit (fun _ => ⟨fun _ _ => true, true⟩)
        ⟨e, fun k => if k = "x" then some [1] else none, [], fun _ => none, []⟩
        SIZE_MAX "x" ⟨"int", 5⟩ = some s1 ∧
      Executor.holds s1._executor (EventScheduler.Lambda.resumeAndCount 1 "x" 1 0) := by
  obtain ⟨e, he, hc, hp⟩ := Executor.start_counted (α := EventScheduler.Lambda)
    (Executor.Config.default 4) 0 (fun _ => by decide) (by decide)
  obtain ⟨s1, h1, h2, _⟩ := registered_continuation_is_scheduled
    (fun _ => ⟨fun _ _ => true, true⟩) (Executor.Config.default 4)
    (⟨e, fun k => if k = "x" then some [1] else none, [], fun _ => none, []⟩ :
      EventScheduler Nat) SIZE_MAX "x" ⟨"int", 5⟩ rfl hc (by decide) (by decide)
    (by
      show e._pendingTasks + ([1] : List Nat).length ≤ SIZE_MAX
      rw [hp]
      decide)
  exact ⟨e, s1, he, h1, h2 1 (by show 1 ∈ ([1] : List Nat); decide)⟩
/-! ## Interleaved producers -/

namespace MPMCQueue

variable {T : Type}

/-- The pieces of `allocateNode`, run one after the other, are `allocateNode`. -/
theorem allocFinish_allocFetch (q : MPMCQueue T) :
    q.allocFetch.2.allocFinish q.allocFetch.1 = q.allocateNode := rfl

/-- The pieces of `push`, run one after the other, are `push`. -/
theorem pushLink_allocateNode (q : MPMCQueue T) (value : T) :
    (q.allocFetch.2.allocFinish q.allocFetch.1).bind
      (fun r => r.2.pushLink r.1 value) = q.push value := by
  rw [allocFinish_allocFetch]
  unfold push pushLink
  cases q.allocateNode with
  | none => rfl
  | some r => rfl

theorem Interleaved.run_append : ∀ (a b : List (Turn T)) (s : Interleaved T),
    s.run (a ++ b) = (s.run a).bind (fun s1 => s1.run b)
  | [], _, _ => rfl
  | t :: a, b, s => by
    simp only [List.cons_append, Interleaved.run]
    cases s.turn t with
    | none => rfl
    | some s1 => exact Interleaved.run_append a b s1

/-- The queue left by the three interleaved producers once 1 and 2 are popped: the
cells 1 and 2 point at each other and hold nothing, so `try_pop` moves `head` from one
to the other and returns false, for ever. -/
theorem drained_cycle : ∀ (outs : List Nat) (h : Nat), h = 1 ∨ h = 2 →
    ∃ h1, (h1 = 1 ∨ h1 = 2) ∧
      Interleaved.run
        ⟨⟨4, some h, some 1, [⟨some 1, none⟩, ⟨some 2, none⟩, ⟨some 1, none⟩, ⟨none, none⟩], 4⟩,
          [Producer.returned, Producer.returned, Producer.returned], [1, 2]⟩
        (outs.map Turn.consumer) =
      some ⟨⟨4, some h1, some 1,
          [⟨some 1, none⟩, ⟨some 2, none⟩, ⟨some 1, none⟩, ⟨none, none⟩], 4⟩,
        [Producer.returned, Producer.returned, Producer.returned], [1, 2]⟩
  | [], h, hh => ⟨h, hh, rfl⟩
  | out :: outs, h, hh => by
    rcases hh with rfl | rfl
    · obtain ⟨h1, hh1, hrun⟩ := drained_cycle outs 2 (Or.inr rfl)
      exact ⟨h1, hh1, hrun⟩
    · obtain ⟨h1, hh1, hrun⟩ := drained_cycle outs 1 (Or.inl rfl)
      exact ⟨h1, hh1, hrun⟩

end MPMCQueue

/-- C20 at its failing interleaving: a queue built with `initPoolSize = 1` and three
producers pushing 1, 2 and 3.  All three execute `pool_idx.fetch_add(1)` (indices 1, 2,
3) before any of them goes on.  The third finishes `allocateNode` (the pool grows to 2
cells, `3 % 2` is cell 1), then the first does (`1 < 2`, no growth, cell 1 again, which
it resets); the third puts 3 into cell 1 and links it; the second gets cell 2 and links
it; the first puts 1 into cell 1, over the 3, and links cell 1 behind cell 2.  Every
`push` has returned.  The consumers then pop 1 and 2, and every later call of
`try_pop` returns false: 3 is never popped, two values come out for three pushed. -/
theorem interleaved_push_loses_value :
    ((MPMCQueue.Interleaved.init 1 [1, 2, 3]).bind (fun s => s.run
      [MPMCQueue.Turn.producer 0, MPMCQueue.Turn.producer 1, MPMCQueue.Turn.producer 2,
       MPMCQueue.Turn.producer 2, MPMCQueue.Turn.producer 0, MPMCQueue.Turn.producer 2,
       MPMCQueue.Turn.producer 1, MPMCQueue.Turn.producer 1,
       MPMCQueue.Turn.producer 0])).map (fun s => (s.producers, s.popped)) =
      some ([MPMCQueue.Producer.returned, MPMCQueue.Producer.returned,
        MPMCQueue.Producer.returned], []) ∧
    ((MPMCQueue.Interleaved.init 1 [1, 2, 3]).bind (fun s => s.run
      [MPMCQueue.Turn.producer 0, MPMCQueue.Turn.producer 1, MPMCQueue.Turn.producer 2,
       MPMCQueue.Turn.producer 2, MPMCQueue.Turn.producer 0, MPMCQueue.Turn.producer 2,
       MPMCQueue.Turn.producer 1, MPMCQueue.Turn.producer 1,
       MPMCQueue.Turn.producer 0,
       MPMCQueue.Turn.consumer 0, MPMCQueue.Turn.consumer 0])).map (fun s => s.popped) =
      some [1, 2] ∧
    (∀ outs : List Nat,
      ((MPMCQueue.Interleaved.init 1 [1, 2, 3]).bind (fun s => s.run
        ([MPMCQueue.Turn.producer 0, MPMCQueue.Turn.producer 1, MPMCQueue.Turn.producer 2,
         MPMCQueue.Turn.producer 2, MPMCQueue.Turn.producer 0, MPMCQueue.Turn.producer 2,
         MPMCQueue.Turn.producer 1, MPMCQueue.Turn.producer 1,
         MPMCQueue.Turn.producer 0,
         MPMCQueue.Turn.consumer 0, MPMCQueue.Turn.consumer 0] ++
          outs.map MPMCQueue.Turn.consumer))).map (fun s => s.popped) =
      some [1, 2]) := by
  refine ⟨?_, ?_, ?_⟩
  · decide
  · decide
  · intro outs
    have hinit : MPMCQueue.Interleaved.init 1 [1, 2, 3] =
        some ⟨⟨1, some 0, some 0, [⟨none, none⟩], 1⟩,
          [MPMCQueue.Producer.start 1, MPMCQueue.Producer.start 2,
            MPMCQueue.Producer.start 3], []⟩ := by decide
    have hrun : MPMCQueue.Interleaved.run
        ⟨⟨1, some 0, some 0, [⟨none, none⟩], 1⟩,
          [MPMCQueue.Producer.start 1, MPMCQueue.Producer.start 2,
            MPMCQueue.Producer.start 3], []⟩
        [MPMCQueue.Turn.producer 0, MPMCQueue.Turn.producer 1, MPMCQueue.Turn.producer 2,
         MPMCQueue.Turn.producer 2, MPMCQueue.Turn.producer 0, MPMCQueue.Turn.producer 2,
         MPMCQueue.Turn.producer 1, MPMCQueue.Turn.producer 1,
         MPMCQueue.Turn.producer 0,
         MPMCQueue.Turn.consumer 0, MPMCQueue.Turn.consumer 0] =
        some ⟨⟨4, some 2, some 1,
            [⟨some 1, none⟩, ⟨some 2, none⟩, ⟨some 1, none⟩, ⟨none, none⟩], 4⟩,
          [MPMCQueue.Producer.returned, MPMCQueue.Producer.returned,
            MPMCQueue.Producer.returned], [1, 2]⟩ := by decide
    obtain ⟨h1, _, hcycle⟩ := MPMCQueue.drained_cycle outs 2 (Or.inr rfl)
    rw [hinit, Option.some_bind, MPMCQueue.Interleaved.run_append, hrun, Option.some_bind,
      hcycle]
    rfl
/-! ## The global queues before and after `start()` -/

namespace Executor

variable {α : Type}

/-- On a constructed executor no push onto a global queue is defined. -/
theorem pushGlobal_new (cfg : Config) (uninit : Nat) (p : Nat) (task : Task α) :
    pushGlobal (new cfg uninit : Executor α) p task = none := by
  unfold pushGlobal new
  simp only
  match p with
  | 0 => rfl
  | 1 => rfl
  | 2 => rfl
  | _ + 3 => rfl

/-- On a constructed executor `schedule` runs into the null queues. -/
theorem schedule_new (env : Env) (cfg : Config) (uninit : Nat) (self : Nat) (task : α)
    (p : Priority) : schedule env (new cfg uninit : Executor α) self task p = none := by
  have hres : checkTaskQueueResize env (new cfg uninit : Executor α) = none ∨
      checkTaskQueueResize env (new cfg uninit : Executor α) = some (new cfg uninit) := by
    unfold checkTaskQueueResize
    split
    · exact Or.inr rfl
    · exact Or.inl rfl
  unfold schedule
  rw [if_neg (by simp [new])]
  rcases hres with h | h
  · rw [h]
  · rw [h]
    have hcond : ((new cfg uninit : Executor α)._config.enableWorkStealing &&
        decide (self < (new cfg uninit : Executor α)._localQVec.length)) = false := by
      simp [new]
    simp only [hcond, Bool.false_eq_true, if_false, pushGlobal_new]

end Executor
/-- C28: on a constructed executor the three entries of the global queue array are
null, so a push onto a global queue, and with it every call of `schedule`, is
undefined.  `start()` (which returns when its queues can be built) makes all three
present: right after it `schedule` is defined for the priorities High, Normal and Low,
and after any run of admissible steps from there the three queues are still present
and a push onto the one selected by such a priority is defined. -/
theorem global_queues_exist_after_start {α : Type} (cfg : Executor.Config) (uninit : Nat)
    (hcap : cfg.enableWorkStealing = true → cfg.minThreads ≤
      max ((cfg.threadCount * cfg.tasksPerThreadThreshold) % SIZE_MOD) 1024)
    (hmin : cfg.minThreads < SIZE_MAX) (hmax : cfg.threadCount < SIZE_MAX) :
    (Executor.new cfg uninit : Executor α)._taskQArray = [none, none, none] ∧
    (∀ (p : Nat) (task : Executor.Task α),
      Executor.pushGlobal (Executor.new cfg uninit : Executor α) p task = none) ∧
    (∀ (env : Executor.Env) (self : Nat) (task : α) (p : Executor.Priority),
      Executor.schedule env (Executor.new cfg uninit : Executor α) self task p = none) ∧
    ∃ e0 : Executor α, Executor.start (Executor.new cfg uninit) = some e0 ∧
      (∀ (env : Executor.Env) (self : Nat) (task : α) (p : Executor.Priority),
        p ≠ Executor.Priority.kNumPriorities →
        ∃ e1, Executor.schedule env e0 self task p = some e1) ∧
      ∀ evs : List (Executor.Event α), evs.length ≤ SIZE_MAX →
        Executor.admissibleTrace e0 evs = true →
        ∃ e, Executor.steps e0 evs = some e ∧
          (∀ p : Executor.Priority, p ≠ Executor.Priority.kNumPriorities →
            ∃ q, e._taskQArray[p.toNat]? = some (some q)) ∧
          (∀ (p : Executor.Priority) (task : Executor.Task α),
            p ≠ Executor.Priority.kNumPriorities →
            ∃ e1, Executor.pushGlobal e p.toNat task = some e1) := by
  refine ⟨rfl, fun p task => Executor.pushGlobal_new cfg uninit p task,
    fun env self task p => Executor.schedule_new env cfg uninit self task p, ?_⟩
  obtain ⟨e0, h0, hc0, hp0⟩ := Executor.start_counted (α := α) cfg uninit hcap hmin
  refine ⟨e0, h0, fun env self task p hp => ?_, fun evs hlen hadm => ?_⟩
  · obtain ⟨e1, h1, _⟩ := Executor.schedule_counted env hc0 hmin hmax self task p hp
      (by rw [hp0]; decide)
    exact ⟨e1, h1⟩
  · obtain ⟨e, he, hc⟩ := Executor.steps_counted hmin hmax evs e0 hc0 (by omega) hadm
    obtain ⟨g, l, hrep, _⟩ := hc.rep
    have hlt : ∀ p : Executor.Priority, p ≠ Executor.Priority.kNumPriorities →
        p.toNat < g.length := by
      intro p hp
      rw [hrep.three]
      cases p <;> simp [Executor.Priority.toNat] at hp ⊢
    refine ⟨e, he, fun p hp => ?_, fun p task hp => ?_⟩
    · obtain ⟨oq, hoq, q, rfl, _⟩ := forall₂_getElem? hrep.globals
        (Executor.global_tasks_of_lt (l := l) (hlt p hp))
      exact ⟨q, hoq⟩
    · obtain ⟨e1, h1, _⟩ := Executor.pushGlobal_rep hrep
        (Executor.global_tasks_of_lt (l := l) (hlt p hp)) task
      exact ⟨e1, h1⟩

set_option maxRecDepth 100000 in
/-- The witness of C28: the default configuration on 4 hardware threads, and a run
of one call of `schedule` after `start()`. -/
theorem global_queues_exist_after_start_witness :
    (∀ (env : Executor.Env) (self : Nat) (task : Nat) (p : Executor.Priority),
      Executor.schedule env (Executor.new (Executor.Config.default 4) 0 : Executor Nat)
        self task p = none) ∧
    ∃ e0 : Executor Nat,
      Executor.start (Executor.new (Executor.Config.default 4) 0) = some e0 ∧
      ∃ e, Executor.steps e0
          [Executor.Event.schedule ⟨fun _ _ => true, true⟩ SIZE_MAX 7
            Executor.Priority.Normal] = some e ∧
        ∀ p : Executor.Priority, p ≠ Executor.Priority.kNumPriorities →
          ∃ q, e._taskQArray[p.toNat]? = some (some q) := by
  obtain ⟨_, _, hsched, e0, h0, _, htrace⟩ := global_queues_exist_after_start (α := Nat)
    (Executor.Config.default 4) 0 (fun _ => by decide) (by decide) (by decide)
  have hadm : (Executor.start (Executor.new (Executor.Config.default 4) 0 : Executor Nat)).elim
      true (fun e0 => Executor.admissibleTrace e0
        [Executor.Event.schedule ⟨fun _ _ => true, true⟩ SIZE_MAX 7
          Executor.Priority.Normal]) = true := by
    decide
  rw [h0] at hadm
  simp only [Option.elim_some] at hadm
  obtain ⟨e, he, hq, _⟩ := htrace _ (by decide) hadm
  exact ⟨hsched, e0, h0, e, he, hq⟩
/-! ## The ids of the workers -/

namespace Executor

variable {α : Type}

theorem popLocal_workers {e e1 : Executor α} {i : Nat} {task t : Task α} {ok : Bool}
    (h : popLocal e i task = some (ok, t, e1)) : workers e1 = workers e := by
  unfold popLocal at h
  split at h
  · simp at h
  · split at h
    · simp at h
    · simp only [Option.some.injEq, Prod.mk.injEq] at h
      obtain ⟨_, _, rfl⟩ := h
      simp [workers]

theorem popGlobal_workers {e e1 : Executor α} {p : Nat} {task t : Task α} {ok : Bool}
    (h : popGlobal e p task = some (ok, t, e1)) : workers e1 = workers e := by
  unfold popGlobal at h
  split at h
  · split at h
    · simp at h
    · simp only [Option.some.injEq, Prod.mk.injEq] at h
      obtain ⟨_, _, rfl⟩ := h
      rfl
  · simp at h

theorem stealLoop_workers (startIdx : Nat) :
    ∀ (is : List Nat) (e : Executor α) (task : Task α) {r : Bool × Task α × Executor α},
      stealLoop startIdx is e task = some r → workers r.2.2 = workers e
  | [], e, task, r, h => by
    simp only [stealLoop, Option.some.injEq] at h
    subst h; rfl
  | i :: is, e, task, r, h => by
    simp only [stealLoop] at h
    cases hpop : popLocal e ((startIdx + i) % e._localQVec.length) task with
    | none => simp [hpop] at h
    | some x =>
      obtain ⟨ok, t, e1⟩ := x
      have hc := popLocal_workers hpop
      cases ok with
      | true =>
        simp only [hpop, Option.some.injEq] at h
        subst h; exact hc
      | false =>
        simp only [hpop] at h
        rw [stealLoop_workers startIdx is e1 t h, hc]

theorem tryStealTask_workers {e : Executor α} {self : Nat} {task : Task α}
    {r : Bool × Task α × Executor α} (h : tryStealTask e self task = some r) :
    workers r.2.2 = workers e := by
  unfold tryStealTask at h
  split at h
  · simp only [Option.some.injEq] at h; subst h; rfl
  · split at h
    · simp at h
    · exact stealLoop_workers _ _ _ _ h

theorem globalLoop_workers (self : Nat) :
    ∀ (ps : List Nat) (e : Executor α) (task : Task α) {r : Bool × Task α × Executor α},
      globalLoop self ps e task = some r → workers r.2.2 = workers e
  | [], e, task, r, h => by
    simp only [globalLoop] at h
    exact tryStealTask_workers h
  | p :: ps, e, task, r, h => by
    simp only [globalLoop] at h
    cases hpop : popGlobal e p task with
    | none => simp [hpop] at h
    | some x =>
      obtain ⟨ok, t, e1⟩ := x
      have hc := popGlobal_workers hpop
      cases ok with
      | true =>
        simp only [hpop, Option.some.injEq] at h
        subst h; exact hc
      | false =>
        simp only [hpop] at h
        rw [globalLoop_workers self ps e1 t h, hc]

theorem getNextTask_workers {e : Executor α} {self : Nat} {task : Task α}
    {r : Bool × Task α × Executor α} (h : getNextTask e self task = some r) :
    workers r.2.2 = workers e := by
  unfold getNextTask at h
  simp only at h
  split at h
  · cases hpop : popLocal e self task with
    | none => simp [hpop] at h
    | some x =>
      obtain ⟨ok, t, e1⟩ := x
      have hc := popLocal_workers hpop
      cases ok with
      | true =>
        simp only [hpop, Option.some.injEq] at h
        subst h; exact hc
      | false =>
        simp only [hpop] at h
        rw [globalLoop_workers self _ e1 t h, hc]
  · exact globalLoop_workers self _ e task h

/-- The end of a wait leaves the state `getNextTask` returned, or that state with
the active counter decremented. -/
theorem waitForTask_state {e : Executor α} {self : Nat} {task : Task α}
    {r : Bool × Task α × Executor α} (h : waitForTask e self task = some r) :
    ∃ ok e1, getNextTask e self task = some (ok, r.2.1, e1) ∧
      (r.2.2 = e1 ∨ r.2.2 = decrementActiveThreads e1) := by
  unfold waitForTask at h
  cases hget : getNextTask e self task with
  | none => simp [hget] at h
  | some x =>
    obtain ⟨ok, t, e1⟩ := x
    simp only [hget] at h
    have htimeout : ∀ r1, handleTimeout e1 t = r1 →
        r1.2.1 = t ∧ (r1.2.2 = e1 ∨ r1.2.2 = decrementActiveThreads e1) := by
      intro r1 hr1
      unfold handleTimeout at hr1
      split at hr1
      · subst hr1; exact ⟨rfl, Or.inr rfl⟩
      · subst hr1; exact ⟨rfl, Or.inl rfl⟩
    split at h
    · split at h
      · simp only [Option.some.injEq] at h; subst h
        exact ⟨ok, e1, rfl, Or.inr rfl⟩
      · split at h
        · simp only [Option.some.injEq] at h; subst h
          exact ⟨ok, e1, rfl, Or.inl rfl⟩
        · simp only [Option.some.injEq] at h
          obtain ⟨h1, h2⟩ := htimeout r h
          exact ⟨ok, e1, by rw [h1], h2⟩
    · simp only [Option.some.injEq] at h
      obtain ⟨h1, h2⟩ := htimeout r h
      exact ⟨ok, e1, by rw [h1], h2⟩

theorem waitForTask_workers {e : Executor α} {self : Nat} {task : Task α}
    {r : Bool × Task α × Executor α} (h : waitForTask e self task = some r) :
    workers r.2.2 = workers e := by
  obtain ⟨ok, e1, hget, hst⟩ := waitForTask_state h
  have hw := getNextTask_workers hget
  rcases hst with h1 | h1
  · rw [h1]; exact hw
  · rw [h1]; exact hw

theorem pushLocal_workers {e e1 : Executor α} {i : Nat} {task : Task α}
    (h : pushLocal e i task = some e1) : workers e1 = workers e := by
  unfold pushLocal at h
  split at h
  · simp at h
  · split at h
    · simp at h
    · simp only [Option.some.injEq] at h
      subst h; simp [workers]

theorem pushGlobal_workers {e e1 : Executor α} {p : Nat} {task : Task α}
    (h : pushGlobal e p task = some e1) : workers e1 = workers e := by
  unfold pushGlobal at h
  split at h
  · split at h
    · simp at h
    · simp only [Option.some.injEq] at h
      subst h; rfl
  · simp at h

theorem checkTaskQueueResize_workers {env : Env} {e e1 : Executor α}
    (h : checkTaskQueueResize env e = some e1) : workers e1 = workers e := by
  unfold checkTaskQueueResize at h
  split at h
  · simp only [Option.some.injEq] at h; subst h; rfl
  · simp only at h
    split at h
    · simp at h
    · simp only [Option.some.injEq] at h
      subst h
      simp only [workers, Prod.mk.injEq, true_and]
      split <;> simp

theorem WorkerIds.of_workers {e e1 : Executor α} (h : WorkerIds e)
    (hw : workers e1 = workers e) : WorkerIds e1 := by
  simp only [workers, Prod.mk.injEq] at hw
  unfold WorkerIds
  rw [hw.1, hw.2]
  exact h

/-- `addThread` gives a new worker the index of the local queue it appends. -/
theorem addThread_ids {env : Env} {e e1 : Executor α} (hids : WorkerIds e)
    (h : addThread env e = some e1) : WorkerIds e1 := by
  unfold addThread at h
  split at h
  · simp only [Option.some.injEq] at h; subst h; exact hids
  · simp only at h
    split at h
    · simp at h
    · split at h
      · simp only [Option.some.injEq] at h; subst h
        refine ⟨?_, ?_⟩
        · show (e._threadsVec ++ [e._localQVec.length]).Pairwise (fun a b => a < b)
          rw [List.pairwise_append]
          refine ⟨hids.1, List.pairwise_singleton _ _, ?_⟩
          intro a ha b hb
          simp only [List.mem_singleton] at hb
          subst hb
          exact hids.2 a ha
        · intro id hid
          show id < (e._localQVec ++ [_]).length
          have hid1 : id ∈ e._threadsVec ++ [e._localQVec.length] := hid
          simp only [List.mem_append, List.mem_singleton] at hid1
          simp only [List.length_append, List.length_singleton]
          rcases hid1 with h1 | h1
          · have := hids.2 id h1; omega
          · omega
      · simp only [Option.some.injEq] at h; subst h
        refine ⟨hids.1, fun id hid => ?_⟩
        show id < (e._localQVec ++ [_]).length
        have := hids.2 id hid
        simp only [List.length_append, List.length_singleton]
        omega

theorem schedule_ids {env : Env} {e e1 : Executor α} {self : Nat} {task : α} {p : Priority}
    (hids : WorkerIds e) (h : schedule env e self task p = some e1) : WorkerIds e1 := by
  unfold schedule at h
  split at h
  · simp only [Option.some.injEq] at h; subst h; exact hids
  · cases hres : checkTaskQueueResize env e with
    | none => simp [hres] at h
    | some e2 =>
      have hids2 := hids.of_workers (checkTaskQueueResize_workers hres)
      simp only [hres] at h
      split at h
      · simp at h
      · rename_i e3 hp
        have hw3 : workers e3 = workers e2 := by
          split at hp
          · exact pushLocal_workers hp
          · exact pushGlobal_workers hp
        have hids3 : WorkerIds { e3 with _pendingTasks := incr e3._pendingTasks } :=
          (hids2.of_workers hw3).of_workers rfl
        split at h
        · simp at h
        · exact addThread_ids hids3 h
        · simp only [Option.some.injEq] at h; subst h
          exact hids3

/-- The workers `start()` creates with work stealing enabled: ids `0 .. n - 1`, one
local queue each. -/
theorem start_ids {cfg : Config} {uninit : Nat} {e : Executor α}
    (hws : cfg.enableWorkStealing = true) (h : start (new cfg uninit) = some e) :
    WorkerIds e := by
  unfold start createThreadPool at h
  simp only at h
  split at h
  · simp at h
  · split at h
    · simp at h
    · rename_i g _ ls hls
      simp only [Option.some.injEq] at h
      subst h
      have hlen : ls.length = cfg.minThreads := by
        simp only [new, hws, Bool.true_and, decide_eq_true_eq] at hls
        split at hls
        · split at hls
          · simp at hls
          · simp only [Option.some.injEq] at hls
            subst hls; simp
        · rename_i hz
          simp only [Option.some.injEq] at hls
          subst hls
          simp only [List.length_nil]
          omega
      refine ⟨?_, ?_⟩
      · show ([] ++ List.range cfg.minThreads).Pairwise (fun a b => a < b)
        rw [List.nil_append]
        exact List.pairwise_lt_range _
      · intro id hid
        have hid1 : id ∈ [] ++ List.range cfg.minThreads := hid
        simp only [List.nil_append, List.mem_range] at hid1
        show id < ls.length
        omega

theorem steps_ids : ∀ (evs : List (Event α)) {e e1 : Executor α}, WorkerIds e →
    steps e evs = some e1 → WorkerIds e1
  | [], e, e1, hids, h => by
    simp only [steps, Option.some.injEq] at h
    subst h; exact hids
  | ev :: evs, e, e1, hids, h => by
    simp only [steps] at h
    cases hst : step e ev with
    | none => simp [hst] at h
    | some e2 =>
      simp only [hst] at h
      refine steps_ids evs ?_ h
      cases ev with
      | schedule env self task p => exact schedule_ids hids hst
      | waitForTask self task =>
        simp only [step, Option.map_eq_some'] at hst
        obtain ⟨r, hw, rfl⟩ := hst
        exact hids.of_workers (waitForTask_workers hw)

end Executor
/-- C29: with work stealing enabled, in every state reached from `start()` on a fresh
executor through calls of `schedule` (upscaling or not, the creation of a thread
failing or not) and ends of workers' waits, the ids of the workers created so far are
pairwise different and each is below the number of local queues; so for such a worker
the modulus of `tryStealTask` is not zero, the call goes into its scan, and every
index the scan computes is in range. -/
theorem worker_ids_index_local_queues {α : Type} (cfg : Executor.Config) (uninit : Nat)
    (hws : cfg.enableWorkStealing = true) (e0 : Executor α)
    (h0 : Executor.start (Executor.new cfg uninit) = some e0)
    (evs : List (Executor.Event α)) (e : Executor α) (he : Executor.steps e0 evs = some e) :
    e._threadsVec.Nodup ∧
    ∀ id ∈ e._threadsVec,
      id < e._localQVec.length ∧ e._localQVec.length ≠ 0 ∧
      (∀ i, ((id + 1) % SIZE_MOD % e._localQVec.length + i) % e._localQVec.length <
        e._localQVec.length) ∧
      (e._config.enableWorkStealing = true → ∀ task : Executor.Task α,
        Executor.tryStealTask e id task =
          Executor.stealLoop ((id + 1) % SIZE_MOD % e._localQVec.length)
            (List.range e._localQVec.length) e task) := by
  obtain ⟨hpair, hlt⟩ := Executor.steps_ids evs (Executor.start_ids hws h0) he
  refine ⟨hpair.imp (fun hab => Nat.ne_of_lt hab), fun id hid => ?_⟩
  have hid1 := hlt id hid
  have hne : e._localQVec.length ≠ 0 := by omega
  refine ⟨hid1, hne, fun i => Nat.mod_lt _ (by omega), fun hws1 task => ?_⟩
  unfold Executor.tryStealTask
  simp only [hws1, Bool.not_true, Bool.false_eq_true, if_false, if_neg hne]

set_option maxRecDepth 100000 in
/-- The witness of C29: the default configuration on 4 hardware threads with the
indeterminate threshold member holding 0; the third call of `schedule` upscales but
the thread cannot be created (its local queue stays), the fourth upscales. -/
theorem worker_ids_index_local_queues_witness :
    ∃ e0 e : Executor Nat,
      Executor.start (Executor.new (Executor.Config.default 4) 0) = some e0 ∧
      Executor.steps e0
        [Executor.Event.schedule ⟨fun _ _ => true, true⟩ SIZE_MAX 7 Executor.Priority.Normal,
         Executor.Event.schedule ⟨fun _ _ => true, true⟩ SIZE_MAX 8 Executor.Priority.Normal,
         Executor.Event.schedule ⟨fun _ _ => true, false⟩ SIZE_MAX 9 Executor.Priority.Normal,
         Executor.Event.schedule ⟨fun _ _ => true, true⟩ SIZE_MAX 9 Executor.Priority.Normal] =
        some e ∧
      e._threadsVec.Nodup ∧ ∀ id ∈ e._threadsVec, id < e._localQVec.length := by
  obtain ⟨e0, h0⟩ : ∃ e0, Executor.start
      (Executor.new (Executor.Config.default 4) 0 : Executor Nat) = some e0 :=
    Option.isSome_iff_exists.mp (by decide)
  have hsome : ((Executor.start
      (Executor.new (Executor.Config.default 4) 0 : Executor Nat)).bind (fun e0 =>
        Executor.steps e0
          [Executor.Event.schedule ⟨fun _ _ => true, true⟩ SIZE_MAX 7 Executor.Priority.Normal,
           Executor.Event.schedule ⟨fun _ _ => true, true⟩ SIZE_MAX 8 Executor.Priority.Normal,
           Executor.Event.schedule ⟨fun _ _ => true, false⟩ SIZE_MAX 9 Executor.Priority.Normal,
           Executor.Event.schedule ⟨fun _ _ => true, true⟩ SIZE_MAX 9
             Executor.Priority.Normal])).isSome = true := by
    decide
  rw [h0, Option.some_bind] at hsome
  obtain ⟨e, he⟩ := Option.isSome_iff_exists.mp hsome
  have h := worker_ids_index_local_queues (Executor.Config.default 4) 0 rfl e0 h0 _ e he
  exact ⟨e0, e, h0, he, h.1, fun id hid => (h.2 id hid).1⟩
/-! ## The steal scan -/

namespace Executor

variable {α : Type}

/-- The victims of the scan are pairwise different. -/
theorem stealIndices_nodup (self n : Nat) :
    ((List.range n).map (fun i => (self + 1 + i) % n)).Nodup := by
  refine List.Nodup.map_on ?_ (List.nodup_range n)
  intro i hi j hj hij
  rw [List.mem_range] at hi hj
  have hmod : self + 1 + i ≡ self + 1 + j [MOD n] := hij
  exact (Nat.ModEq.add_left_cancel' (self + 1) hmod).eq_of_lt_of_lt hi hj

/-- The victims of the scan are the indices `0 .. n - 1`, each once. -/
theorem stealIndices_perm (self n : Nat) :
    List.Perm ((List.range n).map (fun i => (self + 1 + i) % n)) (List.range n) := by
  rcases Nat.eq_zero_or_pos n with rfl | hn
  · simp
  · refine (List.subperm_of_subset (stealIndices_nodup self n) ?_).perm_of_length_le (by simp)
    intro x hx
    simp only [List.mem_map, List.mem_range] at hx
    obtain ⟨i, _, rfl⟩ := hx
    exact List.mem_range.mpr (Nat.mod_lt _ hn)

/-- The last victim of the scan is the caller's own queue. -/
theorem stealIndices_last {self n : Nat} (hself : self < n) :
    ((List.range n).map (fun i => (self + 1 + i) % n)).getLast? = some self := by
  obtain ⟨m, rfl⟩ : ∃ m, n = m + 1 := ⟨n - 1, by omega⟩
  have hm : (self + 1 + m) % (m + 1) = self := by
    have : self + 1 + m = self + (m + 1) := by omega
    rw [this, Nat.add_mod_right, Nat.mod_eq_of_lt hself]
  rw [List.range_succ, List.map_append, List.map_singleton, hm]
  simp

theorem stealOrder_eq (self n : Nat) :
    stealOrder self n = ((List.range n).map (fun i => (self + 1 + i) % n)).map Source.localQ := by
  simp [stealOrder, List.map_map, Function.comp_def]

end Executor

/-- C21: on a well-formed executor with `n ≥ 1` local queues and a caller
`self < n`: with work stealing enabled `tryStealTask` searches the local queues
`(self + 1) mod n`, `(self + 2) mod n`, ... in this order, returns the front of the
first one that is not empty, with `pending` decremented, and returns false leaving
task and executor as they are when all are empty; the indices searched are
`0 .. n - 1`, each exactly once, the caller's own index last.  With work stealing
disabled it returns false and changes nothing. -/
theorem tryStealTask_scans_each_queue_once {α : Type} {e : Executor α}
    {g l : List (List (Executor.Task α))} (h : Executor.Rep e g l) (self : Nat)
    (hself : self < l.length) (hmax : self < SIZE_MAX) (task : Executor.Task α) :
    (e._config.enableWorkStealing = true →
      Executor.TakesFirst e g l task
        (((List.range l.length).map (fun i => (self + 1 + i) % l.length)).map
          Executor.Source.localQ)
        (Executor.tryStealTask e self task)) ∧
    (e._config.enableWorkStealing = true → (∀ ts ∈ l, ts = []) →
      Executor.tryStealTask e self task = some (false, task, e)) ∧
    (e._config.enableWorkStealing = true →
      ∀ e1 t, Executor.tryStealTask e self task = some (true, t, e1) →
        e1._pendingTasks = decr e._pendingTasks ∧
        (0 < e._pendingTasks → e1._pendingTasks + 1 = e._pendingTasks)) ∧
    List.Perm ((List.range l.length).map (fun i => (self + 1 + i) % l.length))
      (List.range l.length) ∧
    ((List.range l.length).map (fun i => (self + 1 + i) % l.length)).Nodup ∧
    ((List.range l.length).map (fun i => (self + 1 + i) % l.length)).getLast? = some self ∧
    (e._config.enableWorkStealing = false →
      Executor.tryStealTask e self task = some (false, task, e)) := by
  have htf := Executor.tryStealTask_takesFirst h (fun _ => hself) hmax task
  refine ⟨fun hws => ?_, fun hws hl => ?_, fun hws e1 t hres => ?_,
    Executor.stealIndices_perm self l.length, Executor.stealIndices_nodup self l.length,
    Executor.stealIndices_last hself, fun hws => ?_⟩
  · rw [hws, if_pos rfl, Executor.stealOrder_eq] at htf
    exact htf
  · rw [hws, if_pos rfl] at htf
    unfold Executor.TakesFirst at htf
    rw [Executor.find_stealOrder_nil hl] at htf
    exact htf
  · rw [hws, if_pos rfl] at htf
    unfold Executor.TakesFirst at htf
    split at htf
    · rw [hres] at htf; simp at htf
    · obtain ⟨t1, rest, e2, _, hr, _, hpend, _⟩ := htf
      rw [hres] at hr
      simp only [Option.some.injEq, Prod.mk.injEq, true_and] at hr
      obtain ⟨_, rfl⟩ := hr
      refine ⟨hpend, fun hpos => ?_⟩
      rw [hpend]
      unfold decr
      rw [if_neg (by omega)]
      omega
  · rw [hws] at htf
    simpa [Executor.TakesFirst] using htf

/-- The witness of C21: three local queues, the caller is worker 1; queue 2 is empty
and queue 0 holds the task 7, which the scan `2, 0, 1` finds. -/
theorem tryStealTask_scans_each_queue_once_witness :
    (Executor.tryStealTask
        (Executor.sampleExecutor ⟨3, 3, 3, 60, true, 256, 512⟩ 3 3 [[], [], []]
          [[⟨7, Executor.Priority.Normal⟩], [⟨8, Executor.Priority.Normal⟩], []] : Executor Nat)
        1 ⟨0, Executor.Priority.Normal⟩).map (fun r => (r.1, r.2.1)) =
      some (true, ⟨7, Executor.Priority.Normal⟩) ∧
    ((List.range 3).map (fun i => (1 + 1 + i) % 3)) = [2, 0, 1] ∧
    ((List.range 3).map (fun i => (1 + 1 + i) % 3)).getLast? = some 1 := by
  have hrep := Executor.sampleExecutor_rep (α := Nat) ⟨3, 3, 3, 60, true, 256, 512⟩ 3 3
    [[], [], []] [[⟨7, Executor.Priority.Normal⟩], [⟨8, Executor.Priority.Normal⟩], []] rfl
  have h := tryStealTask_scans_each_queue_once hrep 1 (by decide) (by decide)
    ⟨0, Executor.Priority.Normal⟩
  refine ⟨?_, by decide, h.2.2.2.2.2.1⟩
  have htf := h.1 rfl
  unfold Executor.TakesFirst at htf
  simp only [List.length_cons, List.length_nil] at htf
  have hfind : (((List.range 3).map (fun i => (1 + 1 + i) % 3)).map
      Executor.Source.localQ).find? (fun s => !(Executor.Source.tasks [[], [], []]
        [[⟨7, Executor.Priority.Normal⟩], [⟨8, Executor.Priority.Normal⟩], []] s :
          List (Executor.Task Nat)).isEmpty) = some (Executor.Source.localQ 0) := by
    decide
  rw [hfind] at htf
  obtain ⟨t, rest, e1, htasks, hres, _⟩ := htf
  have ht : t = ⟨7, Executor.Priority.Normal⟩ := by
    have : (Executor.Source.localQ 0).tasks ([[], [], []] : List (List (Executor.Task Nat)))
        [[⟨7, Executor.Priority.Normal⟩], [⟨8, Executor.Priority.Normal⟩], []] =
        [⟨7, Executor.Priority.Normal⟩] := rfl
    rw [this] at htasks
    simp only [List.cons.injEq] at htasks
    exact htasks.1.symm
  rw [hres, ht]
  rfl
/-! ## The end of a wait after `stop()` -/

namespace Executor

variable {α : Type}

/-- On a well-formed executor `getNextTask` called by a worker returns. -/
theorem getNextTask_returns {e : Executor α} {g l : List (List (Task α))} (h : Rep e g l)
    {self : Nat} (hself : e._config.enableWorkStealing = true → self < l.length)
    (hmax : self < SIZE_MAX) (task : Task α) :
    ∃ ok t e1, getNextTask e self task = some (ok, t, e1) ∧ control e1 = control e ∧
      (ok = true → e1._pendingTasks = decr e._pendingTasks) := by
  have htf := getNextTask_takesFirst h hself hmax task
  unfold TakesFirst at htf
  split at htf
  · exact ⟨false, task, e, htf, rfl, fun hc => by cases hc⟩
  · obtain ⟨t, rest, e1, _, hres, _, hpend, hctl⟩ := htf
    exact ⟨true, t, e1, hres, hctl, fun _ => hpend⟩

/-- With the flag raised, the end of a wait decrements the active counter once and
returns false, whatever `getNextTask` found. -/
theorem waitForTask_stopped {e e1 : Executor α} {self : Nat} {task t : Task α} {ok : Bool}
    (hget : getNextTask e self task = some (ok, t, e1)) (hstop : e.stopped = true) :
    waitForTask e self task = some (false, t, decrementActiveThreads e1) := by
  have hs : e1.stopped = true := by
    rw [(control_bounds (getNextTask_control hget)).1]; exact hstop
  simp only [waitForTask, hget, hs, Bool.true_or, if_true]

end Executor

/-- C22: when the stop flag is set as a worker's wait in `waitForTask` ends, the call
returns false, also when `getNextTask` has dequeued a task during the wait (the task is
dropped, `pending` having been decremented), and it decrements `active` exactly once;
the turn of `run()` then returns without executing anything.  And whenever
`waitForTask` returns true, on any executor state, `getNextTask` did return a task
(the one handed to `run()`), and the flag was not set. -/
theorem waitForTask_returns_false_once_stopped {α : Type} {e : Executor α}
    {g l : List (List (Executor.Task α))} (h : Executor.Rep e g l) (self : Nat)
    (hself : e._config.enableWorkStealing = true → self < l.length) (hmax : self < SIZE_MAX)
    (hstop : e.stopped = true) :
    (∀ task : Executor.Task α, ∃ ok t e1,
      Executor.getNextTask e self task = some (ok, t, e1) ∧
      Executor.waitForTask e self task =
        some (false, t, Executor.decrementActiveThreads e1) ∧
      (Executor.decrementActiveThreads e1)._activeThreads = decr e._activeThreads ∧
      (0 < e._activeThreads →
        (Executor.decrementActiveThreads e1)._activeThreads + 1 = e._activeThreads) ∧
      (ok = true → (Executor.decrementActiveThreads e1)._pendingTasks =
        decr e._pendingTasks)) ∧
    (∀ (invoke : α → Except Executor.Thrown Unit) (noop : α),
      ∃ e2, Executor.runTurn invoke noop e self = some (Executor.RunTurn.returned e2) ∧
        e2._activeThreads = decr e._activeThreads) ∧
    (∀ (e3 e4 : Executor α) (worker : Nat) (task t : Executor.Task α),
      Executor.waitForTask e3 worker task = some (true, t, e4) →
        Executor.getNextTask e3 worker task = some (true, t, e4) ∧ e3.stopped = false) := by
  have hmain : ∀ task : Executor.Task α, ∃ ok t e1,
      Executor.getNextTask e self task = some (ok, t, e1) ∧
      Executor.waitForTask e self task =
        some (false, t, Executor.decrementActiveThreads e1) ∧
      (Executor.decrementActiveThreads e1)._activeThreads = decr e._activeThreads ∧
      (0 < e._activeThreads →
        (Executor.decrementActiveThreads e1)._activeThreads + 1 = e._activeThreads) ∧
      (ok = true → (Executor.decrementActiveThreads e1)._pendingTasks =
        decr e._pendingTasks) := by
    intro task
    obtain ⟨ok, t, e1, hget, hctl, hpend⟩ := Executor.getNextTask_returns h hself hmax task
    have hact : e1._activeThreads = e._activeThreads := (Executor.control_bounds hctl).2.2.2
    have hdec : (Executor.decrementActiveThreads e1)._activeThreads = decr e._activeThreads := by
      show decr e1._activeThreads = _
      rw [hact]
    refine ⟨ok, t, e1, hget, Executor.waitForTask_stopped hget hstop, hdec, fun hpos => ?_,
      hpend⟩
    rw [hdec]
    unfold decr
    rw [if_neg (by omega)]
    omega
  refine ⟨hmain, fun invoke noop => ?_, fun e3 e4 worker task t hw => ?_⟩
  · obtain ⟨ok, t, e1, _, hwait, hdec, _⟩ := hmain ⟨noop, Executor.Priority.Normal⟩
    exact ⟨_, by simp only [Executor.runTurn, hwait], hdec⟩
  · obtain ⟨ok, e1, hget, hst⟩ := Executor.waitForTask_state hw
    simp only at hget hst
    have hs1 : e1.stopped = e3.stopped :=
      (Executor.control_bounds (Executor.getNextTask_control hget)).1
    cases hs3 : e3.stopped with
    | true =>
      rw [Executor.waitForTask_stopped hget hs3] at hw
      simp at hw
    | false =>
      have hs1f : e1.stopped = false := by rw [hs1, hs3]
      cases ok with
      | true =>
        have hw2 : Executor.waitForTask e3 worker task = some (true, t, e1) := by
          simp only [Executor.waitForTask, hget, hs1f, Bool.false_or, if_true,
            Bool.false_eq_true, if_false]
        rw [hw2] at hw
        simp only [Option.some.injEq, Prod.mk.injEq, true_and] at hw
        rw [← hw]
        exact ⟨hget, rfl⟩
      | false =>
        have hw2 : (Executor.waitForTask e3 worker task).map Prod.fst = some false := by
          simp only [Executor.waitForTask, hget, hs1f, Bool.or_self, Bool.false_eq_true,
            if_false, Executor.handleTimeout]
          split <;> rfl
        rw [hw] at hw2
        simp at hw2

/-- The witness of C22: a stopped executor with one worker and one queued task: the
wait ends with the task dequeued, and still returns false. -/
theorem waitForTask_returns_false_once_stopped_witness :
    (∃ t e1, Executor.getNextTask
        (Executor.stop (Executor.sampleExecutor ⟨1, 1, 3, 60, false, 256, 512⟩ 3 1
          [[], [⟨1, Executor.Priority.Normal⟩], []] [] : Executor Nat))
        0 ⟨0, Executor.Priority.Normal⟩ = some (true, t, e1) ∧
      Executor.waitForTask
        (Executor.stop (Executor.sampleExecutor ⟨1, 1, 3, 60, false, 256, 512⟩ 3 1
          [[], [⟨1, Executor.Priority.Normal⟩], []] [] : Executor Nat))
        0 ⟨0, Executor.Priority.Normal⟩ =
          some (false, t, Executor.decrementActiveThreads e1)) ∧
    (Executor.waitForTask
        (Executor.stop (Executor.sampleExecutor ⟨1, 1, 3, 60, false, 256, 512⟩ 3 1
          [[], [⟨1, Executor.Priority.Normal⟩], []] [] : Executor Nat))
        0 ⟨0, Executor.Priority.Normal⟩).map
      (fun r => (r.1, r.2.1, r.2.2._activeThreads, r.2.2._pendingTasks)) =
      some (false, ⟨1, Executor.Priority.Normal⟩, 0, 0) := by
  have hrep : Executor.Rep
      (Executor.stop (Executor.sampleExecutor ⟨1, 1, 3, 60, false, 256, 512⟩ 3 1
        [[], [⟨1, Executor.Priority.Normal⟩], []] [] : Executor Nat))
      [[], [⟨1, Executor.Priority.Normal⟩], []] [] :=
    (Executor.sampleExecutor_rep (α := Nat) ⟨1, 1, 3, 60, false, 256, 512⟩ 3 1
      [[], [⟨1, Executor.Priority.Normal⟩], []] [] rfl).of_queues rfl rfl
  obtain ⟨ok, t, e1, hget, hwait, _⟩ :=
    (waitForTask_returns_false_once_stopped hrep 0 (fun hws => by cases hws) (by decide)
      rfl).1 ⟨0, Executor.Priority.Normal⟩
  have hok : (Executor.getNextTask
        (Executor.stop (Executor.sampleExecutor ⟨1, 1, 3, 60, false, 256, 512⟩ 3 1
          [[], [⟨1, Executor.Priority.Normal⟩], []] [] : Executor Nat))
        0 ⟨0, Executor.Priority.Normal⟩).map Prod.fst = some true := by decide
  rw [hget] at hok
  simp only [Option.map_some', Option.some.injEq] at hok
  subst hok
  exact ⟨⟨t, e1, hget, hwait⟩, by decide⟩
/-! ## The shape of the cell list and the allocation counter -/

namespace MPMCQueue

variable {T : Type}

theorem resizePool_pool_idx (q : MPMCQueue T) (n : Nat) :
    (q.resizePool n).pool_idx = q.pool_idx := by
  unfold resizePool
  split <;> rfl

/-- Every call of `allocateNode` that returns has advanced the counter by one. -/
theorem allocateNode_pool_idx {q q' : MPMCQueue T} {node : Nat}
    (h : q.allocateNode = some (node, q')) : q'.pool_idx = q.pool_idx + 1 := by
  simp only [allocateNode] at h
  split_ifs at h <;> simp only [Option.some.injEq, Prod.mk.injEq] at h <;>
    obtain ⟨_, rfl⟩ := h
  · exact resizePool_pool_idx _ _
  · rfl

theorem pushLoop_pool_idx : ∀ (fuel : Nat) (q q' : MPMCQueue T) (node : Nat),
    pushLoop fuel q node = some q' → q'.pool_idx = q.pool_idx
  | 0, _, _, _, h => by simp [pushLoop] at h
  | fuel + 1, q, q', node, h => by
    unfold pushLoop at h
    split at h
    · cases h
    · split at h
      · cases h
      · split at h
        · simp only [Option.some.injEq] at h
          subst h
          rfl
        · have h1 := pushLoop_pool_idx fuel _ q' node h
          exact h1

/-- A `push` makes one call of `allocateNode`. -/
theorem push_pool_idx {q q' : MPMCQueue T} {v : T} (h : q.push v = some q') :
    q'.pool_idx = q.pool_idx + 1 := by
  unfold push at h
  split at h
  · cases h
  · rename_i node q1 halloc
    split at h
    · cases h
    · have h1 := pushLoop_pool_idx _ _ _ _ h
      have h2 := allocateNode_pool_idx halloc
      rw [h1]
      exact h2

/-- `try_pop` makes none. -/
theorem try_pop_pool_idx {q q' : MPMCQueue T} {out v : T} {ok : Bool}
    (h : q.try_pop out = some (ok, v, q')) : q'.pool_idx = q.pool_idx := by
  unfold try_pop at h
  cases hh : q.head with
  | none => simp only [hh] at h; cases h; rfl
  | some old =>
    simp only [hh] at h
    cases hq : q.node_pool[old]? with
    | none => simp [hq] at h
    | some hn =>
      simp only [hq] at h
      cases hnx : hn.next with
      | none => simp only [hnx] at h; cases h; rfl
      | some next =>
        simp only [hnx] at h
        cases hqn : q.node_pool[next]? with
        | none => simp [hqn] at h
        | some nn =>
          simp only [hqn] at h
          cases hd : nn.data with
          | none => simp only [hd] at h; cases h; rfl
          | some v => simp only [hd] at h; cases h; rfl

/-- A run of calls on a queue holding `vs` returns, the queue holds a list again, and
the counter has advanced by the number of `push` calls. -/
theorem calls_abs : ∀ (cs : List (QueueCall T)) {q : MPMCQueue T} {vs : List T}, Abs q vs →
    ∃ q' vs', q.calls cs = some q' ∧ Abs q' vs' ∧
      q'.pool_idx = q.pool_idx + cs.countP QueueCall.isPush
  | [], q, vs, h => ⟨q, vs, rfl, h, rfl⟩
  | QueueCall.push v :: cs, q, vs, h => by
    obtain ⟨q1, hpush, habs⟩ := push_abs h v
    obtain ⟨q', vs', hrun, habs', hidx⟩ := calls_abs cs habs
    refine ⟨q', vs', by simp only [calls, call, hpush, Option.some_bind, hrun], habs', ?_⟩
    rw [hidx, push_pool_idx hpush, List.countP_cons_of_pos _ _ (by rfl)]
    omega
  | QueueCall.try_pop out :: cs, q, vs, h => by
    cases vs with
    | nil =>
      have hpop := try_pop_nil h out
      obtain ⟨q', vs', hrun, habs', hidx⟩ := calls_abs cs h
      refine ⟨q', vs', by simp only [calls, call, hpop, Option.map_some', Option.some_bind, hrun],
        habs', ?_⟩
      rw [hidx, List.countP_cons_of_neg _ _ (by simp [QueueCall.isPush])]
    | cons v vs =>
      obtain ⟨q1, hpop, habs⟩ := try_pop_cons h out
      obtain ⟨q', vs', hrun, habs', hidx⟩ := calls_abs cs habs
      refine ⟨q', vs', by simp only [calls, call, hpop, Option.map_some', Option.some_bind, hrun],
        habs', ?_⟩
      rw [hidx, try_pop_pool_idx hpop, List.countP_cons_of_neg _ _ (by simp [QueueCall.isPush])]
  | QueueCall.resizePool n :: cs, q, vs, h => by
    obtain ⟨q', vs', hrun, habs', hidx⟩ := calls_abs cs (resizePool_abs h n)
    refine ⟨q', vs', by simp only [calls, call, Option.some_bind, hrun], habs', ?_⟩
    rw [hidx, resizePool_pool_idx, List.countP_cons_of_neg _ _ (by simp [QueueCall.isPush])]

/-- The walk along a chain ends at its last cell. -/
theorem linkedFrom_chain {pool : List (Node T)} {bound : Nat} :
    ∀ {vs : List T} {i t : Nat} (fuel : Nat), Chain pool bound i vs t → vs.length < fuel →
      linkedFrom pool t fuel i = true
  | [], i, t, 0, _, hf => by simp at hf
  | [], i, t, fuel + 1, h, _ => by
    obtain ⟨h1, _, h3⟩ := h
    subst h1
    unfold nextOf at h3
    cases hq : pool[i]? with
    | none => simp [hq] at h3
    | some n =>
      have hn : n.next = none := by simpa [hq] using h3
      simp only [linkedFrom, hq, hn, beq_self_eq_true]
  | _ :: _, i, t, 0, _, hf => by simp at hf
  | v :: vs, i, t, fuel + 1, h, hf => by
    obtain ⟨j, h1, _, h2, hc⟩ := h
    unfold nextOf at h1
    unfold dataOf at h2
    cases hq : pool[i]? with
    | none => simp [hq] at h1
    | some n =>
      have hn : n.next = some j := by simpa [hq] using h1
      cases hqj : pool[j]? with
      | none => simp [hqj] at h2
      | some m =>
        have hm : m.data = some v := by simpa [hqj] using h2
        simp only [linkedFrom, hq, hn, hqj, hm, Option.isSome_some, Bool.true_and]
        exact linkedFrom_chain fuel hc (by simpa using hf)

/-- A queue that holds a list has the shape checked by `wellLinked`. -/
theorem Abs.wellLinked {q : MPMCQueue T} {vs : List T} (h : Abs q vs) : q.wellLinked = true := by
  obtain ⟨hd, t, hhead, htail, hsent, hc⟩ := h.chain
  have hb := chain_bounds hc
  have hidx := h.idx_le
  unfold dataOf at hsent
  cases hq : q.node_pool[hd]? with
  | none => simp [hq] at hsent
  | some hn =>
    have hdata : hn.data = none := by simpa [hq] using hsent
    simp only [MPMCQueue.wellLinked, hhead, htail, hq, hdata, Option.isNone_none, Bool.true_and]
    exact linkedFrom_chain _ hc (by omega)

end MPMCQueue

/-- C24: the queue built with an initial pool size of at least 1 keeps its shape under
every finite sequence of `push`, `try_pop` and `resizePool` calls made one after the
other: every call returns, and in the state reached `head` and `tail` are cells of the
pool, the links lead from `head` to `tail`, the link of `tail` is null, the cell at
`head` holds no value and every further cell on the way holds one value (these are the
contents of the queue, oldest first). -/
theorem queue_keeps_its_shape {T : Type} (n : Nat) (hn : 1 ≤ n) (cs : List (QueueCall T)) :
    ∃ q0 q : MPMCQueue T, MPMCQueue.new n = some q0 ∧ q0.calls cs = some q ∧
      ∃ h t vs, q.head = some h ∧ q.tail = some t ∧
        MPMCQueue.Chain q.node_pool q.pool_idx h vs t ∧
        MPMCQueue.dataOf q.node_pool h = some none ∧
        MPMCQueue.nextOf q.node_pool t = some none ∧
        q.toList = vs ∧ q.wellLinked = true := by
  obtain ⟨q0, hq0, habs0⟩ := MPMCQueue.new_abs (T := T) n hn
  obtain ⟨q, vs, hrun, habs, _⟩ := MPMCQueue.calls_abs cs habs0
  obtain ⟨h, t, hhead, htail, hsent, hc⟩ := habs.chain
  exact ⟨q0, q, hq0, hrun, h, t, vs, hhead, htail, hc, hsent, MPMCQueue.chain_tail_next hc,
    MPMCQueue.toList_abs habs, habs.wellLinked⟩

/-- The witness of C24: pool size 1, two values pushed, one popped, the pool grown by
hand, a third value pushed. -/
theorem queue_keeps_its_shape_witness :
    (∃ q0 q : MPMCQueue Nat, MPMCQueue.new 1 = some q0 ∧
      q0.calls [QueueCall.push 1, QueueCall.push 2, QueueCall.try_pop 0,
        QueueCall.resizePool 8, QueueCall.push 3] = some q ∧
      ∃ h t vs, q.head = some h ∧ q.tail = some t ∧
        MPMCQueue.Chain q.node_pool q.pool_idx h vs t ∧
        MPMCQueue.dataOf q.node_pool h = some none ∧
        MPMCQueue.nextOf q.node_pool t = some none ∧
        q.toList = vs ∧ q.wellLinked = true) ∧
    ((MPMCQueue.new 1).bind (fun q0 => q0.calls [QueueCall.push 1, QueueCall.push 2,
        QueueCall.try_pop 0, QueueCall.resizePool 8, QueueCall.push 3])).map
      (fun q => (q.head, q.tail, q.toList, q.wellLinked)) =
      some (some 1, some 3, [2, 3], true) :=
  ⟨queue_keeps_its_shape 1 (le_refl 1) _, by decide⟩

/-- C26: in the queue built with an initial pool size of at least 1, after every finite
sequence of `push`, `try_pop` and `resizePool` calls made one after the other the
allocation counter equals the number of `allocateNode` calls made so far (one by the
constructor, one per `push`), it does not exceed the size of the pool, which is the
recorded size, and the next call of `allocateNode` returns the cell whose index is the
counter: the modulo does not wrap, the cell was never handed out before, and the pool
has at least as many cells as values were pushed, plus the sentinel, however many
values were popped. -/
theorem allocation_counter_within_pool {T : Type} (n : Nat) (hn : 1 ≤ n)
    (cs : List (QueueCall T)) :
    ∃ q0 q : MPMCQueue T, MPMCQueue.new n = some q0 ∧ q0.calls cs = some q ∧
      q0.head = some 0 ∧ q0.pool_idx = 1 ∧
      q.pool_idx = cs.countP QueueCall.isPush + 1 ∧
      q.pool_idx ≤ q.node_pool.length ∧
      q._poolSize = q.node_pool.length ∧
      cs.countP QueueCall.isPush + 1 ≤ q._poolSize ∧
      ∃ q1, q.allocateNode = some (q.pool_idx, q1) ∧ q1.pool_idx = q.pool_idx + 1 ∧
        q.pool_idx < q1.node_pool.length ∧ q1.pool_idx ≤ q1.node_pool.length ∧
        q.node_pool.length ≤ q1.node_pool.length ∧
        ∀ k, k < q.pool_idx → q1.node_pool[k]? = q.node_pool[k]? := by
  obtain ⟨q0, hq0, habs0⟩ := MPMCQueue.new_abs (T := T) n hn
  obtain ⟨q, vs, hrun, habs, hidx⟩ := MPMCQueue.calls_abs cs habs0
  have hnew : q0.head = some 0 ∧ q0.pool_idx = 1 := by
    have hspec := MPMCQueue.allocateNode_spec
      (⟨n, none, none, List.replicate n Node.fresh, 0⟩ : MPMCQueue T) (by simp)
      (by simpa using hn) (Nat.zero_le _)
    obtain ⟨pool', halloc, _⟩ := hspec
    simp only [MPMCQueue.new, halloc, Option.some.injEq] at hq0
    subst hq0
    exact ⟨rfl, rfl⟩
  obtain ⟨pool', halloc, hlt, hle, _, hold⟩ :=
    MPMCQueue.allocateNode_spec q habs.size_eq habs.size_pos habs.idx_le
  have hcount : q.pool_idx = cs.countP QueueCall.isPush + 1 := by rw [hidx, hnew.2]; omega
  refine ⟨q0, q, hq0, hrun, hnew.1, hnew.2, hcount, habs.idx_le, habs.size_eq, ?_,
    _, halloc, rfl, hlt, ?_, hle, hold⟩
  · rw [habs.size_eq, ← hcount]; exact habs.idx_le
  · show q.pool_idx + 1 ≤ pool'.length
    omega

/-- The witness of C26: pool size 1; after three pushes and a pop the counter is 4,
the pool has 4 cells, and the next allocation takes a cell of a grown pool. -/
theorem allocation_counter_within_pool_witness :
    (∃ q0 q : MPMCQueue Nat, MPMCQueue.new 1 = some q0 ∧
      q0.calls [QueueCall.push 1, QueueCall.push 2, QueueCall.try_pop 0,
        QueueCall.push 3] = some q ∧
      q0.head = some 0 ∧ q0.pool_idx = 1 ∧
      q.pool_idx = [QueueCall.push 1, QueueCall.push 2, QueueCall.try_pop 0,
        QueueCall.push 3].countP QueueCall.isPush + 1 ∧
      q.pool_idx ≤ q.node_pool.length ∧
      q._poolSize = q.node_pool.length ∧
      [QueueCall.push 1, QueueCall.push 2, QueueCall.try_pop 0,
        QueueCall.push 3].countP QueueCall.isPush + 1 ≤ q._poolSize ∧
      ∃ q1, q.allocateNode = some (q.pool_idx, q1) ∧ q1.pool_idx = q.pool_idx + 1 ∧
        q.pool_idx < q1.node_pool.length ∧ q1.pool_idx ≤ q1.node_pool.length ∧
        q.node_pool.length ≤ q1.node_pool.length ∧
        ∀ k, k < q.pool_idx → q1.node_pool[k]? = q.node_pool[k]?) ∧
    ((MPMCQueue.new 1).bind (fun q0 => q0.calls [QueueCall.push 1, QueueCall.push 2,
        QueueCall.try_pop 0, QueueCall.push 3])).map
      (fun q => (q.pool_idx, q.node_pool.length, q._poolSize,
        q.allocateNode.map (fun r => (r.1, r.2.node_pool.length)))) =
      some (4, 4, 4, some (4, 8)) :=
  ⟨allocation_counter_within_pool 1 (le_refl 1) _, by decide⟩
/-! ## The private queue of a batch worker -/

theorem forall₂_getElem?_left {β γ : Type} {R : β → γ → Prop} :
    ∀ {xs : List β} {ys : List γ} {i : Nat} {x : β}, List.Forall₂ R xs ys → xs[i]? = some x →
      ∃ y, ys[i]? = some y ∧ R x y
  | _, _, _, _, List.Forall₂.nil, h => by simp at h
  | _, _, 0, _, List.Forall₂.cons hr _, h => by
    simp at h; subst h; exact ⟨_, by simp, hr⟩
  | _, _, i + 1, _, List.Forall₂.cons _ hrest, h => by
    simp at h
    obtain ⟨y, hy, hxy⟩ := forall₂_getElem?_left hrest h
    exact ⟨y, by simpa using hy, hxy⟩

namespace Executor

variable {α : Type}

/-- A task at the front of a place is one of the queued tasks. -/
theorem Source.mem_of_tasks {g l : List (List (Task α))} {s : Source} {t : Task α}
    {rest : List (Task α)} (h : s.tasks g l = t :: rest) : t ∈ g.flatten ∨ t ∈ l.flatten := by
  cases s with
  | localQ i =>
    right
    simp only [Source.tasks] at h
    cases hi : l[i]? with
    | none => simp [hi] at h
    | some ts =>
      simp only [hi, Option.getD_some] at h
      exact List.mem_flatten.mpr ⟨ts, List.getElem?_mem hi, by simp [h]⟩
  | globalQ p =>
    left
    simp only [Source.tasks] at h
    cases hp : g[p]? with
    | none => simp [hp] at h
    | some ts =>
      simp only [hp, Option.getD_some] at h
      exact List.mem_flatten.mpr ⟨ts, List.getElem?_mem hp, by simp [h]⟩

/-- What a search returns was queued at one of the places searched. -/
theorem TakesFirst.source {e : Executor α} {g l : List (List (Task α))} {task : Task α}
    {srcs : List Source} {r : Option (Bool × Task α × Executor α)}
    (h : TakesFirst e g l task srcs r) :
    ∃ ok t e1 g1 l1, r = some (ok, t, e1) ∧ (Rep e g l → Rep e1 g1 l1) ∧
      (ok = true → ∃ s ∈ srcs, ∃ rest, s.tasks g l = t :: rest) := by
  unfold TakesFirst at h
  split at h
  · exact ⟨false, task, e, g, l, h, fun hr => hr, fun hc => by cases hc⟩
  · rename_i s hfind
    obtain ⟨t, rest, e1, hts, hres, hrep, _⟩ := h
    exact ⟨true, t, e1, _, _, hres, fun _ => hrep,
      fun _ => ⟨s, List.mem_of_find?_eq_some hfind, rest, hts⟩⟩

/-- What `tryStealTask` returns was queued in one of the shared local queues. -/
theorem tryStealTask_source {e : Executor α} {g l : List (List (Task α))} (h : Rep e g l)
    {self : Nat} (hself : e._config.enableWorkStealing = true → self < l.length)
    (hmax : self < SIZE_MAX) (task : Task α) :
    ∃ ok t e1 g1 l1, tryStealTask e self task = some (ok, t, e1) ∧ Rep e1 g1 l1 ∧
      (ok = true → t ∈ l.flatten) := by
  obtain ⟨ok, t, e1, g1, l1, hres, hrep, hmem⟩ :=
    (tryStealTask_takesFirst h hself hmax task).source
  refine ⟨ok, t, e1, g1, l1, hres, hrep h, fun hok => ?_⟩
  obtain ⟨s, hs, rest, hts⟩ := hmem hok
  have hloc : ∃ i, s = Source.localQ i := by
    split at hs
    · simp only [stealOrder, List.mem_map] at hs
      obtain ⟨i, _, rfl⟩ := hs
      exact ⟨_, rfl⟩
    · simp at hs
  obtain ⟨i, rfl⟩ := hloc
  simp only [Source.tasks] at hts
  cases hi : l[i]? with
  | none => simp [hi] at hts
  | some ts =>
    simp only [hi, Option.getD_some] at hts
    exact List.mem_flatten.mpr ⟨ts, List.getElem?_mem hi, by simp [hts]⟩

end Executor

namespace BatchExecutor

open Executor hiding Task getNextTask getNextTasks

variable {α : Type}

/-- A call that finds the private queue and the three global queues empty is a call
of `tryStealTask`. -/
theorem getNextTask_steal {e : Executor α} {g l : List (List (Executor.Task α))}
    (h : Rep e g l) {q : MPMCQueue (Executor.Task α)} (hq : MPMCQueue.Abs q [])
    (hg : ∀ k, k < 3 → g[k]? = some [])
    (hb : 1 ≤ e._config.batchExecutorTaskBatchSize) (fuel : Nat) (hf : 0 < fuel)
    (self : Nat) (task : Executor.Task α) :
    getNextTask fuel e (some q) self task =
      (Executor.tryStealTask e self task).map (fun r => (r.1, r.2.1, r.2.2, some q)) := by
  have hr : List.range Priority.kNumPriorities.toNat = [0, 1, 2] := rfl
  have h0 := drainLoop_skip h (hg 0 (by omega)) hb fuel hf task
  have h1 := drainLoop_skip h (hg 1 (by omega)) hb fuel hf task
  have h2 := drainLoop_skip h (hg 2 (by omega)) hb fuel hf task
  simp only [getNextTask, MPMCQueue.try_pop_nil hq, TaskBatch.new, hr, batchLoop, h0, h1, h2,
    TaskBatch.empty, List.isEmpty_nil, Bool.not_true, Bool.false_eq_true, if_false]
  cases Executor.tryStealTask e self task with
  | none => rfl
  | some r => rfl

/-- Every call of a worker returns, and the task it returns was in the worker's own
private queue or in one of the shared queues. -/
theorem getNextTask_source {e : Executor α} {g l : List (List (Executor.Task α))}
    (h : Rep e g l) {q : MPMCQueue (Executor.Task α)} {priv : List (Executor.Task α)}
    (hq : MPMCQueue.Abs q priv) {self : Nat}
    (hself : e._config.enableWorkStealing = true → self < l.length) (hmax : self < SIZE_MAX)
    (hb : 1 ≤ e._config.batchExecutorTaskBatchSize) (fuel : Nat)
    (hf : e._config.batchExecutorTaskBatchSize < fuel) (task : Executor.Task α) :
    ∃ ok t e1 q1 g1 l1 priv1,
      getNextTask fuel e (some q) self task = some (ok, t, e1, some q1) ∧
      Rep e1 g1 l1 ∧ MPMCQueue.Abs q1 priv1 ∧
      (ok = true → t ∈ priv ∨ t ∈ g.flatten ∨ t ∈ l.flatten) := by
  cases priv with
  | cons t rest =>
    obtain ⟨q1, hget, hq1⟩ := getNextTask_private fuel e hq self task
    exact ⟨true, t, e, q1, g, l, rest, hget, h, hq1, fun _ => Or.inl (List.mem_cons_self _ _)⟩
  | nil =>
    have hdrain : ∀ p, p < 3 → (∀ k, k < p → g[k]? = some []) →
        ∀ ts, g[p]? = some ts → ts ≠ [] →
        ∃ ok t e1 q1 g1 l1 priv1,
          getNextTask fuel e (some q) self task = some (ok, t, e1, some q1) ∧
          Rep e1 g1 l1 ∧ MPMCQueue.Abs q1 priv1 ∧
          (ok = true → t ∈ ([] : List (Executor.Task α)) ∨ t ∈ g.flatten ∨ t ∈ l.flatten) := by
      intro p hp3 hbefore ts hp hne
      obtain ⟨t, e1, q1, priv1, hget, hrep, hq1, htp, _⟩ :=
        getNextTask_drain h hq hp3 hbefore hp hne hb fuel
          (lt_of_le_of_lt (Nat.min_le_left _ _) hf) self task
      refine ⟨true, t, e1, q1, _, _, priv1, hget, hrep, hq1, fun _ => Or.inr (Or.inl ?_)⟩
      have hmem : t ∈ (ts.take e._config.batchExecutorTaskBatchSize).reverse := by
        rw [← htp]; exact List.mem_cons_self _ _
      exact List.mem_flatten.mpr
        ⟨ts, List.getElem?_mem hp, List.mem_of_mem_take (List.mem_reverse.mp hmem)⟩
    have h3 := h.three
    match g, h3, h, hdrain with
    | [a, b, c], _, h, hdrain =>
      by_cases ha : a = []
      · by_cases hb0 : b = []
        · by_cases hc : c = []
          · subst ha hb0 hc
            have hg : ∀ k, k < 3 → ([[], [], []] : List (List (Executor.Task α)))[k]? = some [] := by
              intro k hk
              match k, hk with
              | 0, _ => rfl
              | 1, _ => rfl
              | 2, _ => rfl
            have hsteal := getNextTask_steal h hq hg hb fuel (by omega) self task
            obtain ⟨ok, t, e1, g1, l1, hres, hrep, hmem⟩ := tryStealTask_source h hself hmax task
            rw [hres] at hsteal
            exact ⟨ok, t, e1, q, g1, l1, [], hsteal, hrep, hq,
              fun hok => Or.inr (Or.inr (hmem hok))⟩
          · subst ha hb0
            refine hdrain 2 (by omega) (fun k hk => ?_) c rfl hc
            match k, hk with
            | 0, _ => rfl
            | 1, _ => rfl
        · subst ha
          refine hdrain 1 (by omega) (fun k hk => ?_) b rfl hb0
          match k, hk with
          | 0, _ => rfl
      · exact hdrain 0 (by omega) (fun k hk => by omega) a rfl ha

end BatchExecutor

theorem BatchExecutor.sampleThreads_rep {α : Type} (config : Executor.Config)
    (uninit active : Nat) (g l privs : List (List (Executor.Task α))) (hg : g.length = 3) :
    (BatchExecutor.sampleThreads config uninit active g l privs).Rep g l privs := by
  refine ⟨Executor.sampleExecutor_rep config uninit active g l hg, ?_⟩
  show List.Forall₂ _ (privs.map _) privs
  rw [List.forall₂_map_left_iff]
  exact List.forall₂_same.mpr (fun ts _ => Or.inr ⟨_, rfl, Executor.sampleQueue_abs ts⟩)

/-- C27: a call of `BatchExecutor::getNextTask` made in thread `j` (a worker, whose
`run()` has set `_localQ`) returns, leaves the private queue of every other thread as
it was, and the task it returns was in thread `j`'s own private queue or in one of
the shared queues; a call of `tryStealTask` leaves every private queue as it was and
returns a task of a shared local queue.  Neither result depends on what the private
queues of the other threads hold. -/
theorem private_batch_queue_is_private {α : Type} {w : BatchExecutor.Threads α}
    {g l privs : List (List (Executor.Task α))} (h : w.Rep g l privs) (j self : Nat)
    (q : MPMCQueue (Executor.Task α)) (hq : w._localQ[j]? = some (some q))
    (hself : w.shared._config.enableWorkStealing = true → self < l.length)
    (hmax : self < SIZE_MAX) (hb : 1 ≤ w.shared._config.batchExecutorTaskBatchSize)
    (fuel : Nat) (hf : w.shared._config.batchExecutorTaskBatchSize < fuel)
    (task : Executor.Task α) :
    (∃ ok t w1 g1 l1 priv1,
      w.getNextTask fuel j self task = some (ok, t, w1) ∧
      w1.Rep g1 l1 (privs.set j priv1) ∧
      (∀ i, i ≠ j → w1._localQ[i]? = w._localQ[i]?) ∧
      (ok = true → t ∈ (privs[j]?).getD [] ∨ t ∈ g.flatten ∨ t ∈ l.flatten)) ∧
    (∃ ok t e1 g1 l1, w.tryStealTask self task = some (ok, t, ⟨e1, w._localQ⟩) ∧
      BatchExecutor.Threads.Rep ⟨e1, w._localQ⟩ g1 l1 privs ∧
      (ok = true → t ∈ l.flatten)) ∧
    (∀ w2 : BatchExecutor.Threads α, w2.shared = w.shared → w2._localQ[j]? = w._localQ[j]? →
      (w2.getNextTask fuel j self task).map
          (fun r => (r.1, r.2.1, r.2.2.shared, r.2.2._localQ[j]?)) =
        (w.getNextTask fuel j self task).map
          (fun r => (r.1, r.2.1, r.2.2.shared, r.2.2._localQ[j]?)) ∧
      (w2.tryStealTask self task).map (fun r => (r.1, r.2.1, r.2.2.shared)) =
        (w.tryStealTask self task).map (fun r => (r.1, r.2.1, r.2.2.shared))) := by
  obtain ⟨hrep, hpriv⟩ := h
  obtain ⟨priv, hpj, hrel⟩ := forall₂_getElem?_left hpriv hq
  have habs : MPMCQueue.Abs q priv := by
    rcases hrel with ⟨hnone, _⟩ | ⟨q0, hq0, h0⟩
    · cases hnone
    · cases hq0; exact h0
  refine ⟨?_, ?_, ?_⟩
  · obtain ⟨ok, t, e1, q1, g1, l1, priv1, hget, hrep1, hq1, hmem⟩ :=
      BatchExecutor.getNextTask_source hrep habs hself hmax hb fuel hf task
    refine ⟨ok, t, ⟨e1, w._localQ.set j (some q1)⟩, g1, l1, priv1, ?_, ⟨hrep1, ?_⟩, ?_, ?_⟩
    · simp only [BatchExecutor.Threads.getNextTask, hq, hget]
    · exact forall₂_set
        (R := fun lq priv => (lq = none ∧ priv = []) ∨ ∃ q, lq = some q ∧ MPMCQueue.Abs q priv)
        (Or.inr ⟨q1, rfl, hq1⟩) j hpriv
    · intro i hij
      show (w._localQ.set j (some q1))[i]? = _
      rw [List.getElem?_set, if_neg (fun e => hij e.symm)]
    · rw [hpj]; exact hmem
  · obtain ⟨ok, t, e1, g1, l1, hres, hrep1, hmem⟩ :=
      Executor.tryStealTask_source hrep hself hmax task
    exact ⟨ok, t, e1, g1, l1, by simp only [BatchExecutor.Threads.tryStealTask, hres],
      ⟨hrep1, hpriv⟩, hmem⟩
  · intro w2 hs hl
    have hj2 : j < w2._localQ.length := by
      rcases Nat.lt_or_ge j w2._localQ.length with hlt | hge
      · exact hlt
      · rw [List.getElem?_eq_none hge, hq] at hl; cases hl
    have hj1 : j < w._localQ.length := by
      rcases Nat.lt_or_ge j w._localQ.length with hlt | hge
      · exact hlt
      · rw [List.getElem?_eq_none hge] at hq; cases hq
    constructor
    · simp only [BatchExecutor.Threads.getNextTask, hs, hl, hq]
      cases BatchExecutor.getNextTask fuel w.shared (some q) self task with
      | none => rfl
      | some r =>
        simp only [Option.map_some', List.getElem?_set, if_pos rfl, if_pos hj1, if_pos hj2,
          if_true]
    · simp only [BatchExecutor.Threads.tryStealTask, hs]
      cases Executor.tryStealTask w.shared self task with
      | none => rfl
      | some r => rfl

/-- The witness of C27: two workers, the private queue of worker 0 holds two tasks and
every other queue is empty: the call of worker 1 finds no task, and neither does its
steal scan; the two tasks stay where they are. -/
theorem private_batch_queue_is_private_witness :
    (∃ ok t w1 g1 l1 priv1,
      (BatchExecutor.sampleThreads ⟨2, 2, 3, 60, true, 256, 2⟩ 3 2 [[], [], []] [[], []]
        [[⟨1, Executor.Priority.Normal⟩, ⟨2, Executor.Priority.Normal⟩], []] :
        BatchExecutor.Threads Nat).getNextTask 3 1 1 ⟨0, Executor.Priority.Normal⟩ =
          some (ok, t, w1) ∧
      w1.Rep g1 l1
        ([[⟨1, Executor.Priority.Normal⟩, ⟨2, Executor.Priority.Normal⟩], []].set 1 priv1) ∧
      (∀ i, i ≠ 1 → w1._localQ[i]? =
        (BatchExecutor.sampleThreads ⟨2, 2, 3, 60, true, 256, 2⟩ 3 2 [[], [], []] [[], []]
          [[⟨1, Executor.Priority.Normal⟩, ⟨2, Executor.Priority.Normal⟩], []] :
          BatchExecutor.Threads Nat)._localQ[i]?) ∧
      (ok = true → t ∈ (([[⟨1, Executor.Priority.Normal⟩, ⟨2, Executor.Priority.Normal⟩], []] :
          List (List (Executor.Task Nat)))[1]?).getD [] ∨
        t ∈ ([[], [], []] : List (List (Executor.Task Nat))).flatten ∨
        t ∈ ([[], []] : List (List (Executor.Task Nat))).flatten)) ∧
    ((BatchExecutor.sampleThreads ⟨2, 2, 3, 60, true, 256, 2⟩ 3 2 [[], [], []] [[], []]
        [[⟨1, Executor.Priority.Normal⟩, ⟨2, Executor.Priority.Normal⟩], []] :
        BatchExecutor.Threads Nat).getNextTask 3 1 1 ⟨0, Executor.Priority.Normal⟩).map
      (fun r => (r.1, r.2.2._localQ.map (Option.map MPMCQueue.toList))) =
      some (false, [some [⟨1, Executor.Priority.Normal⟩, ⟨2, Executor.Priority.Normal⟩],
        some []]) ∧
    ((BatchExecutor.sampleThreads ⟨2, 2, 3, 60, true, 256, 2⟩ 3 2 [[], [], []] [[], []]
        [[⟨1, Executor.Priority.Normal⟩, ⟨2, Executor.Priority.Normal⟩], []] :
        BatchExecutor.Threads Nat).tryStealTask 1 ⟨0, Executor.Priority.Normal⟩).map
      (fun r => r.1) = some false :=
  ⟨(private_batch_queue_is_private
      (BatchExecutor.sampleThreads_rep ⟨2, 2, 3, 60, true, 256, 2⟩ 3 2 [[], [], []] [[], []]
        [[⟨1, Executor.Priority.Normal⟩, ⟨2, Executor.Priority.Normal⟩], []] rfl)
      1 1 (Executor.sampleQueue []) rfl (fun _ => by decide) (by decide) (by decide) 3
      (by decide) ⟨0, Executor.Priority.Normal⟩).1,
    by decide, by decide⟩
/-! ## The batched file calls flush at once -/

namespace AsyncFSExecutor

/-- The test `batch.full() || op == batch.ops.back()` made right after `batch.add(op)`. -/
theorem flush_after_add (full : Bool) (ops : List Nat) (op : Nat) :
    (if full then some true
      else ((ops ++ [op]).getLast?).map (fun back => decide (op = back))) = some true := by
  cases full <;> simp

/-- Whatever the batch held, `writeFileAsyncBatch` is one call of `schedule` with the
whole batch, and leaves the batch of the calling thread empty. -/
theorem writeFileAsyncBatch_eq (env : Executor.Env) (s : AsyncFSExecutor)
    (thread self : Nat) (path : String) (data : List Nat) :
    s.writeFileAsyncBatch env thread self path data =
      (Executor.schedule env s.executor self
        (Func.writeBatchTask ⟨(s.writeBatch thread).ops ++ [s.heap.length]⟩)
        Executor.Priority.Normal).map
        (fun e1 => (s.heap.length, ⟨e1, s.heap ++ [⟨path, data⟩],
          Function.update s.writeBatch thread ⟨[]⟩, s.readBatch⟩)) := by
  simp only [writeFileAsyncBatch, WriteBatch.add,
    flush_after_add (WriteBatch.full _) (s.writeBatch thread).ops s.heap.length]
  cases Executor.schedule env s.executor self
    (Func.writeBatchTask ⟨(s.writeBatch thread).ops ++ [s.heap.length]⟩)
    Executor.Priority.Normal with
  | none => rfl
  | some e1 => rfl

/-- Whatever the batch held, `readFileAsyncBatch` is one call of `schedule` with the
whole batch, and leaves the batch of the calling thread empty. -/
theorem readFileAsyncBatch_eq (env : Executor.Env) (s : AsyncFSExecutor)
    (thread self : Nat) (path : String) :
    s.readFileAsyncBatch env thread self path =
      (Executor.schedule env s.executor self
        (Func.readBatchTask ⟨(s.readBatch thread).ops ++ [s.heap.length]⟩)
        Executor.Priority.Normal).map
        (fun e1 => (s.heap.length, ⟨e1, s.heap ++ [FileOp.new path READ_BUFFER_SIZE],
          s.writeBatch, Function.update s.readBatch thread ⟨[]⟩⟩)) := by
  simp only [readFileAsyncBatch, ReadBatch.add,
    flush_after_add (ReadBatch.full _) (s.readBatch thread).ops s.heap.length]
  cases Executor.schedule env s.executor self
    (Func.readBatchTask ⟨(s.readBatch thread).ops ++ [s.heap.length]⟩)
    Executor.Priority.Normal with
  | none => rfl
  | some e1 => rfl

theorem update_const {β : Type} (f : Nat → β) (b : β) (hf : ∀ t, f t = b) (i : Nat) :
    ∀ t, Function.update f i b t = b := by
  intro t
  by_cases h : t = i
  · subst h; simp
  · rw [Function.update_noteq h]; exact hf t

/-- A call on a running executor whose batches are empty. -/
theorem call_step {cfg : Executor.Config} {s : AsyncFSExecutor}
    (hc : Executor.Counted cfg s.executor) (hmin : cfg.minThreads < SIZE_MAX)
    (hmax : cfg.threadCount < SIZE_MAX) (hw : ∀ t, s.writeBatch t = ⟨[]⟩)
    (hr : ∀ t, s.readBatch t = ⟨[]⟩) (hpend : s.executor._pendingTasks < SIZE_MAX) (c : Call) :
    ∃ s1, s.call c = some (s.heap.length, s1) ∧ Executor.Counted cfg s1.executor ∧
      s1.executor._pendingTasks = s.executor._pendingTasks + 1 ∧
      s1.heap.length = s.heap.length + 1 ∧
      (∀ t, s1.writeBatch t = ⟨[]⟩) ∧ (∀ t, s1.readBatch t = ⟨[]⟩) ∧
      Executor.holds s1.executor (c.single s.heap.length) ∧
      ∀ f, Executor.holds s.executor f → Executor.holds s1.executor f := by
  cases c with
  | writeFileAsyncBatch env thread self path data =>
    obtain ⟨e1, hsched, hc1, hp1, hheld, hmono⟩ :=
      Executor.schedule_holds env hc hmin hmax self
        (Func.writeBatchTask ⟨[s.heap.length]⟩) Executor.Priority.Normal (by decide) hpend
    refine ⟨⟨e1, s.heap ++ [⟨path, data⟩], Function.update s.writeBatch thread ⟨[]⟩,
      s.readBatch⟩, ?_, hc1, hp1, by simp, update_const _ _ hw thread, hr, hheld, hmono⟩
    simp only [call, writeFileAsyncBatch_eq, hw thread, List.nil_append, hsched,
      Option.map_some']
  | readFileAsyncBatch env thread self path =>
    obtain ⟨e1, hsched, hc1, hp1, hheld, hmono⟩ :=
      Executor.schedule_holds env hc hmin hmax self
        (Func.readBatchTask ⟨[s.heap.length]⟩) Executor.Priority.Normal (by decide) hpend
    refine ⟨⟨e1, s.heap ++ [FileOp.new path READ_BUFFER_SIZE], s.writeBatch,
      Function.update s.readBatch thread ⟨[]⟩⟩, ?_, hc1, hp1, by simp, hw,
      update_const _ _ hr thread, hheld, hmono⟩
    simp only [call, readFileAsyncBatch_eq, hr thread, List.nil_append, hsched,
      Option.map_some']

/-- A run of calls on a running executor whose batches are empty. -/
theorem calls_run {cfg : Executor.Config} (hmin : cfg.minThreads < SIZE_MAX)
    (hmax : cfg.threadCount < SIZE_MAX) :
    ∀ (cs : List Call) (s : AsyncFSExecutor), Executor.Counted cfg s.executor →
      (∀ t, s.writeBatch t = ⟨[]⟩) → (∀ t, s.readBatch t = ⟨[]⟩) →
      s.executor._pendingTasks + cs.length ≤ SIZE_MAX →
      ∃ s1, s.calls cs = some s1 ∧ Executor.Counted cfg s1.executor ∧
        s1.executor._pendingTasks = s.executor._pendingTasks + cs.length ∧
        s1.heap.length = s.heap.length + cs.length ∧
        (∀ t, s1.writeBatch t = ⟨[]⟩) ∧ (∀ t, s1.readBatch t = ⟨[]⟩) ∧
        (∀ (k : Nat) (c : Call), cs[k]? = some c →
          Executor.holds s1.executor (c.single (s.heap.length + k))) ∧
        ∀ f, Executor.holds s.executor f → Executor.holds s1.executor f
  | [], s, hc, hw, hr, _ =>
    ⟨s, rfl, hc, rfl, rfl, hw, hr, fun k c h => by simp at h, fun _ h => h⟩
  | c :: cs, s, hc, hw, hr, hpend => by
    have hlen : (c :: cs).length = cs.length + 1 := rfl
    obtain ⟨s1, hcall, hc1, hp1, hh1, hw1, hr1, hheld1, hmono1⟩ :=
      call_step hc hmin hmax hw hr (by rw [hlen] at hpend; omega) c
    obtain ⟨s2, hrun, hc2, hp2, hh2, hw2, hr2, hheld2, hmono2⟩ :=
      calls_run hmin hmax cs s1 hc1 hw1 hr1 (by rw [hlen] at hpend; omega)
    refine ⟨s2, by simp only [calls, hcall, Option.some_bind, hrun], hc2, by rw [hp2, hp1, hlen]; omega,
      by rw [hh2, hh1, hlen]; omega, hw2, hr2, fun k c1 hk => ?_, fun f hf => hmono2 f (hmono1 f hf)⟩
    cases k with
    | zero =>
      simp only [List.getElem?_cons_zero, Option.some.injEq] at hk
      subst hk
      exact hmono2 _ hheld1
    | succ k =>
      simp only [List.getElem?_cons_succ] at hk
      have := hheld2 k c1 hk
      rw [hh1] at this
      have harith : s.heap.length + (k + 1) = s.heap.length + 1 + k := by omega
      rw [harith]
      exact this

end AsyncFSExecutor

/-- C30: on a running executor whose thread-local batches are empty (as they are
before the first call), every finite sequence of `writeFileAsyncBatch` and
`readFileAsyncBatch` calls returns; each call makes one file record, increments
`pending` by one, and the closures queued are, for the `k`-th call, the closure whose
batch holds exactly the record made by that call; afterwards every thread-local batch
is empty again, so the next call is one call of `schedule` with a batch of one
record.  The flush test `batch.full() || op == batch.ops.back()` is true whatever the
batch held: on any state a call is one call of `schedule` with the whole batch and
leaves the calling thread's batch empty. -/
theorem batched_file_calls_flush_at_once {cfg : Executor.Config} (s : AsyncFSExecutor)
    (hc : Executor.Counted cfg s.executor) (hmin : cfg.minThreads < SIZE_MAX)
    (hmax : cfg.threadCount < SIZE_MAX) (hw : ∀ t, s.writeBatch t = ⟨[]⟩)
    (hr : ∀ t, s.readBatch t = ⟨[]⟩) (cs : List AsyncFSExecutor.Call)
    (hpend : s.executor._pendingTasks + cs.length ≤ SIZE_MAX) :
    (∃ s1, s.calls cs = some s1 ∧
      s1.executor._pendingTasks = s.executor._pendingTasks + cs.length ∧
      s1.heap.length = s.heap.length + cs.length ∧
      (∀ t, s1.writeBatch t = ⟨[]⟩ ∧ s1.readBatch t = ⟨[]⟩) ∧
      (∀ (k : Nat) (c : AsyncFSExecutor.Call), cs[k]? = some c →
        Executor.holds s1.executor (c.single (s.heap.length + k))) ∧
      (∀ (env : Executor.Env) (thread self : Nat) (path : String) (data : List Nat),
        s1.writeFileAsyncBatch env thread self path data =
          (Executor.schedule env s1.executor self
            (AsyncFSExecutor.Func.writeBatchTask ⟨[s1.heap.length]⟩)
            Executor.Priority.Normal).map
            (fun e1 => (s1.heap.length,
              ⟨e1, s1.heap ++ [⟨path, data⟩], s1.writeBatch, s1.readBatch⟩))) ∧
      (∀ (env : Executor.Env) (thread self : Nat) (path : String),
        s1.readFileAsyncBatch env thread self path =
          (Executor.schedule env s1.executor self
            (AsyncFSExecutor.Func.readBatchTask ⟨[s1.heap.length]⟩)
            Executor.Priority.Normal).map
            (fun e1 => (s1.heap.length,
              ⟨e1, s1.heap ++ [AsyncFSExecutor.FileOp.new path AsyncFSExecutor.READ_BUFFER_SIZE],
                s1.writeBatch, s1.readBatch⟩)))) ∧
    (∀ (s2 : AsyncFSExecutor) (env : Executor.Env) (thread self : Nat) (path : String)
        (data : List Nat),
      s2.writeFileAsyncBatch env thread self path data =
        (Executor.schedule env s2.executor self
          (AsyncFSExecutor.Func.writeBatchTask ⟨(s2.writeBatch thread).ops ++ [s2.heap.length]⟩)
          Executor.Priority.Normal).map
          (fun e1 => (s2.heap.length, ⟨e1, s2.heap ++ [⟨path, data⟩],
            Function.update s2.writeBatch thread ⟨[]⟩, s2.readBatch⟩)) ∧
      s2.readFileAsyncBatch env thread self path =
        (Executor.schedule env s2.executor self
          (AsyncFSExecutor.Func.readBatchTask ⟨(s2.readBatch thread).ops ++ [s2.heap.length]⟩)
          Executor.Priority.Normal).map
          (fun e1 => (s2.heap.length,
            ⟨e1, s2.heap ++ [AsyncFSExecutor.FileOp.new path AsyncFSExecutor.READ_BUFFER_SIZE],
              s2.writeBatch, Function.update s2.readBatch thread ⟨[]⟩⟩))) := by
  refine ⟨?_, fun s2 env thread self path data =>
    ⟨AsyncFSExecutor.writeFileAsyncBatch_eq env s2 thread self path data,
      AsyncFSExecutor.readFileAsyncBatch_eq env s2 thread self path⟩⟩
  obtain ⟨s1, hrun, _, hp1, hh1, hw1, hr1, hheld, _⟩ :=
    AsyncFSExecutor.calls_run hmin hmax cs s hc hw hr hpend
  refine ⟨s1, hrun, hp1, hh1, fun t => ⟨hw1 t, hr1 t⟩, hheld, ?_, ?_⟩
  · intro env thread self path data
    have hupd : Function.update s1.writeBatch thread ⟨[]⟩ = s1.writeBatch := by
      rw [← hw1 thread]; exact Function.update_eq_self _ _
    rw [AsyncFSExecutor.writeFileAsyncBatch_eq, hupd, hw1 thread]
    rfl
  · intro env thread self path
    have hupd : Function.update s1.readBatch thread ⟨[]⟩ = s1.readBatch := by
      rw [← hr1 thread]; exact Function.update_eq_self _ _
    rw [AsyncFSExecutor.readFileAsyncBatch_eq, hupd, hr1 thread]
    rfl

/-- The witness of C30: a write and a read called by a thread that is not a worker:
two closures are queued, one record each, and both batches of the thread are empty. -/
theorem batched_file_calls_flush_at_once_witness :
    (∃ s1, AsyncFSExecutor.calls
        ⟨Executor.sampleExecutor ⟨4, 1, 3, 60, true, 256, 512⟩ 3 1 [[], [], []] [[]], [],
          fun _ => ⟨[]⟩, fun _ => ⟨[]⟩⟩
        [AsyncFSExecutor.Call.writeFileAsyncBatch ⟨fun _ _ => true, true⟩ 0 SIZE_MAX "a" [1, 2],
         AsyncFSExecutor.Call.readFileAsyncBatch ⟨fun _ _ => true, true⟩ 0 SIZE_MAX "a"] =
          some s1 ∧
      s1.executor._pendingTasks = 2 ∧ s1.heap.length = 2 ∧
      (∀ t, s1.writeBatch t = ⟨[]⟩ ∧ s1.readBatch t = ⟨[]⟩) ∧
      Executor.holds s1.executor (AsyncFSExecutor.Func.writeBatchTask ⟨[0]⟩) ∧
      Executor.holds s1.executor (AsyncFSExecutor.Func.readBatchTask ⟨[1]⟩)) ∧
    (AsyncFSExecutor.calls
        ⟨Executor.sampleExecutor ⟨4, 1, 3, 60, true, 256, 512⟩ 3 1 [[], [], []] [[]], [],
          fun _ => ⟨[]⟩, fun _ => ⟨[]⟩⟩
        [AsyncFSExecutor.Call.writeFileAsyncBatch ⟨fun _ _ => true, true⟩ 0 SIZE_MAX "a" [1, 2],
         AsyncFSExecutor.Call.readFileAsyncBatch ⟨fun _ _ => true, true⟩ 0 SIZE_MAX "a"]).map
      (fun s1 => ((s1.writeBatch 0).ops, (s1.readBatch 0).ops)) = some ([], []) ∧
    ((AsyncFSExecutor.calls
        ⟨Executor.sampleExecutor ⟨4, 1, 3, 60, true, 256, 512⟩ 3 1 [[], [], []] [[]], [],
          fun _ => ⟨[]⟩, fun _ => ⟨[]⟩⟩
        [AsyncFSExecutor.Call.writeFileAsyncBatch ⟨fun _ _ => true, true⟩ 0 SIZE_MAX "a" [1, 2],
         AsyncFSExecutor.Call.readFileAsyncBatch ⟨fun _ _ => true, true⟩ 0 SIZE_MAX "a"]).bind
      (fun s1 => s1.executor._taskQArray[1]?)).map (Option.map MPMCQueue.toList) =
      some (some [⟨AsyncFSExecutor.Func.writeBatchTask ⟨[0]⟩, Executor.Priority.Normal⟩,
        ⟨AsyncFSExecutor.Func.readBatchTask ⟨[1]⟩, Executor.Priority.Normal⟩]) := by
  obtain ⟨s1, hrun, hp, hh, hb, hheld, _⟩ :=
    (batched_file_calls_flush_at_once
      ⟨Executor.sampleExecutor ⟨4, 1, 3, 60, true, 256, 512⟩ 3 1 [[], [], []] [[]], [],
        fun _ => ⟨[]⟩, fun _ => ⟨[]⟩⟩
      (⟨⟨[[], [], []], [[]], Executor.sampleExecutor_rep _ 3 1 [[], [], []] [[]] rfl, rfl⟩,
        rfl, rfl, rfl, by decide⟩ :
        Executor.Counted ⟨4, 1, 3, 60, true, 256, 512⟩
          (Executor.sampleExecutor ⟨4, 1, 3, 60, true, 256, 512⟩ 3 1 [[], [], []] [[]] :
            Executor AsyncFSExecutor.Func))
      (by decide) (by decide) (fun _ => rfl) (fun _ => rfl)
      [AsyncFSExecutor.Call.writeFileAsyncBatch ⟨fun _ _ => true, true⟩ 0 SIZE_MAX "a" [1, 2],
       AsyncFSExecutor.Call.readFileAsyncBatch ⟨fun _ _ => true, true⟩ 0 SIZE_MAX "a"]
      (by decide)).1
  exact ⟨⟨s1, hrun, hp, hh, hb, hheld 0 _ rfl, hheld 1 _ rfl⟩, by decide, by decide⟩
/-! ## The life of a payload -/

namespace EventScheduler

variable {U : Type}

/-- An emission under another name leaves the payload under `n` and the counters
made so far as they are. -/
theorem emit_frame {env : Nat → Executor.Env} {s s1 : EventScheduler U} {self : Nat}
    {m n : String} {data : Payload U} (hq : s._eventsQ = [])
    (h : emit env s self m data = some s1) (hne : m ≠ n) :
    s1._eventsQ = [] ∧ s1._eventDataMap n = s._eventDataMap n ∧
      (s1.counters = s.counters ∨ s1.counters = s.counters ++ [0]) := by
  cases hm : s._handlersMap m with
  | none =>
    rw [emit_no_entry env self data hq hm] at h
    simp only [Option.some.injEq] at h
    subst h
    exact ⟨rfl, UnorderedMap.assign_other _ _ (Ne.symm hne), Or.inl rfl⟩
  | some vec =>
    by_cases hv : vec = []
    · subst hv
      rw [emit_empty_entry env self data hq hm] at h
      simp only [Option.some.injEq] at h
      subst h
      refine ⟨rfl, ?_, Or.inl rfl⟩
      show UnorderedMap.erase (UnorderedMap.assign s._eventDataMap m (some data)) m n = _
      rw [UnorderedMap.erase_other _ (Ne.symm hne), UnorderedMap.assign_other _ _ (Ne.symm hne)]
    · rw [emit_handlers env self data hq hm hv] at h
      cases hs : scheduleAll env self 0
          (vec.map (fun handle => Lambda.resumeAndCount handle m vec.length s.counters.length))
          s._executor with
      | none => rw [hs] at h; simp at h
      | some e1 =>
        rw [hs] at h
        simp only [Option.map_some', Option.some.injEq] at h
        subst h
        exact ⟨rfl, UnorderedMap.assign_other _ _ (Ne.symm hne), Or.inr rfl⟩

theorem getElem?_of_grow {β : Type} {xs ys : List β} {a : Nat} (ha : a < xs.length)
    (h : ys = xs ∨ ∃ x, ys = xs ++ [x]) : ys[a]? = xs[a]? ∧ a < ys.length := by
  rcases h with rfl | ⟨x, rfl⟩
  · exact ⟨rfl, ha⟩
  · exact ⟨List.getElem?_append_left ha, by simp; omega⟩

/-- A request of a resumed coroutine other than an emission under `n` leaves the
payload under `n`, the counter at `a` and the reads as they are. -/
theorem Run.call_frame {self : Nat} {r r1 : Run U} {c : Call U} {n : String} {a : Nat}
    (hq : r.state._eventsQ = []) (ha : a < r.state.counters.length)
    (hc : c.emits n = false) (h : Run.call self r c = some r1) :
    r1.state._eventsQ = [] ∧ r1.state._eventDataMap n = r.state._eventDataMap n ∧
      r1.state.counters[a]? = r.state.counters[a]? ∧ a < r1.state.counters.length ∧
      r1.reads = r.reads := by
  cases c with
  | awaitEvent eventName handle =>
    simp only [Run.call, EventAwaiter.await_suspend, Option.some.injEq] at h
    subst h
    obtain ⟨_, _, _, h4, h5, h6⟩ := registerHandler_spec r.state eventName handle
    refine ⟨h4.trans hq, by rw [h5], by rw [h6], by rw [h6]; exact ha, rfl⟩
  | emit env eventName data =>
    have hne : eventName ≠ n := by simpa [Call.emits] using hc
    simp only [Run.call, Run.emit] at h
    split at h
    · simp at h
    · rename_i s1 hs1
      simp only [Option.some.injEq] at h
      subst h
      obtain ⟨h1, h2, h3⟩ := emit_frame hq hs1 hne
      have hg := getElem?_of_grow ha
        (h3.elim Or.inl (fun h => Or.inr ⟨0, h⟩) : s1.counters = r.state.counters ∨
          ∃ x, s1.counters = r.state.counters ++ [x])
      exact ⟨h1, h2, hg.1, hg.2, rfl⟩
  | switchToExecutor env handle =>
    simp only [Run.call, ExecutorAwaiter.await_suspend] at h
    split at h
    · simp at h
    · rename_i s1 hs1
      simp only [Option.some.injEq] at h
      subst h
      split at hs1
      · simp at hs1
      · simp only [Option.some.injEq] at hs1
        subst hs1
        exact ⟨hq, rfl, rfl, ha, rfl⟩

theorem Run.calls_frame {self : Nat} {n : String} {a : Nat} :
    ∀ (cs : List (Call U)) {r r1 : Run U}, r.state._eventsQ = [] →
      a < r.state.counters.length → cs.all (fun c => !c.emits n) = true →
      Run.calls self r cs = some r1 →
      r1.state._eventsQ = [] ∧ r1.state._eventDataMap n = r.state._eventDataMap n ∧
        r1.state.counters[a]? = r.state.counters[a]? ∧ a < r1.state.counters.length ∧
        r1.reads = r.reads
  | [], r, r1, hq, ha, _, h => by
    simp only [Run.calls, Option.some.injEq] at h
    subst h; exact ⟨hq, rfl, rfl, ha, rfl⟩
  | c :: cs, r, r1, hq, ha, hall, h => by
    simp only [List.all_cons, Bool.and_eq_true, Bool.not_eq_true'] at hall
    simp only [Run.calls] at h
    split at h
    · simp at h
    · rename_i r2 hc
      obtain ⟨h1, h2, h3, h4, h5⟩ := Run.call_frame hq ha hall.1 hc
      obtain ⟨g1, g2, g3, g4, g5⟩ := Run.calls_frame cs h1 h4
        (by simpa only [Bool.not_eq_true'] using hall.2) h
      exact ⟨g1, g2.trans h2, g3.trans h3, g4, g5.trans h5⟩

/-- The state of an emission depends on the event queue, the payload under its name,
its counter and the reads only. -/
theorem Run.Live.of_frame {n : String} {k a : Nat} {d : Payload U} {base : Nat} {r r1 : Run U}
    (h : Run.Live n k a d base r) (hq : r1.state._eventsQ = [])
    (hd : r1.state._eventDataMap n = r.state._eventDataMap n)
    (hc : r1.state.counters[a]? = r.state.counters[a]?) (hr : r1.reads = r.reads) :
    Run.Live n k a d base r1 :=
  ⟨hq, by rw [hr]; exact h.base_le, by rw [hr, hc]; exact h.counter, by rw [hr]; exact h.le,
    by rw [hr, hd]; exact h.kept, by rw [hr, hd]; exact h.erased⟩

theorem Run.Live.index_lt {n : String} {k a : Nat} {d : Payload U} {base : Nat} {r : Run U}
    (h : Run.Live n k a d base r) : a < r.state.counters.length := by
  rcases Nat.lt_or_ge a r.state.counters.length with hlt | hge
  · exact hlt
  · have := h.counter
    rw [List.getElem?_eq_none hge] at this
    cases this

theorem okReads_append (n : String) (reads : List (String × Except Failure U))
    (x : String × Except Failure U) :
    okReads n (reads ++ [x]) =
      okReads n reads + (if (decide (x.1 = n) && x.2.isOk) = true then 1 else 0) := by
  simp only [okReads, List.countP_append, List.countP_cons, List.countP_nil, Nat.zero_add]

theorem drop_append_one {β : Type} {base : Nat} {xs : List β} (h : base ≤ xs.length) (x : β) :
    (xs ++ [x]).drop base = xs.drop base ++ [x] :=
  List.drop_append_of_le_length h

theorem okReads_drop_append (n m : String) {base : Nat} {reads : List (String × Except Failure U)}
    (h : base ≤ reads.length) (res : Except Failure U) :
    okReads n ((reads ++ [(m, res)]).drop base) =
      okReads n (reads.drop base) + (if m = n ∧ res.isOk = true then 1 else 0) := by
  rw [drop_append_one h, okReads_append]
  by_cases hm : m = n <;> cases hr : res.isOk <;> simp [hm, hr]

/-- A closure that is not a resumption of another emission under `n`, run by a
worker, keeps the state of the emission: a resumption of the emission itself that
reads the payload advances the counter by one and erases the payload when the
counter reaches `k`. -/
theorem Run.invoke_live {self : Nat} {r r1 : Run U} {T : String} {body : List (Call U)}
    {f : Lambda} {n : String} {k a : Nat} {d : Payload U} {base : Nat}
    (hl : Run.Live n k a d base r) (hk : k < SIZE_MOD)
    (hb : body.all (fun c => !c.emits n) = true) (hf : f.respects n k a = true)
    (h : Run.invoke self r T body f = some r1) : Run.Live n k a d base r1 := by
  cases f with
  | noop =>
    simp only [Run.invoke, Option.some.injEq] at h
    subst h; exact hl
  | resume handle =>
    simp only [Run.invoke] at h
    obtain ⟨h1, h2, h3, _, h5⟩ := Run.calls_frame body hl.queue hl.index_lt hb h
    exact hl.of_frame h1 h2 h3 h5
  | resumeAndCount handle m k1 a1 =>
    have hg := getEventData_spec r.state T m
    generalize hres : (match r.state._eventDataMap m with
        | none => Except.error (Failure.runtime_error "Event data not found")
        | some data => any_cast T data) = res at hg
    simp only [Run.invoke, EventAwaiter.await_resume, hg] at h
    cases res with
    | error failure =>
      simp only [Option.some.injEq] at h
      subst h
      have hok := okReads_drop_append n m hl.base_le (Except.error failure : Except Failure U)
      have hz : (if m = n ∧ (Except.error failure : Except Failure U).isOk = true then 1 else 0)
          = 0 := by simp [Except.isOk, Except.toBool]
      rw [hz, Nat.add_zero] at hok
      refine ⟨hl.queue, ?_, ?_, ?_, ?_, ?_⟩
      · show base ≤ (r.reads ++ [(m, Except.error failure)]).length
        have := hl.base_le
        simp only [List.length_append, List.length_singleton]; omega
      · show r.state.counters[a]? = some (okReads n ((r.reads ++ [_]).drop base))
        rw [hok]; exact hl.counter
      · show okReads n ((r.reads ++ [_]).drop base) ≤ k
        rw [hok]; exact hl.le
      · show okReads n ((r.reads ++ [_]).drop base) < k → _
        rw [hok]; exact hl.kept
      · show okReads n ((r.reads ++ [_]).drop base) = k → _
        rw [hok]; exact hl.erased
    | ok value =>
      simp only at h
      split at h
      · simp at h
      · rename_i r2 hcalls
        obtain ⟨g1, g2, g3, g4, g5⟩ := Run.calls_frame (n := n) (a := a) body
          (r := ⟨r.state, r.emitted, r.reads ++ [(m, Except.ok value)], r.terminated⟩)
          hl.queue hl.index_lt hb hcalls
        have g2a : r2.state._eventDataMap n = r.state._eventDataMap n := g2
        have g3a : r2.state.counters[a]? = r.state.counters[a]? := g3
        have g5a : r2.reads = r.reads ++ [(m, Except.ok value)] := g5
        have hok := okReads_drop_append n m hl.base_le (Except.ok value : Except Failure U)
        have hbase : base ≤ r2.reads.length := by
          rw [g5a]
          have := hl.base_le
          simp only [List.length_append, List.length_singleton]; omega
        split at h
        · simp at h
        · rename_i count hcount
          by_cases hmn : m = n ∨ a1 = a
          · have hall : m = n ∧ k1 = k ∧ a1 = a := by
              simpa [Lambda.respects, hmn] using hf
            obtain ⟨hm, hk1, ha1⟩ := hall
            subst hm hk1 ha1
            have hone : (if m = m ∧ (Except.ok value : Except Failure U).isOk = true then 1 else 0)
                = 1 := by simp [Except.isOk, Except.toBool]
            rw [hone] at hok
            have hpresent : r.state._eventDataMap m ≠ none := by
              intro hnone
              rw [hnone] at hres
              cases hres
            have hlt : okReads m (r.reads.drop base) < k1 := by
              rcases Nat.lt_or_ge (okReads m (r.reads.drop base)) k1 with hlt | hge
              · exact hlt
              · exact absurd (hl.erased (le_antisymm hl.le hge)) hpresent
            have hcnt : count = okReads m (r.reads.drop base) := by
              rw [g3a, hl.counter] at hcount
              simp only [Option.some.injEq] at hcount
              exact hcount.symm
            have hincr : incr count = okReads m (r.reads.drop base) + 1 := by
              rw [hcnt]
              exact Nat.mod_eq_of_lt (by omega)
            split at h
            · rename_i hlast
              simp only [Option.some.injEq] at h
              subst h
              refine ⟨g1, hbase, ?_, ?_, ?_, ?_⟩
              · show (r2.state.counters.set a1 (incr count))[a1]? = some (okReads m (r2.reads.drop base))
                rw [g5a, hok, List.getElem?_set, if_pos rfl, if_pos g4, hincr]
              · show okReads m (r2.reads.drop base) ≤ k1
                rw [g5a, hok]; omega
              · show okReads m (r2.reads.drop base) < k1 → _
                rw [g5a, hok]; intro hc; omega
              · intro _
                exact UnorderedMap.erase_same _ _
            · rename_i hnotlast
              simp only [Option.some.injEq] at h
              subst h
              refine ⟨g1, hbase, ?_, ?_, ?_, ?_⟩
              · show (r2.state.counters.set a1 (incr count))[a1]? = some (okReads m (r2.reads.drop base))
                rw [g5a, hok, List.getElem?_set, if_pos rfl, if_pos g4, hincr]
              · show okReads m (r2.reads.drop base) ≤ k1
                rw [g5a, hok]; omega
              · intro _
                show r2.state._eventDataMap m = some (some d)
                rw [g2a]; exact hl.kept hlt
              · show okReads m (r2.reads.drop base) = k1 → _
                rw [g5a, hok]; intro hc; omega
          · have hm : m ≠ n := fun e => hmn (Or.inl e)
            have ha1 : a1 ≠ a := fun e => hmn (Or.inr e)
            have hzero : (if m = n ∧ (Except.ok value : Except Failure U).isOk = true then 1 else 0)
                = 0 := by simp [hm]
            rw [hzero, Nat.add_zero] at hok
            have hcounter : (r2.state.counters.set a1 (incr count))[a]? =
                some (okReads n (r2.reads.drop base)) := by
              rw [g5a, hok, List.getElem?_set, if_neg ha1, g3a]; exact hl.counter
            split at h
            · simp only [Option.some.injEq] at h
              subst h
              refine ⟨g1, hbase, hcounter, ?_, ?_, ?_⟩
              · show okReads n (r2.reads.drop base) ≤ k
                rw [g5a, hok]; exact hl.le
              · show okReads n (r2.reads.drop base) < k →
                  UnorderedMap.erase r2.state._eventDataMap m n = _
                rw [g5a, hok, UnorderedMap.erase_other _ (Ne.symm hm), g2a]; exact hl.kept
              · show okReads n (r2.reads.drop base) = k →
                  UnorderedMap.erase r2.state._eventDataMap m n = _
                rw [g5a, hok, UnorderedMap.erase_other _ (Ne.symm hm), g2a]; exact hl.erased
            · simp only [Option.some.injEq] at h
              subst h
              refine ⟨g1, hbase, hcounter, ?_, ?_, ?_⟩
              · show okReads n (r2.reads.drop base) ≤ k
                rw [g5a, hok]; exact hl.le
              · show okReads n (r2.reads.drop base) < k → r2.state._eventDataMap n = _
                rw [g5a, hok, g2a]; exact hl.kept
              · show okReads n (r2.reads.drop base) = k → r2.state._eventDataMap n = _
                rw [g5a, hok, g2a]; exact hl.erased

/-- A quiet step keeps the state of the emission. -/
theorem Run.step_live {r r1 : Run U} {st : Step U} {n : String} {k a : Nat} {d : Payload U}
    {base : Nat} (hl : Run.Live n k a d base r) (hk : k < SIZE_MOD)
    (hq : st.quiet n k a r = true) (h : Run.step r st = some r1) :
    Run.Live n k a d base r1 := by
  cases st with
  | start =>
    simp only [Run.step] at h
    split at h
    · simp only [Option.some.injEq] at h; subst h; exact hl
    · split at h
      · simp at h
      · simp only [Option.some.injEq] at h; subst h
        exact hl.of_frame hl.queue rfl rfl rfl
  | stop =>
    simp only [Run.step] at h
    split at h
    · simp only [Option.some.injEq] at h; subst h; exact hl
    · simp only [Option.some.injEq] at h; subst h
      exact hl.of_frame hl.queue rfl rfl rfl
  | registerHandler eventName handle =>
    simp only [Run.step] at h
    split at h
    · simp only [Option.some.injEq] at h; subst h; exact hl
    · simp only [Option.some.injEq] at h; subst h
      obtain ⟨_, _, _, h4, h5, h6⟩ := registerHandler_spec r.state eventName handle
      exact hl.of_frame (h4.trans hl.queue) (by rw [h5]) (by rw [h6]) rfl
  | emit env self eventName data =>
    have hne : eventName ≠ n := by simpa [Step.quiet] using hq
    simp only [Run.step] at h
    split at h
    · simp only [Option.some.injEq] at h; subst h; exact hl
    · simp only [Run.emit] at h
      split at h
      · simp at h
      · rename_i s1 hs1
        simp only [Option.some.injEq] at h
        subst h
        obtain ⟨h1, h2, h3⟩ := emit_frame hl.queue hs1 hne
        have hg := getElem?_of_grow hl.index_lt
          (h3.elim Or.inl (fun h => Or.inr ⟨0, h⟩) : s1.counters = r.state.counters ∨
            ∃ x, s1.counters = r.state.counters ++ [x])
        exact hl.of_frame h1 h2 hg.1 rfl
  | work self T body =>
    simp only [Step.quiet, Bool.and_eq_true, Bool.or_eq_true] at hq
    simp only [Run.step] at h
    split at h
    · simp only [Option.some.injEq] at h; subst h; exact hl
    · rename_i hterm
      split at h
      · simp at h
      · simp only [Option.some.injEq] at h; subst h
        exact hl.of_frame hl.queue rfl rfl rfl
      · rename_i task e1 hwait
        have hf : task.func.respects n k a = true := by
          rcases hq.2 with ht | hm
          · exact absurd ht hterm
          · rw [hwait] at hm; exact hm
        have hl1 : Run.Live n k a d base
            ⟨{ r.state with _executor := e1 }, r.emitted, r.reads, r.terminated⟩ :=
          hl.of_frame hl.queue rfl rfl rfl
        exact Run.invoke_live hl1 hk hq.1 hf h

/-- A quiet trace keeps the state of the emission. -/
theorem Run.steps_live {n : String} {k a : Nat} {d : Payload U} {base : Nat} (hk : k < SIZE_MOD) :
    ∀ (tr : List (Step U)) {r r1 : Run U}, Run.Live n k a d base r →
      Run.quiet n k a r tr = true → Run.steps r tr = some r1 → Run.Live n k a d base r1
  | [], r, r1, hl, _, h => by
    simp only [Run.steps, Option.some.injEq] at h
    subst h; exact hl
  | st :: tr, r, r1, hl, hq, h => by
    simp only [Run.quiet, Bool.and_eq_true] at hq
    simp only [Run.steps] at h
    split at h
    · simp at h
    · rename_i r2 hst
      have hq2 := hq.2
      rw [hst] at hq2
      exact Run.steps_live hk tr (Run.step_live hl hk hq.1 hst) hq2 h

/-- The state of an emission right after it was made. -/
theorem Run.emit_live {r0 r1 : Run U} (hq : r0.state._eventsQ = [])
    (hnt : r0.terminated = false) {n : String} {vec : List Nat}
    (hvec : r0.state._handlersMap n = some vec) (hne : vec ≠ [])
    {env : Nat → Executor.Env} {self : Nat} {d : Payload U}
    (h : Run.step r0 (Step.emit env self n d) = some r1) :
    Run.Live n vec.length r0.state.counters.length d r0.reads.length r1 := by
  simp only [Run.step, hnt, Bool.false_eq_true, if_false, Run.emit,
    emit_handlers env self d hq hvec hne] at h
  cases hs : scheduleAll env self 0
      (vec.map (fun handle => Lambda.resumeAndCount handle n vec.length r0.state.counters.length))
      r0.state._executor with
  | none => rw [hs] at h; simp at h
  | some e1 =>
    rw [hs] at h
    simp only [Option.map_some', Option.some.injEq] at h
    subst h
    have hpos : 0 < vec.length := List.length_pos.mpr hne
    have hzero : okReads n (r0.reads.drop r0.reads.length) = 0 := by
      rw [List.drop_length]; rfl
    refine ⟨rfl, le_refl _, ?_, ?_, ?_, ?_⟩
    · show (r0.state.counters ++ [0])[r0.state.counters.length]? =
        some (okReads n (r0.reads.drop r0.reads.length))
      rw [hzero]; simp
    · show okReads n (r0.reads.drop r0.reads.length) ≤ vec.length
      rw [hzero]; omega
    · intro _
      exact UnorderedMap.assign_same _ _ _
    · show okReads n (r0.reads.drop r0.reads.length) = vec.length → _
      rw [hzero]; intro hc; omega

end EventScheduler
set_option maxRecDepth 100000 in
/-- A run against C23: handler 1 is registered under "x" and `emit("x", 1)` schedules
its resumption (counter 0); handler 2 is registered under "x" and `emit("x", 2)`
schedules its resumption (counter 1, `k = 1`) and stores 2; no emission follows.
Worker 0 then runs the first task, the one of the first emission: its counter reaches
its handler count and it erases the entry of "x", the payload of the second emission,
while none of the second emission's tasks has completed (its counter is 0 and its
task is still queued).  The second emission's handler then finds no payload. -/
theorem earlier_resumption_erases_later_payload :
    ((EventScheduler.Run.init 4 0 : EventScheduler.Run Nat).steps
      [EventScheduler.Step.start,
       EventScheduler.Step.registerHandler "x" 1,
       EventScheduler.Step.emit (fun _ => ⟨fun _ _ => true, true⟩) SIZE_MAX "x" ⟨"int", 1⟩,
       EventScheduler.Step.registerHandler "x" 2]).map
        (fun r => (r.state._handlersMap "x", r.state.counters)) =
      some (some [2], [0]) ∧
    ((EventScheduler.Run.init 4 0 : EventScheduler.Run Nat).steps
      [EventScheduler.Step.start,
       EventScheduler.Step.registerHandler "x" 1,
       EventScheduler.Step.emit (fun _ => ⟨fun _ _ => true, true⟩) SIZE_MAX "x" ⟨"int", 1⟩,
       EventScheduler.Step.registerHandler "x" 2,
       EventScheduler.Step.emit (fun _ => ⟨fun _ _ => true, true⟩) SIZE_MAX "x" ⟨"int", 2⟩]).map
        (fun r => (r.state._eventDataMap "x", r.state.counters,
          Executor.queuedTasks r.state._executor)) =
      some (some (some ⟨"int", 2⟩), [0, 0], 2) ∧
    ((EventScheduler.Run.init 4 0 : EventScheduler.Run Nat).steps
      [EventScheduler.Step.start,
       EventScheduler.Step.registerHandler "x" 1,
       EventScheduler.Step.emit (fun _ => ⟨fun _ _ => true, true⟩) SIZE_MAX "x" ⟨"int", 1⟩,
       EventScheduler.Step.registerHandler "x" 2,
       EventScheduler.Step.emit (fun _ => ⟨fun _ _ => true, true⟩) SIZE_MAX "x" ⟨"int", 2⟩,
       EventScheduler.Step.work 0 "int" []]).map
        (fun r => (r.state._eventDataMap "x", r.state.counters,
          Executor.queuedTasks r.state._executor, r.terminated)) =
      some (none, [1, 0], 1, false) ∧
    ((EventScheduler.Run.init 4 0 : EventScheduler.Run Nat).steps
      [EventScheduler.Step.start,
       EventScheduler.Step.registerHandler "x" 1,
       EventScheduler.Step.emit (fun _ => ⟨fun _ _ => true, true⟩) SIZE_MAX "x" ⟨"int", 1⟩,
       EventScheduler.Step.registerHandler "x" 2,
       EventScheduler.Step.emit (fun _ => ⟨fun _ _ => true, true⟩) SIZE_MAX "x" ⟨"int", 2⟩,
       EventScheduler.Step.work 0 "int" []]).bind
        (fun r => (Executor.getNextTask r.state._executor 0
          ⟨EventScheduler.Lambda.noop, Executor.Priority.Normal⟩).map
            (fun x => (x.1, x.2.1.func))) =
      some (true, EventScheduler.Lambda.resumeAndCount 2 "x" 1 1) ∧
    ((EventScheduler.Run.init 4 0 : EventScheduler.Run Nat).steps
      [EventScheduler.Step.start,
       EventScheduler.Step.registerHandler "x" 1,
       EventScheduler.Step.emit (fun _ => ⟨fun _ _ => true, true⟩) SIZE_MAX "x" ⟨"int", 1⟩,
       EventScheduler.Step.registerHandler "x" 2,
       EventScheduler.Step.emit (fun _ => ⟨fun _ _ => true, true⟩) SIZE_MAX "x" ⟨"int", 2⟩,
       EventScheduler.Step.work 0 "int" [],
       EventScheduler.Step.work 0 "int" []]).map
        (fun r => (r.reads, r.terminated)) =
      some ([("x", Except.ok 2),
        ("x", Except.error (EventScheduler.Failure.runtime_error "Event data not found"))],
        true) := by
  refine ⟨?_, ?_, ?_, ?_, ?_⟩
  · decide
  · decide
  · decide
  · decide
  · decide

/-- C23 amended: in a run from the default-constructed scheduler, take an emission of
`d` under `n` made when `n` has the handler vector `handlers` (never empty, `k` its
length), and any trace after it in which no emission under `n` is made and no worker
runs a resumption of another emission under `n`.  Then the emission's counter `c` is
the number of reads under `n` that returned a value since the emission, one per
completed resumption; `c ≤ k`; the payload `d` is in the map as long as `c < k`, and
it is erased once `c = k`: the resumption that completes `k`-th erases it, whatever
the order of the steps. -/
theorem payload_kept_until_last_resumption {U : Type} (hardware_concurrency uninit : Nat)
    (tr0 : List (EventScheduler.Step U)) (r0 : EventScheduler.Run U)
    (h0 : EventScheduler.Run.steps (EventScheduler.Run.init hardware_concurrency uninit) tr0 =
      some r0)
    (hnt : r0.terminated = false) (n : String) (handlers : List Nat)
    (hh : r0.state._handlersMap n = some handlers) (hk : handlers.length < SIZE_MOD)
    (env : Nat → Executor.Env) (self : Nat) (d : EventScheduler.Payload U)
    (r1 : EventScheduler.Run U)
    (hemit : EventScheduler.Run.step r0 (EventScheduler.Step.emit env self n d) = some r1)
    (tr : List (EventScheduler.Step U))
    (hquiet : EventScheduler.Run.quiet n handlers.length r0.state.counters.length r1 tr = true)
    (r : EventScheduler.Run U) (hrun : EventScheduler.Run.steps r1 tr = some r) :
    1 ≤ handlers.length ∧
    ∃ c, r.state.counters[r0.state.counters.length]? = some c ∧
      c = EventScheduler.okReads n (r.reads.drop r0.reads.length) ∧
      c ≤ handlers.length ∧
      (c < handlers.length → r.state._eventDataMap n = some (some d)) ∧
      (c = handlers.length → r.state._eventDataMap n = none) := by
  have hinv := EventScheduler.Run.steps_inv tr0
    (EventScheduler.Run.Inv.init hardware_concurrency uninit) h0
  have hne : handlers ≠ [] := (hinv.handlers n handlers hh).2
  have hl := EventScheduler.Run.steps_live hk tr
    (EventScheduler.Run.emit_live hinv.queue hnt hh hne hemit) hquiet hrun
  exact ⟨List.length_pos.mpr hne, _, hl.counter, rfl, hl.le, hl.kept, hl.erased⟩

set_option maxRecDepth 100000 in
/-- The witness of the amended C23: two handlers under "x", one emission, two turns of
worker 0: after the first turn the counter is 1 and the payload is in the map, after
the second the counter is 2 and the payload is erased. -/
theorem payload_kept_until_last_resumption_witness :
    (∃ r0 r1 r : EventScheduler.Run Nat,
      (EventScheduler.Run.init 4 0 : EventScheduler.Run Nat).steps
        [EventScheduler.Step.start,
         EventScheduler.Step.registerHandler "x" 1,
         EventScheduler.Step.registerHandler "x" 2] = some r0 ∧
      r0.state._handlersMap "x" = some [1, 2] ∧
      r0.step (EventScheduler.Step.emit (fun _ => ⟨fun _ _ => true, true⟩) SIZE_MAX "x"
        ⟨"int", 7⟩) = some r1 ∧
      EventScheduler.Run.quiet "x" 2 r0.state.counters.length r1
        [EventScheduler.Step.work 0 "int" [], EventScheduler.Step.work 0 "int" []] = true ∧
      r1.steps [EventScheduler.Step.work 0 "int" [], EventScheduler.Step.work 0 "int" []] =
        some r ∧
      ∃ c, r.state.counters[r0.state.counters.length]? = some c ∧
        c = EventScheduler.okReads "x" (r.reads.drop r0.reads.length) ∧ c ≤ 2 ∧
        (c < 2 → r.state._eventDataMap "x" = some (some ⟨"int", 7⟩)) ∧
        (c = 2 → r.state._eventDataMap "x" = none)) ∧
    ((EventScheduler.Run.init 4 0 : EventScheduler.Run Nat).steps
      [EventScheduler.Step.start,
       EventScheduler.Step.registerHandler "x" 1,
       EventScheduler.Step.registerHandler "x" 2,
       EventScheduler.Step.emit (fun _ => ⟨fun _ _ => true, true⟩) SIZE_MAX "x" ⟨"int", 7⟩,
       EventScheduler.Step.work 0 "int" []]).map
        (fun r => (r.state.counters, r.state._eventDataMap "x")) =
      some ([1], some (some ⟨"int", 7⟩)) ∧
    ((EventScheduler.Run.init 4 0 : EventScheduler.Run Nat).steps
      [EventScheduler.Step.start,
       EventScheduler.Step.registerHandler "x" 1,
       EventScheduler.Step.registerHandler "x" 2,
       EventScheduler.Step.emit (fun _ => ⟨fun _ _ => true, true⟩) SIZE_MAX "x" ⟨"int", 7⟩,
       EventScheduler.Step.work 0 "int" [],
       EventScheduler.Step.work 0 "int" []]).map
        (fun r => (r.state.counters, r.state._eventDataMap "x")) = some ([2], none) ∧
    ((EventScheduler.Run.init 4 0 : EventScheduler.Run Nat).steps
      [EventScheduler.Step.start,
       EventScheduler.Step.registerHandler "x" 1,
       EventScheduler.Step.registerHandler "x" 2,
       EventScheduler.Step.emit (fun _ => ⟨fun _ _ => true, true⟩) SIZE_MAX "x" ⟨"int", 7⟩,
       EventScheduler.Step.work 0 "int" [],
       EventScheduler.Step.work 0 "int" []]).map (fun r => r.reads) =
      some [("x", Except.ok 7), ("x", Except.ok 7)] := by
  refine ⟨?_, by decide, by decide, by decide⟩
  obtain ⟨r0, h0⟩ := Option.isSome_iff_exists.mp
    (by decide : ((EventScheduler.Run.init 4 0 : EventScheduler.Run Nat).steps
      [EventScheduler.Step.start,
       EventScheduler.Step.registerHandler "x" 1,
       EventScheduler.Step.registerHandler "x" 2]).isSome = true)
  have hfacts : ((EventScheduler.Run.init 4 0 : EventScheduler.Run Nat).steps
      [EventScheduler.Step.start,
       EventScheduler.Step.registerHandler "x" 1,
       EventScheduler.Step.registerHandler "x" 2]).elim false
        (fun r0 => decide (r0.terminated = false) &&
          decide (r0.state._handlersMap "x" = some [1, 2])) = true := by decide
  have hnext : ((EventScheduler.Run.init 4 0 : EventScheduler.Run Nat).steps
      [EventScheduler.Step.start,
       EventScheduler.Step.registerHandler "x" 1,
       EventScheduler.Step.registerHandler "x" 2]).elim false
        (fun r0 => (r0.step (EventScheduler.Step.emit (fun _ => ⟨fun _ _ => true, true⟩)
          SIZE_MAX "x" ⟨"int", 7⟩)).elim false
          (fun r1 => EventScheduler.Run.quiet "x" 2 r0.state.counters.length r1
              [EventScheduler.Step.work 0 "int" [], EventScheduler.Step.work 0 "int" []] &&
            (r1.steps [EventScheduler.Step.work 0 "int" [],
              EventScheduler.Step.work 0 "int" []]).isSome)) = true := by decide
  rw [h0] at hfacts hnext
  simp only [Option.elim_some, Bool.and_eq_true, decide_eq_true_eq] at hfacts
  simp only [Option.elim_some] at hnext
  cases h1 : r0.step (EventScheduler.Step.emit (fun _ => ⟨fun _ _ => true, true⟩) SIZE_MAX "x"
      ⟨"int", 7⟩) with
  | none => rw [h1] at hnext; simp at hnext
  | some r1 =>
    rw [h1] at hnext
    simp only [Option.elim_some, Bool.and_eq_true] at hnext
    obtain ⟨r, hr⟩ := Option.isSome_iff_exists.mp hnext.2
    exact ⟨r0, r1, r, h0, hfacts.2, h1, hnext.1, hr,
      (payload_kept_until_last_resumption 4 0 _ r0 h0 hfacts.1 "x" [1, 2] hfacts.2 (by decide)
        _ SIZE_MAX ⟨"int", 7⟩ r1 h1 _ hnext.1 r hr).2⟩
/-! ## The fixed pool of iteration 07 as a ring -/

namespace Iteration07

namespace MPMCQueue

variable {T : Type}

theorem mod_pool (x : Nat) : (x % SIZE_MOD) % 1024 = x % 1024 :=
  Nat.mod_mod_of_dvd x ⟨2 ^ 54, by norm_num [SIZE_MOD]⟩

theorem bind_next_of_some {pool : List (Node T)} {i j : Nat}
    (h : MPMCQueue.nextOf pool i = some (some j)) : (pool[i]?).bind Node.next = some j := by
  unfold MPMCQueue.nextOf at h
  cases hq : pool[i]? with
  | none => simp [hq] at h
  | some n => simpa [hq] using h

theorem bind_next_of_none {pool : List (Node T)} {i : Nat}
    (h : MPMCQueue.nextOf pool i = some none) : (pool[i]?).bind Node.next = none := by
  unfold MPMCQueue.nextOf at h
  cases hq : pool[i]? with
  | none => simp [hq] at h
  | some n => simpa [hq] using h

theorem node_of_nextOf {pool : List (Node T)} {i : Nat} {x : Option Nat}
    (h : MPMCQueue.nextOf pool i = some x) : ∃ n, pool[i]? = some n ∧ n.next = x := by
  unfold MPMCQueue.nextOf at h
  cases hq : pool[i]? with
  | none => rw [hq] at h; cases h
  | some n =>
    rw [hq] at h
    simp only [Option.map_some', Option.some.injEq] at h
    exact ⟨n, rfl, h⟩

/-- The cells met along a chain of links. -/
theorem cellsFrom_chain {pool : List (Node T)} :
    ∀ (m fuel : Nat) (c : Nat → Nat),
      (∀ i, i < m → MPMCQueue.nextOf pool (c i) = some (some (c (i + 1)))) →
      MPMCQueue.nextOf pool (c m) = some none → m < fuel →
      cellsFrom pool fuel (c 0) = (List.range (m + 1)).map c
  | _, 0, _, _, _, hf => by omega
  | 0, fuel + 1, c, _, hend, _ => by
    simp only [cellsFrom, bind_next_of_none hend]
    rfl
  | m + 1, fuel + 1, c, hlinks, hend, hf => by
    have hrec := cellsFrom_chain m fuel (fun i => c (i + 1))
      (fun i hi => hlinks (i + 1) (by omega)) hend (by omega)
    simp only [cellsFrom, bind_next_of_some (hlinks 0 (by omega))]
    rw [hrec, List.range_succ_eq_map (m + 1), List.map_cons, List.map_map]
    rfl

/-- What `allocateNode` does on a pool of `POOL_SIZE` cells. -/
theorem allocateNode_ring (q : MPMCQueue T) (hs : q.node_pool.length = POOL_SIZE) :
    q.allocateNode = some (q.pool_idx % 1024,
      { q with pool_idx := incr q.pool_idx,
               node_pool := q.node_pool.set (q.pool_idx % 1024) ⟨none, none⟩ }) := by
  have hlt : q.pool_idx % 1024 < q.node_pool.length := by
    rw [hs]; exact Nat.mod_lt _ (by decide)
  simp only [allocateNode, POOL_SIZE, List.getElem?_eq_getElem hlt]

/-- The cells reachable from `head` are the cell of `head` and the cells of the
values. -/
theorem Ring.reachable {q : MPMCQueue T} {vs : List T} (h : Ring q vs) :
    ∃ hd, hd < 1024 ∧ q.head = some hd ∧
      q.reachable = (List.range (vs.length + 1)).map (fun i => (hd + i) % 1024) ∧
      q.pool_idx % 1024 = (hd + vs.length + 1) % 1024 := by
  obtain ⟨hd, hlt, hhead, _, hidx, hlinks, hend, _⟩ := h.chain
  have hn := h.bound
  simp only [POOL_SIZE] at hlt hidx hlinks hend hn
  refine ⟨hd, hlt, hhead, ?_, hidx⟩
  have := cellsFrom_chain vs.length POOL_SIZE (fun i => (hd + i) % 1024)
    hlinks hend (by simp only [POOL_SIZE]; omega)
  simp only [MPMCQueue.reachable, hhead]
  rw [← this]
  show cellsFrom q.node_pool POOL_SIZE hd = cellsFrom q.node_pool POOL_SIZE ((hd + 0) % 1024)
  rw [Nat.add_zero, Nat.mod_eq_of_lt hlt]

/-- The constructor yields the empty queue. -/
theorem new_ring : ∃ q : MPMCQueue T, MPMCQueue.new = some q ∧ Ring q [] := by
  have hspec := allocateNode_ring
    (⟨none, none, List.replicate POOL_SIZE Node.fresh, 0⟩ : MPMCQueue T) (by simp)
  refine ⟨_, by simp only [MPMCQueue.new, hspec]; rfl, ?_⟩
  refine ⟨by simp, by simp [POOL_SIZE], 0, by decide, rfl, rfl, ?_, ?_, ?_, ?_⟩
  · show incr 0 % POOL_SIZE = 1 % POOL_SIZE
    rfl
  · intro i hi
    simp at hi
  · show MPMCQueue.nextOf ((List.replicate POOL_SIZE Node.fresh).set 0 ⟨none, none⟩) 0 =
      some none
    rw [MPMCQueue.nextOf_set, if_pos rfl, if_pos (by rw [List.length_replicate]; decide)]
  · intro i v hv
    simp at hv

/-- The pool after a `push` that took the cell `a` and linked it behind the cell `t`. -/
theorem push_pool_facts (pool : List (Node T)) (a t : Nat) (v : T) (tn : Node T) (hat : a ≠ t)
    (ha : a < pool.length) (ht : pool[t]? = some tn) :
    (∀ x, x ≠ a → x ≠ t →
      MPMCQueue.nextOf (((pool.set a ⟨none, none⟩).set a ⟨none, some v⟩).set t
          { tn with next := some a }) x = MPMCQueue.nextOf pool x ∧
      MPMCQueue.dataOf (((pool.set a ⟨none, none⟩).set a ⟨none, some v⟩).set t
          { tn with next := some a }) x = MPMCQueue.dataOf pool x) ∧
    MPMCQueue.nextOf (((pool.set a ⟨none, none⟩).set a ⟨none, some v⟩).set t
        { tn with next := some a }) t = some (some a) ∧
    MPMCQueue.dataOf (((pool.set a ⟨none, none⟩).set a ⟨none, some v⟩).set t
        { tn with next := some a }) t = MPMCQueue.dataOf pool t ∧
    MPMCQueue.nextOf (((pool.set a ⟨none, none⟩).set a ⟨none, some v⟩).set t
        { tn with next := some a }) a = some none ∧
    MPMCQueue.dataOf (((pool.set a ⟨none, none⟩).set a ⟨none, some v⟩).set t
        { tn with next := some a }) a = some (some v) := by
  have htlt : t < pool.length := by
    rcases Nat.lt_or_ge t pool.length with hlt | hge
    · exact hlt
    · rw [List.getElem?_eq_none hge] at ht; cases ht
  have hta : t ≠ a := fun e => hat e.symm
  refine ⟨fun x hxa hxt => ⟨?_, ?_⟩, ?_, ?_, ?_, ?_⟩
  · rw [MPMCQueue.nextOf_set, if_neg (fun e => hxt e.symm), MPMCQueue.nextOf_set,
      if_neg (fun e => hxa e.symm), MPMCQueue.nextOf_set, if_neg (fun e => hxa e.symm)]
  · rw [MPMCQueue.dataOf_set, if_neg (fun e => hxt e.symm), MPMCQueue.dataOf_set,
      if_neg (fun e => hxa e.symm), MPMCQueue.dataOf_set, if_neg (fun e => hxa e.symm)]
  · rw [MPMCQueue.nextOf_set, if_pos rfl, if_pos (by simpa using htlt)]
  · rw [MPMCQueue.dataOf_set, if_pos rfl, if_pos (by simpa using htlt)]
    unfold MPMCQueue.dataOf
    rw [ht]; rfl
  · rw [MPMCQueue.nextOf_set, if_neg hta, MPMCQueue.nextOf_set, if_pos rfl,
      if_pos (by simpa using ha)]
  · rw [MPMCQueue.dataOf_set, if_neg hta, MPMCQueue.dataOf_set, if_pos rfl,
      if_pos (by simpa using ha)]

/-- What `push` does to a queue of `POOL_SIZE` cells whose `tail` cell has no
successor and is not the cell handed out. -/
theorem push_eq {q : MPMCQueue T} (hs : q.node_pool.length = POOL_SIZE) {t : Nat}
    (htail : q.tail = some t) {tn : Node T} (ht : q.node_pool[t]? = some tn)
    (hnext : tn.next = none) (hat : q.pool_idx % 1024 ≠ t) (v : T) :
    q.push v = some
      { head := q.head, tail := some (q.pool_idx % 1024),
        node_pool := (((q.node_pool.set (q.pool_idx % 1024) ⟨none, none⟩).set
          (q.pool_idx % 1024) ⟨none, some v⟩).set t { tn with next := some (q.pool_idx % 1024) }),
        pool_idx := incr q.pool_idx } := by
  have halt : q.pool_idx % 1024 < q.node_pool.length := by
    rw [hs]; exact Nat.mod_lt _ (by decide)
  have h1 : (q.node_pool.set (q.pool_idx % 1024) ⟨none, none⟩)[q.pool_idx % 1024]? =
      some ⟨none, none⟩ := by
    rw [List.getElem?_set, if_pos rfl, if_pos halt]
  have h2 : ((q.node_pool.set (q.pool_idx % 1024) ⟨none, none⟩).set (q.pool_idx % 1024)
      ⟨none, some v⟩)[t]? = some tn := by
    rw [List.getElem?_set, if_neg hat, List.getElem?_set, if_neg hat]; exact ht
  simp only [push, allocateNode_ring q hs, h1, pushLoop, htail, h2, hnext]

/-- `push` appends at the back as long as a cell is left for `head`. -/
theorem push_ring {q : MPMCQueue T} {vs : List T} (h : Ring q vs) (hn : vs.length + 1 < 1024)
    (v : T) : ∃ q', q.push v = some q' ∧ Ring q' (vs ++ [v]) := by
  obtain ⟨hd, hlt, hhead, htail, hidx, hlinks, hend, hdata⟩ := h.chain
  have hs := h.size_eq
  simp only [POOL_SIZE] at hlt htail hidx hlinks hend hdata
  have hat : q.pool_idx % 1024 ≠ (hd + vs.length) % 1024 := by omega
  obtain ⟨tn, htn1, htn2⟩ : ∃ tn, q.node_pool[(hd + vs.length) % 1024]? = some tn ∧
      tn.next = none := by
    unfold MPMCQueue.nextOf at hend
    cases hq : q.node_pool[(hd + vs.length) % 1024]? with
    | none => simp [hq] at hend
    | some tn => exact ⟨tn, rfl, by simpa [hq] using hend⟩
  have halt : q.pool_idx % 1024 < q.node_pool.length := by
    rw [hs]; exact Nat.mod_lt _ (by decide)
  obtain ⟨hother, hnt, hdt, hna, hda⟩ :=
    push_pool_facts q.node_pool (q.pool_idx % 1024) ((hd + vs.length) % 1024) v tn hat halt htn1
  refine ⟨_, push_eq hs htail htn1 htn2 hat v, ?_⟩
  refine ⟨by simpa using hs, by simp only [POOL_SIZE, List.length_append, List.length_singleton]; omega,
    hd, hlt, hhead, ?_, ?_, ?_, ?_, ?_⟩
  · show some (q.pool_idx % 1024) = some ((hd + (vs ++ [v]).length) % POOL_SIZE)
    simp only [POOL_SIZE, List.length_append, List.length_singleton]
    have e : q.pool_idx % 1024 = (hd + (vs.length + 1)) % 1024 := by omega
    rw [e]
  · show incr q.pool_idx % POOL_SIZE = (hd + (vs ++ [v]).length + 1) % POOL_SIZE
    simp only [POOL_SIZE, List.length_append, List.length_singleton, incr, mod_pool]
    omega
  · intro i hi
    simp only [List.length_append, List.length_singleton] at hi
    simp only [POOL_SIZE]
    by_cases hin : i = vs.length
    · subst hin
      rw [hnt, hidx]
    · have hi' : i < vs.length := by omega
      rw [(hother ((hd + i) % 1024) (by omega) (by omega)).1]
      exact hlinks i hi'
  · simp only [POOL_SIZE, List.length_append, List.length_singleton]
    have e : (hd + (vs.length + 1)) % 1024 = q.pool_idx % 1024 := by omega
    rw [e]; exact hna
  · intro i w hw
    simp only [POOL_SIZE]
    rcases Nat.lt_trichotomy i vs.length with hi | hi | hi
    · rw [List.getElem?_append_left hi] at hw
      have hold := hdata i w hw
      by_cases hlast : i + 1 = vs.length
      · have e : (hd + i + 1) % 1024 = (hd + vs.length) % 1024 := by omega
        rw [e, hdt, ← e]; exact hold
      · rw [(hother ((hd + i + 1) % 1024) (by omega) (by omega)).2]
        exact hold
    · subst hi
      simp only [List.getElem?_concat_length, Option.some.injEq] at hw
      subst hw
      have e : (hd + vs.length + 1) % 1024 = q.pool_idx % 1024 := by omega
      rw [e]; exact hda
    · rw [List.getElem?_eq_none (by simp; omega)] at hw
      cases hw

/-- `try_pop` on the empty queue fails and touches neither the out-parameter nor the
queue. -/
theorem try_pop_nil_ring {q : MPMCQueue T} (h : Ring q []) (out : T) :
    q.try_pop out = some (false, out, q) := by
  obtain ⟨hd, hlt, hhead, _, _, _, hend, _⟩ := h.chain
  simp only [POOL_SIZE, List.length_nil, Nat.add_zero] at hlt hend
  rw [Nat.mod_eq_of_lt hlt] at hend
  unfold MPMCQueue.nextOf at hend
  cases hq : q.node_pool[hd]? with
  | none => simp [hq] at hend
  | some hn =>
    have : hn.next = none := by simpa [hq] using hend
    simp only [try_pop, hhead, hq, this]

/-- `try_pop` on a non-empty queue takes the front. -/
theorem try_pop_cons_ring {q : MPMCQueue T} {w : T} {rest : List T} (h : Ring q (w :: rest))
    (out : T) : ∃ q', q.try_pop out = some (true, w, q') ∧ Ring q' rest := by
  obtain ⟨hd, hlt, hhead, htail, hidx, hlinks, hend, hdata⟩ := h.chain
  have hs := h.size_eq
  have hb := h.bound
  simp only [POOL_SIZE, List.length_cons] at hlt htail hidx hlinks hend hdata hb
  have hl0 := hlinks 0 (by omega)
  have hd0 := hdata 0 w (by simp)
  simp only [Nat.add_zero] at hl0 hd0
  rw [Nat.mod_eq_of_lt hlt] at hl0
  unfold MPMCQueue.nextOf at hl0
  unfold MPMCQueue.dataOf at hd0
  cases hq : q.node_pool[hd]? with
  | none => simp [hq] at hl0
  | some hn =>
    have hnext : hn.next = some ((hd + 1) % 1024) := by simpa [hq] using hl0
    cases hqj : q.node_pool[(hd + 1) % 1024]? with
    | none => simp [hqj] at hd0
    | some nn =>
      have hdata0 : nn.data = some w := by simpa [hqj] using hd0
      refine ⟨_, by simp only [try_pop, hhead, hq, hnext, hqj, hdata0]; rfl, ?_⟩
      have hjlt : (hd + 1) % 1024 < q.node_pool.length := by
        rw [hs]; exact Nat.mod_lt _ (by decide)
      have hnextP : ∀ x, MPMCQueue.nextOf
          (q.node_pool.set ((hd + 1) % 1024) { nn with data := none }) x =
            MPMCQueue.nextOf q.node_pool x := by
        intro x
        rw [MPMCQueue.nextOf_set]
        by_cases hx : (hd + 1) % 1024 = x
        · subst hx
          rw [if_pos rfl, if_pos hjlt]
          unfold MPMCQueue.nextOf
          rw [hqj]; rfl
        · rw [if_neg hx]
      refine ⟨by simpa using hs, by simp only [POOL_SIZE]; omega, (hd + 1) % 1024,
        Nat.mod_lt _ (by decide), rfl, ?_, ?_, ?_, ?_, ?_⟩
      · show q.tail = _
        rw [htail]
        simp only [POOL_SIZE]
        have e : (hd + (rest.length + 1)) % 1024 = ((hd + 1) % 1024 + rest.length) % 1024 := by
          omega
        rw [e]
      · show q.pool_idx % POOL_SIZE = _
        simp only [POOL_SIZE]
        omega
      · intro i hi
        simp only [POOL_SIZE]
        show MPMCQueue.nextOf (q.node_pool.set ((hd + 1) % 1024) { nn with data := none }) _ = _
        rw [hnextP]
        have e1 : ((hd + 1) % 1024 + i) % 1024 = (hd + (i + 1)) % 1024 := by omega
        have e2 : ((hd + 1) % 1024 + i + 1) % 1024 = (hd + (i + 1) + 1) % 1024 := by omega
        rw [e1, e2]
        exact hlinks (i + 1) (by omega)
      · simp only [POOL_SIZE]
        show MPMCQueue.nextOf (q.node_pool.set ((hd + 1) % 1024) { nn with data := none }) _ = _
        rw [hnextP]
        have e1 : ((hd + 1) % 1024 + rest.length) % 1024 = (hd + (rest.length + 1)) % 1024 := by
          omega
        rw [e1]
        exact hend
      · intro i u hu
        simp only [POOL_SIZE]
        show MPMCQueue.dataOf (q.node_pool.set ((hd + 1) % 1024) { nn with data := none }) _ = _
        have hi : i < rest.length := by
          rcases Nat.lt_or_ge i rest.length with hlt' | hge
          · exact hlt'
          · rw [List.getElem?_eq_none hge] at hu; cases hu
        have e1 : ((hd + 1) % 1024 + i + 1) % 1024 = (hd + (i + 1) + 1) % 1024 := by omega
        rw [MPMCQueue.dataOf_set, if_neg (by omega), e1]
        exact hdata (i + 1) u (by simpa using hu)

/-- With a cell left for `head`, the cell handed out next is not reachable from
`head`. -/
theorem allocateNode_fresh {q : MPMCQueue T} {vs : List T} (h : Ring q vs)
    (hn : vs.length + 1 < 1024) :
    ∃ a q1, q.allocateNode = some (a, q1) ∧ a ∉ q.reachable := by
  obtain ⟨hd, hlt, _, hreach, hidx⟩ := h.reachable
  refine ⟨_, _, allocateNode_ring q h.size_eq, ?_⟩
  rw [hreach, List.mem_map]
  rintro ⟨i, hi, he⟩
  rw [List.mem_range] at hi
  omega

/-- With `POOL_SIZE - 1` values stored, the next `push` takes the cell of `head`, and
the queue then reports that it is empty. -/
theorem push_overflow {q : MPMCQueue T} {vs : List T} (h : Ring q vs)
    (hn : vs.length = 1023) (v out : T) :
    ∃ a q1 q', q.allocateNode = some (a, q1) ∧ q.head = some a ∧ a ∈ q.reachable ∧
      q.push v = some q' ∧ q'.try_pop out = some (false, out, q') := by
  obtain ⟨hd, hlt, hhead, htail, hidx, hlinks, hend, hdata⟩ := h.chain
  obtain ⟨_, _, hhead2, hreach, _⟩ := h.reachable
  have hs := h.size_eq
  simp only [POOL_SIZE] at hlt htail hidx hlinks hend hdata
  have ha : q.pool_idx % 1024 = hd := by omega
  have hat : q.pool_idx % 1024 ≠ (hd + vs.length) % 1024 := by omega
  obtain ⟨tn, htn1, htn2⟩ : ∃ tn, q.node_pool[(hd + vs.length) % 1024]? = some tn ∧
      tn.next = none := by
    unfold MPMCQueue.nextOf at hend
    cases hq : q.node_pool[(hd + vs.length) % 1024]? with
    | none => simp [hq] at hend
    | some tn => exact ⟨tn, rfl, by simpa [hq] using hend⟩
  have halt : q.pool_idx % 1024 < q.node_pool.length := by
    rw [hs]; exact Nat.mod_lt _ (by decide)
  obtain ⟨_, _, _, hna, _⟩ :=
    push_pool_facts q.node_pool (q.pool_idx % 1024) ((hd + vs.length) % 1024) v tn hat halt htn1
  refine ⟨_, _, _, allocateNode_ring q hs, by rw [hhead, ha], ?_,
    push_eq hs htail htn1 htn2 hat v, ?_⟩
  · rw [hreach, List.mem_map]
    rw [hhead] at hhead2
    simp only [Option.some.injEq] at hhead2
    exact ⟨0, List.mem_range.mpr (by omega), by omega⟩
  · obtain ⟨hn, hq, hnn⟩ := node_of_nextOf hna
    have hhead3 : q.head = some (q.pool_idx % 1024) := by rw [hhead, ha]
    simp only [try_pop, hhead3, hq, hnn]

end MPMCQueue

theorem runFifo_append {T : Type} : ∀ (ops ops1 : List (QueueOp T)) (l : List T),
    runFifo l (ops ++ ops1) = runFifo l ops ++ runFifo (fifoState l ops) ops1
  | [], ops1, l => by
    rw [List.nil_append]
    simp only [runFifo, fifoState, List.nil_append]
  | QueueOp.push v :: ops, ops1, l => by
    rw [List.cons_append]
    simp only [runFifo, fifoState]
    rw [runFifo_append ops ops1 (l ++ [v]), List.cons_append]
  | QueueOp.try_pop out :: ops, ops1, [] => by
    rw [List.cons_append]
    simp only [runFifo, fifoState]
    rw [runFifo_append ops ops1 [], List.cons_append]
  | QueueOp.try_pop out :: ops, ops1, w :: l => by
    rw [List.cons_append]
    simp only [runFifo, fifoState]
    rw [runFifo_append ops ops1 l, List.cons_append]

/-- A run that stays within the capacity follows the reference list, and so does the
start of every longer run. -/
theorem run_refines {T : Type} : ∀ (ops : List (QueueOp T)) (q : MPMCQueue T) (l : List T),
    MPMCQueue.Ring q l → withinCapacity l.length ops = true →
    ∃ q1, runState q ops = some q1 ∧ MPMCQueue.Ring q1 (fifoState l ops) ∧
      ∀ ops1, runQueue q (ops ++ ops1) = (runQueue q1 ops1).map (fun r => runFifo l ops ++ r)
  | [], q, l, h, _ => by
    refine ⟨q, rfl, by simpa only [fifoState] using h, fun ops1 => ?_⟩
    rw [List.nil_append]
    simp only [runFifo, List.nil_append]
    cases runQueue q ops1 <;> rfl
  | QueueOp.push v :: ops, q, l, h, hcap => by
    simp only [withinCapacity, POOL_SIZE, Bool.and_eq_true, decide_eq_true_eq] at hcap
    obtain ⟨q1, hpush, h1⟩ := MPMCQueue.push_ring h (by omega) v
    obtain ⟨q2, hrun, h2, hobs⟩ := run_refines ops q1 (l ++ [v]) h1 (by simpa using hcap.2)
    refine ⟨q2, by simp only [runState, hpush, hrun], by simpa only [fifoState] using h2,
      fun ops1 => ?_⟩
    rw [List.cons_append]
    simp only [runQueue, hpush, runFifo]
    rw [hobs ops1]
    cases runQueue q2 ops1 <;> rfl
  | QueueOp.try_pop out :: ops, q, [], h, hcap => by
    simp only [withinCapacity, List.length_nil] at hcap
    have hpop := MPMCQueue.try_pop_nil_ring h out
    obtain ⟨q2, hrun, h2, hobs⟩ := run_refines ops q [] h (by simpa using hcap)
    refine ⟨q2, by simp only [runState, hpop, hrun], by simpa only [fifoState] using h2,
      fun ops1 => ?_⟩
    rw [List.cons_append]
    simp only [runQueue, hpop, runFifo]
    rw [hobs ops1]
    cases runQueue q2 ops1 <;> rfl
  | QueueOp.try_pop out :: ops, q, w :: l, h, hcap => by
    simp only [withinCapacity, List.length_cons, Nat.add_sub_cancel] at hcap
    obtain ⟨q1, hpop, h1⟩ := MPMCQueue.try_pop_cons_ring h out
    obtain ⟨q2, hrun, h2, hobs⟩ := run_refines ops q1 l h1 hcap
    refine ⟨q2, by simp only [runState, hpop, hrun], by simpa only [fifoState] using h2,
      fun ops1 => ?_⟩
    rw [List.cons_append]
    simp only [runQueue, hpop, runFifo]
    rw [hobs ops1]
    cases runQueue q2 ops1 <;> rfl

theorem withinCapacity_pushes {T : Type} (v : T) : ∀ (m k : Nat), k + m ≤ 1023 →
    withinCapacity k (List.replicate m (QueueOp.push v)) = true
  | 0, _, _ => rfl
  | m + 1, k, h => by
    simp only [List.replicate_succ, withinCapacity, POOL_SIZE, Bool.and_eq_true,
      decide_eq_true_eq]
    exact ⟨by omega, withinCapacity_pushes v m (k + 1) (by omega)⟩

theorem fifoState_pushes {T : Type} (v : T) : ∀ (m : Nat) (l : List T),
    fifoState l (List.replicate m (QueueOp.push v)) = l ++ List.replicate m v
  | 0, l => by simp [fifoState]
  | m + 1, l => by
    simp only [List.replicate_succ, fifoState, fifoState_pushes v m, List.append_assoc,
      List.singleton_append]

end Iteration07
/-- C25: the queue of iteration 07 follows the reference FIFO list on every finite
sequence of `push` and `try_pop` calls during which it never holds more than 1023
values: every call returns, `try_pop` reports the values in the order they were
pushed (and `false` exactly on the empty list), the state reached holds the contents
of the reference list in consecutive cells of the ring, and a further `push` that
stays within 1023 values is given a cell that is not reachable from `head`.  The
bound is sharp: with 1023 values stored the next `push` is given the cell of `head`
itself, and the `try_pop` after it reports `false` where the reference list has the
oldest value. -/
theorem fixed_pool_queue_fifo_within_capacity {T : Type} (ops : List (QueueOp T))
    (hcap : Iteration07.withinCapacity 0 ops = true) :
    ∃ q0 q : Iteration07.MPMCQueue T, Iteration07.MPMCQueue.new = some q0 ∧
      Iteration07.runQueue q0 ops = some (runFifo [] ops) ∧
      Iteration07.runState q0 ops = some q ∧
      Iteration07.MPMCQueue.Ring q (Iteration07.fifoState [] ops) ∧
      ((Iteration07.fifoState [] ops).length + 1 ≤ 1023 →
        ∃ a q1, q.allocateNode = some (a, q1) ∧ a ∉ q.reachable) ∧
      ((Iteration07.fifoState [] ops).length = 1023 → ∀ v out : T,
        (∃ a q1, q.allocateNode = some (a, q1) ∧ q.head = some a ∧ a ∈ q.reachable) ∧
        Iteration07.runQueue q0 (ops ++ [QueueOp.push v, QueueOp.try_pop out]) =
          some (runFifo [] ops ++ [QueueObs.pushed, QueueObs.popped false out]) ∧
        ∃ w, runFifo [] (ops ++ [QueueOp.push v, QueueOp.try_pop out]) =
          runFifo [] ops ++ [QueueObs.pushed, QueueObs.popped true w]) := by
  obtain ⟨q0, hq0, hring0⟩ := Iteration07.MPMCQueue.new_ring (T := T)
  obtain ⟨q, hrun, hring, hobs⟩ := Iteration07.run_refines ops q0 [] hring0 hcap
  refine ⟨q0, q, hq0, ?_, hrun, hring, fun hlen => ?_, fun hlen v out => ⟨?_, ?_, ?_⟩⟩
  · have := hobs []
    rw [List.append_nil] at this
    rw [this]
    simp only [Iteration07.runQueue, Option.map_some', List.append_nil]
  · exact Iteration07.MPMCQueue.allocateNode_fresh hring (by omega)
  · obtain ⟨a, q1, _, h1, h2, h3, _, _⟩ :=
      Iteration07.MPMCQueue.push_overflow hring hlen v out
    exact ⟨a, q1, h1, h2, h3⟩
  · obtain ⟨_, _, q2, _, _, _, hpush, hpop⟩ :=
      Iteration07.MPMCQueue.push_overflow hring hlen v out
    rw [hobs]
    simp only [Iteration07.runQueue, hpush, hpop, Option.map_some']
  · rw [Iteration07.runFifo_append]
    cases hl : Iteration07.fifoState [] ops with
    | nil => rw [hl] at hlen; simp at hlen
    | cons w rest =>
      refine ⟨w, ?_⟩
      simp only [runFifo, List.cons_append]

set_option maxRecDepth 100000 in
/-- The witness of C25: two values pushed and popped in order on the pool of 1024
cells, and the run that fills the queue with 1023 values and pushes once more. -/
theorem fixed_pool_queue_fifo_within_capacity_witness :
    (Iteration07.withinCapacity 0
        [QueueOp.push 1, QueueOp.push 2, QueueOp.try_pop 0, QueueOp.try_pop 0,
          QueueOp.try_pop 0] = true ∧
      ∃ q0 : Iteration07.MPMCQueue Nat, Iteration07.MPMCQueue.new = some q0 ∧
        Iteration07.runQueue q0
          [QueueOp.push 1, QueueOp.push 2, QueueOp.try_pop 0, QueueOp.try_pop 0,
            QueueOp.try_pop 0] =
          some [QueueObs.pushed, QueueObs.pushed, QueueObs.popped true 1,
            QueueObs.popped true 2, QueueObs.popped false 0]) ∧
    (Iteration07.withinCapacity 0 (List.replicate 1023 (QueueOp.push (7 : Nat))) = true ∧
      (Iteration07.fifoState [] (List.replicate 1023 (QueueOp.push (7 : Nat)))).length = 1023 ∧
      ∃ q0 : Iteration07.MPMCQueue Nat, Iteration07.MPMCQueue.new = some q0 ∧
        Iteration07.runQueue q0
          (List.replicate 1023 (QueueOp.push 7) ++ [QueueOp.push 8, QueueOp.try_pop 9]) =
          some (runFifo [] (List.replicate 1023 (QueueOp.push 7)) ++
            [QueueObs.pushed, QueueObs.popped false 9])) := by
  have hlen : (Iteration07.fifoState [] (List.replicate 1023 (QueueOp.push (7 : Nat)))).length =
      1023 := by
    rw [Iteration07.fifoState_pushes, List.nil_append, List.length_replicate]
  have hcap := Iteration07.withinCapacity_pushes (7 : Nat) 1023 0 (by decide)
  obtain ⟨q0, _, h0, h1, _⟩ := fixed_pool_queue_fifo_within_capacity
    [QueueOp.push 1, QueueOp.push 2, QueueOp.try_pop 0, QueueOp.try_pop 0, QueueOp.try_pop 0]
    (by decide)
  obtain ⟨p0, _, g0, _, _, _, _, g1⟩ := fixed_pool_queue_fifo_within_capacity
    (List.replicate 1023 (QueueOp.push (7 : Nat))) hcap
  exact ⟨⟨by decide, q0, h0, h1⟩, hcap, hlen, p0, g0, (g1 hlen 8 9).2.1⟩
/-! ## An emission cut at its calls of `schedule` -/

namespace EventScheduler

variable {U : Type}

/-- The start of an emission under a name without an entry in the handler map. -/
theorem takeEvent_no_entry {s : EventScheduler U} (eventName : String) (data : Payload U)
    (hq : s._eventsQ = []) (hnone : s._handlersMap eventName = none) :
    takeEvent { s with _eventsQ := s._eventsQ ++ [⟨eventName, data⟩] } =
      some ({ s with
        _eventsQ := []
        _eventDataMap := UnorderedMap.assign s._eventDataMap eventName (some data) }, []) := by
  have hc : UnorderedMap.count s._handlersMap eventName = 0 :=
    UnorderedMap.count_eq_zero.mpr hnone
  simp only [takeEvent, hq, List.nil_append, Event.storeData, hc, if_true]

/-- The start of an emission under a name whose vector of handlers is empty. -/
theorem takeEvent_empty_entry {s : EventScheduler U} (eventName : String) (data : Payload U)
    (hq : s._eventsQ = []) (hvec : s._handlersMap eventName = some []) :
    takeEvent { s with _eventsQ := s._eventsQ ++ [⟨eventName, data⟩] } =
      some ({ s with
        _eventsQ := []
        _eventDataMap := UnorderedMap.erase
          (UnorderedMap.assign s._eventDataMap eventName (some data)) eventName }, []) := by
  have hc : ¬ UnorderedMap.count s._handlersMap eventName = 0 := by
    rw [UnorderedMap.count_eq_zero, hvec]; simp
  simp only [takeEvent, hq, List.nil_append, Event.storeData, if_neg hc,
    UnorderedMap.index_of_some hvec, List.length_nil, if_true]

/-- The start of an emission under a name with handlers: the entry of the name is
erased and the closures are made, one per handle, before any call of `schedule`. -/
theorem takeEvent_handlers {s : EventScheduler U} (eventName : String) (data : Payload U)
    (hq : s._eventsQ = []) {vec : List Nat} (hvec : s._handlersMap eventName = some vec)
    (hne : vec ≠ []) :
    takeEvent { s with _eventsQ := s._eventsQ ++ [⟨eventName, data⟩] } =
      some ({ s with
        _eventsQ := []
        _eventDataMap := UnorderedMap.assign s._eventDataMap eventName (some data)
        counters := s.counters ++ [0]
        _handlersMap := UnorderedMap.erase s._handlersMap eventName },
        vec.map (fun handle =>
          Lambda.resumeAndCount handle eventName vec.length s.counters.length)) := by
  have hc : ¬ UnorderedMap.count s._handlersMap eventName = 0 := by
    rw [UnorderedMap.count_eq_zero, hvec]; simp
  have hlen : ¬ vec.length = 0 := by
    intro h; exact hne (List.length_eq_zero.mp h)
  simp only [takeEvent, hq, List.nil_append, Event.storeData, if_neg hc,
    UnorderedMap.index_of_some hvec, if_neg hlen]

/-- An emission is its start followed by the loop of `schedule` calls: at the start
the handler entry is gone, the other entries and the executor are as they were, and
the closures of the loop are fixed, one per handle taken. -/
theorem takeEvent_spec (env : Nat → Executor.Env) (s : EventScheduler U) (self : Nat)
    (eventName : String) (data : Payload U) (hq : s._eventsQ = []) :
    ∃ sB, takeEvent { s with _eventsQ := s._eventsQ ++ [⟨eventName, data⟩] } =
        some (sB, ((s._handlersMap eventName).getD []).map (fun handle =>
          Lambda.resumeAndCount handle eventName ((s._handlersMap eventName).getD []).length
            s.counters.length)) ∧
      sB._eventsQ = [] ∧ (sB._handlersMap eventName).getD [] = [] ∧
      (∀ n, n ≠ eventName → sB._handlersMap n = s._handlersMap n) ∧
      sB._executor = s._executor ∧
      emit env s self eventName data =
        (scheduleAll env self 0
          (((s._handlersMap eventName).getD []).map (fun handle =>
            Lambda.resumeAndCount handle eventName ((s._handlersMap eventName).getD []).length
              s.counters.length)) sB._executor).map (fun e1 => { sB with _executor := e1 }) := by
  cases hm : s._handlersMap eventName with
  | none =>
    refine ⟨_, takeEvent_no_entry eventName data hq hm, rfl, ?_, fun _ _ => rfl, rfl, ?_⟩
    · show (s._handlersMap eventName).getD [] = []
      rw [hm]; rfl
    · rw [emit_no_entry env self data hq hm]
      rfl
  | some vec =>
    by_cases hv : vec = []
    · subst hv
      refine ⟨_, takeEvent_empty_entry eventName data hq hm, rfl, ?_, fun _ _ => rfl, rfl, ?_⟩
      · show (s._handlersMap eventName).getD [] = []
        rw [hm]; rfl
      · rw [emit_empty_entry env self data hq hm]
        rfl
    · refine ⟨_, takeEvent_handlers eventName data hq hm hv, rfl, ?_, fun n hn => ?_, rfl, ?_⟩
      · show (UnorderedMap.erase s._handlersMap eventName eventName).getD [] = []
        rw [UnorderedMap.erase_same]; rfl
      · exact UnorderedMap.erase_other _ hn
      · rw [emit_handlers env self data hq hm hv]
        simp only [Option.getD_some]

theorem registerHandler_mono (s : EventScheduler U) (n m : String) (h : Nat) {x : Nat}
    (hx : x ∈ (s._handlersMap n).getD []) :
    x ∈ ((registerHandler s m h)._handlersMap n).getD [] := by
  obtain ⟨hat, hother, _⟩ := registerHandler_spec s m h
  by_cases hnm : n = m
  · subst hnm
    rw [hat]
    simp only [Option.getD_some]
    split
    · exact hx
    · exact List.mem_append_left _ hx
  · rw [hother n hnm]; exact hx

theorem registerHandler_mem (s : EventScheduler U) (n : String) (h : Nat) :
    h ∈ ((registerHandler s n h)._handlersMap n).getD [] := by
  obtain ⟨hat, _⟩ := registerHandler_spec s n h
  rw [hat]
  simp only [Option.getD_some]
  split
  · assumption
  · simp

theorem Run.Keeps.refl {n : String} {r : Run U} (hq : r.state._eventsQ = []) :
    Run.Keeps n r r :=
  ⟨hq, fun _ h => h⟩

theorem Run.Keeps.trans {n : String} {r r1 r2 : Run U} (h1 : Run.Keeps n r r1)
    (h2 : Run.Keeps n r1 r2) : Run.Keeps n r r2 :=
  ⟨h2.1, fun x hx => h2.2 x (h1.2 x hx)⟩

/-- A state that differs in neither the event queue nor the handler map. -/
theorem Run.Keeps.of_eq {n : String} {r r1 : Run U} (hq : r.state._eventsQ = [])
    (hq1 : r1.state._eventsQ = r.state._eventsQ)
    (hm : r1.state._handlersMap = r.state._handlersMap) : Run.Keeps n r r1 :=
  ⟨hq1.trans hq, fun x hx => by rw [hm]; exact hx⟩

/-- A request other than an emission under `n` keeps the handles registered under
`n`. -/
theorem Run.call_keeps {self : Nat} {r r1 : Run U} {c : Call U} {n : String}
    (hq : r.state._eventsQ = []) (hc : c.emits n = false)
    (h : Run.call self r c = some r1) : Run.Keeps n r r1 := by
  cases c with
  | awaitEvent eventName handle =>
    simp only [Run.call, EventAwaiter.await_suspend, Option.some.injEq] at h
    subst h
    obtain ⟨_, _, _, h4, _⟩ := registerHandler_spec r.state eventName handle
    exact ⟨h4.trans hq, fun x hx => registerHandler_mono r.state n eventName handle hx⟩
  | emit env eventName data =>
    have hne : eventName ≠ n := by simpa [Call.emits] using hc
    simp only [Run.call, Run.emit] at h
    split at h
    · simp at h
    · rename_i s1 hs1
      simp only [Option.some.injEq] at h
      subst h
      obtain ⟨h1, _, h3⟩ := emit_maps hq hs1
      refine ⟨h1, fun x hx => ?_⟩
      show x ∈ (s1._handlersMap n).getD []
      rcases h3 with h3 | h3
      · rw [h3]; exact hx
      · rw [h3, UnorderedMap.erase_other _ (Ne.symm hne)]; exact hx
  | switchToExecutor env handle =>
    simp only [Run.call, ExecutorAwaiter.await_suspend] at h
    split at h
    · simp at h
    · rename_i s1 hs1
      simp only [Option.some.injEq] at h
      subst h
      split at hs1
      · simp at hs1
      · simp only [Option.some.injEq] at hs1
        subst hs1
        exact Run.Keeps.of_eq hq rfl rfl

theorem Run.calls_keeps {self : Nat} {n : String} :
    ∀ (cs : List (Call U)) {r r1 : Run U}, r.state._eventsQ = [] →
      (∀ c ∈ cs, c.emits n = false) → Run.calls self r cs = some r1 → Run.Keeps n r r1
  | [], r, r1, hq, _, h => by
    simp only [Run.calls, Option.some.injEq] at h
    subst h; exact Run.Keeps.refl hq
  | c :: cs, r, r1, hq, hall, h => by
    simp only [Run.calls] at h
    split at h
    · simp at h
    · rename_i r2 hc
      have h1 := Run.call_keeps hq (hall c (List.mem_cons_self _ _)) hc
      exact h1.trans (Run.calls_keeps cs h1.1 (fun c1 hc1 => hall c1 (List.mem_cons_of_mem _ hc1)) h)

/-- A coroutine whose requests include `co_await awaitEvent(n)` and no emission under
`n` is registered under `n` when it suspends again. -/
theorem Run.calls_registers {self : Nat} {n : String} {handle : Nat} :
    ∀ (cs : List (Call U)) {r r1 : Run U}, r.state._eventsQ = [] →
      (∀ c ∈ cs, c.emits n = false) → Call.awaitEvent n handle ∈ cs →
      Run.calls self r cs = some r1 → handle ∈ (r1.state._handlersMap n).getD []
  | [], _, _, _, _, hmem, _ => by simp at hmem
  | c :: cs, r, r1, hq, hall, hmem, h => by
    simp only [Run.calls] at h
    split at h
    · simp at h
    · rename_i r2 hc
      have h1 := Run.call_keeps hq (hall c (List.mem_cons_self _ _)) hc
      have hrest : ∀ c1 ∈ cs, c1.emits n = false :=
        fun c1 hc1 => hall c1 (List.mem_cons_of_mem _ hc1)
      rcases List.mem_cons.mp hmem with heq | hin
      · subst heq
        simp only [Run.call, EventAwaiter.await_suspend, Option.some.injEq] at hc
        subst hc
        exact (Run.calls_keeps cs h1.1 hrest h).2 _ (registerHandler_mem r.state n handle)
      · exact Run.calls_registers cs h1.1 hrest hin h

/-- A closure run by a worker keeps the handles registered under `n`, and when it
resumes a coroutine that waits on `n` again, the coroutine is registered under `n`
afterwards. -/
theorem Run.invoke_keeps {self : Nat} {r r1 : Run U} {T : String} {body : List (Call U)}
    {f : Lambda} {n : String} (hq : r.state._eventsQ = [])
    (hb : ∀ c ∈ body, c.emits n = false) (h : Run.invoke self r T body f = some r1) :
    Run.Keeps n r r1 ∧
      ∀ handle, Call.awaitEvent n handle ∈ body → f ≠ Lambda.noop →
        (∀ h1 m k a, f = Lambda.resumeAndCount h1 m k a →
          ∃ v, (getEventData r.state T m).1 = Except.ok v) →
        handle ∈ (r1.state._handlersMap n).getD [] := by
  cases f with
  | noop =>
    simp only [Run.invoke, Option.some.injEq] at h
    subst h
    exact ⟨Run.Keeps.refl hq, fun _ _ hne _ => absurd rfl hne⟩
  | resume handle0 =>
    simp only [Run.invoke] at h
    exact ⟨Run.calls_keeps body hq hb h, fun handle hmem _ _ =>
      Run.calls_registers body hq hb hmem h⟩
  | resumeAndCount handle0 eventName handlerCount completedCount =>
    have hg := getEventData_spec r.state T eventName
    generalize hres : (match r.state._eventDataMap eventName with
        | none => Except.error (Failure.runtime_error "Event data not found")
        | some data => any_cast T data) = res at hg
    have hfst : (getEventData r.state T eventName).1 = res := by rw [hg]
    simp only [Run.invoke, EventAwaiter.await_resume, hg] at h
    cases res with
    | error failure =>
      simp only [Option.some.injEq] at h
      subst h
      refine ⟨Run.Keeps.of_eq hq rfl rfl, fun handle _ _ hran => ?_⟩
      obtain ⟨v, hv⟩ := hran _ _ _ _ rfl
      rw [hfst] at hv
      cases hv
    | ok value =>
      simp only at h
      split at h
      · simp at h
      · rename_i r2 hcalls
        have hk := Run.calls_keeps (n := n) body
          (r := ⟨r.state, r.emitted, r.reads ++ [(eventName, Except.ok value)], r.terminated⟩)
          hq hb hcalls
        have hreg : ∀ handle, Call.awaitEvent n handle ∈ body →
            handle ∈ (r2.state._handlersMap n).getD [] := fun handle hmem =>
          Run.calls_registers body
            (r := ⟨r.state, r.emitted, r.reads ++ [(eventName, Except.ok value)], r.terminated⟩)
            hq hb hmem hcalls
        split at h
        · simp at h
        · split at h
          · simp only [Option.some.injEq] at h
            subst h
            exact ⟨⟨hk.1, hk.2⟩, fun handle hmem _ _ => hreg handle hmem⟩
          · simp only [Option.some.injEq] at h
            subst h
            exact ⟨⟨hk.1, hk.2⟩, fun handle hmem _ _ => hreg handle hmem⟩

theorem Step.body_of_emits {n : String} {self : Nat} {T : String} {body : List (Call U)}
    (h : (Step.work self T body : Step U).emits n = false) : ∀ c ∈ body, c.emits n = false := by
  intro c hc
  simp only [Step.emits, List.any_eq_false] at h
  simpa using h c hc

/-- A step that makes no emission under `n` keeps the handles registered under `n`. -/
theorem Run.step_keeps {r r1 : Run U} {st : Step U} {n : String}
    (hq : r.state._eventsQ = []) (hst : st.emits n = false)
    (h : Run.step r st = some r1) : Run.Keeps n r r1 := by
  cases st with
  | start =>
    simp only [Run.step] at h
    split at h
    · simp only [Option.some.injEq] at h; subst h; exact Run.Keeps.refl hq
    · split at h
      · simp at h
      · simp only [Option.some.injEq] at h; subst h
        exact Run.Keeps.of_eq hq rfl rfl
  | stop =>
    simp only [Run.step] at h
    split at h
    · simp only [Option.some.injEq] at h; subst h; exact Run.Keeps.refl hq
    · simp only [Option.some.injEq] at h; subst h
      exact Run.Keeps.of_eq hq rfl rfl
  | registerHandler eventName handle =>
    simp only [Run.step] at h
    split at h
    · simp only [Option.some.injEq] at h; subst h; exact Run.Keeps.refl hq
    · simp only [Option.some.injEq] at h; subst h
      obtain ⟨_, _, _, h4, _⟩ := registerHandler_spec r.state eventName handle
      exact ⟨h4.trans hq, fun x hx => registerHandler_mono r.state n eventName handle hx⟩
  | emit env self eventName data =>
    simp only [Run.step] at h
    split at h
    · simp only [Option.some.injEq] at h; subst h; exact Run.Keeps.refl hq
    · have hcall : Run.call self r (Call.emit env eventName data) = some r1 := h
      exact Run.call_keeps hq (by simpa [Step.emits, Call.emits] using hst) hcall
  | work self T body =>
    have hb := Step.body_of_emits hst
    simp only [Run.step] at h
    split at h
    · simp only [Option.some.injEq] at h; subst h; exact Run.Keeps.refl hq
    · split at h
      · simp at h
      · simp only [Option.some.injEq] at h; subst h
        exact Run.Keeps.of_eq hq rfl rfl
      · rename_i task e1 _
        have hk := (Run.invoke_keeps (n := n)
          (r := ⟨{ r.state with _executor := e1 }, r.emitted, r.reads, r.terminated⟩)
          hq hb h).1
        exact ⟨hk.1, hk.2⟩

/-- A worker's turn that resumes a coroutine of an emission under `m`, the coroutine
reading its payload and waiting on `n` again, leaves the coroutine registered under
`n`. -/
theorem Run.work_registers {r r1 : Run U} {self : Nat} {T : String} {body : List (Call U)}
    {n m : String} {handle h1 k a : Nat} {task : Executor.Task Lambda}
    {e1 : Executor Lambda} {v : U} (hq : r.state._eventsQ = []) (hnt : r.terminated = false)
    (hwait : Executor.waitForTask r.state._executor self
      ⟨Lambda.noop, Executor.Priority.Normal⟩ = some (true, task, e1))
    (hf : task.func = Lambda.resumeAndCount h1 m k a)
    (hread : (getEventData r.state T m).1 = Except.ok v)
    (hb : ∀ c ∈ body, c.emits n = false) (hmem : Call.awaitEvent n handle ∈ body)
    (h : Run.step r (Step.work self T body) = some r1) :
    handle ∈ (r1.state._handlersMap n).getD [] := by
  simp only [Run.step] at h
  split at h
  · rename_i ht
    rw [hnt] at ht
    cases ht
  rw [hwait] at h
  simp only at h
  refine (Run.invoke_keeps (n := n) (f := task.func)
    (r := ⟨{ r.state with _executor := e1 }, r.emitted, r.reads, r.terminated⟩)
    hq hb h).2 handle hmem (by rw [hf]; intro hc; cases hc) ?_
  intro h2 m2 k2 a2 heq
  rw [hf] at heq
  simp only [Lambda.resumeAndCount.injEq] at heq
  obtain ⟨_, rfl, _, _⟩ := heq
  exact ⟨v, by rw [← hread]; exact getEventData_executor r.state e1 T m⟩

/-- An iteration of the `for` loop touches the executor only, and hands over the
first of the closures left. -/
theorem Run.emitNext_spec {r r1 : Run U} {loop loop1 : ForLoop}
    (h : Run.emitNext r loop = some (r1, loop1)) :
    r1.state._eventsQ = r.state._eventsQ ∧ r1.state._handlersMap = r.state._handlersMap ∧
      r1.state._eventDataMap = r.state._eventDataMap ∧ r1.state.counters = r.state.counters ∧
      loop1.pending = loop.pending.drop 1 ∧ loop1.env = loop.env ∧
      loop1.currentThreadId = loop.currentThreadId ∧
      (∀ f fs, loop.pending = f :: fs →
        Executor.schedule (loop.env loop.index) r.state._executor loop.currentThreadId f
          Executor.defaultPriority = some r1.state._executor ∧ loop1.index = loop.index + 1) := by
  unfold Run.emitNext at h
  split at h
  · rename_i hp
    simp only [Option.some.injEq, Prod.mk.injEq] at h
    obtain ⟨rfl, rfl⟩ := h
    exact ⟨rfl, rfl, rfl, rfl, by rw [hp]; rfl, rfl, rfl, fun f fs hf => by rw [hp] at hf; cases hf⟩
  · rename_i f fs hp
    split at h
    · simp at h
    · rename_i e1 hs
      simp only [Option.some.injEq, Prod.mk.injEq] at h
      obtain ⟨rfl, rfl⟩ := h
      refine ⟨rfl, rfl, rfl, rfl, by rw [hp]; rfl, rfl, rfl, fun f1 fs1 hf => ?_⟩
      rw [hp] at hf
      simp only [List.cons.injEq] at hf
      obtain ⟨rfl, _⟩ := hf
      exact ⟨hs, rfl⟩

theorem Run.emitTurns_append : ∀ (ts1 ts2 : List (EmitTurn U)) (r : Run U) (loop : ForLoop),
    Run.emitTurns r loop (ts1 ++ ts2) =
      (Run.emitTurns r loop ts1).bind (fun x => Run.emitTurns x.1 x.2 ts2)
  | [], _, _, _ => rfl
  | t :: ts1, ts2, r, loop => by
    simp only [List.cons_append, Run.emitTurns]
    cases Run.emitTurn r loop t with
    | none => rfl
    | some x => exact Run.emitTurns_append ts1 ts2 x.1 x.2

/-- Whatever the other threads do between the iterations of the `for` loop, short of
an emission under `n`: the handles registered under `n` stay registered, and the
closures left to hand over are those fixed at the start of the loop, less one per
iteration made. -/
theorem Run.emitTurns_keeps {n : String} : ∀ (ts : List (EmitTurn U)) {r r1 : Run U}
    {loop loop1 : ForLoop}, r.state._eventsQ = [] → (∀ t ∈ ts, t.emits n = false) →
    Run.emitTurns r loop ts = some (r1, loop1) →
    Run.Keeps n r r1 ∧ loop1.pending = loop.pending.drop (EmitTurn.loops ts) ∧
      loop1.env = loop.env ∧ loop1.currentThreadId = loop.currentThreadId
  | [], r, r1, loop, loop1, hq, _, h => by
    simp only [Run.emitTurns, Option.some.injEq, Prod.mk.injEq] at h
    obtain ⟨rfl, rfl⟩ := h
    exact ⟨Run.Keeps.refl hq, rfl, rfl, rfl⟩
  | t :: ts, r, r1, loop, loop1, hq, hall, h => by
    have hrest : ∀ t1 ∈ ts, t1.emits n = false :=
      fun t1 ht1 => hall t1 (List.mem_cons_of_mem _ ht1)
    have ht := hall t (List.mem_cons_self _ _)
    simp only [Run.emitTurns] at h
    split at h
    · simp at h
    · rename_i r2 loop2 hturn
      cases t with
      | loop =>
        simp only [Run.emitTurn] at hturn
        obtain ⟨g1, g2, _, _, g5, g6, g7, _⟩ := Run.emitNext_spec hturn
        have hk : Run.Keeps n r r2 := Run.Keeps.of_eq hq g1 g2
        obtain ⟨k1, k2, k3, k4⟩ := Run.emitTurns_keeps ts hk.1 hrest h
        refine ⟨hk.trans k1, ?_, k3.trans g6, k4.trans g7⟩
        rw [k2, g5, List.drop_drop]
        simp only [EmitTurn.loops]
        congr 1
        omega
      | other st =>
        simp only [Run.emitTurn] at hturn
        cases hst : Run.step r st with
        | none => rw [hst] at hturn; simp at hturn
        | some r3 =>
          rw [hst] at hturn
          simp only [Option.map_some', Option.some.injEq, Prod.mk.injEq] at hturn
          obtain ⟨rfl, rfl⟩ := hturn
          have hk : Run.Keeps n r r3 := Run.step_keeps hq (by simpa [EmitTurn.emits] using ht) hst
          obtain ⟨k1, k2, k3, k4⟩ := Run.emitTurns_keeps ts hk.1 hrest h
          exact ⟨hk.trans k1, by rw [k2]; rfl, k3, k4⟩

end EventScheduler
/-- C14: on a scheduler with an empty event queue whose executor is running (queues
built, flag down, counters in range), `emit(name, payload)` returns; afterwards no
handler is left under `name`, the handler vectors of all other names are unchanged, and
the executor is the one obtained by calling `schedule` once per removed handle, in
order, on the executor as it was (so pending, and the number of queued tasks, grow by
exactly the number of removed handles).  A handle that registers again under `name`
after the emission joins a fresh vector `[handle]` without any task being scheduled
(the executor is unchanged); a later emission under `name` schedules its resumption.

The order inside the call: up to the first call of `schedule` (`takeEvent`) the entry
of `name` is gone, the other entries and the executor are as they were and the closures
of the loop are fixed, one per handle taken; the rest of the call is the loop of
`schedule` calls on that state.  With the steps of other threads between the
iterations of the loop (workers' turns, registrations, emissions under other names):
the closures left to hand over are always those fixed at the start less one per
iteration made; a handle registered under `name` in the meantime stays registered to
the end; a worker's turn that resumes a coroutine of the emission which reads its
payload and waits on `name` again leaves it registered under `name`; and an emission
under `name` made from the state reached takes every handle registered then into its
own closures. -/
theorem emit_takes_whole_handler_set {U : Type} (env : Nat → Executor.Env)
    (cfg : Executor.Config) (s : EventScheduler U) (self : Nat) (eventName : String)
    (data : EventScheduler.Payload U) (hq : s._eventsQ = [])
    (hc : Executor.Counted cfg s._executor)
    (hmin : cfg.minThreads < SIZE_MAX) (hmax : cfg.threadCount < SIZE_MAX)
    (hpend : s._executor._pendingTasks + ((s._handlersMap eventName).getD []).length <
      SIZE_MAX) :
    (∃ s1, EventScheduler.emit env s self eventName data = some s1 ∧
      (s1._handlersMap eventName).getD [] = [] ∧
      (∀ n, n ≠ eventName → s1._handlersMap n = s._handlersMap n) ∧
      EventScheduler.scheduleAll env self 0
        (((s._handlersMap eventName).getD []).map (fun handle =>
          EventScheduler.Lambda.resumeAndCount handle eventName
            ((s._handlersMap eventName).getD []).length s.counters.length))
        s._executor = some s1._executor ∧
      s1._executor._pendingTasks =
        s._executor._pendingTasks + ((s._handlersMap eventName).getD []).length ∧
      Executor.queuedTasks s1._executor =
        Executor.queuedTasks s._executor + ((s._handlersMap eventName).getD []).length ∧
      (∀ handle,
        (EventScheduler.registerHandler s1 eventName handle)._handlersMap eventName =
          some [handle] ∧
        (EventScheduler.registerHandler s1 eventName handle)._executor = s1._executor ∧
        ∀ (env2 : Nat → Executor.Env) (self2 : Nat) (data2 : EventScheduler.Payload U),
          ∃ s2, EventScheduler.emit env2 (EventScheduler.registerHandler s1 eventName handle)
              self2 eventName data2 = some s2 ∧
            s2._executor._pendingTasks = s1._executor._pendingTasks + 1 ∧
            Executor.holds s2._executor
              (EventScheduler.Lambda.resumeAndCount handle eventName 1 s1.counters.length))) ∧
    (∃ sB, EventScheduler.takeEvent
        { s with _eventsQ := s._eventsQ ++ [⟨eventName, data⟩] } =
        some (sB, ((s._handlersMap eventName).getD []).map (fun handle =>
          EventScheduler.Lambda.resumeAndCount handle eventName
            ((s._handlersMap eventName).getD []).length s.counters.length)) ∧
      sB._executor = s._executor ∧
      (sB._handlersMap eventName).getD [] = [] ∧
      (∀ n, n ≠ eventName → sB._handlersMap n = s._handlersMap n) ∧
      EventScheduler.emit env s self eventName data =
        (EventScheduler.scheduleAll env self 0
          (((s._handlersMap eventName).getD []).map (fun handle =>
            EventScheduler.Lambda.resumeAndCount handle eventName
              ((s._handlersMap eventName).getD []).length s.counters.length))
          sB._executor).map (fun e1 => { sB with _executor := e1 }) ∧
      ∀ (emitted : List (EventScheduler.Event U))
        (reads : List (String × Except EventScheduler.Failure U)),
        EventScheduler.Run.emitBegin env self ⟨s, emitted, reads, false⟩ eventName data =
          some (⟨sB, emitted ++ [⟨eventName, data⟩], reads, false⟩,
            ⟨env, self, 0, ((s._handlersMap eventName).getD []).map (fun handle =>
              EventScheduler.Lambda.resumeAndCount handle eventName
                ((s._handlersMap eventName).getD []).length s.counters.length)⟩) ∧
        ∀ (ts : List (EventScheduler.EmitTurn U)) (rE : EventScheduler.Run U)
          (loopE : EventScheduler.ForLoop),
          EventScheduler.Run.emitTurns ⟨sB, emitted ++ [⟨eventName, data⟩], reads, false⟩
            ⟨env, self, 0, ((s._handlersMap eventName).getD []).map (fun handle =>
              EventScheduler.Lambda.resumeAndCount handle eventName
                ((s._handlersMap eventName).getD []).length s.counters.length)⟩ ts =
            some (rE, loopE) →
          (∀ t ∈ ts, t.emits eventName = false) →
          loopE.pending =
            (((s._handlersMap eventName).getD []).map (fun handle =>
              EventScheduler.Lambda.resumeAndCount handle eventName
                ((s._handlersMap eventName).getD []).length s.counters.length)).drop
              (EventScheduler.EmitTurn.loops ts) ∧
          (∀ (ts1 ts2 : List (EventScheduler.EmitTurn U)) (rM : EventScheduler.Run U)
            (loopM : EventScheduler.ForLoop), ts = ts1 ++ ts2 →
            EventScheduler.Run.emitTurns ⟨sB, emitted ++ [⟨eventName, data⟩], reads, false⟩
              ⟨env, self, 0, ((s._handlersMap eventName).getD []).map (fun handle =>
                EventScheduler.Lambda.resumeAndCount handle eventName
                  ((s._handlersMap eventName).getD []).length s.counters.length)⟩ ts1 =
              some (rM, loopM) →
            ∀ handle ∈ (rM.state._handlersMap eventName).getD [],
              handle ∈ (rE.state._handlersMap eventName).getD []) ∧
          (∀ (w : Nat) (T : String) (body : List (EventScheduler.Call U)) (handle k a : Nat)
            (task : Executor.Task EventScheduler.Lambda)
            (e1 : Executor EventScheduler.Lambda) (v : U) (r2 : EventScheduler.Run U),
            rE.terminated = false →
            Executor.waitForTask rE.state._executor w
              ⟨EventScheduler.Lambda.noop, Executor.Priority.Normal⟩ = some (true, task, e1) →
            task.func = EventScheduler.Lambda.resumeAndCount handle eventName k a →
            (EventScheduler.getEventData rE.state T eventName).1 = Except.ok v →
            (∀ c ∈ body, c.emits eventName = false) →
            EventScheduler.Call.awaitEvent eventName handle ∈ body →
            EventScheduler.Run.step rE (EventScheduler.Step.work w T body) = some r2 →
            handle ∈ (r2.state._handlersMap eventName).getD []) ∧
          (∀ handle ∈ (rE.state._handlersMap eventName).getD [],
            ∀ data2 : EventScheduler.Payload U,
            ∃ sB2 fs2, EventScheduler.takeEvent
                { rE.state with _eventsQ := rE.state._eventsQ ++ [⟨eventName, data2⟩] } =
                some (sB2, fs2) ∧
              EventScheduler.Lambda.resumeAndCount handle eventName
                ((rE.state._handlersMap eventName).getD []).length
                rE.state.counters.length ∈ fs2 ∧
              (sB2._handlersMap eventName).getD [] = [])) := by
  constructor
  · obtain ⟨s1, h1, hc1, hq1, hgone, hother, hsched, hp1, _, _⟩ :=
      EventScheduler.emit_running env self eventName data hq hc hmin hmax (Nat.le_of_lt hpend)
    have hcount : ∀ {e : Executor EventScheduler.Lambda}, Executor.Counted cfg e →
        Executor.queuedTasks e = e._pendingTasks := by
      intro e he
      obtain ⟨g, l, hrep, hsum⟩ := he.rep
      rw [hrep.queuedTasks, hsum]
    refine ⟨s1, h1, hgone, hother, hsched, hp1, by rw [hcount hc1, hcount hc, hp1], ?_⟩
    intro handle
    obtain ⟨hat, _, hex, hq2, _, hcnt⟩ := EventScheduler.registerHandler_spec s1 eventName handle
    have hvec : (EventScheduler.registerHandler s1 eventName handle)._handlersMap eventName =
        some [handle] := by
      rw [hat, hgone]; simp
    refine ⟨hvec, hex, fun env2 self2 data2 => ?_⟩
    obtain ⟨s2, h2, _, _, _, _, _, hp2, hnew, _⟩ :=
      EventScheduler.emit_running env2
        (s := EventScheduler.registerHandler s1 eventName handle) self2 eventName data2
        (hq2.trans hq1) (by rw [hex]; exact hc1) hmin hmax
        (by rw [hex, hvec, hp1]; simp only [Option.getD_some, List.length_singleton]; omega)
    rw [hvec, hex] at hp2
    rw [hvec, hcnt] at hnew
    exact ⟨s2, h2, hp2, hnew handle (by simp)⟩
  · obtain ⟨sB, htake, hqB, hgone, hother, hex, hemit⟩ :=
      EventScheduler.takeEvent_spec env s self eventName data hq
    refine ⟨sB, htake, hex, hgone, hother, hemit, fun emitted reads => ⟨?_, ?_⟩⟩
    · simp only [EventScheduler.Run.emitBegin, htake]
    · intro ts rE loopE hrun hall
      obtain ⟨hk, hpending, _, _⟩ := EventScheduler.Run.emitTurns_keeps ts
        (r := ⟨sB, emitted ++ [⟨eventName, data⟩], reads, false⟩) hqB hall hrun
      refine ⟨hpending, ?_, ?_, ?_⟩
      · intro ts1 ts2 rM loopM hsplit hM handle hmem
        subst hsplit
        rw [EventScheduler.Run.emitTurns_append, hM] at hrun
        simp only [Option.some_bind] at hrun
        have hk1 := (EventScheduler.Run.emitTurns_keeps (n := eventName) ts1
          (r := ⟨sB, emitted ++ [⟨eventName, data⟩], reads, false⟩) hqB
          (fun t ht => hall t (List.mem_append_left _ ht)) hM).1
        exact (EventScheduler.Run.emitTurns_keeps (n := eventName) ts2 hk1.1
          (fun t ht => hall t (List.mem_append_right _ ht)) hrun).1.2 handle hmem
      · intro w T body handle k a task e1 v r2 hnt hwait hf hread hb hmem hstep
        exact EventScheduler.Run.work_registers hk.1 hnt hwait hf hread hb hmem hstep
      · intro handle hmem data2
        obtain ⟨sB2, htake2, _, hgone2, _⟩ :=
          EventScheduler.takeEvent_spec env rE.state self eventName data2 hk.1
        exact ⟨sB2, _, htake2, List.mem_map.mpr ⟨handle, hmem, rfl⟩, hgone2⟩

set_option maxRecDepth 100000 in
/-- The witness of C14: the default executor after `start()`, the handles 1 and 2
registered under "x", and `emit("x", 5)`.  In the run cut at the calls of `schedule`,
worker 0 resumes handle 1 between the two calls and the coroutine waits on "x" again:
at the end of the loop handle 1 is registered under "x", nothing is left to hand over
and the one task queued is the resumption of handle 2. -/
theorem emit_takes_whole_handler_set_witness :
    (∃ (e : Executor EventScheduler.Lambda) (s1 sB : EventScheduler Nat),
      Executor.start (Executor.new (Executor.Config.default 4) 0) = some e ∧
      EventScheduler.emit (fun _ => ⟨fun _ _ => true, true⟩)
        ⟨e, fun k => if k = "x" then some [1, 2] else none, [], fun _ => none, []⟩
        SIZE_MAX "x" ⟨"int", 5⟩ = some s1 ∧
      (s1._handlersMap "x").getD [] = [] ∧ s1._executor._pendingTasks = 2 ∧
      Executor.queuedTasks s1._executor = 2 ∧
      EventScheduler.takeEvent
        ⟨e, fun k => if k = "x" then some [1, 2] else none, [] ++ [⟨"x", ⟨"int", 5⟩⟩],
          fun _ => none, []⟩ =
        some (sB, [EventScheduler.Lambda.resumeAndCount 1 "x" 2 0,
          EventScheduler.Lambda.resumeAndCount 2 "x" 2 0]) ∧
      sB._executor = e ∧ (sB._handlersMap "x").getD [] = []) ∧
    (((EventScheduler.Run.init 4 0 : EventScheduler.Run Nat).steps
      [EventScheduler.Step.start,
       EventScheduler.Step.registerHandler "x" 1,
       EventScheduler.Step.registerHandler "x" 2]).bind
      (fun r0 => (EventScheduler.Run.emitBegin (fun _ => ⟨fun _ _ => true, true⟩) SIZE_MAX r0
          "x" ⟨"int", 5⟩).bind
        (fun x => EventScheduler.Run.emitTurns x.1 x.2
          [EventScheduler.EmitTurn.loop,
           EventScheduler.EmitTurn.other (EventScheduler.Step.work 0 "int"
             [EventScheduler.Call.awaitEvent "x" 1]),
           EventScheduler.EmitTurn.loop]))).map
      (fun y => (y.1.state._handlersMap "x", y.2.pending,
        Executor.queuedTasks y.1.state._executor, y.1.state.counters)) =
      some (some [1], [], 1, [1]) ∧
    (((EventScheduler.Run.init 4 0 : EventScheduler.Run Nat).steps
      [EventScheduler.Step.start,
       EventScheduler.Step.registerHandler "x" 1,
       EventScheduler.Step.registerHandler "x" 2]).bind
      (fun r0 => (EventScheduler.Run.emitBegin (fun _ => ⟨fun _ _ => true, true⟩) SIZE_MAX r0
          "x" ⟨"int", 5⟩).bind
        (fun x => EventScheduler.Run.emitTurns x.1 x.2
          [EventScheduler.EmitTurn.loop,
           EventScheduler.EmitTurn.other (EventScheduler.Step.work 0 "int"
             [EventScheduler.Call.awaitEvent "x" 1]),
           EventScheduler.EmitTurn.loop]))).bind
      (fun y => (Executor.getNextTask y.1.state._executor 0
        ⟨EventScheduler.Lambda.noop, Executor.Priority.Normal⟩).map
          (fun z => (z.1, z.2.1.func))) =
      some (true, EventScheduler.Lambda.resumeAndCount 2 "x" 2 0) := by
  refine ⟨?_, by decide, by decide⟩
  obtain ⟨e, he, hc, hp⟩ := Executor.start_counted (α := EventScheduler.Lambda)
    (Executor.Config.default 4) 0 (fun _ => by decide) (by decide)
  have hq0 : Executor.queuedTasks e = 0 := by
    obtain ⟨g, l, hrep, hsum⟩ := hc.rep
    rw [hrep.queuedTasks, ← hsum, hp]
  obtain ⟨⟨s1, h1, h2, _, _, h5, h6, _⟩, sB, g1, g2, g3, _⟩ := emit_takes_whole_handler_set
    (fun _ => ⟨fun _ _ => true, true⟩) (Executor.Config.default 4)
    (⟨e, fun k => if k = "x" then some [1, 2] else none, [], fun _ => none, []⟩ :
      EventScheduler Nat) SIZE_MAX "x" ⟨"int", 5⟩ rfl hc (by decide) (by decide)
    (by
      show e._pendingTasks + ([1, 2] : List Nat).length < SIZE_MAX
      rw [hp]
      decide)
  refine ⟨e, s1, sB, he, h1, h2, ?_, ?_, g1, g2, g3⟩
  · rw [h5]
    show e._pendingTasks + 2 = 2
    rw [hp]
  · rw [h6]
    show Executor.queuedTasks e + 2 = 2
    rw [hq0]
